import Mathlib

/-!
Parquet-cpp page encoders and decoders

A shallow embedding of the page-level codecs of `src/encodings/*.h`
(`PlainEncoder`/`PlainDecoder`, `DeltaBitPackEncoder`/`DeltaBitPackDecoder`,
`DeltaLengthByteArrayEncoder`/`DeltaLengthByteArrayDecoder`,
`DeltaByteArrayEncoder`/`DeltaByteArrayDecoder`) together with the bit I/O layer
they are built on.

Conventions.
* A byte is a `Nat` below 256, a byte buffer is a `List Nat`, a bit stream is a
  `List Bool` in stream order (least significant bit of each byte first).
* `int64_t` values are `Int`s kept in `[-2^63, 2^63)` by `wrap64`; `uint64_t`
  values are `Nat`s kept below `2^64`; conversions are explicit.
* `int` counters (`num_values_`, `offset_`, loop indices) are unbounded `Int`/`Nat`,
  which is exact as long as they stay in the range of `int`. The computations of an
  `int` from sizes the caller chooses, `s` in `PlainEncoder::Add(const ByteArray*, int)`,
  `size` in `PlainDecoder::GetValues` and the block size
  `num_mini_blocks * mini_block_size_` in `DeltaBitPackEncoder::Encode`, carry the
  conversion and the overflow explicitly.
* A C++ exception or an undefined operation is an `Err` in `Except`.
-/

namespace ParquetCpp

/-! ## Errors and machine integers -/

/-- The ways an operation can fail to return: the two exceptions of the library and
the undefined operations the code can run into. -/
inductive Err where
  /-- `ParquetException::EofException()`. -/
  | eof
  /-- `throw ParquetException(msg)`. -/
  | exception
  /-- An integer division by zero. -/
  | divByZero
  /-- An access outside an array, vector or buffer, or through a null pointer. -/
  | outOfRange
  /-- A read of an object that was never written. -/
  | uninit
  /-- A signed integer overflow. -/
  | overflow
  deriving DecidableEq

/-- The primitive type tag `parquet::Type::type`. -/
inductive PType where
  | BOOLEAN | INT32 | INT64 | INT96 | FLOAT | DOUBLE | BYTE_ARRAY | FIXED_LEN_BYTE_ARRAY
  deriving DecidableEq

/-- The element types of the `Add` and `Get` overloads of `Encoder` and `Decoder`:
`bool`, `int32_t`, `int64_t`, `float`, `double` and `ByteArray`. -/
inductive ElemType where
  | bool | int32 | int64 | float | double | byteArray
  deriving DecidableEq

/-- The primitive type an element type stands for. -/
def ElemType.type : ElemType → PType
  | ElemType.bool => PType.BOOLEAN
  | ElemType.int32 => PType.INT32
  | ElemType.int64 => PType.INT64
  | ElemType.float => PType.FLOAT
  | ElemType.double => PType.DOUBLE
  | ElemType.byteArray => PType.BYTE_ARRAY

/-- The size of an object of a fixed-size element type (`sizeof`), 0 for `ByteArray`
values, which are given by their bytes. -/
def ElemType.size : ElemType → Nat
  | ElemType.bool => 1
  | ElemType.int32 => 4
  | ElemType.int64 => 8
  | ElemType.float => 4
  | ElemType.double => 8
  | ElemType.byteArray => 0

/-- `std::numeric_limits<int64_t>::max()`. -/
def INT64_MAX : Int := 9223372036854775807

/-- `std::numeric_limits<int64_t>::min()`. -/
def INT64_MIN : Int := -9223372036854775808

/-- Conversion of an integer to `uint64_t`: reduction modulo `2^64`. -/
def toU64 (x : Int) : Nat := (x % 18446744073709551616).toNat

/-- Conversion of an integer to `int64_t`: the representative modulo `2^64` in
`[-2^63, 2^63)`. Signed 64-bit arithmetic is `wrap64` of the exact result. -/
def wrap64 (x : Int) : Int :=
  (x + 9223372036854775808) % 18446744073709551616 - 9223372036854775808

/-- Conversion of an integer to `int32_t`. -/
def wrap32 (x : Int) : Int := (x + 2147483648) % 4294967296 - 2147483648

/-- Conversion of an integer to `uint32_t`. -/
def toU32 (x : Int) : Nat := (x % 4294967296).toNat

/-- The value stored into a `T* buffer` slot from an `int64_t`, for the two element
types the delta decoder is instantiated with. -/
def castTo (t : PType) (x : Int) : Int :=
  match t with
  | PType.INT32 => wrap32 x
  | _ => wrap64 x

/-! ## Bits and bytes -/

/-- The low `k` bits of `v`, least significant first. -/
def lowBits : Nat → Nat → List Bool
  | 0, _ => []
  | k + 1, v => decide (v % 2 = 1) :: lowBits k (v / 2)

/-- The number whose binary digits, least significant first, are `bs`. -/
def bitsToNat : List Bool → Nat
  | [] => 0
  | b :: bs => (if b then 1 else 0) + 2 * bitsToNat bs

/-- The bits of a byte buffer: each byte gives its 8 bits, least significant first. -/
def bytesToBits : List Nat → List Bool
  | [] => []
  | b :: bs => lowBits 8 b ++ bytesToBits bs

/-- Packs a bit stream into bytes, 8 bits per byte, least significant first; a trailing
partial byte is completed with zero bits. The first argument bounds the number of
bytes produced. -/
def bitsToBytesAux : Nat → List Bool → List Nat
  | 0, _ => []
  | f + 1, bs =>
    match bs with
    | [] => []
    | _ :: _ => bitsToNat (bs.take 8) :: bitsToBytesAux f (bs.drop 8)

/-- Packs a bit stream into bytes. -/
def bitsToBytes (bs : List Bool) : List Nat := bitsToBytesAux bs.length bs

/-- The `n`-byte little-endian representation of `v` (what `memcpy` from an `n`-byte
integer object gives). -/
def leBytes : Nat → Nat → List Nat
  | 0, _ => []
  | n + 1, v => v % 256 :: leBytes n (v / 256)

/-- The integer whose little-endian representation is `bs`. -/
def leValue : List Nat → Nat
  | [] => 0
  | b :: bs => b + 256 * leValue bs

/-! ## Bit I/O (L1)

`impala/bit-stream-utils.inline.h` and `impala/bit-util.h` are included by
`encodings.h` but are not part of the sources at hand; the definitions of this
section follow section 4.1 of the specification. -/

namespace BitUtil

/-- Modelled from the spec: `impala::BitUtil::Ceil` (absent header `impala/bit-util.h`),
"integer ceiling division". -/
def Ceil (num div : Int) : Int := -((-num) / div)

/-- Halving loop behind `NumRequiredBits`: the number of halvings that take `x` to 0,
at most `f`. -/
def numBitsAux : Nat → Nat → Nat
  | 0, _ => 0
  | f + 1, x => if x = 0 then 0 else numBitsAux f (x / 2) + 1

/-- Modelled from the spec: `impala::BitUtil::NumRequiredBits` (absent header
`impala/bit-util.h`), "0 for x==0; otherwise floor(log2(x)) + 1", on a 64-bit
unsigned argument. -/
def NumRequiredBits (x : Nat) : Nat := numBitsAux 64 (x % 18446744073709551616)

end BitUtil

/-- Modelled from the spec: `impala::BitWriter` (absent header
`impala/bit-stream-utils.inline.h`). The writer owns a buffer of `max_bytes` bytes and
`bits` is what has been written so far, in stream order; the byte cursor is
`bits.length / 8`. -/
structure BitWriter where
  max_bytes : Nat
  bits : List Bool
  deriving DecidableEq

/-- Modelled from the spec: `impala::BitReader` (absent header
`impala/bit-stream-utils.inline.h`). `rest` is the part of the buffer after the cursor
and `consumed` the number of bits before it. -/
structure BitReader where
  rest : List Bool
  consumed : Nat
  deriving DecidableEq

namespace BitWriter

/-- Modelled from the spec: `BitWriter(buffer, buffer_len)`. -/
def new (buffer_len : Nat) : BitWriter := ⟨buffer_len, []⟩

/-- Number of zero bits that byte-align a cursor after `n` bits. -/
def padLen (n : Nat) : Nat := (8 - n % 8) % 8

/-- Byte-aligns the cursor, zero-padding the partial byte. -/
def align (w : BitWriter) : BitWriter :=
  { w with bits := w.bits ++ List.replicate (padLen w.bits.length) false }

/-- Modelled from the spec: `PutValue(v, num_bits)` "appends the low `num_bits` of `v`;
fails if the buffer would overflow". The result is the returned flag and the writer
afterwards. -/
def PutValue (w : BitWriter) (v : Nat) (num_bits : Nat) : Bool × BitWriter :=
  if w.bits.length + num_bits ≤ 8 * w.max_bytes then
    (true, { w with bits := w.bits ++ lowBits num_bits v })
  else (false, w)

/-- Writes one byte at the byte-aligned cursor (`PutAligned<uint8_t>`). -/
def PutByte (w : BitWriter) (b : Nat) : Bool × BitWriter :=
  (w.align).PutValue b 8

/-- The base-128 digits of `v`, least significant first, every byte but the last
carrying the continuation bit `0x80`. At most `f + 1` bytes. -/
def vlqBytes : Nat → Nat → List Nat
  | 0, v => [v % 128]
  | f + 1, v => if v < 128 then [v] else (v % 128 + 128) :: vlqBytes f (v / 128)

/-- Writes the bytes one after the other; the flag is false when one did not fit. -/
def PutBytes (w : BitWriter) : List Nat → Bool × BitWriter
  | [] => (true, w)
  | b :: bs =>
    let r := w.PutByte b
    let r2 := PutBytes r.2 bs
    (r.1 && r2.1, r2.2)

/-- Modelled from the spec: `PutVlqInt(v)`, "unsigned little-endian base-128 varint
(7 data bits per byte, MSB continuation bit)" of a `uint64_t`. -/
def PutVlqInt (w : BitWriter) (v : Nat) : Bool × BitWriter :=
  w.PutBytes (vlqBytes 9 (v % 18446744073709551616))

/-- The zig-zag image `(s << 1) ^ (s >> 63)` of an `int64_t`, as a `uint64_t`. -/
def zigZag (s : Int) : Nat :=
  ((toU64 s * 2) % 18446744073709551616) ^^^ (if s < 0 then 18446744073709551615 else 0)

/-- Modelled from the spec: `PutZigZagVlqInt(s)`, "maps `s` to `(s << 1) ^ (s >> 63)`
then writes as VLQ". -/
def PutZigZagVlqInt (w : BitWriter) (s : Int) : Bool × BitWriter :=
  w.PutVlqInt (zigZag s)

/-- Modelled from the spec: `GetNextBytePtr(n)` "byte-aligns the cursor and reserves `n`
bytes of the output for the caller to fill in place". The pointer is the byte offset of
the span in the buffer, `none` (a null pointer) when the span does not fit. The reserved
bytes read as 0 until they are filled. -/
def GetNextBytePtr (w : BitWriter) (n : Nat) : Option Nat × BitWriter :=
  let a := w.align
  if a.bits.length + 8 * n ≤ 8 * a.max_bytes then
    (some (a.bits.length / 8), { a with bits := a.bits ++ List.replicate (8 * n) false })
  else (none, a)

/-- The caller's store `ptr[i] = b` into a span obtained from `GetNextBytePtr`. -/
def setByte (w : BitWriter) (off : Nat) (b : Nat) : BitWriter :=
  { w with bits := w.bits.take (8 * off) ++ lowBits 8 b ++ w.bits.drop (8 * off + 8) }

/-- Modelled from the spec: `Flush()` "byte-aligns the cursor and zero-pads the trailing
partial byte". -/
def Flush (w : BitWriter) : BitWriter := w.align

/-- Modelled from the spec: `bytes_written()`, "the committed length in bytes after
`Flush`". -/
def bytes_written (w : BitWriter) : Nat := (w.bits.length + 7) / 8

/-- The first `bytes_written()` bytes of the buffer. -/
def buffer (w : BitWriter) : List Nat := bitsToBytes w.bits

end BitWriter

namespace BitReader

/-- Modelled from the spec: `BitReader(buffer, buffer_len)` over the bytes `data`. -/
def new (data : List Nat) : BitReader := ⟨bytesToBits data, 0⟩

/-- Modelled from the spec: `GetValue(num_bits, &out)` "reads `num_bits`, zero-extends to
64-bit; fails on underflow" (`none`). -/
def GetValue (r : BitReader) (num_bits : Nat) : Option (Nat × BitReader) :=
  if num_bits ≤ r.rest.length then
    some (bitsToNat (r.rest.take num_bits) % 18446744073709551616,
      ⟨r.rest.drop num_bits, r.consumed + num_bits⟩)
  else none

/-- Byte-aligns the cursor. -/
def align (r : BitReader) : BitReader :=
  ⟨r.rest.drop (BitWriter.padLen r.consumed), r.consumed + BitWriter.padLen r.consumed⟩

/-- Modelled from the spec: `GetAligned<uint8_t>(1, &out)` "byte-aligns the cursor, then
copies `num_bytes` into `out`", for one byte. -/
def GetByte (r : BitReader) : Option (Nat × BitReader) :=
  (r.align).GetValue 8

/-- The loop of `GetVlqInt`: reads bytes while the continuation bit is set, adding
`(byte & 0x7F) << shift`; at most `f` bytes. -/
def getVlqAux : Nat → BitReader → Nat → Nat → Option (Nat × BitReader)
  | 0, _, _, _ => none
  | f + 1, r, shift, acc =>
    match r.GetByte with
    | none => none
    | some (b, r2) =>
      let acc2 := acc + (b % 128) * 2 ^ shift
      if b < 128 then some (acc2 % 18446744073709551616, r2)
      else getVlqAux f r2 (shift + 7) acc2

/-- Modelled from the spec: `GetVlqInt(&v)`, the "inverse of the writer form", into a
`uint64_t`; `none` when the buffer ends first. A 64-bit value takes at most 10 bytes. -/
def GetVlqInt (r : BitReader) : Option (Nat × BitReader) := getVlqAux 10 r 0 0

/-- The inverse zig-zag map `(u >> 1) ^ -(u & 1)`, as an `int64_t`. -/
def unZigZag (u : Nat) : Int :=
  wrap64 (((u / 2) ^^^ (if u % 2 = 1 then 18446744073709551615 else 0) : Nat) : Int)

/-- Modelled from the spec: `GetZigZagVlqInt(&v)`, the "inverse of the writer form", into
an `int64_t`. -/
def GetZigZagVlqInt (r : BitReader) : Option (Int × BitReader) :=
  match r.GetVlqInt with
  | none => none
  | some (u, r2) => some (unZigZag u, r2)

end BitReader

/-! ## Memory helpers -/

/-- `memcpy(buf + off, src, src.length)` into a buffer of `buf.length` bytes; a copy
that leaves the buffer is an `outOfRange` error. -/
def memWrite (buf : List Nat) (off : Int) (src : List Nat) : Except Err (List Nat) :=
  if 0 ≤ off ∧ off.toNat + src.length ≤ buf.length then
    pure (buf.take off.toNat ++ src ++ buf.drop (off.toNat + src.length))
  else if src.length = 0 then pure buf
  else throw Err.outOfRange

/-- The `n` bytes at `buf + off`; a read that leaves the buffer is an `outOfRange`
error. -/
def memRead (buf : List Nat) (off : Int) (n : Int) : Except Err (List Nat) :=
  if n ≤ 0 then pure []
  else if 0 ≤ off ∧ off.toNat + n.toNat ≤ buf.length then
    pure ((buf.drop off.toNat).take n.toNat)
  else throw Err.outOfRange

/-- Runs `step` `k` times, collecting the values it yields: the shape of the
`for (i = 0; i < max_values; ++i) buffer[i] = ...` loops of the decoders. -/
def getLoop {σ α : Type} (step : σ → Except Err (α × σ)) : Nat → σ → Except Err (List α × σ)
  | 0, s => pure ([], s)
  | k + 1, s =>
    match step s with
    | Except.error e => Except.error e
    | Except.ok (v, s1) =>
      match getLoop step k s1 with
      | Except.error e => Except.error e
      | Except.ok (vs, s2) => Except.ok (v :: vs, s2)

/-! ## Delta binary packed codec (`delta-bit-pack-encoding.h`) -/

/-- The size of the scratch buffer `new uint8_t[10 * 1024 * 1024]` of the delta
encoders. -/
def SCRATCH : Nat := 10 * 1024 * 1024

/-- The state of a `DeltaBitPackEncoder` (the base-class `buffer_` is never touched by
this class and is left out). -/
structure DeltaBitPackEncoder where
  type_ : PType
  buffer_size_ : Int
  num_values_ : Int
  mini_block_size_ : Int
  values_ : List Int
  deriving DecidableEq

namespace DeltaBitPackEncoder

/-- The constructor `DeltaBitPackEncoder(type, buffer_size, mini_block_size)`. -/
def new (type : PType) (buffer_size : Int) (mini_block_size : Int) :
    Except Err DeltaBitPackEncoder :=
  match type with
  | PType.INT32 => pure ⟨PType.INT32, buffer_size, 0, mini_block_size, []⟩
  | PType.INT64 => pure ⟨PType.INT64, buffer_size, 0, mini_block_size, []⟩
  | _ => throw Err.exception

/-- `Reset()`. -/
def Reset (e : DeltaBitPackEncoder) : DeltaBitPackEncoder :=
  { e with values_ := [], num_values_ := 0 }

/-- `Add(const int32_t* values, int num_values)` and `Add(const int64_t*, int)`, which
have the same body; `values` are the `num_values` elements, each in the range of its
type. Returns `num_values`. -/
def Add (e : DeltaBitPackEncoder) (values : List Int) : Int × DeltaBitPackEncoder :=
  (values.length,
    { e with values_ := e.values_ ++ values, num_values_ := e.num_values_ + values.length })

/-- `num_values()`. -/
def num_values (e : DeltaBitPackEncoder) : Int := e.num_values_

/-- The loop `for (int i = values_.size() - 1; i > 0; --i) { values_[i] -= values_[i - 1];
min_delta = std::min(min_delta, values_[i]); }`, started at `i`. -/
def deltaLoop : Nat → List Int → Int → List Int × Int
  | 0, vs, md => (vs, md)
  | i + 1, vs, md =>
    let d := wrap64 (vs.getD (i + 1) 0 - vs.getD i 0)
    deltaLoop i (vs.set (i + 1) d) (min md d)

/-- The loop `for (j = 0; j < n; ++j) max_delta = std::max(values_[idx + j], max_delta)`
over the slice `values_[idx .. idx + n)`. -/
def maxLoop : List Int → Int → Int
  | [], max_delta => max_delta
  | v :: vs, max_delta => maxLoop vs (max v max_delta)

/-- The loop `for (j = 0; j < n; ++j) writer.PutValue(values_[idx + j] - min_delta,
bit_width)` over the slice; the flag records whether every call returned true. -/
def putLoop (min_delta : Int) (bit_width : Nat) : List Int → Bool × BitWriter → Bool × BitWriter
  | [], s => s
  | v :: vs, s =>
    let r := s.2.PutValue (toU64 (wrap64 (v - min_delta))) bit_width
    putLoop min_delta bit_width vs (s.1 && r.1, r.2)

/-- The loop `for (j = n; j < mini_block_size_; ++j) writer.PutValue(0, bit_width)`, with
its number of iterations. -/
def padLoop (bit_width : Nat) : Nat → Bool × BitWriter → Bool × BitWriter
  | 0, s => s
  | k + 1, s =>
    let r := s.2.PutValue 0 bit_width
    padLoop bit_width k (s.1 && r.1, r.2)

/-- The loop over the mini blocks of `Encode`, `for (i = 0; i < num_mini_blocks; ++i)`:
the first argument is the number of iterations left, `i` and `idx` are the loop
variables, `ptr` is `mini_block_widths`. -/
def miniBlockLoop (mini_block_size num_values : Int) (values : List Int) (min_delta : Int)
    (ptr : Option Nat) : Nat → Nat → Int → Bool × BitWriter → Except Err (Bool × BitWriter)
  | 0, _, _, s => pure s
  | k + 1, i, idx, s =>
    let n : Int := min mini_block_size (num_values - idx)
    if 0 < n ∧ (idx < 0 ∨ values.length < idx.toNat + n.toNat) then throw Err.outOfRange
    else
      let blk := (values.drop idx.toNat).take n.toNat
      let max_delta := maxLoop blk INT64_MIN
      let bit_width := BitUtil.NumRequiredBits (toU64 (wrap64 (max_delta - min_delta)))
      match ptr with
      | none => throw Err.outOfRange
      | some p =>
        let w := s.2.setByte (p + i) bit_width
        let s1 := putLoop min_delta bit_width blk (s.1, w)
        let s2 := padLoop bit_width (mini_block_size - n).toNat s1
        miniBlockLoop mini_block_size num_values values min_delta ptr k (i + 1) (idx + n) s2

/-- The body of `Encode(int* encoded_len)`. The result is the encoded page (the first
`*encoded_len` bytes of the returned buffer), the encoder afterwards (`values_` has
been turned into deltas in place), and a flag that tells whether every call into the
writer succeeded, which the code does not look at. -/
def EncodeAux (e : DeltaBitPackEncoder) :
    Except Err (Bool × List Nat × DeltaBitPackEncoder) :=
  if e.mini_block_size_ = 0 then throw Err.divByZero
  else
    let num_mini_blocks := BitUtil.Ceil (e.num_values_ - 1) e.mini_block_size_
    let w0 := BitWriter.new SCRATCH
    let block_size := num_mini_blocks * e.mini_block_size_
    if block_size < -2147483648 ∨ 2147483647 < block_size then throw Err.overflow
    else
      let r1 := w0.PutVlqInt (toU64 block_size)
      let r2 := r1.2.PutVlqInt (toU64 num_mini_blocks)
      let r3 := r2.2.PutVlqInt (toU64 (e.num_values_ - 1))
      match e.values_ with
      | [] => throw Err.outOfRange
      | v0 :: _ =>
        let r4 := r3.2.PutZigZagVlqInt v0
        let dl := deltaLoop (e.values_.length - 1) e.values_ INT64_MAX
        let r5 := r4.2.PutZigZagVlqInt dl.2
        let r6 := r5.2.GetNextBytePtr num_mini_blocks.toNat
        match miniBlockLoop e.mini_block_size_ e.num_values_ dl.1 dl.2 r6.1
            num_mini_blocks.toNat 0 1 (r1.1 && r2.1 && r3.1 && r4.1 && r5.1, r6.2) with
        | Except.error err => throw err
        | Except.ok s =>
          let w := s.2.Flush
          pure (s.1, w.buffer, { e with values_ := dl.1 })

/-- `Encode(int* encoded_len)`: the page, whose length is `*encoded_len`, and the encoder
afterwards. -/
def Encode (e : DeltaBitPackEncoder) : Except Err (List Nat × DeltaBitPackEncoder) :=
  match e.EncodeAux with
  | Except.error err => throw err
  | Except.ok r => pure r.2

end DeltaBitPackEncoder

/-- The state of a `DeltaBitPackDecoder`. -/
structure DeltaBitPackDecoder where
  type_ : PType
  num_values_ : Int
  decoder_ : BitReader
  values_current_block_ : Nat
  num_mini_blocks_ : Nat
  values_per_mini_block_ : Nat
  values_current_mini_block_ : Nat
  min_delta_ : Int
  mini_block_idx_ : Int
  delta_bit_widths_ : List Nat
  delta_bit_width_ : Nat
  last_value_ : Int
  deriving DecidableEq

namespace DeltaBitPackDecoder

/-- The constructor `DeltaBitPackDecoder(type)`. It initialises `type_`, `num_values_`,
the reader and the empty vector only; `mini_block_idx_`, which `GetInternal` increments
before anything assigns it, starts with the arbitrary value `idx0`. The other members
are assigned before they are read and start as 0 here. -/
def new (type : PType) (idx0 : Int) : Except Err DeltaBitPackDecoder :=
  if type ≠ PType.INT32 ∧ type ≠ PType.INT64 then throw Err.exception
  else pure ⟨type, 0, ⟨[], 0⟩, 0, 0, 0, 0, 0, idx0, [], 0, 0⟩

/-- `SetData(int num_values, const uint8_t* data, int len)` for a page `data` of `len`
bytes. -/
def SetData (d : DeltaBitPackDecoder) (num_values : Int) (data : List Nat) :
    DeltaBitPackDecoder :=
  { d with
    num_values_ := num_values
    decoder_ := BitReader.new data
    values_current_block_ := 0
    values_current_mini_block_ := 0 }

/-- `values_left()`. -/
def values_left (d : DeltaBitPackDecoder) : Int := d.num_values_

/-- The loop `for (i = 0; i < num_mini_blocks_; ++i) GetAligned<uint8_t>(1,
&delta_bit_widths_[i])` of `InitBlock`, with its number of iterations. -/
def readWidths : Nat → BitReader → Except Err (List Nat × BitReader)
  | 0, r => pure ([], r)
  | k + 1, r =>
    match r.GetByte with
    | none => throw Err.eof
    | some (b, r1) =>
      match readWidths k r1 with
      | Except.error e => Except.error e
      | Except.ok (bs, r2) => Except.ok (b :: bs, r2)

/-- `InitBlock()`. -/
def InitBlock (d : DeltaBitPackDecoder) : Except Err DeltaBitPackDecoder :=
  match d.decoder_.GetVlqInt with
  | none => throw Err.eof
  | some (block_size, r1) =>
    match r1.GetVlqInt with
    | none => throw Err.eof
    | some (num_mini_blocks, r2) =>
      match r2.GetVlqInt with
      | none => throw Err.eof
      | some (values_current_block, r3) =>
        match r3.GetZigZagVlqInt with
        | none => throw Err.eof
        | some (last_value, r4) =>
          match r4.GetZigZagVlqInt with
          | none => throw Err.eof
          | some (min_delta, r5) =>
            match readWidths num_mini_blocks r5 with
            | Except.error e => throw e
            | Except.ok (widths, r6) =>
              if num_mini_blocks = 0 then throw Err.divByZero
              else
                match widths with
                | [] => throw Err.outOfRange
                | w0 :: _ =>
                  pure { d with
                    decoder_ := r6
                    num_mini_blocks_ := num_mini_blocks
                    values_current_block_ := values_current_block
                    last_value_ := last_value
                    delta_bit_widths_ := widths
                    min_delta_ := min_delta
                    values_per_mini_block_ := block_size / num_mini_blocks
                    mini_block_idx_ := 0
                    delta_bit_width_ := w0
                    values_current_mini_block_ := block_size / num_mini_blocks }

/-- The part of the loop body of `GetInternal` after the mini-block check: reads one
bit-packed delta and yields the next value. -/
def readDelta (d : DeltaBitPackDecoder) : Except Err (Int × DeltaBitPackDecoder) :=
  match d.decoder_.GetValue d.delta_bit_width_ with
  | none => throw Err.eof
  | some (u, r) =>
    let delta := wrap64 (wrap64 u + d.min_delta_)
    let last := wrap64 (d.last_value_ + delta)
    pure (castTo d.type_ last,
      { d with
        decoder_ := r
        last_value_ := last
        values_current_mini_block_ :=
          (d.values_current_mini_block_ + 18446744073709551615) % 18446744073709551616 })

/-- One iteration of the loop of `GetInternal`: the value stored into `buffer[i]` and the
decoder afterwards. -/
def getStep (d : DeltaBitPackDecoder) : Except Err (Int × DeltaBitPackDecoder) :=
  if d.values_current_mini_block_ = 0 then
    let idx := wrap32 (d.mini_block_idx_ + 1)
    if toU64 idx < d.delta_bit_widths_.length then
      readDelta { d with
        mini_block_idx_ := idx
        delta_bit_width_ := d.delta_bit_widths_.getD (toU64 idx) 0
        values_current_mini_block_ := d.values_per_mini_block_ }
    else
      match InitBlock { d with mini_block_idx_ := idx } with
      | Except.error e => throw e
      | Except.ok d1 => pure (castTo d1.type_ d1.last_value_, d1)
  else readDelta d

/-- `GetInternal(T* buffer, int max_values)`, which is `Get(int32_t*, int)` and
`Get(int64_t*, int)`: the returned count, the values stored into `buffer[0 ..]`, and the
decoder afterwards. -/
def Get (d : DeltaBitPackDecoder) (max_values : Int) :
    Except Err (Int × List Int × DeltaBitPackDecoder) :=
  let max_values := min max_values d.num_values_
  match getLoop getStep max_values.toNat d with
  | Except.error e => throw e
  | Except.ok (vs, d1) => pure (max_values, vs, { d1 with num_values_ := d1.num_values_ - max_values })

/-- The part of the loop body of `GetInternal<T>` after the mini-block check, for the
element type `T` of the buffer. -/
def readDeltaAs (T : PType) (d : DeltaBitPackDecoder) :
    Except Err (Int × DeltaBitPackDecoder) :=
  match d.decoder_.GetValue d.delta_bit_width_ with
  | none => throw Err.eof
  | some (u, r) =>
    let delta := wrap64 (wrap64 u + d.min_delta_)
    let last := wrap64 (d.last_value_ + delta)
    pure (castTo T last,
      { d with
        decoder_ := r
        last_value_ := last
        values_current_mini_block_ :=
          (d.values_current_mini_block_ + 18446744073709551615) % 18446744073709551616 })

/-- One iteration of the loop of `GetInternal<T>`, for the element type `T` of the
buffer. -/
def getStepAs (T : PType) (d : DeltaBitPackDecoder) : Except Err (Int × DeltaBitPackDecoder) :=
  if d.values_current_mini_block_ = 0 then
    let idx := wrap32 (d.mini_block_idx_ + 1)
    if toU64 idx < d.delta_bit_widths_.length then
      readDeltaAs T { d with
        mini_block_idx_ := idx
        delta_bit_width_ := d.delta_bit_widths_.getD (toU64 idx) 0
        values_current_mini_block_ := d.values_per_mini_block_ }
    else
      match InitBlock { d with mini_block_idx_ := idx } with
      | Except.error e => throw e
      | Except.ok d1 => pure (castTo T d1.last_value_, d1)
  else readDeltaAs T d

/-- The template `GetInternal<T>(T* buffer, int max_values)` for the element type `T`,
whatever the declared type `type_` is: the body does not read `type_`. -/
def GetInternal (T : PType) (d : DeltaBitPackDecoder) (max_values : Int) :
    Except Err (Int × List Int × DeltaBitPackDecoder) :=
  let max_values := min max_values d.num_values_
  match getLoop (getStepAs T) max_values.toNat d with
  | Except.error e => throw e
  | Except.ok (vs, d1) => pure (max_values, vs, { d1 with num_values_ := d1.num_values_ - max_values })

/-- The six overloads `Get(U* buffer, int max_values)` of a `DeltaBitPackDecoder`: the
class overrides the ones for `int32_t` and `int64_t`, the others are those of `Decoder`,
which throw. -/
def GetElem (d : DeltaBitPackDecoder) (U : ElemType) (max_values : Int) :
    Except Err (Int × List Int × DeltaBitPackDecoder) :=
  match U with
  | ElemType.int32 => GetInternal PType.INT32 d max_values
  | ElemType.int64 => GetInternal PType.INT64 d max_values
  | _ => throw Err.exception

/-- A caller's successive calls `Get(b, k)` for the pull sizes `ks` (as in
`TestBinaryPackedEncoding` of `decode-benchmark.cc`, which pulls one value at a time): the
count and the output of each call, and the decoder afterwards. -/
def getMany : List Int → DeltaBitPackDecoder →
    Except Err (List (Int × List Int) × DeltaBitPackDecoder)
  | [], d => pure ([], d)
  | k :: ks, d =>
    match d.Get k with
    | Except.error e => throw e
    | Except.ok (n, out, d1) =>
      match getMany ks d1 with
      | Except.error e => throw e
      | Except.ok (rs, d2) => pure ((n, out) :: rs, d2)

end DeltaBitPackDecoder

/-! ### The layout of a delta binary packed page

The page of section 4.4 in closed form, for a sequence `V` of at least one value and a
mini-block size `m`: the five header varints, one width byte per mini block, and the
mini blocks of `m` bit-packed slots each. -/

namespace DeltaBitPack

/-- The successive differences `V[i] - V[i-1]` in 64-bit signed arithmetic. -/
def deltas : List Int → List Int
  | a :: b :: rest => wrap64 (b - a) :: deltas (b :: rest)
  | _ => []

/-- The least of the deltas, `INT64_MAX` when there is none. -/
def minDelta : List Int → Int
  | [] => INT64_MAX
  | d :: ds => min (minDelta ds) d

/-- Number of mini blocks, `ceil((n - 1) / m)` for `n` values. -/
def numMiniBlocks (m n : Nat) : Nat := (n - 1 + (m - 1)) / m

/-- The deltas of mini block `i`. -/
def block (m : Nat) (ds : List Int) (i : Nat) : List Int := (ds.drop (i * m)).take m

/-- The bit width of mini block `i`: the bits needed for its largest delta less the
minimum delta. -/
def widthOf (m : Nat) (ds : List Int) (i : Nat) : Nat :=
  BitUtil.NumRequiredBits
    (toU64 (wrap64 (DeltaBitPackEncoder.maxLoop (block m ds i) INT64_MIN - minDelta ds)))

/-- The value stored in slot `t` of the payload: the delta less the minimum delta, and 0
in the padding slots after the last delta. -/
def slotVal (ds : List Int) (t : Nat) : Nat :=
  if t < ds.length then toU64 (wrap64 (ds.getD t 0 - minDelta ds)) else 0

/-- The bits of slot `t`. -/
def slotBits (m : Nat) (ds : List Int) (t : Nat) : List Bool :=
  lowBits (widthOf m ds (t / m)) (slotVal ds t)

/-- The bits of the slots `t, t + 1, ..., t + k - 1`. -/
def slotsFrom (m : Nat) (ds : List Int) : Nat → Nat → List Bool
  | 0, _ => []
  | k + 1, t => slotBits m ds t ++ slotsFrom m ds k (t + 1)

/-- The width bytes of the mini blocks `i, i + 1, ..., i + k - 1`. -/
def widthsFrom (m : Nat) (ds : List Int) : Nat → Nat → List Nat
  | 0, _ => []
  | k + 1, i => widthOf m ds i :: widthsFrom m ds k (i + 1)

/-- The five header varints of the page of `V`: block size, number of mini blocks, number
of values less one, first value and minimum delta. -/
def varints (m : Nat) (V : List Int) : List Nat :=
  let k := numMiniBlocks m V.length
  BitWriter.vlqBytes 9 (k * m) ++ BitWriter.vlqBytes 9 k ++ BitWriter.vlqBytes 9 (V.length - 1)
    ++ BitWriter.vlqBytes 9 (BitWriter.zigZag (V.headD 0))
    ++ BitWriter.vlqBytes 9 (BitWriter.zigZag (minDelta (deltas V)))

/-- The header varints and the width bytes of the page of `V`. -/
def headerBytes (m : Nat) (V : List Int) : List Nat :=
  let k := numMiniBlocks m V.length
  BitWriter.vlqBytes 9 (k * m) ++ BitWriter.vlqBytes 9 k ++ BitWriter.vlqBytes 9 (V.length - 1)
    ++ BitWriter.vlqBytes 9 (BitWriter.zigZag (V.headD 0))
    ++ BitWriter.vlqBytes 9 (BitWriter.zigZag (minDelta (deltas V)))
    ++ widthsFrom m (deltas V) k 0

/-- The bits of the page of `V` before the final alignment. -/
def pageBits (m : Nat) (V : List Int) : List Bool :=
  bytesToBits (headerBytes m V)
    ++ slotsFrom m (deltas V) (numMiniBlocks m V.length * m) 0

/-- The page of `V`: the bits, zero-padded to a whole number of bytes. -/
def page (m : Nat) (V : List Int) : List Nat :=
  bitsToBytes (pageBits m V
    ++ List.replicate (BitWriter.padLen (pageBits m V).length) false)

end DeltaBitPack

/-! ## Plain codec (`plain-encoding.h`) -/

/-- A `ByteArray` value handed out by a decoder that does not copy: `len` and the
position `ptr` of its first byte, counted from the start of the page given to
`SetData`. -/
structure ByteArray where
  len : Nat
  ptr : Int
  deriving DecidableEq

/-- The bytes a `ByteArray` of a page designates, when it lies inside the page. -/
def ByteArray.bytes (page : List Nat) (b : ByteArray) : Option (List Nat) :=
  if 0 ≤ b.ptr ∧ b.ptr.toNat + b.len ≤ page.length then
    some ((page.drop b.ptr.toNat).take b.len)
  else none

/-- The state of a `PlainEncoder`; `buffer_` holds the `buffer_size_` bytes of the
allocation. -/
structure PlainEncoder where
  type_ : PType
  buffer_size_ : Int
  buffer_ : List Nat
  num_values_ : Int
  max_values_ : Int
  value_size_ : Int
  offset_ : Int
  deriving DecidableEq

namespace PlainEncoder

/-- The `switch` of the constructor: `value_size_` for the type. -/
def valueSize : PType → Except Err Int
  | PType.BOOLEAN => throw Err.exception
  | PType.INT32 => pure 4
  | PType.INT64 => pure 8
  | PType.FLOAT => pure 4
  | PType.DOUBLE => pure 8
  | PType.BYTE_ARRAY => pure (-1)
  | _ => throw Err.exception

/-- The constructor `PlainEncoder(type, buffer_size)`; `mem` is the content of the
`buffer_size` bytes that `new uint8_t[buffer_size_]` returns, which is not specified. -/
def new (type : PType) (mem : List Nat) : Except Err PlainEncoder :=
  match valueSize type with
  | Except.error e => throw e
  | Except.ok vs =>
    pure ⟨type, mem.length, mem, 0, Int.tdiv mem.length vs, vs, 0⟩

/-- `AddInternal(values, num_values)`: `values` are the objects to copy, each given by
its `value_size_` bytes. -/
def AddInternal (e : PlainEncoder) (values : List (List Nat)) :
    Except Err (Int × PlainEncoder) :=
  let to_copy : Int := min values.length (e.max_values_ - e.num_values_)
  if to_copy < 0 then throw Err.outOfRange
  else
    match memWrite e.buffer_ e.offset_ (values.take to_copy.toNat).flatten with
    | Except.error err => throw err
    | Except.ok buf =>
      pure (to_copy,
        { e with
          buffer_ := buf
          num_values_ := e.num_values_ + to_copy
          offset_ := e.offset_ + to_copy * e.value_size_ })

/-- The overloads `Add(const T* values, int num_values)` for the numeric element types
`t`; the overload for `bool` is the one of the base class. -/
def Add (e : PlainEncoder) (t : PType) (values : List (List Nat)) :
    Except Err (Int × PlainEncoder) :=
  match t with
  | PType.INT32 => if e.type_ ≠ PType.INT32 then throw Err.exception else e.AddInternal values
  | PType.INT64 => if e.type_ ≠ PType.INT64 then throw Err.exception else e.AddInternal values
  | PType.FLOAT => if e.type_ ≠ PType.FLOAT then throw Err.exception else e.AddInternal values
  | PType.DOUBLE => if e.type_ ≠ PType.DOUBLE then throw Err.exception else e.AddInternal values
  | _ => throw Err.exception

/-- The loop of `Add(const ByteArray* values, int num_values)`: the number of values
taken and the encoder afterwards. The sum `sizeof(int32_t) + values[i].len` is a `size_t`;
`int s` is its conversion to `int`. -/
def addByteArrayLoop : List (List Nat) → PlainEncoder → Except Err (Int × PlainEncoder)
  | [], e => pure (0, e)
  | v :: vs, e =>
    let s : Int := wrap32 (4 + v.length)
    if s > e.buffer_size_ - e.offset_ then pure (0, e)
    else
      match memWrite e.buffer_ e.offset_ (leBytes 4 v.length) with
      | Except.error err => throw err
      | Except.ok buf1 =>
        match memWrite buf1 (e.offset_ + 4) v with
        | Except.error err => throw err
        | Except.ok buf2 =>
          match addByteArrayLoop vs
              { e with buffer_ := buf2, offset_ := e.offset_ + 4 + v.length } with
          | Except.error err => throw err
          | Except.ok (i, e2) => pure (i + 1, e2)

/-- `Add(const ByteArray* values, int num_values)`; each value is given by its bytes. -/
def AddByteArray (e : PlainEncoder) (values : List (List Nat)) :
    Except Err (Int × PlainEncoder) :=
  if e.type_ ≠ PType.BYTE_ARRAY then throw Err.exception
  else
    match addByteArrayLoop values e with
    | Except.error err => throw err
    | Except.ok (i, e2) => pure (i, { e2 with num_values_ := e2.num_values_ + i })

/-- The six overloads `Add(const U* values, int num_values)` of a `PlainEncoder`: the one
for `bool` is the one of `Encoder`, which throws. -/
def AddElem (e : PlainEncoder) (U : ElemType) (values : List (List Nat)) :
    Except Err (Int × PlainEncoder) :=
  match U with
  | ElemType.bool => throw Err.exception
  | ElemType.int32 => e.Add PType.INT32 values
  | ElemType.int64 => e.Add PType.INT64 values
  | ElemType.float => e.Add PType.FLOAT values
  | ElemType.double => e.Add PType.DOUBLE values
  | ElemType.byteArray => e.AddByteArray values

/-- `Encode(int* encoded_len)`: the first `offset_` bytes of `buffer_`. -/
def Encode (e : PlainEncoder) : List Nat := e.buffer_.take e.offset_.toNat

/-- `Reset()`. -/
def Reset (e : PlainEncoder) : PlainEncoder := { e with num_values_ := 0, offset_ := 0 }

/-- `num_values()`. -/
def num_values (e : PlainEncoder) : Int := e.num_values_

/-- A call of a member function that changes a `PlainEncoder`: an `Add` overload with its
values, or `Reset()`. -/
inductive Call where
  | Add (U : ElemType) (values : List (List Nat))
  | Reset

/-- The values of an `Add` call are objects of the element type, `sizeof(U)` bytes each
for the fixed-size types, and byte strings whose `4 + len` is in the range of `int`. -/
def Call.Sized : Call → Prop
  | Call.Add U values =>
    (U = ElemType.byteArray ∧ ∀ v ∈ values, 4 + v.length < 2147483648)
      ∨ (U ≠ ElemType.byteArray ∧ ∀ v ∈ values, v.length = U.size)
  | Call.Reset => True

/-- The encoder after a call. An `Add` overload that throws `ParquetException` does so
before it assigns any member, so the caller who catches the exception goes on with the
same encoder. -/
def call (e : PlainEncoder) : Call → Except Err PlainEncoder
  | Call.Add U values =>
    match e.AddElem U values with
    | Except.ok r => pure r.2
    | Except.error Err.exception => pure e
    | Except.error err => throw err
  | Call.Reset => pure e.Reset

/-- The encoder after a sequence of calls. -/
def calls : List Call → PlainEncoder → Except Err PlainEncoder
  | [], e => pure e
  | c :: cs, e =>
    match e.call c with
    | Except.error err => throw err
    | Except.ok e1 => calls cs e1

end PlainEncoder

/-- The state of a `PlainDecoder`: `page_` is the buffer given to `SetData` and `data_`
the position of the cursor in it. -/
structure PlainDecoder where
  type_ : PType
  num_values_ : Int
  page_ : List Nat
  data_ : Int
  len_ : Int
  deriving DecidableEq

namespace PlainDecoder

/-- The constructor `PlainDecoder(type)`. -/
def new (type : PType) : PlainDecoder := ⟨type, 0, [], 0, 0⟩

/-- `SetData(int num_values, const uint8_t* data, int len)` for a page `data` of `len`
bytes. -/
def SetData (d : PlainDecoder) (num_values : Int) (data : List Nat) : PlainDecoder :=
  { d with num_values_ := num_values, page_ := data, data_ := 0, len_ := data.length }

/-- `values_left()`. -/
def values_left (d : PlainDecoder) : Int := d.num_values_

/-- Cuts a byte buffer into `k` objects of `sz` bytes. -/
def chunks (sz : Nat) : Nat → List Nat → List (List Nat)
  | 0, _ => []
  | k + 1, bs => bs.take sz :: chunks sz k (bs.drop sz)

/-- `GetValues(void* buffer, int max_values, int byte_size)`: the returned count, the
objects copied into `buffer`, and the decoder afterwards. The product
`int size = max_values * byte_size` is a signed overflow when it leaves the range of
`int`. -/
def GetValues (d : PlainDecoder) (max_values : Int) (byte_size : Int) :
    Except Err (Int × List (List Nat) × PlainDecoder) :=
  let max_values := min max_values d.num_values_
  let size := max_values * byte_size
  if size < -2147483648 ∨ 2147483647 < size then throw Err.overflow
  else
    let max_values := if d.len_ < size then Int.tdiv d.len_ byte_size else max_values
    let size := if d.len_ < size then max_values * byte_size else size
    if size < 0 then throw Err.outOfRange
    else
      match memRead d.page_ d.data_ size with
      | Except.error e => throw e
      | Except.ok bs =>
        pure (max_values, chunks byte_size.toNat max_values.toNat bs,
          { d with
            data_ := d.data_ + size
            len_ := d.len_ - size
            num_values_ := d.num_values_ - max_values })

/-- The overloads `Get(T* buffer, int max_values)` for the numeric element types `t`. -/
def Get (d : PlainDecoder) (t : PType) (max_values : Int) :
    Except Err (Int × List (List Nat) × PlainDecoder) :=
  match t with
  | PType.INT32 => d.GetValues max_values 4
  | PType.INT64 => d.GetValues max_values 8
  | PType.FLOAT => d.GetValues max_values 4
  | PType.DOUBLE => d.GetValues max_values 8
  | _ => throw Err.exception

/-- A caller's successive calls `Get(out, k)` for the batch sizes `ks` (as in
`TestPlainIntEncoding` of `decode-benchmark.cc`): the count and the output of each call,
and the decoder afterwards. -/
def getMany (t : PType) : List Int → PlainDecoder →
    Except Err (List (Int × List (List Nat)) × PlainDecoder)
  | [], d => pure ([], d)
  | k :: ks, d =>
    match d.Get t k with
    | Except.error e => throw e
    | Except.ok (n, out, d1) =>
      match getMany t ks d1 with
      | Except.error e => throw e
      | Except.ok (rs, d2) => pure ((n, out) :: rs, d2)

/-- The loop of `Get(ByteArray* buffer, int max_values)`, with the number of iterations
left: the values stored and the decoder afterwards. -/
def getByteArrayLoop : Nat → PlainDecoder → Except Err (List ByteArray × PlainDecoder)
  | 0, d => pure ([], d)
  | k + 1, d =>
    if d.len_ = 0 then pure ([], d)
    else
      match memRead d.page_ d.data_ 4 with
      | Except.error e => throw e
      | Except.ok bs =>
        let len := leValue bs
        if toU64 d.len_ < 4 + len then throw Err.eof
        else
          match getByteArrayLoop k
              { d with data_ := d.data_ + 4 + len, len_ := d.len_ - (4 + len) } with
          | Except.error e => throw e
          | Except.ok (vs, d2) => pure (⟨len, d.data_ + 4⟩ :: vs, d2)

/-- `Get(ByteArray* buffer, int max_values)`: the returned count, the values stored, and
the decoder afterwards. -/
def GetByteArray (d : PlainDecoder) (max_values : Int) :
    Except Err (Int × List ByteArray × PlainDecoder) :=
  let max_values := min max_values d.num_values_
  match getByteArrayLoop max_values.toNat d with
  | Except.error e => throw e
  | Except.ok (vs, d2) =>
    pure (vs.length, vs, { d2 with num_values_ := d2.num_values_ - vs.length })

end PlainDecoder

/-! ## Boolean codec (`bool-encoding.h`)

`BoolEncoder` and `BoolDecoder` delegate to `impala::RleEncoder` and `impala::RleDecoder`
(`impala/rle-encoding.h`), which are not among the sources: the member functions they
call are parameters of the embedding. -/

/-- The member functions of `impala::RleEncoder` that `BoolEncoder` calls, on encoder
states `σ`: `Clear()`, `Put(value)` with its result, `Flush()` with the length it returns,
and `buffer()`. -/
structure RleEncoder (σ : Type) where
  Clear : σ → σ
  Put : σ → Bool → Bool × σ
  Flush : σ → Int × σ
  buffer : σ → List Nat

/-- The member functions of `impala::RleDecoder` that `BoolDecoder` calls, on decoder
states `σ`: the constructor `RleDecoder(data, len, bit_width)` and `Get(&value)`, which
yields its result, the value stored and the state afterwards. -/
structure RleDecoder (σ : Type) where
  create : List Nat → Int → Int → σ
  Get : σ → Bool × Bool × σ

/-- The state of a `BoolEncoder`. -/
structure BoolEncoder (σ : Type) where
  buffer_size_ : Int
  num_values_ : Int
  encoder_ : σ

namespace BoolEncoder

/-- `Encode(int* encoded_len)`: the first `*encoded_len` bytes of `encoder_.buffer()`. -/
def Encode {σ : Type} (rle : RleEncoder σ) (e : BoolEncoder σ) :
    List Nat × BoolEncoder σ :=
  let r := rle.Flush e.encoder_
  ((rle.buffer r.2).take r.1.toNat, { e with encoder_ := r.2 })

/-- `Reset()`. -/
def Reset {σ : Type} (rle : RleEncoder σ) (e : BoolEncoder σ) : BoolEncoder σ :=
  { e with encoder_ := rle.Clear e.encoder_, num_values_ := 0 }

/-- The loop of `Add`, `i` being the loop variable: `if (!encoder_.Put(values[i]))
return i;`, and `return num_values` after the last value. -/
def addLoop {σ : Type} (rle : RleEncoder σ) : List Bool → Int → BoolEncoder σ →
    Int × BoolEncoder σ
  | [], i, e => (i, e)
  | v :: vs, i, e =>
    let r := rle.Put e.encoder_ v
    if r.1 = false then (i, { e with encoder_ := r.2 })
    else addLoop rle vs (i + 1) { e with encoder_ := r.2 }

/-- `Add(const bool* values, int num_values)`. -/
def Add {σ : Type} (rle : RleEncoder σ) (e : BoolEncoder σ) (values : List Bool) :
    Int × BoolEncoder σ :=
  addLoop rle values 0 e

/-- `num_values()`. -/
def num_values {σ : Type} (e : BoolEncoder σ) : Int := e.num_values_

end BoolEncoder

/-- The state of a `BoolDecoder`. -/
structure BoolDecoder (σ : Type) where
  num_values_ : Int
  decoder_ : σ

namespace BoolDecoder

/-- `SetData(int num_values, const uint8_t* data, int len)` for a page `data` of `len`
bytes. -/
def SetData {σ : Type} (rle : RleDecoder σ) (_d : BoolDecoder σ) (num_values : Int)
    (data : List Nat) : BoolDecoder σ :=
  ⟨num_values, rle.create data data.length 1⟩

/-- `values_left()`. -/
def values_left {σ : Type} (d : BoolDecoder σ) : Int := d.num_values_

/-- One iteration of the loop of `Get`: `if (!decoder_.Get(&buffer[i]))
ParquetException::EofException();`. -/
def getStep {σ : Type} (rle : RleDecoder σ) (d : BoolDecoder σ) :
    Except Err (Bool × BoolDecoder σ) :=
  let r := rle.Get d.decoder_
  if r.1 = false then throw Err.eof
  else pure (r.2.1, { d with decoder_ := r.2.2 })

/-- `Get(bool* buffer, int max_values)`: the returned count, the values stored, and the
decoder afterwards. -/
def Get {σ : Type} (rle : RleDecoder σ) (d : BoolDecoder σ) (max_values : Int) :
    Except Err (Int × List Bool × BoolDecoder σ) :=
  let max_values := min max_values d.num_values_
  match getLoop (getStep rle) max_values.toNat d with
  | Except.error e => throw e
  | Except.ok (vs, d1) =>
    pure (max_values, vs, { d1 with num_values_ := d1.num_values_ - max_values })

end BoolDecoder

/-! ## Delta length byte-array codec (`delta-length-byte-array-encoding.h`) -/

/-- The state of a `DeltaLengthByteArrayEncoder`; `buffer_` holds the `buffer_size_`
bytes of the allocation. -/
structure DeltaLengthByteArrayEncoder where
  buffer_size_ : Int
  buffer_ : List Nat
  num_values_ : Int
  len_encoder_ : DeltaBitPackEncoder
  offset_ : Int
  plain_encoded_len_ : Int
  deriving DecidableEq

namespace DeltaLengthByteArrayEncoder

/-- The constructor `DeltaLengthByteArrayEncoder(buffer_size, mini_block_size)`; `mem` is
the unspecified content of the `buffer_size` bytes of the new buffer. The length
encoder is `len_encoder_(INT32, 1, mini_block_size)`. -/
def new (mem : List Nat) (mini_block_size : Int) : DeltaLengthByteArrayEncoder :=
  ⟨mem.length, mem, 0, ⟨PType.INT32, 1, 0, mini_block_size, []⟩, 0, 0⟩

/-- `AddValue(const uint8_t* ptr, int len)` for the `len` bytes `s`. -/
def AddValue (e : DeltaLengthByteArrayEncoder) (s : List Nat) :
    Except Err DeltaLengthByteArrayEncoder :=
  match memWrite e.buffer_ e.offset_ s with
  | Except.error err => throw err
  | Except.ok buf =>
    pure { e with
      plain_encoded_len_ := e.plain_encoded_len_ + s.length + 4
      len_encoder_ := (e.len_encoder_.Add [(s.length : Int)]).2
      buffer_ := buf
      offset_ := e.offset_ + s.length
      num_values_ := e.num_values_ + 1 }

/-- The loop of `Add`: `AddValue` on each value in turn. -/
def addLoop : List (List Nat) → DeltaLengthByteArrayEncoder →
    Except Err DeltaLengthByteArrayEncoder
  | [], e => pure e
  | v :: vs, e =>
    match e.AddValue v with
    | Except.error err => throw err
    | Except.ok e1 => addLoop vs e1

/-- `Add(const ByteArray* values, int num_values)`; each value is given by its bytes.
Returns `num_values`. -/
def Add (e : DeltaLengthByteArrayEncoder) (values : List (List Nat)) :
    Except Err (Int × DeltaLengthByteArrayEncoder) :=
  match addLoop values e with
  | Except.error err => throw err
  | Except.ok e1 => pure (values.length, e1)

/-- `Encode(int* encoded_len)`: the page (the first `*encoded_len` bytes of `buffer_`)
and the encoder afterwards. -/
def Encode (e : DeltaLengthByteArrayEncoder) :
    Except Err (List Nat × DeltaLengthByteArrayEncoder) :=
  match e.len_encoder_.Encode with
  | Except.error err => throw err
  | Except.ok (encoded_lengths, le) =>
    let encoded_len : Int := encoded_lengths.length
    match memRead e.buffer_ 0 e.offset_ with
    | Except.error err => throw err
    | Except.ok moved =>
      match memWrite e.buffer_ (encoded_len + 4) moved with
      | Except.error err => throw err
      | Except.ok buf1 =>
        match memWrite buf1 0 (leBytes 4 encoded_lengths.length) with
        | Except.error err => throw err
        | Except.ok buf2 =>
          match memWrite buf2 4 encoded_lengths with
          | Except.error err => throw err
          | Except.ok buf3 =>
            pure (buf3.take (encoded_len + e.offset_ + 4).toNat,
              { e with buffer_ := buf3, len_encoder_ := le })

/-- `Reset()`. -/
def Reset (e : DeltaLengthByteArrayEncoder) : DeltaLengthByteArrayEncoder :=
  { e with len_encoder_ := e.len_encoder_.Reset, offset_ := 0, plain_encoded_len_ := 0 }

/-- `num_values()`. -/
def num_values (e : DeltaLengthByteArrayEncoder) : Int := e.num_values_

end DeltaLengthByteArrayEncoder

/-- The state of a `DeltaLengthByteArrayDecoder`: `page_` is the buffer given to
`SetData` and `data_` the position of the cursor in it. -/
structure DeltaLengthByteArrayDecoder where
  num_values_ : Int
  len_decoder_ : DeltaBitPackDecoder
  page_ : List Nat
  data_ : Int
  len_ : Int
  deriving DecidableEq

namespace DeltaLengthByteArrayDecoder

/-- The constructor `DeltaLengthByteArrayDecoder()`; `idx0` is the start value of the
length decoder's `mini_block_idx_`. -/
def new (idx0 : Int) : DeltaLengthByteArrayDecoder :=
  ⟨0, ⟨PType.INT32, 0, ⟨[], 0⟩, 0, 0, 0, 0, 0, idx0, [], 0, 0⟩, [], 0, 0⟩

/-- `SetData(int num_values, const uint8_t* data, int len)` for a page `data` of `len`
bytes. -/
def SetData (d : DeltaLengthByteArrayDecoder) (num_values : Int) (data : List Nat) :
    Except Err DeltaLengthByteArrayDecoder :=
  if data.length = 0 then pure { d with num_values_ := num_values }
  else
    match memRead data 0 4 with
    | Except.error e => throw e
    | Except.ok bs =>
      let total_lengths_len := wrap32 (leValue bs)
      pure { d with
        num_values_ := num_values
        len_decoder_ :=
          d.len_decoder_.SetData num_values ((data.drop 4).take total_lengths_len.toNat)
        page_ := data
        data_ := 4 + total_lengths_len
        len_ := data.length - 4 - total_lengths_len }

/-- The loop `for (i = 0; i < max_values; ++i)` of `Get` over the decoded lengths. -/
def viewLoop : List Int → DeltaLengthByteArrayDecoder →
    List ByteArray × DeltaLengthByteArrayDecoder
  | [], d => ([], d)
  | l :: ls, d =>
    let r := viewLoop ls { d with data_ := d.data_ + l, len_ := d.len_ - l }
    (⟨toU32 l, d.data_⟩ :: r.1, r.2)

/-- `Get(ByteArray* buffer, int max_values)`: the returned count, the values stored, and
the decoder afterwards. -/
def Get (d : DeltaLengthByteArrayDecoder) (max_values : Int) :
    Except Err (Int × List ByteArray × DeltaLengthByteArrayDecoder) :=
  let max_values := min max_values d.num_values_
  match d.len_decoder_.Get max_values with
  | Except.error e => throw e
  | Except.ok (_, lengths, ld) =>
    if lengths.length < max_values.toNat then throw Err.uninit
    else
      let r := viewLoop lengths { d with len_decoder_ := ld }
      pure (max_values, r.1, { r.2 with num_values_ := r.2.num_values_ - max_values })

end DeltaLengthByteArrayDecoder

/-! ## Delta byte-array codec (`delta-byte-array-encoding.h`) -/

/-- The state of a `DeltaByteArrayEncoder` (the base-class `buffer_` is never touched by
this class and is left out). -/
structure DeltaByteArrayEncoder where
  buffer_size_ : Int
  num_values_ : Int
  prefix_len_encoder_ : DeltaBitPackEncoder
  suffix_encoder_ : DeltaLengthByteArrayEncoder
  last_value_ : List Nat
  plain_encoded_len_ : Int
  deriving DecidableEq

namespace DeltaByteArrayEncoder

/-- The constructor `DeltaByteArrayEncoder(buffer_size)`; `mem` is the unspecified
content of the `buffer_size` bytes of the suffix encoder's buffer. Both inner encoders
take the default mini-block size 8. -/
def new (mem : List Nat) : DeltaByteArrayEncoder :=
  ⟨mem.length, 0, ⟨PType.INT32, mem.length, 0, 8, []⟩,
    DeltaLengthByteArrayEncoder.new mem 8, [], 0⟩

/-- The value of the `char` of a `std::string` that holds the byte `b`, promoted to `int`:
`char` is signed on the x86 targets of the code, so the bytes from `0x80` on are
negative. -/
def charValue (b : Nat) : Int := if b < 128 then (b : Int) else ((b % 256 : Nat) : Int) - 256

/-- The loop `for (i = 0; i < min_len; ++i) if (ptr[i] == last_value_[i]) ++prefix_len;
else break;` on the two strings cut to `min_len`. `ptr[i]` is a `uint8_t` and
`last_value_[i]` a `char`; the comparison is made on their promotions to `int`. -/
def prefixLoop : List Nat → List Nat → Int
  | a :: as, b :: bs => if (a : Int) = charValue b then prefixLoop as bs + 1 else 0
  | _, _ => 0

/-- `AddValue(const uint8_t* ptr, int len)` for the `len` bytes `s`. -/
def AddValue (e : DeltaByteArrayEncoder) (s : List Nat) : Except Err DeltaByteArrayEncoder :=
  let prefix_len := prefixLoop s e.last_value_
  match e.suffix_encoder_.AddValue (s.drop prefix_len.toNat) with
  | Except.error err => throw err
  | Except.ok se =>
    pure { e with
      plain_encoded_len_ := e.plain_encoded_len_ + s.length + 4
      prefix_len_encoder_ := (e.prefix_len_encoder_.Add [prefix_len]).2
      suffix_encoder_ := se
      last_value_ := s
      num_values_ := e.num_values_ + 1 }

/-- The loop of `Add`: `AddValue` on each value in turn. -/
def addLoop : List (List Nat) → DeltaByteArrayEncoder → Except Err DeltaByteArrayEncoder
  | [], e => pure e
  | v :: vs, e =>
    match e.AddValue v with
    | Except.error err => throw err
    | Except.ok e1 => addLoop vs e1

/-- `Add(const ByteArray* values, int num_values)`; each value is given by its bytes.
Returns `num_values`. -/
def Add (e : DeltaByteArrayEncoder) (values : List (List Nat)) :
    Except Err (Int × DeltaByteArrayEncoder) :=
  match addLoop values e with
  | Except.error err => throw err
  | Except.ok e1 => pure (values.length, { e1 with num_values_ := e1.num_values_ + values.length })

/-- The loop of `TestValues` for strings (`encoding-test.cc`): `e->Add(&ba, 1)` on each
string in turn. -/
def addEach : List (List Nat) → DeltaByteArrayEncoder → Except Err DeltaByteArrayEncoder
  | [], e => pure e
  | v :: vs, e =>
    match e.Add [v] with
    | Except.error err => throw err
    | Except.ok (_, e1) => addEach vs e1

/-- A caller's successive calls `Add(values, n)` for the sub-batches `bs`, in order. -/
def addBatches : List (List (List Nat)) → DeltaByteArrayEncoder →
    Except Err DeltaByteArrayEncoder
  | [], e => pure e
  | b :: bs, e =>
    match e.Add b with
    | Except.error err => throw err
    | Except.ok (_, e1) => addBatches bs e1

/-- `Encode(int* encoded_len)`: the page (the first `*encoded_len` bytes of the new
buffer) and the encoder afterwards. -/
def Encode (e : DeltaByteArrayEncoder) : Except Err (List Nat × DeltaByteArrayEncoder) :=
  match e.prefix_len_encoder_.Encode with
  | Except.error err => throw err
  | Except.ok (prefix_buffer, pe) =>
    match e.suffix_encoder_.Encode with
    | Except.error err => throw err
    | Except.ok (suffix_buffer, se) =>
      if 4 + prefix_buffer.length + suffix_buffer.length ≤ SCRATCH then
        pure (leBytes 4 prefix_buffer.length ++ prefix_buffer ++ suffix_buffer,
          { e with prefix_len_encoder_ := pe, suffix_encoder_ := se })
      else throw Err.outOfRange

/-- `Reset()`. -/
def Reset (e : DeltaByteArrayEncoder) : DeltaByteArrayEncoder :=
  { e with
    prefix_len_encoder_ := e.prefix_len_encoder_.Reset
    suffix_encoder_ := e.suffix_encoder_.Reset
    last_value_ := []
    plain_encoded_len_ := 0 }

/-- `num_values()`. -/
def num_values (e : DeltaByteArrayEncoder) : Int := e.num_values_

end DeltaByteArrayEncoder

/-- The state of a `DeltaByteArrayDecoder`. `last_value_` is the buffer the member
`last_value_` points to, `none` while the member has not been assigned. -/
structure DeltaByteArrayDecoder where
  num_values_ : Int
  prefix_len_decoder_ : DeltaBitPackDecoder
  suffix_decoder_ : DeltaLengthByteArrayDecoder
  last_value_ : Option (List Nat)
  deriving DecidableEq

namespace DeltaByteArrayDecoder

/-- The constructor `DeltaByteArrayDecoder()`; `idx0` and `idx1` are the start values of
`mini_block_idx_` in the two inner delta decoders. -/
def new (idx0 idx1 : Int) : DeltaByteArrayDecoder :=
  ⟨0, ⟨PType.INT32, 0, ⟨[], 0⟩, 0, 0, 0, 0, 0, idx0, [], 0, 0⟩,
    DeltaLengthByteArrayDecoder.new idx1, none⟩

/-- `SetData(int num_values, const uint8_t* data, int len)` for a page `data` of `len`
bytes. -/
def SetData (d : DeltaByteArrayDecoder) (num_values : Int) (data : List Nat) :
    Except Err DeltaByteArrayDecoder :=
  if data.length = 0 then pure { d with num_values_ := num_values }
  else
    memRead data 0 4 >>= fun bs =>
      let prefix_len_length := wrap32 (leValue bs)
      d.suffix_decoder_.SetData num_values ((data.drop 4).drop prefix_len_length.toNat)
        >>= fun sd =>
          pure { d with
            num_values_ := num_values
            prefix_len_decoder_ :=
              d.prefix_len_decoder_.SetData num_values
                ((data.drop 4).take prefix_len_length.toNat)
            suffix_decoder_ := sd }

/-- The `prefix_len` bytes `memcpy` reads at `last_value_.ptr`. -/
def readLast (last : Option (List Nat)) (prefix_len : Int) : Except Err (List Nat) :=
  if prefix_len = 0 then pure []
  else
    match last with
    | none => throw Err.uninit
    | some l => memRead l 0 prefix_len

/-- One iteration of the loop of `Get`: the bytes of the new buffer `buffer[i].ptr`
(`buffer[i].len` is their number) and the decoder afterwards. -/
def getStep (d : DeltaByteArrayDecoder) : Except Err (List Nat × DeltaByteArrayDecoder) :=
  match d.prefix_len_decoder_.Get 1 with
  | Except.error e => throw e
  | Except.ok (_, ps, pd) =>
    let prefix_len : Int := ps.headD 0
    match d.suffix_decoder_.Get 1 with
    | Except.error e => throw e
    | Except.ok (_, ss, sd) =>
      match ss with
      | [] => throw Err.uninit
      | suffix :: _ =>
        if prefix_len < 0 then throw Err.outOfRange
        else
          match readLast d.last_value_ prefix_len with
          | Except.error e => throw e
          | Except.ok pre =>
            match memRead sd.page_ suffix.ptr suffix.len with
            | Except.error e => throw e
            | Except.ok suf =>
              if toU32 (prefix_len + suffix.len) ≠ pre.length + suf.length then
                throw Err.outOfRange
              else
                pure (pre ++ suf,
                  { d with
                    prefix_len_decoder_ := pd
                    suffix_decoder_ := sd
                    last_value_ := some (pre ++ suf) })

/-- `Get(ByteArray* buffer, int max_values)`: the returned count, the byte strings
stored, and the decoder afterwards. -/
def Get (d : DeltaByteArrayDecoder) (max_values : Int) :
    Except Err (Int × List (List Nat) × DeltaByteArrayDecoder) :=
  let max_values := min max_values d.num_values_
  match getLoop getStep max_values.toNat d with
  | Except.error e => throw e
  | Except.ok (vs, d1) =>
    pure (max_values, vs, { d1 with num_values_ := d1.num_values_ - max_values })

end DeltaByteArrayDecoder

/-! ## Decoder positions

The state of a `DeltaBitPackDecoder` in the middle of the page of `V`. -/

/-- The decoder `d` has parsed the block header of the page of `V` (mini-block size `m`)
and has consumed `t` of its bit-packed deltas, so that `V[t]` is the value it produced
last; `tail` is what follows the payload in the reader. -/
def DeltaBitPack.DecoderAt (m : Nat) (V : List Int) (tail : List Bool) (t : Nat)
    (d : DeltaBitPackDecoder) : Prop :=
  d.decoder_.rest
      = DeltaBitPack.slotsFrom m (DeltaBitPack.deltas V)
          (DeltaBitPack.numMiniBlocks m V.length * m - t) t ++ tail
    ∧ d.values_per_mini_block_ = m
    ∧ d.min_delta_ = DeltaBitPack.minDelta (DeltaBitPack.deltas V)
    ∧ d.delta_bit_widths_
      = DeltaBitPack.widthsFrom m (DeltaBitPack.deltas V)
          (DeltaBitPack.numMiniBlocks m V.length) 0
    ∧ d.last_value_ = V.getD t 0
    ∧ ∃ i : Nat, d.mini_block_idx_ = (i : Int) ∧ i < DeltaBitPack.numMiniBlocks m V.length
        ∧ d.delta_bit_width_ = DeltaBitPack.widthOf m (DeltaBitPack.deltas V) i
        ∧ i * m + (m - d.values_current_mini_block_) = t
        ∧ d.values_current_mini_block_ ≤ m

/-- The decoder `d` is about to produce `V[j]` from the page of `V`: either it has just
been given the page and has no mini block left over (`j = 0`), or it has parsed the
block header and produced `V[0 .. j)`. -/
def DeltaBitPack.DecoderReady (m : Nat) (V : List Int) (j : Nat) (d : DeltaBitPackDecoder) :
    Prop :=
  (j = 0 ∧ d.decoder_ = BitReader.new (DeltaBitPack.page m V)
      ∧ d.values_current_mini_block_ = 0 ∧ d.delta_bit_widths_ = [])
    ∨ (1 ≤ j ∧ DeltaBitPack.DecoderAt m V
        (List.replicate (BitWriter.padLen (DeltaBitPack.pageBits m V).length) false) (j - 1) d)

/-! ## The layout of the byte-array pages

The pages of sections 4.5 and 4.6 in closed form. -/

namespace DeltaLength

/-- The lengths of the strings, as the `int` values handed to the length encoder. -/
def lengths (S : List (List Nat)) : List Int := S.map (fun s => (s.length : Int))

/-- The delta length page of `S` (section 4.5): the byte count of the lengths page as a
32-bit little-endian word, the delta binary packed page of the lengths, and the strings
one after the other. -/
def page (m : Nat) (S : List (List Nat)) : List Nat :=
  leBytes 4 (DeltaBitPack.page m (lengths S)).length ++ DeltaBitPack.page m (lengths S)
    ++ S.flatten

/-- The decoder `d` is about to produce `S[j]` from the delta length page of `S`. -/
def DecoderReady (m : Nat) (S : List (List Nat)) (j : Nat)
    (d : DeltaLengthByteArrayDecoder) : Prop :=
  d.page_ = page m S
    ∧ d.data_ = ((4 + (DeltaBitPack.page m (lengths S)).length + (S.take j).flatten.length
        : Nat) : Int)
    ∧ DeltaBitPack.DecoderReady m (lengths S) j d.len_decoder_
    ∧ d.len_decoder_.type_ = PType.INT32
    ∧ d.len_decoder_.num_values_ = d.num_values_

end DeltaLength

namespace DeltaByteArray

/-- The prefix lengths `AddValue` hands to the prefix encoder for the strings `S`, when
`last` is the value of `last_value_` before the first of them. -/
def prefixLens : List Nat → List (List Nat) → List Int
  | _, [] => []
  | last, s :: S => DeltaByteArrayEncoder.prefixLoop s last :: prefixLens s S

/-- The suffixes `AddValue` hands to the suffix encoder for the strings `S`. -/
def suffixes : List Nat → List (List Nat) → List (List Nat)
  | _, [] => []
  | last, s :: S => s.drop (DeltaByteArrayEncoder.prefixLoop s last).toNat :: suffixes s S

/-- The value of `last_value_` after the strings `S`, when it was `last` before. -/
def lastOf : List Nat → List (List Nat) → List Nat
  | last, [] => last
  | _, s :: S => lastOf s S

/-- The string before `S[j]`: `last` for the first one. -/
def prevOf (last : List Nat) (S : List (List Nat)) (j : Nat) : List Nat :=
  if j = 0 then last else S.getD (j - 1) []

/-- The delta byte-array page of `S` (section 4.6): the byte count of the prefix lengths
page as a 32-bit little-endian word, the delta binary packed page of the prefix lengths,
and the delta length page of the suffixes; `m` is the mini-block size of both inner
pages (8 in `DeltaByteArrayEncoder`). -/
def page (m : Nat) (S : List (List Nat)) : List Nat :=
  leBytes 4 (DeltaBitPack.page m (prefixLens [] S)).length
    ++ DeltaBitPack.page m (prefixLens [] S) ++ DeltaLength.page m (suffixes [] S)

/-- The decoder `d` is about to produce `S[j]` from the delta byte-array page of `S`. -/
def DecoderReady (m : Nat) (S : List (List Nat)) (j : Nat) (d : DeltaByteArrayDecoder) :
    Prop :=
  DeltaBitPack.DecoderReady m (prefixLens [] S) j d.prefix_len_decoder_
    ∧ d.prefix_len_decoder_.type_ = PType.INT32
    ∧ d.prefix_len_decoder_.num_values_ = (S.length : Int) - (j : Int)
    ∧ DeltaLength.DecoderReady m (suffixes [] S) j d.suffix_decoder_
    ∧ d.suffix_decoder_.num_values_ = (S.length : Int) - (j : Int)
    ∧ (1 ≤ j → d.last_value_ = some (S.getD (j - 1) []))

end DeltaByteArray

/-! ## Encoder states

What the member functions of a `PlainEncoder` keep true of its members. -/

/-- The members of a `PlainEncoder` of declared type `T` over a buffer of `B` bytes are
consistent: the constants are those the constructor computed, and the staged bytes end
at `offset_` inside the buffer; for a fixed-size type `offset_` is `num_values_` objects
and `num_values_` is at most `max_values_`. -/
def PlainEncoder.Inv (T : PType) (B : Nat) (e : PlainEncoder) : Prop :=
  e.type_ = T ∧ e.buffer_size_ = (B : Int) ∧ e.buffer_.length = B
    ∧ PlainEncoder.valueSize T = Except.ok e.value_size_
    ∧ e.max_values_ = Int.tdiv (B : Int) e.value_size_
    ∧ 0 ≤ e.num_values_ ∧ 0 ≤ e.offset_ ∧ e.offset_ ≤ (B : Int)
    ∧ (T ≠ PType.BYTE_ARRAY →
        e.num_values_ ≤ e.max_values_ ∧ e.offset_ = e.num_values_ * e.value_size_)

/-! ## Varint framing

The reading of a base-128 varint in the words of section 4.1: "7 data bits per byte, MSB
continuation bit". -/

/-- The number a base-128 varint stands for: the low 7 bits of each byte, least
significant group first. -/
def vlqValue : List Nat → Nat
  | [] => 0
  | b :: bs => b % 128 + 128 * vlqValue bs

/-- The framing of a varint: every byte but the last has the continuation bit `0x80`, the
last one has not. -/
def vlqFramed : List Nat → Prop
  | [] => False
  | [b] => b < 128
  | b :: c :: bs => 128 ≤ b ∧ b < 256 ∧ vlqFramed (c :: bs)

/-! ## Inputs used in the statements below -/

/-- The plain layout of byte strings (section 4.3): each one as its 4-byte little-endian
length followed by its bytes, one after the other. -/
def plainByteArrays : List (List Nat) → List Nat
  | [] => []
  | s :: S => leBytes 4 s.length ++ s ++ plainByteArrays S

/-- The total of `4 + len` over the byte strings. -/
def plainByteArraysSize : List (List Nat) → Nat
  | [] => 0
  | s :: S => 4 + s.length + plainByteArraysSize S

/-- The object representation of an `int64_t`: its 8 bytes, least significant first. -/
def int64Bytes (x : Int) : List Nat := leBytes 8 (toU64 x)

/-- The first strings of `TEST(StringEncoder, Basic)`: "myxa", "myxophyta", "myxopod",
"nab", "nabbed". -/
def testStrings : List (List Nat) :=
  [[109, 121, 120, 97], [109, 121, 120, 111, 112, 104, 121, 116, 97],
    [109, 121, 120, 111, 112, 111, 100], [110, 97, 98], [110, 97, 98, 98, 101, 100]]

/-- The strings of `testStrings` in three sub-batches, the second of them empty. -/
def testBatches : List (List (List Nat)) :=
  [[[109, 121, 120, 97], [109, 121, 120, 111, 112, 104, 121, 116, 97]], [],
    [[109, 121, 120, 111, 112, 111, 100], [110, 97, 98], [110, 97, 98, 98, 101, 100]]]

/-- 83 886 090 empty strings: their lengths are `manyZeros`. -/
def manyEmpty : List (List Nat) := List.replicate 83886090 []

/-- The state of the `DeltaByteArrayEncoder` of `TEST(StringEncoder, Basic)` (128-byte
buffer, here zero-filled) after `AddValue("myxophyta")`. -/
def afterMyxophyta : DeltaByteArrayEncoder :=
  ⟨128, 1, ⟨PType.INT32, 128, 1, 8, [0]⟩,
    ⟨128, [109, 121, 120, 111, 112, 104, 121, 116, 97] ++ List.replicate 119 0, 1,
      ⟨PType.INT32, 1, 1, 8, [9]⟩, 9, 13⟩,
    [109, 121, 120, 111, 112, 104, 121, 116, 97], 13⟩

/-- A byte string of `2^31 - 4` bytes: with its length word it takes `2^31` bytes, one
more than an `int` can hold. -/
def hugeString : List Nat := List.replicate 2147483644 0

/-- The content of a buffer of `2^31 - 1` bytes, the largest `buffer_size` an `int` can
hold. -/
def bigBuffer : List Nat := List.replicate 2147483647 0

/-- A sequence of 83 886 090 zeros: with the default mini-block size 8 it has 10 485 762
mini blocks, two more than the scratch buffer has bytes. -/
def manyZeros : List Int := List.replicate 83886090 0

end ParquetCpp

namespace ParquetCpp

/-! ## Bits and bytes: basic facts -/

theorem lowBits_length (k v : Nat) : (lowBits k v).length = k := by
  induction k generalizing v with
  | zero => rfl
  | succ k ih => simp [lowBits, ih]

theorem bitsToNat_lowBits (k v : Nat) : bitsToNat (lowBits k v) = v % 2 ^ k := by
  induction k generalizing v with
  | zero => simp [lowBits, bitsToNat, Nat.mod_one]
  | succ k ih =>
    simp only [lowBits, bitsToNat, ih]
    have h1 : v % 2 ^ (k + 1) = v % 2 + 2 * (v / 2 % 2 ^ k) := by
      rw [pow_succ, mul_comm, Nat.mod_mul]
    rw [h1]
    rcases Nat.mod_two_eq_zero_or_one v with h | h <;> simp [h]

theorem lowBits_bitsToNat (bs : List Bool) : lowBits bs.length (bitsToNat bs) = bs := by
  induction bs with
  | nil => rfl
  | cons b bs ih =>
    cases b
    · simp only [List.length_cons, lowBits, bitsToNat]
      have h1 : (0 + 2 * bitsToNat bs) % 2 = 0 := by omega
      have h2 : (0 + 2 * bitsToNat bs) / 2 = bitsToNat bs := by omega
      simp [h1, h2, ih]
    · simp only [List.length_cons, lowBits, bitsToNat]
      have h1 : (1 + 2 * bitsToNat bs) % 2 = 1 := by omega
      have h2 : (1 + 2 * bitsToNat bs) / 2 = bitsToNat bs := by omega
      simp [h1, h2, ih]

theorem lowBits_zero (k : Nat) : lowBits k 0 = List.replicate k false := by
  induction k with
  | zero => rfl
  | succ k ih => simp [lowBits, ih, List.replicate_succ]

theorem bytesToBits_length (bs : List Nat) : (bytesToBits bs).length = 8 * bs.length := by
  induction bs with
  | nil => rfl
  | cons b bs ih => simp [bytesToBits, lowBits_length, ih]; omega

theorem bytesToBits_append (as bs : List Nat) :
    bytesToBits (as ++ bs) = bytesToBits as ++ bytesToBits bs := by
  induction as with
  | nil => rfl
  | cons a as ih => simp [bytesToBits, ih]

theorem bytesToBits_bitsToBytesAux (f : Nat) (bs : List Bool) (h8 : bs.length % 8 = 0)
    (hf : bs.length ≤ 8 * f) : bytesToBits (bitsToBytesAux f bs) = bs := by
  induction f generalizing bs with
  | zero =>
    have : bs = [] := List.length_eq_zero.mp (by omega)
    subst this; rfl
  | succ f ih =>
    cases bs with
    | nil => rfl
    | cons b bs =>
      simp only [bitsToBytesAux, bytesToBits]
      have hlen : 8 ≤ (b :: bs).length := by
        have : (b :: bs).length ≠ 0 := by simp
        omega
      have ht : ((b :: bs).take 8).length = 8 := by
        rw [List.length_take]; omega
      have h1 : lowBits 8 (bitsToNat ((b :: bs).take 8)) = (b :: bs).take 8 := by
        have := lowBits_bitsToNat ((b :: bs).take 8)
        rwa [ht] at this
      rw [h1, ih]
      · exact List.take_append_drop 8 (b :: bs)
      · rw [List.length_drop]; omega
      · rw [List.length_drop]; omega

theorem bytesToBits_bitsToBytes (bs : List Bool) (h8 : bs.length % 8 = 0) :
    bytesToBits (bitsToBytes bs) = bs :=
  bytesToBits_bitsToBytesAux bs.length bs h8 (by omega)

theorem bitsToBytes_length (bs : List Bool) (h8 : bs.length % 8 = 0) :
    8 * (bitsToBytes bs).length = bs.length := by
  have := congrArg List.length (bytesToBits_bitsToBytes bs h8)
  rwa [bytesToBits_length] at this

theorem padLen_add (n : Nat) : (n + BitWriter.padLen n) % 8 = 0 := by
  unfold BitWriter.padLen; omega

theorem padLen_of_aligned (n : Nat) (h : n % 8 = 0) : BitWriter.padLen n = 0 := by
  unfold BitWriter.padLen; omega

theorem padLen_lt (n : Nat) : BitWriter.padLen n < 8 := by
  unfold BitWriter.padLen; omega

/-! ## Machine integers -/

theorem toU64_lt (x : Int) : toU64 x < 18446744073709551616 := by
  unfold toU64; omega

theorem toU64_wrap64 (x : Int) : toU64 (wrap64 x) = toU64 x := by
  unfold toU64 wrap64; omega

theorem wrap64_range (x : Int) :
    -9223372036854775808 ≤ wrap64 x ∧ wrap64 x < 9223372036854775808 := by
  unfold wrap64; omega

theorem toU64_of_nonneg (x : Int) (h1 : 0 ≤ x) (h2 : x < 18446744073709551616) :
    (toU64 x : Int) = x := by
  unfold toU64; omega

/-! ## Bit widths -/

theorem numBitsAux_le (f x : Nat) : BitUtil.numBitsAux f x ≤ f := by
  induction f generalizing x with
  | zero => simp [BitUtil.numBitsAux]
  | succ f ih =>
    simp only [BitUtil.numBitsAux]
    split
    · omega
    · have := ih (x / 2); omega

theorem lt_two_pow_numBitsAux (f x : Nat) (h : x < 2 ^ f) : x < 2 ^ BitUtil.numBitsAux f x := by
  induction f generalizing x with
  | zero => simp at h; subst h; simp [BitUtil.numBitsAux]
  | succ f ih =>
    simp only [BitUtil.numBitsAux]
    split
    · rename_i h0; subst h0; simp
    · have h2 : x / 2 < 2 ^ f := by
        rw [pow_succ] at h; omega
      have := ih (x / 2) h2
      rw [pow_succ]; omega

theorem NumRequiredBits_le (x : Nat) : BitUtil.NumRequiredBits x ≤ 64 :=
  numBitsAux_le 64 _

theorem numBitsAux_mono (f x y : Nat) (h : x ≤ y) :
    BitUtil.numBitsAux f x ≤ BitUtil.numBitsAux f y := by
  induction f generalizing x y with
  | zero => simp [BitUtil.numBitsAux]
  | succ f ih =>
    simp only [BitUtil.numBitsAux]
    by_cases hx : x = 0
    · simp [hx]
    · have hy : y ≠ 0 := by omega
      simp only [hx, hy, if_false]
      have := ih (x / 2) (y / 2) (Nat.div_le_div_right h)
      omega

theorem lt_two_pow_NumRequiredBits (u x : Nat) (hx : x < 18446744073709551616) (h : u ≤ x) :
    u < 2 ^ BitUtil.NumRequiredBits x := by
  unfold BitUtil.NumRequiredBits
  rw [Nat.mod_eq_of_lt hx]
  have h1 : x < 2 ^ BitUtil.numBitsAux 64 x := lt_two_pow_numBitsAux 64 x (by norm_num; exact hx)
  omega

end ParquetCpp

namespace ParquetCpp

/-! ## Zig-zag -/

theorem xor_allOnes (n x : Nat) (h : x < 2 ^ n) : x ^^^ (2 ^ n - 1) = 2 ^ n - (x + 1) := by
  apply Nat.eq_of_testBit_eq
  intro i
  rw [Nat.testBit_xor, Nat.testBit_two_pow_sub_one, Nat.testBit_two_pow_sub_succ h]
  by_cases hi : i < n
  · simp [hi]
  · have hx : x.testBit i = false :=
      Nat.testBit_lt_two_pow (lt_of_lt_of_le h (Nat.pow_le_pow_right (by norm_num) (by omega)))
    simp [hi, hx]

theorem xor_mask64 (x : Nat) (h : x < 18446744073709551616) :
    x ^^^ 18446744073709551615 = 18446744073709551615 - x := by
  have := xor_allOnes 64 x (by norm_num; exact h)
  norm_num at this
  rw [this]; omega

theorem zigZag_nonneg (s : Int) (h1 : 0 ≤ s) (h2 : s < 9223372036854775808) :
    (BitWriter.zigZag s : Int) = 2 * s := by
  unfold BitWriter.zigZag toU64
  have hs : ¬ s < 0 := by omega
  simp only [hs, if_false, Nat.xor_zero]
  omega

theorem zigZag_neg (s : Int) (h1 : -9223372036854775808 ≤ s) (h2 : s < 0) :
    (BitWriter.zigZag s : Int) = -2 * s - 1 := by
  unfold BitWriter.zigZag toU64
  simp only [h2, if_true]
  rw [xor_mask64 _ (Nat.mod_lt _ (by norm_num))]
  omega

theorem zigZag_lt (s : Int) (h1 : -9223372036854775808 ≤ s) (h2 : s < 9223372036854775808) :
    BitWriter.zigZag s < 18446744073709551616 := by
  by_cases h : 0 ≤ s
  · have := zigZag_nonneg s h h2; omega
  · have := zigZag_neg s h1 (by omega); omega

theorem unZigZag_zigZag (s : Int) (h1 : -9223372036854775808 ≤ s)
    (h2 : s < 9223372036854775808) : BitReader.unZigZag (BitWriter.zigZag s) = s := by
  unfold BitReader.unZigZag
  by_cases h : 0 ≤ s
  · have hz := zigZag_nonneg s h h2
    have hm : BitWriter.zigZag s % 2 = 0 := by omega
    have hne : ¬ (BitWriter.zigZag s % 2 = 1) := by omega
    simp only [hne, if_false, Nat.xor_zero]
    unfold wrap64
    omega
  · have hz := zigZag_neg s h1 (by omega)
    have hm : BitWriter.zigZag s % 2 = 1 := by omega
    simp only [hm, if_true]
    rw [xor_mask64 _ (by omega)]
    unfold wrap64
    omega

/-! ## The bit writer -/

theorem align_of_aligned (w : BitWriter) (h : w.bits.length % 8 = 0) : w.align = w := by
  unfold BitWriter.align
  rw [padLen_of_aligned _ h]
  simp

theorem PutValue_fits (w : BitWriter) (v k : Nat) (h : w.bits.length + k ≤ 8 * w.max_bytes) :
    w.PutValue v k = (true, ⟨w.max_bytes, w.bits ++ lowBits k v⟩) := by
  unfold BitWriter.PutValue
  simp [h]

theorem PutBytes_fits (bs : List Nat) (w : BitWriter) (ha : w.bits.length % 8 = 0)
    (h : w.bits.length + 8 * bs.length ≤ 8 * w.max_bytes) :
    w.PutBytes bs = (true, ⟨w.max_bytes, w.bits ++ bytesToBits bs⟩) := by
  induction bs generalizing w with
  | nil => simp [BitWriter.PutBytes, bytesToBits]
  | cons b bs ih =>
    simp only [BitWriter.PutBytes, BitWriter.PutByte, align_of_aligned w ha]
    simp only [List.length_cons] at h
    rw [PutValue_fits w b 8 (by omega)]
    simp only
    rw [ih]
    · simp [bytesToBits]
    · simp [lowBits_length]; omega
    · simp [lowBits_length]; omega

theorem PutVlqInt_fits (w : BitWriter) (v : Nat) (hv : v < 18446744073709551616)
    (ha : w.bits.length % 8 = 0)
    (h : w.bits.length + 8 * (BitWriter.vlqBytes 9 v).length ≤ 8 * w.max_bytes) :
    w.PutVlqInt v = (true, ⟨w.max_bytes, w.bits ++ bytesToBits (BitWriter.vlqBytes 9 v)⟩) := by
  unfold BitWriter.PutVlqInt
  rw [Nat.mod_eq_of_lt hv]
  exact PutBytes_fits _ w ha h

theorem GetNextBytePtr_fits (w : BitWriter) (n : Nat) (ha : w.bits.length % 8 = 0)
    (h : w.bits.length + 8 * n ≤ 8 * w.max_bytes) :
    w.GetNextBytePtr n =
      (some (w.bits.length / 8), ⟨w.max_bytes, w.bits ++ List.replicate (8 * n) false⟩) := by
  unfold BitWriter.GetNextBytePtr
  rw [align_of_aligned w ha]
  simp [h]

theorem setByte_mid (cap : Nat) (X Y Z : List Bool) (off b : Nat) (hX : X.length = 8 * off)
    (hY : Y.length = 8) :
    (BitWriter.mk cap (X ++ Y ++ Z)).setByte off b = ⟨cap, X ++ lowBits 8 b ++ Z⟩ := by
  unfold BitWriter.setByte
  simp only [BitWriter.mk.injEq, true_and]
  have h1 : (X ++ Y ++ Z).take (8 * off) = X := by
    rw [List.append_assoc, List.take_append_of_le_length (by omega), ← hX, List.take_length]
  have h2 : (X ++ Y ++ Z).drop (8 * off + 8) = Z := by
    have : 8 * off + 8 = (X ++ Y).length := by simp [hX, hY]
    rw [this, List.drop_left]
  rw [h1, h2]

/-! ## The bit reader -/

theorem GetValue_append (r : BitReader) (k u : Nat) (tail : List Bool)
    (hr : r.rest = lowBits k u ++ tail) (hu : u < 2 ^ k) (hk : k ≤ 64) :
    r.GetValue k = some (u, ⟨tail, r.consumed + k⟩) := by
  unfold BitReader.GetValue
  have hlen : k ≤ r.rest.length := by rw [hr]; simp [lowBits_length]
  simp only [hlen, if_true]
  have h1 : r.rest.take k = lowBits k u := by
    rw [hr]
    have := lowBits_length k u
    rw [List.take_append_of_le_length (by omega)]
    exact List.take_of_length_le (by omega)
  have h2 : r.rest.drop k = tail := by
    rw [hr]
    have := lowBits_length k u
    conv => lhs; arg 1; rw [← this]
    rw [List.drop_left]
  rw [h1, h2, bitsToNat_lowBits, Nat.mod_eq_of_lt hu]
  have : u < 18446744073709551616 := by
    have : 2 ^ k ≤ 2 ^ 64 := Nat.pow_le_pow_right (by norm_num) hk
    norm_num at this
    omega
  rw [Nat.mod_eq_of_lt this]

theorem reader_align_of_aligned (r : BitReader) (h : r.consumed % 8 = 0) : r.align = r := by
  unfold BitReader.align
  rw [padLen_of_aligned _ h]
  simp

theorem GetByte_append (r : BitReader) (b : Nat) (tail : List Bool) (ha : r.consumed % 8 = 0)
    (hr : r.rest = lowBits 8 b ++ tail) (hb : b < 256) :
    r.GetByte = some (b, ⟨tail, r.consumed + 8⟩) := by
  unfold BitReader.GetByte
  rw [reader_align_of_aligned r ha]
  exact GetValue_append r 8 b tail hr (by norm_num; exact hb) (by norm_num)

theorem vlqBytes_length_pos (f v : Nat) : 0 < (BitWriter.vlqBytes f v).length := by
  cases f with
  | zero => simp [BitWriter.vlqBytes]
  | succ f =>
    simp only [BitWriter.vlqBytes]
    split <;> simp

theorem getVlqAux_vlqBytes (f : Nat) : ∀ (g v shift acc : Nat) (r : BitReader) (tail : List Bool),
    v < 128 ^ (f + 1) → f + 1 ≤ g → r.consumed % 8 = 0 →
    r.rest = bytesToBits (BitWriter.vlqBytes f v) ++ tail →
    BitReader.getVlqAux g r shift acc =
      some ((acc + v * 2 ^ shift) % 18446744073709551616,
        ⟨tail, r.consumed + 8 * (BitWriter.vlqBytes f v).length⟩) := by
  induction f with
  | zero =>
    intro g v shift acc r tail hv hg ha hr
    obtain ⟨g, rfl⟩ : ∃ g', g = g' + 1 := ⟨g - 1, by omega⟩
    have hv' : v < 128 := by simpa using hv
    simp only [BitWriter.vlqBytes, Nat.mod_eq_of_lt hv', bytesToBits, List.append_nil] at hr
    simp only [BitReader.getVlqAux, GetByte_append r v tail ha hr (by omega)]
    simp [hv', Nat.mod_eq_of_lt hv', BitWriter.vlqBytes]
  | succ f ih =>
    intro g v shift acc r tail hv hg ha hr
    obtain ⟨g, rfl⟩ : ∃ g', g = g' + 1 := ⟨g - 1, by omega⟩
    by_cases hv' : v < 128
    · simp only [BitWriter.vlqBytes, hv', if_true, bytesToBits, List.append_nil] at hr
      simp only [BitReader.getVlqAux, GetByte_append r v tail ha hr (by omega)]
      simp [hv', Nat.mod_eq_of_lt hv', BitWriter.vlqBytes]
    · simp only [BitWriter.vlqBytes, hv', if_false, bytesToBits, List.append_assoc] at hr
      simp only [BitReader.getVlqAux,
        GetByte_append r (v % 128 + 128) _ ha hr (by omega)]
      have hb : ¬ (v % 128 + 128 < 128) := by omega
      simp only [hb, if_false]
      have hdiv : v / 128 < 128 ^ (f + 1) := by
        rw [pow_succ] at hv
        exact Nat.div_lt_of_lt_mul (by rw [mul_comm]; exact hv)
      rw [ih g (v / 128) (shift + 7) _ ⟨_, r.consumed + 8⟩ tail hdiv (by omega)
        (by simp; omega) rfl]
      simp only [BitWriter.vlqBytes, hv', if_false, List.length_cons]
      have e1 : (v % 128 + 128) % 128 = v % 128 := by omega
      have e2 : acc + (v % 128 + 128) % 128 * 2 ^ shift + v / 128 * 2 ^ (shift + 7)
          = acc + v * 2 ^ shift := by
        rw [e1, pow_add]
        have := Nat.div_add_mod v 128
        calc acc + v % 128 * 2 ^ shift + v / 128 * (2 ^ shift * 2 ^ 7)
            = acc + (128 * (v / 128) + v % 128) * 2 ^ shift := by ring
          _ = acc + v * 2 ^ shift := by rw [this]
      rw [e2]
      congr 2
      simp only [BitReader.mk.injEq, true_and]
      omega

theorem GetVlqInt_vlqBytes (r : BitReader) (v : Nat) (tail : List Bool)
    (hv : v < 18446744073709551616) (ha : r.consumed % 8 = 0)
    (hr : r.rest = bytesToBits (BitWriter.vlqBytes 9 v) ++ tail) :
    r.GetVlqInt = some (v, ⟨tail, r.consumed + 8 * (BitWriter.vlqBytes 9 v).length⟩) := by
  unfold BitReader.GetVlqInt
  rw [getVlqAux_vlqBytes 9 10 v 0 0 r tail (by norm_num; omega) (by omega) ha hr]
  simp [Nat.mod_eq_of_lt hv]

theorem GetZigZagVlqInt_vlqBytes (r : BitReader) (s : Int) (tail : List Bool)
    (h1 : -9223372036854775808 ≤ s) (h2 : s < 9223372036854775808) (ha : r.consumed % 8 = 0)
    (hr : r.rest = bytesToBits (BitWriter.vlqBytes 9 (BitWriter.zigZag s)) ++ tail) :
    r.GetZigZagVlqInt =
      some (s, ⟨tail, r.consumed + 8 * (BitWriter.vlqBytes 9 (BitWriter.zigZag s)).length⟩) := by
  unfold BitReader.GetZigZagVlqInt
  rw [GetVlqInt_vlqBytes r _ tail (zigZag_lt s h1 h2) ha hr]
  simp [unZigZag_zigZag s h1 h2]

end ParquetCpp

namespace ParquetCpp

/-! ## The delta loop of the encoder -/

open DeltaBitPack DeltaBitPackEncoder

theorem deltas_cons_cons (a b : Int) (rest : List Int) :
    deltas (a :: b :: rest) = wrap64 (b - a) :: deltas (b :: rest) := rfl

theorem minDelta_cons (d : Int) (ds : List Int) :
    minDelta (d :: ds) = min (minDelta ds) d := rfl

theorem deltas_snoc (Q : List Int) (z y : Int) :
    deltas (Q ++ [z, y]) = deltas (Q ++ [z]) ++ [wrap64 (y - z)] := by
  induction Q with
  | nil => simp [deltas]
  | cons a Q ih =>
    cases Q with
    | nil => simp [deltas]
    | cons b Q =>
      rw [List.cons_append, List.cons_append, List.cons_append, List.cons_append,
        deltas_cons_cons, deltas_cons_cons]
      rw [List.cons_append, List.cons_append] at ih
      rw [ih]
      rfl

theorem deltas_length (V : List Int) : (deltas V).length = V.length - 1 := by
  induction V with
  | nil => rfl
  | cons a V ih =>
    cases V with
    | nil => rfl
    | cons b V => simp only [deltas, List.length_cons, ih]; omega

theorem deltas_getD (V : List Int) (t : Nat) (h : t + 1 < V.length) :
    (deltas V).getD t 0 = wrap64 (V.getD (t + 1) 0 - V.getD t 0) := by
  induction V generalizing t with
  | nil => simp at h
  | cons a V ih =>
    cases V with
    | nil => simp at h
    | cons b V =>
      cases t with
      | zero => simp [deltas]
      | succ t =>
        simp only [deltas, List.getD_cons_succ]
        exact ih t (by simpa using h)

theorem deltas_range (V : List Int) : ∀ d ∈ deltas V,
    -9223372036854775808 ≤ d ∧ d < 9223372036854775808 := by
  induction V with
  | nil => simp [deltas]
  | cons a V ih =>
    cases V with
    | nil => simp [deltas]
    | cons b V =>
      intro d hd
      simp only [deltas, List.mem_cons] at hd
      rcases hd with rfl | hd
      · exact wrap64_range _
      · exact ih d hd

theorem minDelta_le_max (ds : List Int) : minDelta ds ≤ INT64_MAX := by
  cases ds with
  | nil => simp [minDelta]
  | cons d ds =>
    induction ds generalizing d with
    | nil => simp [minDelta]
    | cons e ds ih =>
      have := ih e
      simp only [minDelta] at this ⊢
      omega

theorem minDelta_snoc (ds : List Int) (d : Int) :
    minDelta (ds ++ [d]) = min (minDelta ds) d := by
  induction ds with
  | nil => simp [minDelta]
  | cons e ds ih =>
    rw [List.cons_append, minDelta_cons, minDelta_cons, ih]
    omega

theorem minDelta_le (ds : List Int) : ∀ d ∈ ds, minDelta ds ≤ d := by
  induction ds with
  | nil => simp
  | cons e ds ih =>
    intro d hd
    simp only [List.mem_cons] at hd
    simp only [minDelta]
    rcases hd with rfl | hd
    · omega
    · have := ih d hd; omega

theorem minDelta_range (ds : List Int)
    (h : ∀ d ∈ ds, -9223372036854775808 ≤ d ∧ d < 9223372036854775808) :
    -9223372036854775808 ≤ minDelta ds ∧ minDelta ds < 9223372036854775808 := by
  induction ds with
  | nil => simp [minDelta, INT64_MAX]
  | cons e ds ih =>
    have h1 := ih (fun d hd => h d (List.mem_cons_of_mem _ hd))
    have h2 := h e (List.mem_cons_self _ _)
    simp only [minDelta]
    omega

theorem deltaLoop_append (Q : List Int) : ∀ (y : Int) (S : List Int) (md : Int),
    md ≤ INT64_MAX →
    deltaLoop Q.length (Q ++ y :: S) md =
      ((Q ++ [y]).take 1 ++ deltas (Q ++ [y]) ++ S, min md (minDelta (deltas (Q ++ [y])))) := by
  induction Q using List.reverseRecOn with
  | nil =>
    intro y S md hmd
    simp only [List.length_nil, deltaLoop, List.nil_append, deltas, minDelta]
    simp
    exact hmd
  | append_singleton Q z ih =>
    intro y S md hmd
    have hlen : (Q ++ [z]).length = Q.length + 1 := by simp
    rw [hlen]
    simp only [deltaLoop]
    have g1 : (Q ++ [z] ++ y :: S).getD (Q.length + 1) 0 = y := by
      rw [List.getD_eq_getElem?_getD, List.getElem?_append_right (by simp)]
      simp
    have g2 : (Q ++ [z] ++ y :: S).getD Q.length 0 = z := by
      rw [List.append_assoc, List.getD_eq_getElem?_getD, List.getElem?_append_right (by simp)]
      simp
    have g3 : (Q ++ [z] ++ y :: S).set (Q.length + 1) (wrap64 (y - z))
        = Q ++ z :: wrap64 (y - z) :: S := by
      rw [List.append_assoc, List.set_append_right _ _ (by simp)]
      simp
    rw [g1, g2, g3, ih z (wrap64 (y - z) :: S) (min md (wrap64 (y - z))) (by omega)]
    have e1 : Q ++ [z] ++ [y] = Q ++ [z, y] := by simp
    rw [e1, deltas_snoc, minDelta_snoc]
    have e2 : (Q ++ [z, y]).take 1 = (Q ++ [z]).take 1 := by
      cases Q <;> simp
    rw [e2]
    simp only [List.append_assoc, List.singleton_append, Prod.mk.injEq, true_and]
    omega

theorem deltaLoop_eq (v0 : Int) (rest : List Int) :
    deltaLoop ((v0 :: rest).length - 1) (v0 :: rest) INT64_MAX =
      (v0 :: deltas (v0 :: rest), minDelta (deltas (v0 :: rest))) := by
  obtain ⟨Q, y, hQ⟩ : ∃ Q y, v0 :: rest = Q ++ [y] := by
    have hne : v0 :: rest ≠ [] := by simp
    exact ⟨(v0 :: rest).dropLast, (v0 :: rest).getLast hne,
      (List.dropLast_append_getLast hne).symm⟩
  have hlen : (v0 :: rest).length - 1 = Q.length := by rw [hQ]; simp
  have h := deltaLoop_append Q y [] INT64_MAX (le_refl _)
  rw [hlen]
  have e : Q ++ [y] = v0 :: rest := hQ.symm
  rw [e] at h
  rw [← e] at h ⊢
  rw [e] at h ⊢
  rw [h]
  have := minDelta_le_max (deltas (v0 :: rest))
  simp only [List.take_succ_cons, List.take_zero, List.append_nil, List.singleton_append,
    Prod.mk.injEq, true_and]
  omega

/-! ## Maximum of a mini block -/

theorem maxLoop_ge_acc (blk : List Int) (acc : Int) : acc ≤ maxLoop blk acc := by
  induction blk generalizing acc with
  | nil => simp [maxLoop]
  | cons v vs ih =>
    simp only [maxLoop]
    have := ih (max v acc)
    omega

theorem maxLoop_ge (blk : List Int) (acc : Int) : ∀ v ∈ blk, v ≤ maxLoop blk acc := by
  induction blk generalizing acc with
  | nil => simp
  | cons v vs ih =>
    intro x hx
    simp only [List.mem_cons] at hx
    simp only [maxLoop]
    rcases hx with rfl | hx
    · have := maxLoop_ge_acc vs (max x acc); omega
    · exact ih _ x hx

theorem maxLoop_range (blk : List Int) (acc : Int)
    (hacc : -9223372036854775808 ≤ acc ∧ acc < 9223372036854775808)
    (h : ∀ d ∈ blk, -9223372036854775808 ≤ d ∧ d < 9223372036854775808) :
    -9223372036854775808 ≤ maxLoop blk acc ∧ maxLoop blk acc < 9223372036854775808 := by
  induction blk generalizing acc with
  | nil => simpa [maxLoop] using hacc
  | cons v vs ih =>
    simp only [maxLoop]
    have hv := h v (List.mem_cons_self _ _)
    exact ih _ (by omega) (fun d hd => h d (List.mem_cons_of_mem _ hd))

end ParquetCpp

namespace ParquetCpp

open DeltaBitPack DeltaBitPackEncoder

/-! ## The payload written by the encoder -/

theorem putLoop_fits (md : Int) (w cap : Nat) (blk : List Int) : ∀ (bits : List Bool),
    bits.length + blk.length * w ≤ 8 * cap →
    putLoop md w blk (true, ⟨cap, bits⟩) =
      (true, ⟨cap, bits ++ blk.flatMap (fun d => lowBits w (toU64 (wrap64 (d - md))))⟩) := by
  induction blk with
  | nil => intro bits _; simp [putLoop]
  | cons v vs ih =>
    intro bits h
    simp only [List.length_cons] at h
    have h1 : bits.length + w ≤ 8 * cap := by
      have : (vs.length + 1) * w = vs.length * w + w := by ring
      omega
    simp only [putLoop]
    rw [PutValue_fits ⟨cap, bits⟩ _ w h1]
    simp only [Bool.and_self]
    rw [ih]
    · simp [List.flatMap_cons]
    · simp only [List.length_append, lowBits_length]
      have : (vs.length + 1) * w = vs.length * w + w := by ring
      omega

theorem padLoop_fits (w cap : Nat) (c : Nat) : ∀ (bits : List Bool),
    bits.length + c * w ≤ 8 * cap →
    padLoop w c (true, ⟨cap, bits⟩) = (true, ⟨cap, bits ++ List.replicate (c * w) false⟩) := by
  induction c with
  | zero => intro bits _; simp [padLoop]
  | succ c ih =>
    intro bits h
    have e : (c + 1) * w = w + c * w := by ring
    have h1 : bits.length + w ≤ 8 * cap := by omega
    simp only [padLoop]
    rw [PutValue_fits ⟨cap, bits⟩ _ w h1]
    simp only [Bool.and_self]
    rw [ih]
    · rw [e, List.replicate_add, lowBits_zero]; simp
    · simp only [List.length_append, lowBits_length]; omega

theorem slotsFrom_add (m : Nat) (ds : List Int) (a b : Nat) : ∀ t,
    slotsFrom m ds (a + b) t = slotsFrom m ds a t ++ slotsFrom m ds b (t + a) := by
  induction a with
  | zero => intro t; simp [slotsFrom]
  | succ a ih =>
    intro t
    have e : a + 1 + b = (a + b) + 1 := by omega
    rw [e]
    simp only [slotsFrom]
    rw [ih (t + 1)]
    have e2 : t + 1 + a = t + (a + 1) := by omega
    rw [e2, List.append_assoc]

theorem widthsFrom_add (m : Nat) (ds : List Int) (a b : Nat) : ∀ i,
    widthsFrom m ds (a + b) i = widthsFrom m ds a i ++ widthsFrom m ds b (i + a) := by
  induction a with
  | zero => intro i; simp [widthsFrom]
  | succ a ih =>
    intro i
    have e : a + 1 + b = (a + b) + 1 := by omega
    rw [e]
    simp only [widthsFrom]
    rw [ih (i + 1)]
    have e2 : i + 1 + a = i + (a + 1) := by omega
    rw [e2, List.cons_append]

theorem widthsFrom_length (m : Nat) (ds : List Int) (k : Nat) : ∀ i,
    (widthsFrom m ds k i).length = k := by
  induction k with
  | zero => intro i; rfl
  | succ k ih => intro i; simp [widthsFrom, ih]

theorem slots_real (m : Nat) (ds : List Int) (i : Nat) (c : Nat) : ∀ t,
    i * m ≤ t → t + c ≤ (i + 1) * m → t + c ≤ ds.length →
    slotsFrom m ds c t =
      ((ds.drop t).take c).flatMap
        (fun d => lowBits (widthOf m ds i) (toU64 (wrap64 (d - minDelta ds)))) := by
  induction c with
  | zero => intro t _ _ _; simp [slotsFrom]
  | succ c ih =>
    intro t h1 h2 h3
    have hlt : t < ds.length := by omega
    have hdiv : t / m = i := Nat.div_eq_of_lt_le h1 (by omega)
    simp only [slotsFrom]
    rw [ih (t + 1) (by omega) (by omega) (by omega), List.drop_eq_getElem_cons hlt,
      List.take_succ_cons, List.flatMap_cons]
    congr 1
    simp only [slotBits, slotVal, hdiv, hlt, if_true]
    rw [List.getD_eq_getElem _ _ hlt]

theorem slots_pad (m : Nat) (ds : List Int) (i : Nat) (c : Nat) : ∀ t,
    i * m ≤ t → t + c ≤ (i + 1) * m → ds.length ≤ t →
    slotsFrom m ds c t = List.replicate (c * widthOf m ds i) false := by
  induction c with
  | zero => intro t _ _ _; simp [slotsFrom]
  | succ c ih =>
    intro t h1 h2 h3
    have hnl : ¬ t < ds.length := by omega
    have hdiv : t / m = i := Nat.div_eq_of_lt_le h1 (by omega)
    simp only [slotsFrom]
    rw [ih (t + 1) (by omega) (by omega) (by omega)]
    simp only [slotBits, slotVal, hdiv, hnl, if_false, lowBits_zero]
    rw [← List.replicate_add]
    congr 1
    ring

theorem block_length (m : Nat) (ds : List Int) (i : Nat) :
    (block m ds i).length = min m (ds.length - i * m) := by
  simp [block, List.length_take, List.length_drop]

/-- The bits of mini block `i`: its deltas, then the padding. -/
theorem slots_block (m : Nat) (ds : List Int) (i : Nat) :
    slotsFrom m ds m (i * m) =
      (block m ds i).flatMap
          (fun d => lowBits (widthOf m ds i) (toU64 (wrap64 (d - minDelta ds))))
        ++ List.replicate ((m - (block m ds i).length) * widthOf m ds i) false := by
  have hb := block_length m ds i
  have hexp : (i + 1) * m = i * m + m := by ring
  have hle : (block m ds i).length ≤ m := by rw [hb]; omega
  have hsplit : m = (block m ds i).length + (m - (block m ds i).length) := by omega
  conv => lhs; arg 3; rw [hsplit]
  rw [slotsFrom_add]
  by_cases hcase : i * m ≤ ds.length
  · have hr1 : i * m + (block m ds i).length ≤ (i + 1) * m := by omega
    have hr2 : i * m + (block m ds i).length ≤ ds.length := by rw [hb]; omega
    rw [slots_real m ds i _ (i * m) (le_refl _) hr1 hr2]
    have e1 : (ds.drop (i * m)).take (block m ds i).length = block m ds i := by
      rw [hb]
      unfold block
      rw [← List.take_take]
      congr 1
      apply List.take_of_length_le
      rw [List.length_drop]
    rw [e1]
    congr 1
    by_cases hfull : (block m ds i).length = m
    · simp [hfull, slotsFrom]
    · have hp1 : i * m + (block m ds i).length + (m - (block m ds i).length) ≤ (i + 1) * m := by
        omega
      have hp2 : ds.length ≤ i * m + (block m ds i).length := by
        rw [hb] at hfull ⊢; omega
      rw [slots_pad m ds i _ _ (by omega) hp1 hp2]
  · have h0 : (block m ds i).length = 0 := by rw [hb]; omega
    have hnil : block m ds i = [] := List.length_eq_zero.mp h0
    rw [hnil]
    simp only [List.length_nil, slotsFrom, List.nil_append, List.flatMap_nil, Nat.add_zero,
      Nat.sub_zero]
    rw [slots_pad m ds i m (i * m) (le_refl _) (by omega) (by omega)]

theorem slots_block_length (m : Nat) (ds : List Int) (i : Nat) :
    (slotsFrom m ds m (i * m)).length = m * widthOf m ds i := by
  rw [slots_block]
  have hb := block_length m ds i
  have hle : (block m ds i).length ≤ m := by rw [hb]; omega
  have hf : ((block m ds i).flatMap
      (fun d => lowBits (widthOf m ds i) (toU64 (wrap64 (d - minDelta ds))))).length
      = (block m ds i).length * widthOf m ds i := by
    generalize block m ds i = blk
    induction blk with
    | nil => simp
    | cons v vs ih =>
      rw [List.flatMap_cons, List.length_append, ih, lowBits_length, List.length_cons]
      ring
  rw [List.length_append, hf, List.length_replicate, ← Nat.add_mul]
  rw [Nat.add_sub_cancel' hle]

end ParquetCpp

namespace ParquetCpp

open DeltaBitPack DeltaBitPackEncoder

/-! ## The mini-block loop and `Encode` in closed form -/

theorem lt_numMiniBlocks (m n i : Nat) (hm : 1 ≤ m) (h : i < numMiniBlocks m n) :
    i * m < n - 1 := by
  unfold numMiniBlocks at h
  have h1 : (i + 1) * m ≤ n - 1 + (m - 1) := (Nat.le_div_iff_mul_le (by omega)).mp h
  have : (i + 1) * m = i * m + m := by ring
  omega

theorem numMiniBlocks_mul_ge (m n : Nat) (hm : 1 ≤ m) : n - 1 ≤ numMiniBlocks m n * m := by
  unfold numMiniBlocks
  have h1 := Nat.div_add_mod (n - 1 + (m - 1)) m
  have h2 := Nat.mod_lt (n - 1 + (m - 1)) (show 0 < m by omega)
  have : (n - 1 + (m - 1)) / m * m = m * ((n - 1 + (m - 1)) / m) := by ring
  omega

theorem Ceil_eq (m n : Nat) (hm : 1 ≤ m) (hn : 1 ≤ n) :
    BitUtil.Ceil ((n : Int) - 1) (m : Int) = (numMiniBlocks m n : Int) := by
  unfold BitUtil.Ceil numMiniBlocks
  have h1 := Nat.div_add_mod (n - 1 + (m - 1)) m
  have h2 := Nat.mod_lt (n - 1 + (m - 1)) (show 0 < m by omega)
  have hq : (-((n : Int) - 1)) / (m : Int) = -(((n - 1 + (m - 1)) / m : Nat) : Int) := by
    have := (Int.ediv_emod_unique (a := -((n : Int) - 1)) (b := (m : Int))
      (r := ((m - 1 - (n - 1 + (m - 1)) % m : Nat) : Int))
      (q := -(((n - 1 + (m - 1)) / m : Nat) : Int)) (by omega)).mpr
    refine (this ⟨?_, by omega, by omega⟩).1
    have h3 : ((m * ((n - 1 + (m - 1)) / m) : Nat) : Int)
        = (m : Int) * (((n - 1 + (m - 1)) / m : Nat) : Int) := by push_cast; ring
    have h4 : (m : Int) * -(((n - 1 + (m - 1)) / m : Nat) : Int)
        = -((m : Int) * (((n - 1 + (m - 1)) / m : Nat) : Int)) := by ring
    rw [h4, ← h3]
    omega
  rw [hq]
  omega

theorem bytesToBits_replicate_succ (k : Nat) :
    bytesToBits (List.replicate (k + 1) 0) = lowBits 8 0 ++ bytesToBits (List.replicate k 0) := by
  rw [List.replicate_succ]; rfl

theorem miniBlockLoop_spec (m : Nat) (hm : 1 ≤ m) (v0 : Int) (ds : List Int) (cap p : Nat)
    (HB : List Bool) (hHB : HB.length = 8 * p) (K : Nat)
    (hK : K = numMiniBlocks m (ds.length + 1)) :
    ∀ (k i : Nat) (idx : Int), i + k = K → (0 < k → idx = 1 + (i * m : Nat)) →
      HB.length + 8 * K + (slotsFrom m ds (i * m) 0).length
        + (slotsFrom m ds (k * m) (i * m)).length ≤ 8 * cap →
      miniBlockLoop (m : Int) ((ds.length + 1 : Nat) : Int) (v0 :: ds) (minDelta ds) (some p)
          k i idx
          (true, ⟨cap, HB ++ bytesToBits (widthsFrom m ds i 0 ++ List.replicate k 0)
            ++ slotsFrom m ds (i * m) 0⟩)
        = Except.ok (true, ⟨cap, HB ++ bytesToBits (widthsFrom m ds K 0)
            ++ slotsFrom m ds (K * m) 0⟩) := by
  intro k
  induction k with
  | zero =>
    intro i idx hik _ _
    have : i = K := by omega
    subst this
    simp [miniBlockLoop]
    rfl
  | succ k ih =>
    intro i idx hik hidx hfit
    have hidx' : idx = 1 + (i * m : Nat) := hidx (by omega)
    subst hidx'
    have hiK : i < numMiniBlocks m (ds.length + 1) := by omega
    have hlt : i * m < ds.length := by
      have := lt_numMiniBlocks m (ds.length + 1) i hm hiK
      omega
    have hb := block_length m ds i
    have hbpos : 1 ≤ (block m ds i).length := by rw [hb]; omega
    have hble : (block m ds i).length ≤ m := by rw [hb]; omega
    -- the loop variable `n`
    have hn : min (m : Int) (((ds.length + 1 : Nat) : Int) - (1 + (i * m : Nat)))
        = ((block m ds i).length : Int) := by
      rw [hb]; omega
    have hblk : ((v0 :: ds).drop (1 + (i * m : Nat) : Int).toNat).take
        ((block m ds i).length : Int).toNat = block m ds i := by
      have e1 : (1 + (i * m : Nat) : Int).toNat = (i * m) + 1 := by omega
      rw [e1, List.drop_succ_cons, Int.toNat_ofNat, hb]
      unfold block
      rw [← List.take_take]
      congr 1
      apply List.take_of_length_le
      rw [List.length_drop]
    have hguard : ¬ (0 < ((block m ds i).length : Int) ∧
        ((1 + (i * m : Nat) : Int) < 0 ∨
          (v0 :: ds).length < (1 + (i * m : Nat) : Int).toNat
            + ((block m ds i).length : Int).toNat)) := by
      simp only [List.length_cons]
      rw [hb]
      omega
    rw [miniBlockLoop]
    simp only [hn, hguard, if_false, hblk]
    -- the width byte
    have hw : BitUtil.NumRequiredBits
        (toU64 (wrap64 (maxLoop (block m ds i) INT64_MIN - minDelta ds))) = widthOf m ds i := rfl
    rw [hw]
    have hset : (BitWriter.mk cap (HB ++ bytesToBits (widthsFrom m ds i 0
          ++ List.replicate (k + 1) 0) ++ slotsFrom m ds (i * m) 0)).setByte (p + i)
          (widthOf m ds i)
        = ⟨cap, HB ++ bytesToBits (widthsFrom m ds (i + 1) 0 ++ List.replicate k 0)
          ++ slotsFrom m ds (i * m) 0⟩ := by
      have e1 : HB ++ bytesToBits (widthsFrom m ds i 0 ++ List.replicate (k + 1) 0)
            ++ slotsFrom m ds (i * m) 0
          = (HB ++ bytesToBits (widthsFrom m ds i 0)) ++ lowBits 8 0
            ++ (bytesToBits (List.replicate k 0) ++ slotsFrom m ds (i * m) 0) := by
        rw [bytesToBits_append, bytesToBits_replicate_succ]
        simp only [List.append_assoc]
      rw [e1, setByte_mid cap _ _ _ (p + i) (widthOf m ds i)
        (by rw [List.length_append, bytesToBits_length, widthsFrom_length, hHB]; omega)
        (lowBits_length 8 0)]
      rw [widthsFrom_add m ds i 1 0, bytesToBits_append, bytesToBits_append]
      simp only [widthsFrom, bytesToBits, Nat.zero_add, List.append_nil, List.append_assoc]
    rw [hset]
    -- sizes
    have hsl := slots_block_length m ds i
    have hsb := slots_block m ds i
    have hsplit : slotsFrom m ds ((k + 1) * m) (i * m)
        = slotsFrom m ds m (i * m) ++ slotsFrom m ds (k * m) ((i + 1) * m) := by
      have e : (k + 1) * m = m + k * m := by ring
      have e2 : (i + 1) * m = i * m + m := by ring
      rw [e, slotsFrom_add, e2]
    have hnext : slotsFrom m ds ((i + 1) * m) 0
        = slotsFrom m ds (i * m) 0 ++ slotsFrom m ds m (i * m) := by
      have e2 : (i + 1) * m = i * m + m := by ring
      rw [e2, slotsFrom_add, Nat.zero_add]
    have hflen : ((block m ds i).flatMap
        (fun d => lowBits (widthOf m ds i) (toU64 (wrap64 (d - minDelta ds))))).length
        = (block m ds i).length * widthOf m ds i := by
      generalize block m ds i = blk
      induction blk with
      | nil => simp
      | cons v vs ihb =>
        rw [List.flatMap_cons, List.length_append, ihb, lowBits_length, List.length_cons]
        ring
    have hcur : (HB ++ bytesToBits (widthsFrom m ds (i + 1) 0 ++ List.replicate k 0)
        ++ slotsFrom m ds (i * m) 0).length
        = HB.length + 8 * K + (slotsFrom m ds (i * m) 0).length := by
      simp only [List.length_append, bytesToBits_length, widthsFrom_length,
        List.length_replicate]
      omega
    have htot : (slotsFrom m ds m (i * m)).length
        = (block m ds i).length * widthOf m ds i
          + (m - (block m ds i).length) * widthOf m ds i := by
      rw [hsb, List.length_append, hflen, List.length_replicate]
    rw [hsplit, List.length_append] at hfit
    rw [putLoop_fits _ _ _ _ _ (by rw [hcur]; omega)]
    have hpad : ((m : Int) - ((block m ds i).length : Int)).toNat
        = m - (block m ds i).length := by omega
    rw [hpad, padLoop_fits _ _ _ _ (by rw [List.length_append, hcur, hflen]; omega)]
    have hbits : HB ++ bytesToBits (widthsFrom m ds (i + 1) 0 ++ List.replicate k 0)
          ++ slotsFrom m ds (i * m) 0
          ++ (block m ds i).flatMap
            (fun d => lowBits (widthOf m ds i) (toU64 (wrap64 (d - minDelta ds))))
          ++ List.replicate ((m - (block m ds i).length) * widthOf m ds i) false
        = HB ++ bytesToBits (widthsFrom m ds (i + 1) 0 ++ List.replicate k 0)
          ++ slotsFrom m ds ((i + 1) * m) 0 := by
      rw [hnext, hsb]
      simp only [List.append_assoc]
    rw [hbits]
    apply ih (i + 1) _ (by omega)
    · intro hk
      have hiK2 : i + 1 < numMiniBlocks m (ds.length + 1) := by omega
      have h3 := lt_numMiniBlocks m (ds.length + 1) (i + 1) hm hiK2
      have e2 : (i + 1) * m = i * m + m := by ring
      have hbm : (block m ds i).length = m := by rw [hb]; omega
      rw [hbm]
      push_cast
      ring
    · rw [hnext, List.length_append]
      omega

end ParquetCpp

namespace ParquetCpp

open DeltaBitPack DeltaBitPackEncoder

theorem bytesToBits_replicate_zero (k : Nat) :
    bytesToBits (List.replicate k 0) = List.replicate (8 * k) false := by
  induction k with
  | zero => rfl
  | succ k ih =>
    rw [bytesToBits_replicate_succ, ih, lowBits_zero, ← List.replicate_add]
    congr 1
    omega

theorem pageBits_length_le (m : Nat) (V : List Int) :
    (pageBits m V).length ≤ 8 * (page m V).length := by
  unfold page
  rw [bitsToBytes_length _ (by rw [List.length_append, List.length_replicate]; exact padLen_add _)]
  simp

theorem numMiniBlocks_le_page (m : Nat) (V : List Int) :
    numMiniBlocks m V.length ≤ (page m V).length := by
  have h := pageBits_length_le m V
  unfold pageBits headerBytes at h
  simp only [List.length_append, bytesToBits_length, widthsFrom_length] at h
  omega

/-- For a mini-block size of at most 200, the block size of a page that fits the scratch
buffer is in the range of `int`. -/
theorem blockSize_of_fit (m : Nat) (V : List Int) (hm : m ≤ 200)
    (hfit : (page m V).length ≤ SCRATCH) : numMiniBlocks m V.length * m < 2147483648 := by
  have h := numMiniBlocks_le_page m V
  have hs : SCRATCH = 10485760 := by decide
  have h2 : numMiniBlocks m V.length * m ≤ 10485760 * 200 := Nat.mul_le_mul (by omega) hm
  omega

theorem toU64_natCast (k : Nat) (h : k < 18446744073709551616) : toU64 (k : Int) = k := by
  unfold toU64; omega

theorem PutVlqInt_bytes (cap : Nat) (A : List Nat) (v : Nat) (hv : v < 18446744073709551616)
    (h : (A ++ BitWriter.vlqBytes 9 v).length ≤ cap) :
    (BitWriter.mk cap (bytesToBits A)).PutVlqInt v
      = (true, ⟨cap, bytesToBits (A ++ BitWriter.vlqBytes 9 v)⟩) := by
  rw [List.length_append] at h
  rw [PutVlqInt_fits _ _ hv (by simp [bytesToBits_length])
    (by simp only [bytesToBits_length]; omega), bytesToBits_append]

theorem GetNextBytePtr_bytes (cap : Nat) (A : List Nat) (n : Nat) (h : A.length + n ≤ cap) :
    (BitWriter.mk cap (bytesToBits A)).GetNextBytePtr n
      = (some A.length, ⟨cap, bytesToBits (A ++ List.replicate n 0)⟩) := by
  rw [GetNextBytePtr_fits _ _ (by simp [bytesToBits_length])
    (by simp only [bytesToBits_length]; omega), bytesToBits_append, bytesToBits_replicate_zero]
  simp [bytesToBits_length]

theorem EncodeAux_eq (t : PType) (bs : Int) (m : Nat) (v0 : Int) (rest : List Int)
    (hm : 1 ≤ m) (hm2 : m < 2147483648) (hn : rest.length + 1 < 2147483648)
    (hr : ∀ v ∈ v0 :: rest, -9223372036854775808 ≤ v ∧ v < 9223372036854775808)
    (hfit : (page m (v0 :: rest)).length ≤ SCRATCH)
    (hkm : numMiniBlocks m (rest.length + 1) * m < 2147483648) :
    EncodeAux ⟨t, bs, ((rest.length + 1 : Nat) : Int), (m : Int), v0 :: rest⟩
      = Except.ok (true, page m (v0 :: rest),
          ⟨t, bs, ((rest.length + 1 : Nat) : Int), (m : Int), v0 :: deltas (v0 :: rest)⟩) := by
  have hmd := minDelta_range (deltas (v0 :: rest)) (deltas_range _)
  have hv0 := hr v0 (List.mem_cons_self _ _)
  have hKm : numMiniBlocks m (rest.length + 1) * m ≤ rest.length + m := by
    unfold numMiniBlocks
    have := Nat.div_mul_le_self (rest.length + 1 - 1 + (m - 1)) m
    omega
  have hK : numMiniBlocks m (rest.length + 1) ≤ rest.length + m := by
    have : numMiniBlocks m (rest.length + 1) * 1 ≤ numMiniBlocks m (rest.length + 1) * m :=
      Nat.mul_le_mul_left _ hm
    omega
  have hdl : (deltas (v0 :: rest)).length = rest.length := by rw [deltas_length]; simp
  have hbits := pageBits_length_le m (v0 :: rest)
  unfold pageBits headerBytes at hbits
  simp only [List.length_append, bytesToBits_length, List.length_cons, widthsFrom_length,
    List.headD_cons, Nat.add_sub_cancel] at hbits
  have hm0 : ¬ ((m : Int) = 0) := by omega
  unfold EncodeAux
  simp only [hm0, if_false]
  rw [Ceil_eq m (rest.length + 1) hm (by omega)]
  have hov : ¬ ((numMiniBlocks m (rest.length + 1) : Int) * (m : Int) < -2147483648
      ∨ 2147483647 < (numMiniBlocks m (rest.length + 1) : Int) * (m : Int)) := by
    rw [← Nat.cast_mul]
    omega
  rw [if_neg hov]
  have e1 : toU64 ((numMiniBlocks m (rest.length + 1) : Int) * (m : Int))
      = numMiniBlocks m (rest.length + 1) * m := by
    rw [← Nat.cast_mul, toU64_natCast _ (by omega)]
  have e2 : toU64 ((numMiniBlocks m (rest.length + 1) : Int))
      = numMiniBlocks m (rest.length + 1) := toU64_natCast _ (by omega)
  have e3 : toU64 (((rest.length + 1 : Nat) : Int) - 1) = rest.length := by
    unfold toU64; omega
  rw [e1, e2, e3, deltaLoop_eq, Int.toNat_ofNat]
  simp only [BitWriter.PutZigZagVlqInt]
  have w0 : BitWriter.new SCRATCH = ⟨SCRATCH, bytesToBits []⟩ := rfl
  rw [w0, PutVlqInt_bytes SCRATCH [] (numMiniBlocks m (rest.length + 1) * m) (by omega)
    (by simp only [List.nil_append]; omega)]
  simp only [List.nil_append]
  rw [PutVlqInt_bytes SCRATCH _ (numMiniBlocks m (rest.length + 1)) (by omega)
    (by simp only [List.length_append]; omega)]
  simp only
  rw [PutVlqInt_bytes SCRATCH _ rest.length (by omega)
    (by simp only [List.length_append]; omega)]
  simp only
  rw [PutVlqInt_bytes SCRATCH _ (BitWriter.zigZag v0) (zigZag_lt v0 hv0.1 hv0.2)
    (by simp only [List.length_append]; omega)]
  simp only
  rw [PutVlqInt_bytes SCRATCH _ (BitWriter.zigZag (minDelta (deltas (v0 :: rest))))
    (zigZag_lt _ hmd.1 hmd.2) (by simp only [List.length_append]; omega)]
  simp only
  rw [GetNextBytePtr_bytes SCRATCH _ (numMiniBlocks m (rest.length + 1))
    (by simp only [List.length_append]; omega)]
  simp only [Bool.and_self]
  have hloop := miniBlockLoop_spec m hm v0 (deltas (v0 :: rest)) SCRATCH _
    (bytesToBits (BitWriter.vlqBytes 9 (numMiniBlocks m (rest.length + 1) * m)
      ++ BitWriter.vlqBytes 9 (numMiniBlocks m (rest.length + 1))
      ++ BitWriter.vlqBytes 9 rest.length ++ BitWriter.vlqBytes 9 (BitWriter.zigZag v0)
      ++ BitWriter.vlqBytes 9 (BitWriter.zigZag (minDelta (deltas (v0 :: rest))))))
    (bytesToBits_length _) (numMiniBlocks m (rest.length + 1)) (by rw [hdl])
    (numMiniBlocks m (rest.length + 1)) 0 1 (by omega) (by intro _; simp)
    (by
      simp only [Nat.zero_mul, slotsFrom, List.length_nil, bytesToBits_length,
        List.length_append]
      omega)
  rw [hdl] at hloop
  have est : ∀ (A : List Nat) (K : Nat), bytesToBits (A ++ List.replicate K 0)
      = bytesToBits A ++ bytesToBits (widthsFrom m (deltas (v0 :: rest)) 0 0
          ++ List.replicate K 0) ++ slotsFrom m (deltas (v0 :: rest)) (0 * m) 0 := by
    intro A K
    simp [bytesToBits_append, widthsFrom, slotsFrom]
  rw [est, hloop]
  simp only [pure, Except.pure, BitWriter.Flush, BitWriter.align, BitWriter.buffer, page,
    pageBits, headerBytes, bytesToBits_append, List.length_cons, Nat.add_sub_cancel,
    List.headD_cons, List.append_assoc]

end ParquetCpp

namespace ParquetCpp

open DeltaBitPack DeltaBitPackEncoder

/-! ## The decoder on the page of `V` -/

theorem widthOf_le (m : Nat) (ds : List Int) (i : Nat) : widthOf m ds i ≤ 64 :=
  NumRequiredBits_le _

theorem widthsFrom_getD (m : Nat) (ds : List Int) (k : Nat) : ∀ (i j : Nat), j < k →
    (widthsFrom m ds k i).getD j 0 = widthOf m ds (i + j) := by
  induction k with
  | zero => intro i j h; omega
  | succ k ih =>
    intro i j h
    cases j with
    | zero => simp [widthsFrom]
    | succ j =>
      simp only [widthsFrom, List.getD_cons_succ]
      rw [ih (i + 1) j (by omega)]
      congr 1
      omega

theorem widthsFrom_lt (m : Nat) (ds : List Int) (k : Nat) : ∀ (i : Nat),
    ∀ w ∈ widthsFrom m ds k i, w < 256 := by
  induction k with
  | zero => intro i w hw; simp [widthsFrom] at hw
  | succ k ih =>
    intro i w hw
    simp only [widthsFrom, List.mem_cons] at hw
    rcases hw with rfl | hw
    · have := widthOf_le m ds i; omega
    · exact ih (i + 1) w hw

theorem readWidths_bytes (ws : List Nat) : ∀ (r : BitReader) (tail : List Bool),
    r.consumed % 8 = 0 → r.rest = bytesToBits ws ++ tail → (∀ w ∈ ws, w < 256) →
    DeltaBitPackDecoder.readWidths ws.length r
      = Except.ok (ws, ⟨tail, r.consumed + 8 * ws.length⟩) := by
  induction ws with
  | nil =>
    intro r tail _ hr _
    simp only [bytesToBits, List.nil_append] at hr
    simp [DeltaBitPackDecoder.readWidths, ← hr, pure, Except.pure]
  | cons w ws ih =>
    intro r tail ha hr hlt
    simp only [bytesToBits, List.append_assoc] at hr
    simp only [List.length_cons, DeltaBitPackDecoder.readWidths]
    rw [GetByte_append r w _ ha hr (hlt w (List.mem_cons_self _ _))]
    simp only
    rw [ih ⟨_, r.consumed + 8⟩ tail (by simp; omega) rfl
      (fun x hx => hlt x (List.mem_cons_of_mem _ hx))]
    simp only [Except.ok.injEq, Prod.mk.injEq, BitReader.mk.injEq, true_and]
    omega

/-- The shifted delta of slot `t` fits the width of its mini block. -/
theorem slotVal_lt (m : Nat) (hm : 1 ≤ m) (ds : List Int) (t : Nat)
    (hr : ∀ d ∈ ds, -9223372036854775808 ≤ d ∧ d < 9223372036854775808) :
    slotVal ds t < 2 ^ widthOf m ds (t / m) := by
  unfold slotVal
  by_cases ht : t < ds.length
  · simp only [ht, if_true]
    unfold widthOf
    have hmem : ds.getD t 0 ∈ block m ds (t / m) := by
      unfold block
      rw [List.getD_eq_getElem _ _ ht]
      have h1 : t / m * m ≤ t := Nat.div_mul_le_self t m
      have h2 : t < t / m * m + m := by
        have := Nat.div_add_mod t m
        have := Nat.mod_lt t (show 0 < m by omega)
        have : t / m * m = m * (t / m) := by ring
        omega
      rw [List.mem_iff_getElem]
      refine ⟨t - t / m * m, ?_, ?_⟩
      · rw [List.length_take, List.length_drop]; omega
      · rw [List.getElem_take, List.getElem_drop]
        congr 1
        omega
    have hmemds : ds.getD t 0 ∈ ds := by
      rw [List.getD_eq_getElem _ _ ht]; exact List.getElem_mem _
    have hblk : ∀ d ∈ block m ds (t / m), -9223372036854775808 ≤ d ∧ d < 9223372036854775808 := by
      intro d hd
      exact hr d (List.mem_of_mem_drop (List.mem_of_mem_take hd))
    have h1 := maxLoop_ge (block m ds (t / m)) INT64_MIN _ hmem
    have h2 := minDelta_le ds _ hmemds
    have h3 := maxLoop_range (block m ds (t / m)) INT64_MIN (by simp [INT64_MIN]) hblk
    have h4 := minDelta_range ds hr
    have h5 := hr _ hmemds
    apply lt_two_pow_NumRequiredBits _ _ (toU64_lt _)
    unfold toU64 wrap64
    omega
  · simp only [ht, if_false]
    exact Nat.two_pow_pos _

theorem decode_arith (a b md : Int)
    (ha : -9223372036854775808 ≤ a ∧ a < 9223372036854775808)
    (hb : -9223372036854775808 ≤ b ∧ b < 9223372036854775808)
    (hmd : -9223372036854775808 ≤ md ∧ md < 9223372036854775808)
    (hle : md ≤ wrap64 (b - a)) :
    wrap64 (a + wrap64 (wrap64 (toU64 (wrap64 (wrap64 (b - a) - md)) : Int) + md)) = b := by
  unfold wrap64 toU64 at *
  omega

end ParquetCpp

namespace ParquetCpp

open DeltaBitPack DeltaBitPackEncoder

theorem numMiniBlocks_le (m n : Nat) (hm : 1 ≤ m) : numMiniBlocks m n ≤ n - 1 := by
  have h := Nat.div_mul_le_self (n - 1 + (m - 1)) m
  by_contra hc
  have h3 : (n - 1 + 1) * m ≤ numMiniBlocks m n * m := Nat.mul_le_mul_right _ (by omega)
  have h4 : (n - 1 + 1) * m = (n - 1) * m + m := by ring
  have h5 : (n - 1) * 1 ≤ (n - 1) * m := Nat.mul_le_mul_left _ hm
  unfold numMiniBlocks at h3
  omega

/-- Reading one bit-packed delta at position `t`. -/
theorem readDelta_at (m : Nat) (V : List Int) (tail : List Bool) (t : Nat)
    (d : DeltaBitPackDecoder) (hm : 1 ≤ m) (hm2 : m < 2147483648)
    (hr : ∀ v ∈ V, -9223372036854775808 ≤ v ∧ v < 9223372036854775808)
    (ht : t + 1 < V.length) (hd : DecoderAt m V tail t d)
    (hpos : 1 ≤ d.values_current_mini_block_) :
    ∃ d', d.readDelta = Except.ok (castTo d.type_ (V.getD (t + 1) 0), d')
      ∧ DecoderAt m V tail (t + 1) d' ∧ d'.type_ = d.type_ ∧ d'.num_values_ = d.num_values_ := by
  obtain ⟨hrest, hvp, hmd, hws, hlast, i, hidx, hiK, hw, hit, hle⟩ := hd
  have hKm := numMiniBlocks_mul_ge m V.length hm
  have hdl := deltas_length V
  have hcnt : numMiniBlocks m V.length * m - t = (numMiniBlocks m V.length * m - (t + 1)) + 1 := by
    omega
  rw [hcnt] at hrest
  simp only [slotsFrom, List.append_assoc] at hrest
  have hdiv : t / m = i := Nat.div_eq_of_lt_le (by omega) (by
    have : (i + 1) * m = i * m + m := by ring
    omega)
  have hslot : slotBits m (deltas V) t
      = lowBits d.delta_bit_width_ (slotVal (deltas V) t) := by
    unfold slotBits; rw [hdiv, hw]
  rw [hslot] at hrest
  have hlt : slotVal (deltas V) t < 2 ^ d.delta_bit_width_ := by
    have := slotVal_lt m hm (deltas V) t (deltas_range V)
    rwa [hdiv, ← hw] at this
  have hw64 : d.delta_bit_width_ ≤ 64 := by rw [hw]; exact widthOf_le _ _ _
  have hget := GetValue_append d.decoder_ _ _ _ hrest hlt hw64
  have htl : t < (deltas V).length := by omega
  have hmemV0 : V.getD t 0 ∈ V := by
    rw [List.getD_eq_getElem _ _ (by omega)]; exact List.getElem_mem _
  have hmemV1 : V.getD (t + 1) 0 ∈ V := by
    rw [List.getD_eq_getElem _ _ ht]; exact List.getElem_mem _
  have hmemd : (deltas V).getD t 0 ∈ deltas V := by
    rw [List.getD_eq_getElem _ _ htl]; exact List.getElem_mem _
  have hval : wrap64 (d.last_value_ + wrap64 (wrap64 (slotVal (deltas V) t : Int) + d.min_delta_))
      = V.getD (t + 1) 0 := by
    unfold slotVal
    simp only [htl, if_true]
    rw [hlast, hmd, deltas_getD V t ht]
    apply decode_arith _ _ _ (hr _ hmemV0) (hr _ hmemV1) (minDelta_range _ (deltas_range V))
    rw [← deltas_getD V t ht]
    exact minDelta_le _ _ hmemd
  refine ⟨{ d with
      decoder_ := ⟨slotsFrom m (deltas V) (numMiniBlocks m V.length * m - (t + 1)) (t + 1)
        ++ tail, d.decoder_.consumed + d.delta_bit_width_⟩
      last_value_ := V.getD (t + 1) 0
      values_current_mini_block_ :=
        (d.values_current_mini_block_ + 18446744073709551615) % 18446744073709551616 },
    ?_, ?_, rfl, rfl⟩
  · unfold DeltaBitPackDecoder.readDelta
    rw [hget]
    simp only [hval, pure, Except.pure]
  · have hv : (d.values_current_mini_block_ + 18446744073709551615) % 18446744073709551616
        = d.values_current_mini_block_ - 1 := by omega
    refine ⟨rfl, hvp, hmd, hws, rfl, i, hidx, hiK, hw, ?_, ?_⟩
    · simp only [hv]; omega
    · simp only [hv]; omega

/-- One iteration of the loop of `GetInternal` at position `t`. -/
theorem getStep_at (m : Nat) (V : List Int) (tail : List Bool) (t : Nat)
    (d : DeltaBitPackDecoder) (hm : 1 ≤ m) (hm2 : m < 2147483648) (hn : V.length < 2147483648)
    (hr : ∀ v ∈ V, -9223372036854775808 ≤ v ∧ v < 9223372036854775808)
    (ht : t + 1 < V.length) (hd : DecoderAt m V tail t d) :
    ∃ d', d.getStep = Except.ok (castTo d.type_ (V.getD (t + 1) 0), d')
      ∧ DecoderAt m V tail (t + 1) d' ∧ d'.type_ = d.type_ ∧ d'.num_values_ = d.num_values_ := by
  by_cases hz : d.values_current_mini_block_ = 0
  · obtain ⟨hrest, hvp, hmd, hws, hlast, i, hidx, hiK, hw, hit, hle⟩ := hd
    have hKm := numMiniBlocks_mul_ge m V.length hm
    have hKle := numMiniBlocks_le m V.length hm
    have hi1 : i + 1 < numMiniBlocks m V.length := by
      rw [hz] at hit
      have e : (i + 1) * m = i * m + m := by ring
      by_contra hcon
      have : numMiniBlocks m V.length * m ≤ (i + 1) * m := Nat.mul_le_mul_right _ (by omega)
      omega
    have hw32 : wrap32 (d.mini_block_idx_ + 1) = ((i + 1 : Nat) : Int) := by
      rw [hidx]; unfold wrap32; omega
    have hu : toU64 (((i + 1 : Nat) : Int)) = i + 1 := toU64_natCast _ (by omega)
    have hcond : toU64 (wrap32 (d.mini_block_idx_ + 1)) < d.delta_bit_widths_.length := by
      rw [hw32, hu, hws, widthsFrom_length]; exact hi1
    have hstep : d.getStep = DeltaBitPackDecoder.readDelta
        { d with
          mini_block_idx_ := wrap32 (d.mini_block_idx_ + 1)
          delta_bit_width_ := d.delta_bit_widths_.getD (toU64 (wrap32 (d.mini_block_idx_ + 1))) 0
          values_current_mini_block_ := d.values_per_mini_block_ } := by
      unfold DeltaBitPackDecoder.getStep
      simp only [hz, if_true, hcond]
    rw [hstep]
    have hd2 : DecoderAt m V tail t
        { d with
          mini_block_idx_ := wrap32 (d.mini_block_idx_ + 1)
          delta_bit_width_ := d.delta_bit_widths_.getD (toU64 (wrap32 (d.mini_block_idx_ + 1))) 0
          values_current_mini_block_ := d.values_per_mini_block_ } := by
      refine ⟨hrest, hvp, hmd, hws, hlast, i + 1, hw32, hi1, ?_, ?_, ?_⟩
      · simp only [hw32, hu, hws]
        rw [widthsFrom_getD m _ _ 0 (i + 1) hi1, Nat.zero_add]
      · simp only [hvp]
        rw [hz] at hit
        have e : (i + 1) * m = i * m + m := by ring
        omega
      · simp only [hvp]; exact le_refl _
    exact readDelta_at m V tail t _ hm hm2 hr ht hd2 (by simp only [hvp]; exact hm)
  · have hstep : d.getStep = d.readDelta := by
      unfold DeltaBitPackDecoder.getStep
      simp only [hz, if_false]
    rw [hstep]
    exact readDelta_at m V tail t d hm hm2 hr ht hd (by omega)

/-- The loop of `GetInternal` from position `t`: `k` more values. -/
theorem getLoop_at (m : Nat) (V : List Int) (tail : List Bool) (hm : 1 ≤ m)
    (hm2 : m < 2147483648) (hn : V.length < 2147483648)
    (hr : ∀ v ∈ V, -9223372036854775808 ≤ v ∧ v < 9223372036854775808) (k : Nat) :
    ∀ (t : Nat) (d : DeltaBitPackDecoder), t + k < V.length → DecoderAt m V tail t d →
    ∃ d', getLoop DeltaBitPackDecoder.getStep k d
        = Except.ok (((V.drop (t + 1)).take k).map (castTo d.type_), d')
      ∧ DecoderAt m V tail (t + k) d' ∧ d'.type_ = d.type_ ∧ d'.num_values_ = d.num_values_ := by
  induction k with
  | zero =>
    intro t d _ hd
    exact ⟨d, by simp [getLoop, pure, Except.pure], hd, rfl, rfl⟩
  | succ k ih =>
    intro t d ht hd
    obtain ⟨d1, h1, hd1, ht1, hn1⟩ := getStep_at m V tail t d hm hm2 hn hr (by omega) hd
    obtain ⟨d2, h2, hd2, ht2, hn2⟩ := ih (t + 1) d1 (by omega) hd1
    refine ⟨d2, ?_, ?_, by rw [ht2, ht1], by rw [hn2, hn1]⟩
    · simp only [getLoop, h1, h2]
      rw [List.drop_eq_getElem_cons (show t + 1 < V.length by omega), List.take_succ_cons,
        List.map_cons, ht1, List.getD_eq_getElem _ _ (show t + 1 < V.length by omega)]
    · have : t + 1 + k = t + (k + 1) := by omega
      rwa [this] at hd2

end ParquetCpp

namespace ParquetCpp

open DeltaBitPack DeltaBitPackEncoder

theorem bytesToBits_page (m : Nat) (V : List Int) :
    bytesToBits (page m V)
      = pageBits m V ++ List.replicate (BitWriter.padLen (pageBits m V).length) false := by
  unfold page
  rw [bytesToBits_bitsToBytes _ (by
    rw [List.length_append, List.length_replicate]; exact padLen_add _)]

theorem numMiniBlocks_pos (m n : Nat) (hm : 1 ≤ m) (hn : 2 ≤ n) : 1 ≤ numMiniBlocks m n := by
  unfold numMiniBlocks
  exact (Nat.le_div_iff_mul_le (by omega)).mpr (by omega)

/-- `InitBlock` on a reader that starts with a block header. -/
theorem InitBlock_bytes (d : DeltaBitPackDecoder) (bsz K nv : Nat) (lastv md : Int)
    (w0 : Nat) (wr : List Nat) (tail : List Bool)
    (hc : d.decoder_.consumed % 8 = 0)
    (hrest : d.decoder_.rest = bytesToBits (BitWriter.vlqBytes 9 bsz)
      ++ (bytesToBits (BitWriter.vlqBytes 9 K) ++ (bytesToBits (BitWriter.vlqBytes 9 nv)
      ++ (bytesToBits (BitWriter.vlqBytes 9 (BitWriter.zigZag lastv))
      ++ (bytesToBits (BitWriter.vlqBytes 9 (BitWriter.zigZag md))
      ++ (bytesToBits (w0 :: wr) ++ tail))))))
    (h1 : bsz < 18446744073709551616) (h2 : K < 18446744073709551616)
    (h3 : nv < 18446744073709551616)
    (h4 : -9223372036854775808 ≤ lastv ∧ lastv < 9223372036854775808)
    (h5 : -9223372036854775808 ≤ md ∧ md < 9223372036854775808)
    (hws : (w0 :: wr).length = K) (hw : ∀ w ∈ w0 :: wr, w < 256) :
    ∃ c, d.InitBlock = Except.ok
      { d with
        decoder_ := ⟨tail, c⟩
        num_mini_blocks_ := K
        values_current_block_ := nv
        last_value_ := lastv
        delta_bit_widths_ := w0 :: wr
        min_delta_ := md
        values_per_mini_block_ := bsz / K
        mini_block_idx_ := 0
        delta_bit_width_ := w0
        values_current_mini_block_ := bsz / K } := by
  have g1 := GetVlqInt_vlqBytes d.decoder_ bsz _ h1 hc hrest
  have g2 := GetVlqInt_vlqBytes
    ⟨bytesToBits (BitWriter.vlqBytes 9 K) ++ (bytesToBits (BitWriter.vlqBytes 9 nv)
      ++ (bytesToBits (BitWriter.vlqBytes 9 (BitWriter.zigZag lastv))
      ++ (bytesToBits (BitWriter.vlqBytes 9 (BitWriter.zigZag md))
      ++ (bytesToBits (w0 :: wr) ++ tail)))),
      d.decoder_.consumed + 8 * (BitWriter.vlqBytes 9 bsz).length⟩ K _ h2
    (by simp only; omega) rfl
  have g3 := GetVlqInt_vlqBytes
    ⟨bytesToBits (BitWriter.vlqBytes 9 nv)
      ++ (bytesToBits (BitWriter.vlqBytes 9 (BitWriter.zigZag lastv))
      ++ (bytesToBits (BitWriter.vlqBytes 9 (BitWriter.zigZag md))
      ++ (bytesToBits (w0 :: wr) ++ tail))),
      d.decoder_.consumed + 8 * (BitWriter.vlqBytes 9 bsz).length
        + 8 * (BitWriter.vlqBytes 9 K).length⟩ nv _ h3
    (by simp only; omega) rfl
  have g4 := GetZigZagVlqInt_vlqBytes
    ⟨bytesToBits (BitWriter.vlqBytes 9 (BitWriter.zigZag lastv))
      ++ (bytesToBits (BitWriter.vlqBytes 9 (BitWriter.zigZag md))
      ++ (bytesToBits (w0 :: wr) ++ tail)),
      d.decoder_.consumed + 8 * (BitWriter.vlqBytes 9 bsz).length
        + 8 * (BitWriter.vlqBytes 9 K).length + 8 * (BitWriter.vlqBytes 9 nv).length⟩
    lastv _ h4.1 h4.2 (by simp only; omega) rfl
  have g5 := GetZigZagVlqInt_vlqBytes
    ⟨bytesToBits (BitWriter.vlqBytes 9 (BitWriter.zigZag md))
      ++ (bytesToBits (w0 :: wr) ++ tail),
      d.decoder_.consumed + 8 * (BitWriter.vlqBytes 9 bsz).length
        + 8 * (BitWriter.vlqBytes 9 K).length + 8 * (BitWriter.vlqBytes 9 nv).length
        + 8 * (BitWriter.vlqBytes 9 (BitWriter.zigZag lastv)).length⟩
    md _ h5.1 h5.2 (by simp only; omega) rfl
  have g6 := readWidths_bytes (w0 :: wr)
    ⟨bytesToBits (w0 :: wr) ++ tail,
      d.decoder_.consumed + 8 * (BitWriter.vlqBytes 9 bsz).length
        + 8 * (BitWriter.vlqBytes 9 K).length + 8 * (BitWriter.vlqBytes 9 nv).length
        + 8 * (BitWriter.vlqBytes 9 (BitWriter.zigZag lastv)).length
        + 8 * (BitWriter.vlqBytes 9 (BitWriter.zigZag md)).length⟩
    tail (by simp only; omega) rfl hw
  rw [hws] at g6
  have hK0 : ¬ (K = 0) := by rw [← hws]; simp
  unfold DeltaBitPackDecoder.InitBlock
  rw [g1]; simp only
  rw [g2]; simp only
  rw [g3]; simp only
  rw [g4]; simp only
  rw [g5]; simp only
  rw [g6]; simp only [hK0, if_false]
  exact ⟨_, rfl⟩

/-- `InitBlock` on the page of `V`. -/
theorem InitBlock_page (m : Nat) (v0 : Int) (rest : List Int) (d : DeltaBitPackDecoder)
    (hm : 1 ≤ m) (hm2 : m < 2147483648) (hn : rest.length + 1 < 2147483648)
    (hV : 1 ≤ rest.length)
    (hr : ∀ v ∈ v0 :: rest, -9223372036854775808 ≤ v ∧ v < 9223372036854775808)
    (hdec : d.decoder_ = BitReader.new (page m (v0 :: rest))) :
    ∃ d', d.InitBlock = Except.ok d'
      ∧ DecoderAt m (v0 :: rest)
          (List.replicate (BitWriter.padLen (pageBits m (v0 :: rest)).length) false) 0 d'
      ∧ d'.type_ = d.type_ ∧ d'.num_values_ = d.num_values_ := by
  have hmd := minDelta_range (deltas (v0 :: rest)) (deltas_range _)
  have hv0 := hr v0 (List.mem_cons_self _ _)
  have hKpos := numMiniBlocks_pos m (rest.length + 1) hm (by omega)
  have hKle := numMiniBlocks_le m (rest.length + 1) hm
  have hKm : numMiniBlocks m (rest.length + 1) * m ≤ rest.length + m := by
    unfold numMiniBlocks
    have := Nat.div_mul_le_self (rest.length + 1 - 1 + (m - 1)) m
    omega
  have hpg := bytesToBits_page m (v0 :: rest)
  generalize List.replicate (BitWriter.padLen (pageBits m (v0 :: rest)).length) false = pad
    at hpg ⊢
  unfold pageBits headerBytes at hpg
  simp only [bytesToBits_append, List.length_cons, Nat.add_sub_cancel, List.headD_cons,
    List.append_assoc] at hpg
  obtain ⟨K', hK'⟩ : ∃ K', numMiniBlocks m (rest.length + 1) = K' + 1 :=
    ⟨numMiniBlocks m (rest.length + 1) - 1, by omega⟩
  have hwcons : widthsFrom m (deltas (v0 :: rest)) (numMiniBlocks m (rest.length + 1)) 0
      = widthOf m (deltas (v0 :: rest)) 0 :: widthsFrom m (deltas (v0 :: rest)) K' 1 := by
    rw [hK']; rfl
  rw [hwcons] at hpg
  have hc0 : d.decoder_.consumed % 8 = 0 := by rw [hdec]; rfl
  have hrr : d.decoder_.rest = bytesToBits (page m (v0 :: rest)) := by rw [hdec]; rfl
  rw [hpg] at hrr
  obtain ⟨c, hc⟩ := InitBlock_bytes d (numMiniBlocks m (rest.length + 1) * m)
    (numMiniBlocks m (rest.length + 1)) rest.length v0 (minDelta (deltas (v0 :: rest)))
    (widthOf m (deltas (v0 :: rest)) 0) (widthsFrom m (deltas (v0 :: rest)) K' 1) _ hc0 hrr
    (by omega) (by omega) (by omega) hv0 hmd
    (by rw [← hwcons, widthsFrom_length])
    (by rw [← hwcons]; exact widthsFrom_lt _ _ _ _)
  have hdivm : numMiniBlocks m (rest.length + 1) * m / numMiniBlocks m (rest.length + 1) = m :=
    Nat.mul_div_cancel_left m (by omega)
  rw [hdivm] at hc
  refine ⟨_, hc, ?_, rfl, rfl⟩
  refine ⟨?_, rfl, rfl, ?_, rfl, 0, rfl, by simp only [List.length_cons]; omega, rfl, ?_, ?_⟩
  · simp only [List.length_cons, Nat.sub_zero]
  · simp only [List.length_cons, hwcons]
  · simp
  · exact le_refl _

end ParquetCpp

namespace ParquetCpp

open DeltaBitPack DeltaBitPackEncoder

/-- The first iteration of `GetInternal` after `SetData` on a decoder that has no mini
block left over: it parses the block header and yields the first value. -/
theorem getStep_first (m : Nat) (v0 : Int) (rest : List Int) (d : DeltaBitPackDecoder)
    (hm : 1 ≤ m) (hm2 : m < 2147483648) (hn : rest.length + 1 < 2147483648)
    (hV : 1 ≤ rest.length)
    (hr : ∀ v ∈ v0 :: rest, -9223372036854775808 ≤ v ∧ v < 9223372036854775808)
    (hdec : d.decoder_ = BitReader.new (page m (v0 :: rest)))
    (hz : d.values_current_mini_block_ = 0) (hw : d.delta_bit_widths_ = []) :
    ∃ d', d.getStep = Except.ok (castTo d.type_ v0, d')
      ∧ DecoderAt m (v0 :: rest)
          (List.replicate (BitWriter.padLen (pageBits m (v0 :: rest)).length) false) 0 d'
      ∧ d'.type_ = d.type_ ∧ d'.num_values_ = d.num_values_ := by
  obtain ⟨d1, h1, hd1, ht1, hn1⟩ := InitBlock_page m v0 rest
    { d with mini_block_idx_ := wrap32 (d.mini_block_idx_ + 1) } hm hm2 hn hV hr hdec
  refine ⟨d1, ?_, hd1, ht1, hn1⟩
  have hlast : d1.last_value_ = v0 := by
    have := hd1.2.2.2.2.1
    simpa using this
  have hcond : ¬ (toU64 (wrap32 (d.mini_block_idx_ + 1)) < d.delta_bit_widths_.length) := by
    rw [hw]; simp
  simp only [DeltaBitPackDecoder.getStep, if_pos hz, if_neg hcond, h1, pure, Except.pure,
    hlast, ht1]

/-- `Get` right after `SetData` on the page of `V`: the first `k` values. -/
theorem Get_first (m : Nat) (V : List Int) (d : DeltaBitPackDecoder) (max_values : Int)
    (k : Nat) (hm : 1 ≤ m) (hm2 : m < 2147483648) (hn : V.length < 2147483648)
    (hV : 2 ≤ V.length)
    (hr : ∀ v ∈ V, -9223372036854775808 ≤ v ∧ v < 9223372036854775808)
    (hcast : ∀ v ∈ V, castTo d.type_ v = v)
    (hdec : d.decoder_ = BitReader.new (page m V))
    (hz : d.values_current_mini_block_ = 0) (hw : d.delta_bit_widths_ = [])
    (hk : min max_values d.num_values_ = (k : Int)) (hk1 : 1 ≤ k) (hkn : k ≤ V.length) :
    ∃ d', d.Get max_values = Except.ok ((k : Int), V.take k, d')
      ∧ DecoderAt m V (List.replicate (BitWriter.padLen (pageBits m V).length) false) (k - 1) d'
      ∧ d'.type_ = d.type_ ∧ d'.num_values_ = d.num_values_ - k := by
  obtain ⟨v0, rest, rfl⟩ : ∃ v0 rest, V = v0 :: rest := by
    cases V with
    | nil => simp at hV
    | cons a l => exact ⟨a, l, rfl⟩
  simp only [List.length_cons] at hn hV hkn
  obtain ⟨k', rfl⟩ : ∃ k', k = k' + 1 := ⟨k - 1, by omega⟩
  obtain ⟨d1, h1, hd1, ht1, hn1⟩ := getStep_first m v0 rest d hm hm2 hn (by omega) hr hdec hz hw
  obtain ⟨d2, h2, hd2, ht2, hn2⟩ := getLoop_at m (v0 :: rest) _ hm hm2
    (by simpa using hn) hr k' 0 d1 (by simp only [List.length_cons]; omega) hd1
  have hmap : ∀ (l : List Int), (∀ v ∈ l, v ∈ v0 :: rest) → l.map (castTo d.type_) = l := by
    intro l hl
    induction l with
    | nil => rfl
    | cons a l ih =>
      rw [List.map_cons, hcast a (hl a (List.mem_cons_self _ _)),
        ih (fun v hv => hl v (List.mem_cons_of_mem _ hv))]
  refine ⟨{ d2 with num_values_ := d2.num_values_ - ((k' + 1 : Nat) : Int) }, ?_, ?_, ?_, ?_⟩
  · unfold DeltaBitPackDecoder.Get
    simp only [hk, Int.toNat_ofNat, getLoop, h1, h2, pure, Except.pure]
    rw [ht1, hmap _ (fun v hv => List.mem_of_mem_drop (List.mem_of_mem_take hv)),
      hcast v0 (List.mem_cons_self _ _)]
    simp
  · simpa [DecoderAt] using hd2
  · simp only [ht2, ht1]
  · simp only [hn2, hn1]

/-- `Get` at position `t` of the page of `V`: the next `k` values. -/
theorem Get_next (m : Nat) (V : List Int) (tail : List Bool) (d : DeltaBitPackDecoder)
    (max_values : Int) (t k : Nat) (hm : 1 ≤ m) (hm2 : m < 2147483648)
    (hn : V.length < 2147483648)
    (hr : ∀ v ∈ V, -9223372036854775808 ≤ v ∧ v < 9223372036854775808)
    (hcast : ∀ v ∈ V, castTo d.type_ v = v)
    (hd : DecoderAt m V tail t d)
    (hk : min max_values d.num_values_ = (k : Int)) (hkn : t + k < V.length) :
    ∃ d', d.Get max_values = Except.ok ((k : Int), (V.drop (t + 1)).take k, d')
      ∧ DecoderAt m V tail (t + k) d'
      ∧ d'.type_ = d.type_ ∧ d'.num_values_ = d.num_values_ - k := by
  obtain ⟨d2, h2, hd2, ht2, hn2⟩ := getLoop_at m V tail hm hm2 hn hr k t d hkn hd
  have hmap : ∀ (l : List Int), (∀ v ∈ l, v ∈ V) → l.map (castTo d.type_) = l := by
    intro l hl
    induction l with
    | nil => rfl
    | cons a l ih =>
      rw [List.map_cons, hcast a (hl a (List.mem_cons_self _ _)),
        ih (fun v hv => hl v (List.mem_cons_of_mem _ hv))]
  refine ⟨{ d2 with num_values_ := d2.num_values_ - (k : Int) }, ?_, ?_, ?_, ?_⟩
  · unfold DeltaBitPackDecoder.Get
    simp only [hk, Int.toNat_ofNat, h2, pure, Except.pure]
    rw [hmap _ (fun v hv => List.mem_of_mem_drop (List.mem_of_mem_take hv))]
  · simpa [DecoderAt] using hd2
  · simp only [ht2]
  · simp only [hn2]

theorem castTo_int32 (v : Int) (h : -2147483648 ≤ v ∧ v < 2147483648) :
    castTo PType.INT32 v = v := by
  simp only [castTo]; unfold wrap32; omega

theorem castTo_int64 (v : Int) (h : -9223372036854775808 ≤ v ∧ v < 9223372036854775808) :
    castTo PType.INT64 v = v := by
  simp only [castTo]; unfold wrap64; omega

/-- `Encode` after adding `V` to a fresh encoder gives the page of `V`. -/
theorem Encode_fresh (t : PType) (bs : Int) (m : Nat) (V : List Int)
    (hm : 1 ≤ m) (hm2 : m < 2147483648) (hV : 1 ≤ V.length) (hn : V.length < 2147483648)
    (hr : ∀ v ∈ V, -9223372036854775808 ≤ v ∧ v < 9223372036854775808)
    (hfit : (page m V).length ≤ SCRATCH)
    (hkm : numMiniBlocks m V.length * m < 2147483648) :
    (DeltaBitPackEncoder.Add ⟨t, bs, 0, (m : Int), []⟩ V).2.Encode
      = Except.ok (page m V,
          ⟨t, bs, (V.length : Int), (m : Int), V.headD 0 :: deltas V⟩) := by
  obtain ⟨v0, rest, rfl⟩ : ∃ v0 rest, V = v0 :: rest := by
    cases V with
    | nil => simp at hV
    | cons a l => exact ⟨a, l, rfl⟩
  have h := EncodeAux_eq t bs m v0 rest hm hm2 (by simpa using hn) hr hfit
    (by simpa using hkm)
  unfold DeltaBitPackEncoder.Encode DeltaBitPackEncoder.Add
  simp only [List.nil_append, Int.zero_add, List.length_cons] at h ⊢
  rw [h]
  simp [pure, Except.pure]

end ParquetCpp

namespace ParquetCpp

open DeltaBitPack DeltaBitPackEncoder

/-! ## Sizes -/

theorem vlqBytes_length_le (f v : Nat) : (BitWriter.vlqBytes f v).length ≤ f + 1 := by
  induction f generalizing v with
  | zero => simp [BitWriter.vlqBytes]
  | succ f ih =>
    simp only [BitWriter.vlqBytes]
    split
    · simp
    · simp only [List.length_cons]; have := ih (v / 128); omega

theorem slotsFrom_length_le (m : Nat) (ds : List Int) (k : Nat) : ∀ t,
    (slotsFrom m ds k t).length ≤ 64 * k := by
  induction k with
  | zero => intro t; simp [slotsFrom]
  | succ k ih =>
    intro t
    simp only [slotsFrom, List.length_append, slotBits, lowBits_length]
    have := ih (t + 1)
    have := widthOf_le m ds (t / m)
    omega

theorem page_length_le (m : Nat) (V : List Int) :
    (page m V).length ≤ 51 + numMiniBlocks m V.length + 8 * (numMiniBlocks m V.length * m) := by
  have h8 : 8 * (page m V).length
      = (pageBits m V).length + BitWriter.padLen (pageBits m V).length := by
    unfold page
    rw [bitsToBytes_length _ (by
      rw [List.length_append, List.length_replicate]; exact padLen_add _)]
    simp
  have hp := padLen_lt (pageBits m V).length
  have hb : (pageBits m V).length
      ≤ 8 * (50 + numMiniBlocks m V.length) + 64 * (numMiniBlocks m V.length * m) := by
    unfold pageBits headerBytes
    simp only [List.length_append, bytesToBits_length, widthsFrom_length]
    have := slotsFrom_length_le m (deltas V) (numMiniBlocks m V.length * m) 0
    have := vlqBytes_length_le 9 (numMiniBlocks m V.length * m)
    have := vlqBytes_length_le 9 (numMiniBlocks m V.length)
    have := vlqBytes_length_le 9 (V.length - 1)
    have := vlqBytes_length_le 9 (BitWriter.zigZag (V.headD 0))
    have := vlqBytes_length_le 9 (BitWriter.zigZag (minDelta (deltas V)))
    omega
  omega

/-! ## The scratch buffer is too small -/

theorem PutBytes_max_bytes (bs : List Nat) : ∀ (w : BitWriter),
    (w.PutBytes bs).2.max_bytes = w.max_bytes := by
  induction bs with
  | nil => intro w; rfl
  | cons b bs ih =>
    intro w
    simp only [BitWriter.PutBytes]
    rw [ih]
    unfold BitWriter.PutByte BitWriter.PutValue BitWriter.align
    split <;> rfl

theorem PutVlqInt_max_bytes (w : BitWriter) (v : Nat) :
    (w.PutVlqInt v).2.max_bytes = w.max_bytes :=
  PutBytes_max_bytes _ w

/-- When there are more mini blocks than bytes in the scratch buffer, the span for the
width bytes cannot be reserved and `Encode` stores through a null pointer. -/
theorem EncodeAux_overflow (e : DeltaBitPackEncoder) (v0 : Int) (rest : List Int) (K : Nat)
    (hv : e.values_ = v0 :: rest) (hm : e.mini_block_size_ ≠ 0)
    (hK : (BitUtil.Ceil (e.num_values_ - 1) e.mini_block_size_).toNat = K)
    (hbig : SCRATCH < K)
    (hkm : 0 ≤ e.mini_block_size_ ∧ (K : Int) * e.mini_block_size_ ≤ 2147483647) :
    e.EncodeAux = Except.error Err.outOfRange := by
  have hs : SCRATCH = 10485760 := by decide
  have hC : BitUtil.Ceil (e.num_values_ - 1) e.mini_block_size_ = (K : Int) := by omega
  have hov : ¬ (BitUtil.Ceil (e.num_values_ - 1) e.mini_block_size_ * e.mini_block_size_
        < -2147483648
      ∨ 2147483647
        < BitUtil.Ceil (e.num_values_ - 1) e.mini_block_size_ * e.mini_block_size_) := by
    rw [hC]
    have := Int.mul_nonneg (Int.ofNat_nonneg K) hkm.1
    omega
  unfold EncodeAux
  simp only [hm, if_false, hov, hv, hK]
  obtain ⟨k, rfl⟩ : ∃ k, K = k + 1 := ⟨K - 1, by omega⟩
  have hnone : ∀ (w : BitWriter), w.max_bytes = SCRATCH →
      (w.GetNextBytePtr (k + 1)) = (none, w.align) := by
    intro w hw
    unfold BitWriter.GetNextBytePtr
    have : ¬ (w.align.bits.length + 8 * (k + 1) ≤ 8 * w.align.max_bytes) := by
      have : w.align.max_bytes = SCRATCH := by rw [← hw]; rfl
      omega
    simp only [this, if_false]
  rw [hnone _ (by
    simp only [BitWriter.PutZigZagVlqInt, PutVlqInt_max_bytes]; rfl)]
  simp only [miniBlockLoop, ite_self]
  rfl

theorem Encode_of_EncodeAux_error (e : DeltaBitPackEncoder) (err : Err)
    (h : e.EncodeAux = Except.error err) : e.Encode = Except.error err := by
  unfold DeltaBitPackEncoder.Encode
  rw [h]
  rfl

end ParquetCpp

namespace ParquetCpp

open DeltaBitPack DeltaBitPackEncoder

/-! ## Round trip of the delta binary packed codec -/

theorem widthsFrom_le (m : Nat) (ds : List Int) (k : Nat) : ∀ (i : Nat),
    ∀ w ∈ widthsFrom m ds k i, w ≤ 64 := by
  induction k with
  | zero => intro i w hw; simp [widthsFrom] at hw
  | succ k ih =>
    intro i w hw
    simp only [widthsFrom, List.mem_cons] at hw
    rcases hw with rfl | hw
    · exact widthOf_le m ds i
    · exact ih (i + 1) w hw

/-- Encode then decode in one `Get`, for either integer type. -/
theorem roundtrip_core (t : PType) (m : Nat) (V : List Int) (buffer_size idx0 : Int)
    (hm : 1 ≤ m) (hm2 : m < 2147483648) (hV : 2 ≤ V.length) (hn : V.length < 2147483648)
    (hr : ∀ v ∈ V, -9223372036854775808 ≤ v ∧ v < 9223372036854775808)
    (hcast : ∀ v ∈ V, castTo t v = v)
    (hfit : (page m V).length ≤ SCRATCH)
    (hkm : numMiniBlocks m V.length * m < 2147483648) :
    ∃ e1 d1,
      (DeltaBitPackEncoder.Add ⟨t, buffer_size, 0, (m : Int), []⟩ V).2.Encode
          = Except.ok (page m V, e1)
      ∧ (DeltaBitPackDecoder.SetData ⟨t, 0, ⟨[], 0⟩, 0, 0, 0, 0, 0, idx0, [], 0, 0⟩
            (V.length : Int) (page m V)).Get (V.length : Int)
          = Except.ok ((V.length : Int), V, d1)
      ∧ d1.delta_bit_widths_.length = numMiniBlocks m V.length
      ∧ ∀ w ∈ d1.delta_bit_widths_, w ≤ 64 := by
  obtain ⟨d1, h1, hd1, _, _⟩ := Get_first m V
    (DeltaBitPackDecoder.SetData ⟨t, 0, ⟨[], 0⟩, 0, 0, 0, 0, 0, idx0, [], 0, 0⟩
      (V.length : Int) (page m V)) (V.length : Int) V.length hm hm2 hn hV hr hcast rfl rfl rfl
    (by simp [DeltaBitPackDecoder.SetData]) (by omega) (le_refl _)
  rw [List.take_length] at h1
  refine ⟨_, d1, Encode_fresh t buffer_size m V hm hm2 (by omega) hn hr hfit hkm, h1,
    ?_, ?_⟩
  · rw [hd1.2.2.2.1, widthsFrom_length]
  · rw [hd1.2.2.2.1]; exact widthsFrom_le _ _ _ _

/-- Counterexample to C6 as stated: an `int64` sequence of 83 886 090 zeros has more mini
blocks than the 10 MiB scratch buffer of `Encode` has bytes; `Encode` cannot reserve the
width bytes and fails instead of returning a page. -/
theorem deltaBitPack_int64_scratch_counterexample :
    2 ≤ manyZeros.length
    ∧ ∃ e0, DeltaBitPackEncoder.new PType.INT64 1048576 8 = Except.ok e0
      ∧ (e0.Add manyZeros).2.Encode = Except.error Err.outOfRange := by
  have hlen : manyZeros.length = 83886090 := List.length_replicate _ _
  have hcons : manyZeros = 0 :: List.replicate 83886089 0 := List.replicate_succ 0 83886089
  refine ⟨by rw [hlen]; decide, _, rfl, ?_⟩
  have h := EncodeAux_overflow
    (DeltaBitPackEncoder.Add ⟨PType.INT64, 1048576, 0, 8, []⟩ manyZeros).2 0
    (List.replicate 83886089 0) 10485762
    (by
      show [] ++ manyZeros = _
      rw [List.nil_append, hcons])
    (by
      show (8 : Int) ≠ 0
      decide)
    (by
      show (BitUtil.Ceil ((0 : Int) + (manyZeros.length : Int) - 1) 8).toNat = 10485762
      rw [hlen]
      decide)
    (by decide)
    (by
      show (0 : Int) ≤ 8 ∧ ((10485762 : Nat) : Int) * 8 ≤ 2147483647
      decide)
  exact Encode_of_EncodeAux_error _ _ h

/-- C6 (amended). For every mini-block size `m ≥ 1` and every sequence `V` of at least two
`int64` values whose page fits the scratch buffer and whose block size, `m` times the
number of mini blocks, is in the range of `int`, whatever the successive differences
are (they are taken modulo `2^64`): `Encode()` returns the page of `V`, the decoder
returns exactly `V`, and every width byte it read from the page is at most 64. -/
theorem deltaBitPack_int64_roundtrip (m : Nat) (V : List Int) (buffer_size idx0 : Int)
    (hm : 1 ≤ m) (hm2 : m < 2147483648) (hV : 2 ≤ V.length) (hn : V.length < 2147483648)
    (hr : ∀ v ∈ V, INT64_MIN ≤ v ∧ v ≤ INT64_MAX)
    (hfit : (DeltaBitPack.page m V).length ≤ SCRATCH)
    (hkm : DeltaBitPack.numMiniBlocks m V.length * m < 2147483648) :
    ∃ e0 e1 d0 d1,
      DeltaBitPackEncoder.new PType.INT64 buffer_size (m : Int) = Except.ok e0
      ∧ (e0.Add V).2.Encode = Except.ok (DeltaBitPack.page m V, e1)
      ∧ DeltaBitPackDecoder.new PType.INT64 idx0 = Except.ok d0
      ∧ (d0.SetData (V.length : Int) (DeltaBitPack.page m V)).Get (V.length : Int)
          = Except.ok ((V.length : Int), V, d1)
      ∧ d1.delta_bit_widths_.length = DeltaBitPack.numMiniBlocks m V.length
      ∧ ∀ w ∈ d1.delta_bit_widths_, w ≤ 64 := by
  have hr' : ∀ v ∈ V, -9223372036854775808 ≤ v ∧ v < 9223372036854775808 := by
    intro v hv
    have := hr v hv
    simp only [INT64_MIN, INT64_MAX] at this
    omega
  obtain ⟨e1, d1, h1, h2, h3, h4⟩ := roundtrip_core PType.INT64 m V buffer_size idx0 hm hm2 hV
    hn hr' (fun v hv => castTo_int64 v (hr' v hv)) hfit hkm
  exact ⟨_, e1, _, d1, rfl, h1, rfl, h2, h3, h4⟩

set_option maxRecDepth 100000 in
/-- Witness of C6 (amended): `[INT64_MIN, INT64_MAX, INT64_MIN]`, whose differences
overflow 64-bit signed arithmetic, with mini-block size 8. -/
theorem deltaBitPack_int64_roundtrip_witness :
    (1 ≤ 8 ∧ 8 < 2147483648 ∧ 2 ≤ [INT64_MIN, INT64_MAX, INT64_MIN].length
      ∧ [INT64_MIN, INT64_MAX, INT64_MIN].length < 2147483648
      ∧ (∀ v ∈ [INT64_MIN, INT64_MAX, INT64_MIN], INT64_MIN ≤ v ∧ v ≤ INT64_MAX)
      ∧ (DeltaBitPack.page 8 [INT64_MIN, INT64_MAX, INT64_MIN]).length ≤ SCRATCH
      ∧ DeltaBitPack.numMiniBlocks 8 [INT64_MIN, INT64_MAX, INT64_MIN].length * 8
          < 2147483648)
    ∧ ∃ e0 e1 d0 d1,
      DeltaBitPackEncoder.new PType.INT64 1048576 ((8 : Nat) : Int) = Except.ok e0
      ∧ (e0.Add [INT64_MIN, INT64_MAX, INT64_MIN]).2.Encode
          = Except.ok (DeltaBitPack.page 8 [INT64_MIN, INT64_MAX, INT64_MIN], e1)
      ∧ DeltaBitPackDecoder.new PType.INT64 0 = Except.ok d0
      ∧ (d0.SetData ([INT64_MIN, INT64_MAX, INT64_MIN].length : Int)
            (DeltaBitPack.page 8 [INT64_MIN, INT64_MAX, INT64_MIN])).Get
            ([INT64_MIN, INT64_MAX, INT64_MIN].length : Int)
          = Except.ok (([INT64_MIN, INT64_MAX, INT64_MIN].length : Int),
              [INT64_MIN, INT64_MAX, INT64_MIN], d1)
      ∧ d1.delta_bit_widths_.length
          = DeltaBitPack.numMiniBlocks 8 [INT64_MIN, INT64_MAX, INT64_MIN].length
      ∧ ∀ w ∈ d1.delta_bit_widths_, w ≤ 64 :=
  ⟨⟨by decide, by decide, by decide, by decide, by decide, by decide, by decide⟩,
    deltaBitPack_int64_roundtrip 8 [INT64_MIN, INT64_MAX, INT64_MIN] 1048576 0 (by decide)
      (by decide) (by decide) (by decide) (by decide) (by decide) (by decide)⟩

end ParquetCpp

namespace ParquetCpp

/-! ## Pages that do not decode, encoders that do not return -/

set_option maxRecDepth 100000 in
/-- C7. Failing input: the single value 5. `Encode()` of a `DeltaBitPackEncoder` for
`INT64` (mini-block size 8) returns a page with `block_size = 0` and
`num_mini_blocks = 0`; on it `SetData(1, page)` then `Get(out, 1)` of a new
`DeltaBitPackDecoder` runs `InitBlock`, whose `block_size / num_mini_blocks_` is a
division by zero: no value is returned. -/
theorem deltaBitPack_single_value_div_by_zero :
    ∃ e0 e1 d0,
      DeltaBitPackEncoder.new PType.INT64 1048576 8 = Except.ok e0
      ∧ (e0.Add [5]).2.Encode
          = Except.ok ([0, 0, 0, 10, 254, 255, 255, 255, 255, 255, 255, 255, 255, 1], e1)
      ∧ DeltaBitPackDecoder.new PType.INT64 0 = Except.ok d0
      ∧ (d0.SetData 1 [0, 0, 0, 10, 254, 255, 255, 255, 255, 255, 255, 255, 255, 1]).Get 1
          = Except.error Err.divByZero :=
  ⟨_, _, _, rfl, rfl, rfl, rfl⟩

set_option maxRecDepth 100000 in
/-- C8. Failing input: no value at all. On a fresh `DeltaBitPackEncoder`, and on one that
was filled and `Reset()`, `num_values()` is 0 and `Encode()` evaluates `values_[0]` on the
empty vector, an access out of range: no page is returned. -/
theorem deltaBitPack_encode_empty_out_of_range :
    ∃ e0,
      DeltaBitPackEncoder.new PType.INT64 1048576 8 = Except.ok e0
      ∧ e0.num_values = 0
      ∧ e0.Encode = Except.error Err.outOfRange
      ∧ ((e0.Add [1, 2, 3]).2.Reset).num_values = 0
      ∧ ((e0.Add [1, 2, 3]).2.Reset).Encode = Except.error Err.outOfRange :=
  ⟨_, rfl, rfl, rfl, rfl, rfl⟩

set_option maxRecDepth 100000 in
/-- C9. Failing input: the `int32` sequence `[-1, 1, 2, 0, 3, 4, 1]` of
`TEST(Encoder, BasicTest)`. The first `Encode()` leaves the deltas in `values_`, so a second
`Encode()` right after it encodes the deltas of the deltas: the two pages differ, in
content and in length (9 and 10 bytes). -/
theorem deltaBitPack_encode_twice_differs :
    ∃ e0 e1 e2,
      DeltaBitPackEncoder.new PType.INT32 1048576 8 = Except.ok e0
      ∧ (e0.Add [-1, 1, 2, 0, 3, 4, 1]).2.Encode
          = Except.ok ([8, 1, 6, 1, 5, 3, 101, 76, 0], e1)
      ∧ e1.Encode = Except.ok ([8, 1, 6, 1, 7, 4, 55, 145, 2, 0], e2)
      ∧ e1.values_ = [-1, 2, 1, -2, 3, 1, -3] :=
  ⟨_, _, _, rfl, rfl, rfl, rfl⟩

set_option maxRecDepth 100000 in
/-- C10. Failing input: the strings "Hello", "World", "Foobar", "ABCDEF" in a
`DeltaLengthByteArrayEncoder` with a 64-byte buffer. The first `Encode()` moves the staged
bytes behind the lengths page inside `buffer_` and overwrites the start of `buffer_`
(and leaves the deltas in the length encoder); a second `Encode()` right after it returns
35 bytes instead of 33, with the header of the first page where the strings should
be. -/
theorem deltaLength_encode_twice_differs :
    ∃ e0 e1 e2,
      (DeltaLengthByteArrayEncoder.new (List.replicate 64 0) 8).Add
          [[72, 101, 108, 108, 111], [87, 111, 114, 108, 100],
            [70, 111, 111, 98, 97, 114], [65, 66, 67, 68, 69, 70]]
        = Except.ok (4, e0)
      ∧ e0.Encode
          = Except.ok ([7, 0, 0, 0, 8, 1, 3, 10, 0, 1, 2, 72, 101, 108, 108, 111, 87, 111, 114,
              108, 100, 70, 111, 111, 98, 97, 114, 65, 66, 67, 68, 69, 70], e1)
      ∧ e1.Encode
          = Except.ok ([9, 0, 0, 0, 8, 1, 3, 10, 9, 3, 48, 1, 0, 7, 0, 0, 0, 8, 1, 3, 10, 0, 1,
              2, 72, 101, 108, 108, 111, 87, 111, 114, 108, 100, 70], e2) :=
  ⟨_, _, _, rfl, rfl, rfl⟩

end ParquetCpp

namespace ParquetCpp

/-! ## Plain codec -/

theorem memWrite_fits (buf : List Nat) (off : Nat) (src : List Nat)
    (h : off + src.length ≤ buf.length) :
    memWrite buf (off : Int) src
      = Except.ok (buf.take off ++ src ++ buf.drop (off + src.length)) := by
  unfold memWrite
  have hc : 0 ≤ (off : Int) ∧ (off : Int).toNat + src.length ≤ buf.length := by
    constructor
    · omega
    · rw [Int.toNat_ofNat]; exact h
  rw [if_pos hc, Int.toNat_ofNat]
  rfl

theorem memRead_fits (buf : List Nat) (off n : Nat) (h : off + n ≤ buf.length) :
    memRead buf (off : Int) (n : Int) = Except.ok ((buf.drop off).take n) := by
  unfold memRead
  by_cases hn : n = 0
  · subst hn
    rw [if_pos (by simp)]
    simp only [List.take_zero]
    rfl
  · have h1 : ¬ ((n : Int) ≤ 0) := by omega
    have hc : 0 ≤ (off : Int) ∧ (off : Int).toNat + (n : Int).toNat ≤ buf.length := by
      constructor
      · omega
      · rw [Int.toNat_ofNat, Int.toNat_ofNat]; exact h
    rw [if_neg h1, if_pos hc, Int.toNat_ofNat, Int.toNat_ofNat]
    rfl

theorem flatten_length_of_size (sz : Nat) (L : List (List Nat)) (h : ∀ v ∈ L, v.length = sz) :
    L.flatten.length = L.length * sz := by
  induction L with
  | nil => simp
  | cons v L ih =>
    rw [List.flatten_cons, List.length_append, h v (List.mem_cons_self _ _),
      ih (fun x hx => h x (List.mem_cons_of_mem _ hx)), List.length_cons]
    ring

theorem chunks_flatten (sz : Nat) (L : List (List Nat)) (h : ∀ v ∈ L, v.length = sz) :
    PlainDecoder.chunks sz L.length L.flatten = L := by
  induction L with
  | nil => rfl
  | cons v L ih =>
    have hv := h v (List.mem_cons_self _ _)
    simp only [List.length_cons, PlainDecoder.chunks, List.flatten_cons]
    rw [List.take_left' hv, List.drop_left' hv,
      ih (fun x hx => h x (List.mem_cons_of_mem _ hx))]

/-- `AddInternal` of `V` on a fresh encoder whose buffer has room for `V`. -/
theorem AddInternal_fresh (t : PType) (sz : Nat) (mem : List Nat) (V : List (List Nat))
    (hsz : 1 ≤ sz) (hV : ∀ v ∈ V, v.length = sz) (hbuf : V.length * sz ≤ mem.length) :
    PlainEncoder.AddInternal
        ⟨t, (mem.length : Int), mem, 0, Int.tdiv (mem.length : Int) (sz : Int), (sz : Int), 0⟩ V
      = Except.ok ((V.length : Int),
          ⟨t, (mem.length : Int), V.flatten ++ mem.drop (V.length * sz), (V.length : Int),
            Int.tdiv (mem.length : Int) (sz : Int), (sz : Int), ((V.length * sz : Nat) : Int)⟩) := by
  have hfl := flatten_length_of_size sz V hV
  have hdiv : Int.tdiv (mem.length : Int) (sz : Int) = ((mem.length / sz : Nat) : Int) := by
    rfl
  have hle : V.length ≤ mem.length / sz := (Nat.le_div_iff_mul_le (by omega)).mpr hbuf
  have hmin : min (V.length : Int) (Int.tdiv (mem.length : Int) (sz : Int) - 0) = (V.length : Int) := by
    rw [hdiv]; omega
  unfold PlainEncoder.AddInternal
  simp only [hmin, Int.toNat_ofNat, List.take_length]
  have hneg : ¬ ((V.length : Int) < 0) := by omega
  simp only [hneg, if_false]
  have hw := memWrite_fits mem 0 V.flatten (by rw [hfl]; omega)
  simp only [Nat.cast_zero, List.take_zero, List.nil_append, Nat.zero_add] at hw
  rw [hw, hfl]
  simp only [pure, Except.pure, Int.zero_add, Nat.cast_mul]

/-- The successive `Get` calls of a plain decoder positioned after the values `A`, with
the values `B` left. -/
theorem getMany_at (sz : Nat) (t : PType) (hsz : 1 ≤ sz)
    (hget : ∀ (d : PlainDecoder) (k : Int), d.Get t k = d.GetValues k (sz : Int))
    (ks : List Nat) : ∀ (A B : List (List Nat)) (ty : PType),
    (∀ v ∈ A, v.length = sz) → (∀ v ∈ B, v.length = sz) → (∀ k ∈ ks, 0 < k) →
    ks.sum = B.length → B.length * sz < 2147483648 →
    ∃ rs d1,
      PlainDecoder.getMany t (ks.map (fun (k : Nat) => (k : Int)))
          ⟨ty, (B.length : Int), (A ++ B).flatten, (A.flatten.length : Int),
            (B.flatten.length : Int)⟩
        = Except.ok (rs, d1)
      ∧ rs.map (fun r => r.1) = ks.map (fun (k : Nat) => (k : Int))
      ∧ rs.map (fun r => r.2.length) = ks
      ∧ (rs.map (fun r => r.2)).flatten = B
      ∧ d1.num_values_ = 0 := by
  induction ks with
  | nil =>
    intro A B ty _ _ _ hsum _
    have hB : B = [] := List.length_eq_zero.mp (by simpa using hsum.symm)
    subst hB
    exact ⟨[], _, rfl, rfl, rfl, rfl, rfl⟩
  | cons k ks ih =>
    intro A B ty hA hB hks hsum hB31
    have hk : 0 < k := hks k (List.mem_cons_self _ _)
    simp only [List.sum_cons] at hsum
    have hkB : k ≤ B.length := by omega
    have hBt : ∀ v ∈ B.take k, v.length = sz := fun v hv => hB v (List.mem_of_mem_take hv)
    have hBd : ∀ v ∈ B.drop k, v.length = sz := fun v hv => hB v (List.mem_of_mem_drop hv)
    have hfB := flatten_length_of_size sz B hB
    have hfA := flatten_length_of_size sz A hA
    have hft := flatten_length_of_size sz (B.take k) hBt
    have hfd := flatten_length_of_size sz (B.drop k) hBd
    rw [List.length_take, Nat.min_eq_left hkB] at hft
    rw [List.length_drop] at hfd
    have hsplit : B.flatten = (B.take k).flatten ++ (B.drop k).flatten := by
      rw [← List.flatten_append, List.take_append_drop]
    have hmul : k * sz ≤ B.length * sz := Nat.mul_le_mul_right _ hkB
    have hread : memRead (A ++ B).flatten ((A.flatten.length : Nat) : Int) ((k * sz : Nat) : Int)
        = Except.ok (B.take k).flatten := by
      rw [memRead_fits _ _ _ (by rw [List.flatten_append, List.length_append, hfB]; omega)]
      rw [List.flatten_append, List.drop_left, hsplit,
        List.take_append_of_le_length (by omega), List.take_of_length_le (by omega)]
    obtain ⟨rs, d1, h1, h2, h3, h4, h5⟩ := ih (A ++ B.take k) (B.drop k) ty
      (by
        intro v hv
        rcases List.mem_append.mp hv with h | h
        · exact hA v h
        · exact hBt v h)
      hBd (fun x hx => hks x (List.mem_cons_of_mem _ hx))
      (by rw [List.length_drop]; omega)
      (by
        rw [List.length_drop]
        have : (B.length - k) * sz ≤ B.length * sz := Nat.mul_le_mul_right _ (by omega)
        omega)
    have hstate : (A ++ B.take k ++ B.drop k) = A ++ B := by
      rw [List.append_assoc, List.take_append_drop]
    rw [hstate] at h1
    refine ⟨((k : Int), B.take k) :: rs, d1, ?_, ?_, ?_, ?_, h5⟩
    · simp only [List.map_cons, PlainDecoder.getMany, hget]
      have hmin : min (k : Int) (B.length : Int) = (k : Int) := by omega
      have hsize : (k : Int) * (sz : Int) = ((k * sz : Nat) : Int) := by push_cast; ring
      have hnl : ¬ ((B.flatten.length : Int) < ((k * sz : Nat) : Int)) := by
        rw [hfB]; omega
      have hnn : ¬ (((k * sz : Nat) : Int) < 0) := by omega
      have hov : ¬ (((k * sz : Nat) : Int) < -2147483648 ∨ 2147483647 < ((k * sz : Nat) : Int)) := by
        omega
      unfold PlainDecoder.GetValues
      simp only [hmin, hsize, hov, hnl, if_false, hnn, hread, Int.toNat_ofNat]
      have hch : PlainDecoder.chunks sz k (B.take k).flatten = B.take k := by
        have := chunks_flatten sz (B.take k) hBt
        rwa [List.length_take, Nat.min_eq_left hkB] at this
      rw [hch]
      have e1 : ((A.flatten.length : Nat) : Int) + ((k * sz : Nat) : Int)
          = (((A ++ B.take k).flatten.length : Nat) : Int) := by
        rw [List.flatten_append, List.length_append, hft]; push_cast; ring
      have e2 : ((B.flatten.length : Nat) : Int) - ((k * sz : Nat) : Int)
          = (((B.drop k).flatten.length : Nat) : Int) := by
        rw [hfB, hfd]
        have : (B.length - k) * sz = B.length * sz - k * sz := Nat.sub_mul _ _ _
        omega
      have e3 : (B.length : Int) - (k : Int) = (((B.drop k).length : Nat) : Int) := by
        rw [List.length_drop]; omega
      rw [e1, e2, e3]
      simp only [pure, Except.pure, h1]
    · simp only [List.map_cons, h2]
    · simp only [List.map_cons, h3, List.length_take, Nat.min_eq_left hkB]
    · simp only [List.map_cons, List.flatten_cons, h4, List.take_append_drop]

end ParquetCpp

namespace ParquetCpp

/-- The plain round trip for one numeric type, given its size. -/
theorem plain_roundtrip_core (t : PType) (sz : Nat) (mem : List Nat) (V : List (List Nat))
    (ks : List Nat) (hsz : 1 ≤ sz)
    (hnew : PlainEncoder.new t mem
      = Except.ok ⟨t, (mem.length : Int), mem, 0, Int.tdiv (mem.length : Int) (sz : Int),
          (sz : Int), 0⟩)
    (hadd : ∀ (e : PlainEncoder), e.type_ = t → e.Add t V = e.AddInternal V)
    (hget : ∀ (d : PlainDecoder) (k : Int), d.Get t k = d.GetValues k (sz : Int))
    (hV : ∀ v ∈ V, v.length = sz) (hbuf : V.length * sz ≤ mem.length)
    (hint : mem.length < 2147483648)
    (hks : ∀ k ∈ ks, 0 < k) (hsum : ks.sum = V.length) :
    ∃ e0 e1 rs d1,
      PlainEncoder.new t mem = Except.ok e0
      ∧ e0.Add t V = Except.ok ((V.length : Int), e1)
      ∧ e1.Encode = V.flatten
      ∧ ((PlainDecoder.new t).SetData (V.length : Int) e1.Encode).getMany t
            (ks.map (fun (k : Nat) => (k : Int)))
          = Except.ok (rs, d1)
      ∧ rs.map (fun r => r.1) = ks.map (fun (k : Nat) => (k : Int))
      ∧ rs.map (fun r => r.2.length) = ks
      ∧ (rs.map (fun r => r.2)).flatten = V := by
  have hfl := flatten_length_of_size sz V hV
  have henc : PlainEncoder.Encode
      ⟨t, (mem.length : Int), V.flatten ++ mem.drop (V.length * sz), (V.length : Int),
        Int.tdiv (mem.length : Int) (sz : Int), (sz : Int), ((V.length * sz : Nat) : Int)⟩
      = V.flatten := by
    unfold PlainEncoder.Encode
    simp only [Int.toNat_ofNat]
    exact List.take_left' hfl
  obtain ⟨rs, d1, h1, h2, h3, h4, _⟩ := getMany_at sz t hsz hget ks [] V t (by simp) hV hks hsum
    (by omega)
  refine ⟨_, _, rs, d1, hnew, ?_, henc, ?_, h2, h3, h4⟩
  · rw [hadd _ rfl]
    exact AddInternal_fresh t sz mem V hsz hV hbuf
  · rw [henc]
    simpa [PlainDecoder.new, PlainDecoder.SetData] using h1

/-- C2. For each numeric type `T` in {INT32, INT64, FLOAT, DOUBLE} of size `sz`, every
sequence `V` of objects of `sz` bytes with `|V| * sz ≤ buffer_size` (an `int`), and every list of
positive batch sizes `ks` with sum `|V|`: a fresh `PlainEncoder` accepts all of `V`,
`Encode()` returns the bytes of `V` one after the other, and a `PlainDecoder` after
`SetData(|V|, page)` answers the successive calls `Get(out, k)` with `k` values each,
whose concatenation is `V` byte for byte. -/
theorem plain_numeric_roundtrip (t : PType) (sz : Nat) (mem : List Nat) (V : List (List Nat))
    (ks : List Nat)
    (ht : (t = PType.INT32 ∧ sz = 4) ∨ (t = PType.INT64 ∧ sz = 8)
      ∨ (t = PType.FLOAT ∧ sz = 4) ∨ (t = PType.DOUBLE ∧ sz = 8))
    (hV : ∀ v ∈ V, v.length = sz) (hbuf : V.length * sz ≤ mem.length)
    (hint : mem.length < 2147483648)
    (hks : ∀ k ∈ ks, 0 < k) (hsum : ks.sum = V.length) :
    ∃ e0 e1 rs d1,
      PlainEncoder.new t mem = Except.ok e0
      ∧ e0.Add t V = Except.ok ((V.length : Int), e1)
      ∧ e1.Encode = V.flatten
      ∧ ((PlainDecoder.new t).SetData (V.length : Int) e1.Encode).getMany t
            (ks.map (fun (k : Nat) => (k : Int)))
          = Except.ok (rs, d1)
      ∧ rs.map (fun r => r.1) = ks.map (fun (k : Nat) => (k : Int))
      ∧ rs.map (fun r => r.2.length) = ks
      ∧ (rs.map (fun r => r.2)).flatten = V := by
  rcases ht with ⟨rfl, rfl⟩ | ⟨rfl, rfl⟩ | ⟨rfl, rfl⟩ | ⟨rfl, rfl⟩
  · exact plain_roundtrip_core _ _ mem V ks (by decide) rfl
      (fun e he => by simp [PlainEncoder.Add, he]) (fun _ _ => rfl) hV hbuf hint hks hsum
  · exact plain_roundtrip_core _ _ mem V ks (by decide) rfl
      (fun e he => by simp [PlainEncoder.Add, he]) (fun _ _ => rfl) hV hbuf hint hks hsum
  · exact plain_roundtrip_core _ _ mem V ks (by decide) rfl
      (fun e he => by simp [PlainEncoder.Add, he]) (fun _ _ => rfl) hV hbuf hint hks hsum
  · exact plain_roundtrip_core _ _ mem V ks (by decide) rfl
      (fun e he => by simp [PlainEncoder.Add, he]) (fun _ _ => rfl) hV hbuf hint hks hsum

set_option maxRecDepth 100000 in
/-- Witness of C2: the `int64` sequence `[-1, 1, 2, 0, 3, 4, 1]` in a 56-byte buffer, read
back in batches of 3, 3 and 1. -/
theorem plain_numeric_roundtrip_witness :
    (((PType.INT64 = PType.INT32 ∧ 8 = 4) ∨ (PType.INT64 = PType.INT64 ∧ 8 = 8)
        ∨ (PType.INT64 = PType.FLOAT ∧ 8 = 4) ∨ (PType.INT64 = PType.DOUBLE ∧ 8 = 8))
      ∧ (∀ v ∈ [-1, 1, 2, 0, 3, 4, 1].map int64Bytes, v.length = 8)
      ∧ ([-1, 1, 2, 0, 3, 4, 1].map int64Bytes).length * 8 ≤ (List.replicate 56 0).length
      ∧ (List.replicate 56 0).length < 2147483648
      ∧ (∀ k ∈ [3, 3, 1], 0 < k)
      ∧ [3, 3, 1].sum = ([-1, 1, 2, 0, 3, 4, 1].map int64Bytes).length)
    ∧ ∃ e0 e1 rs d1,
      PlainEncoder.new PType.INT64 (List.replicate 56 0) = Except.ok e0
      ∧ e0.Add PType.INT64 ([-1, 1, 2, 0, 3, 4, 1].map int64Bytes)
          = Except.ok ((([-1, 1, 2, 0, 3, 4, 1].map int64Bytes).length : Int), e1)
      ∧ e1.Encode = ([-1, 1, 2, 0, 3, 4, 1].map int64Bytes).flatten
      ∧ ((PlainDecoder.new PType.INT64).SetData
            (([-1, 1, 2, 0, 3, 4, 1].map int64Bytes).length : Int) e1.Encode).getMany
            PType.INT64 ([3, 3, 1].map (fun (k : Nat) => (k : Int)))
          = Except.ok (rs, d1)
      ∧ rs.map (fun r => r.1) = [3, 3, 1].map (fun (k : Nat) => (k : Int))
      ∧ rs.map (fun r => r.2.length) = [3, 3, 1]
      ∧ (rs.map (fun r => r.2)).flatten = [-1, 1, 2, 0, 3, 4, 1].map int64Bytes :=
  ⟨⟨by decide, by decide, by decide, by decide, by decide, by decide⟩,
    plain_numeric_roundtrip PType.INT64 8 (List.replicate 56 0)
      ([-1, 1, 2, 0, 3, 4, 1].map int64Bytes) [3, 3, 1] (by decide) (by decide) (by decide)
      (by decide) (by decide) (by decide)⟩

end ParquetCpp

namespace ParquetCpp

/-! ## Plain byte arrays -/

theorem leBytes_length (n v : Nat) : (leBytes n v).length = n := by
  induction n generalizing v with
  | zero => rfl
  | succ n ih => simp [leBytes, ih]

theorem leValue_leBytes (n v : Nat) (h : v < 256 ^ n) : leValue (leBytes n v) = v := by
  induction n generalizing v with
  | zero => simp at h; subst h; rfl
  | succ n ih =>
    simp only [leBytes, leValue]
    rw [ih (v / 256) (by rw [pow_succ] at h; omega)]
    omega

theorem plainByteArrays_length (S : List (List Nat)) :
    (plainByteArrays S).length = plainByteArraysSize S := by
  induction S with
  | nil => rfl
  | cons s S ih =>
    simp only [plainByteArrays, plainByteArraysSize, List.length_append, leBytes_length, ih]

theorem memWrite_append (W R src : List Nat) (h : src.length ≤ R.length) :
    memWrite (W ++ R) (W.length : Int) src = Except.ok (W ++ src ++ R.drop src.length) := by
  rw [memWrite_fits _ _ _ (by rw [List.length_append]; omega)]
  rw [List.take_left' rfl, List.drop_append_eq_append_drop, List.drop_of_length_le (by omega)]
  simp

theorem memRead_append (W R : List Nat) (n : Nat) (h : n ≤ R.length) :
    memRead (W ++ R) (W.length : Int) (n : Int) = Except.ok (R.take n) := by
  rw [memRead_fits _ _ _ (by rw [List.length_append]; omega), List.drop_left' rfl]

/-- The loop of `Add(const ByteArray*, int)` when everything fits. -/
theorem addByteArrayLoop_fits (S : List (List Nat)) : ∀ (W R : List Nat) (e : PlainEncoder),
    e.buffer_ = W ++ R → e.offset_ = (W.length : Int) →
    e.buffer_size_ = ((W.length + R.length : Nat) : Int) → W.length + R.length < 2147483648 →
    plainByteArraysSize S ≤ R.length →
    PlainEncoder.addByteArrayLoop S e
      = Except.ok ((S.length : Int),
          { e with
            buffer_ := W ++ plainByteArrays S ++ R.drop (plainByteArraysSize S)
            offset_ := ((W.length + plainByteArraysSize S : Nat) : Int) }) := by
  induction S with
  | nil =>
    intro W R e hb ho _ _ _
    simp only [PlainEncoder.addByteArrayLoop, plainByteArrays, plainByteArraysSize,
      List.append_nil, List.drop_zero, Nat.add_zero, pure, Except.pure, List.length_nil,
      Nat.cast_zero, ← hb, ← ho]
  | cons s S ih =>
    intro W R e hb ho hs h31 hfit
    simp only [plainByteArraysSize] at hfit
    have hguard : ¬ (wrap32 ((4 : Int) + (s.length : Int)) > e.buffer_size_ - e.offset_) := by
      rw [hs, ho]; unfold wrap32; omega
    have hw1 : memWrite e.buffer_ e.offset_ (leBytes 4 s.length)
        = Except.ok (W ++ leBytes 4 s.length ++ R.drop 4) := by
      rw [hb, ho]
      have := memWrite_append W R (leBytes 4 s.length) (by rw [leBytes_length]; omega)
      rwa [leBytes_length] at this
    have hw2 : memWrite (W ++ leBytes 4 s.length ++ R.drop 4) (e.offset_ + 4) s
        = Except.ok (W ++ leBytes 4 s.length ++ s ++ (R.drop 4).drop s.length) := by
      have h := memWrite_append (W ++ leBytes 4 s.length) (R.drop 4) s
        (by rw [List.length_drop]; omega)
      rw [List.length_append, leBytes_length] at h
      rw [ho]
      have e1 : (W.length : Int) + 4 = ((W.length + 4 : Nat) : Int) := by push_cast; ring
      rw [e1, h]
    simp only [PlainEncoder.addByteArrayLoop, hguard, if_false, hw1, hw2]
    rw [ih (W ++ leBytes 4 s.length ++ s) ((R.drop 4).drop s.length) _ rfl
      (by
        simp only [List.length_append, leBytes_length, ho]
        push_cast; ring)
      (by
        show e.buffer_size_ = _
        rw [hs]
        simp only [List.length_append, leBytes_length, List.length_drop]
        omega)
      (by
        simp only [List.length_append, leBytes_length, List.length_drop]
        omega)
      (by simp only [List.length_drop]; omega)]
    simp only [pure, Except.pure, Except.ok.injEq, Prod.mk.injEq, List.length_cons]
    refine ⟨by push_cast; ring, ?_⟩
    simp only [PlainEncoder.mk.injEq, true_and, plainByteArrays, plainByteArraysSize,
      List.append_assoc, List.drop_drop, List.length_append, leBytes_length,
      List.append_cancel_left_eq]
    omega

/-- The loop of `Get(ByteArray*, int)` positioned after the bytes `A`, with the strings
`S` left in the page. -/
theorem getByteArrayLoop_at (P : List Nat) (hP : P.length < 2147483648) (ty : PType)
    (nv : Int) (S : List (List Nat)) : ∀ (A : List Nat), P = A ++ plainByteArrays S →
    ∃ vs d1,
      PlainDecoder.getByteArrayLoop S.length
          ⟨ty, nv, P, (A.length : Int), ((plainByteArrays S).length : Int)⟩
        = Except.ok (vs, d1)
      ∧ vs.map (fun v => v.len) = S.map List.length
      ∧ vs.map (ByteArray.bytes P) = S.map some
      ∧ d1.num_values_ = nv := by
  induction S with
  | nil =>
    intro A _
    exact ⟨[], _, rfl, rfl, rfl, rfl⟩
  | cons s S ih =>
    intro A hPA
    have hlenP : P.length = A.length + (4 + s.length + (plainByteArrays S).length) := by
      rw [hPA]
      simp only [plainByteArrays, List.length_append, leBytes_length]
    obtain ⟨vs, d1, h1, h2, h3, h4⟩ := ih (A ++ leBytes 4 s.length ++ s) (by
      rw [hPA]; simp only [plainByteArrays, List.append_assoc])
    have hne : ¬ (((plainByteArrays (s :: S)).length : Int) = 0) := by
      simp only [plainByteArrays, List.length_append, leBytes_length]; omega
    have hread : memRead P (A.length : Int) 4 = Except.ok (leBytes 4 s.length) := by
      have h := memRead_append A (plainByteArrays (s :: S)) 4 (by
        simp only [plainByteArrays, List.length_append, leBytes_length]; omega)
      rw [← hPA] at h
      rw [show ((4 : Nat) : Int) = 4 from rfl] at h
      rw [h]
      simp only [plainByteArrays, List.append_assoc]
      rw [List.take_left' (leBytes_length 4 s.length)]
    have hval : leValue (leBytes 4 s.length) = s.length :=
      leValue_leBytes 4 s.length (by norm_num; omega)
    have hneof : ¬ (toU64 ((plainByteArrays (s :: S)).length : Int) < 4 + s.length) := by
      rw [toU64_natCast _ (by
        simp only [plainByteArrays, List.length_append, leBytes_length]; omega)]
      simp only [plainByteArrays, List.length_append, leBytes_length]; omega
    refine ⟨⟨s.length, (A.length : Int) + 4⟩ :: vs, d1, ?_, ?_, ?_, h4⟩
    · simp only [List.length_cons, PlainDecoder.getByteArrayLoop, hne, if_false, hread, hval,
        hneof]
      have e1 : (A.length : Int) + 4 + (s.length : Int)
          = (((A ++ leBytes 4 s.length ++ s).length : Nat) : Int) := by
        simp only [List.length_append, leBytes_length]; push_cast; ring
      have e2 : ((plainByteArrays (s :: S)).length : Int) - (4 + (s.length : Int))
          = ((plainByteArrays S).length : Int) := by
        simp only [plainByteArrays, List.length_append, leBytes_length]; push_cast; ring
      rw [e1, e2, h1]
      rfl
    · simp only [List.map_cons, h2]
    · simp only [List.map_cons, h3]
      congr 1
      unfold ByteArray.bytes
      have hc : 0 ≤ (A.length : Int) + 4 ∧ ((A.length : Int) + 4).toNat + s.length ≤ P.length := by
        constructor
        · omega
        · omega
      simp only [hc, and_self, if_true]
      have e3 : ((A.length : Int) + 4).toNat = (A ++ leBytes 4 s.length).length := by
        simp only [List.length_append, leBytes_length]; omega
      rw [e3, hPA]
      simp only [plainByteArrays]
      rw [show A ++ (leBytes 4 s.length ++ s ++ plainByteArrays S)
        = (A ++ leBytes 4 s.length) ++ (s ++ plainByteArrays S) by simp only [List.append_assoc],
        List.drop_left' rfl, List.take_left' rfl]

end ParquetCpp

namespace ParquetCpp

/-- C5. For every list `S` of byte strings with the sum of `4 + len` over `S` at most
`buffer_size`: a fresh `PlainEncoder` for `BYTE_ARRAY` accepts all of `S`, its page is the
concatenation over `S` of the 4-byte little-endian length followed by the bytes, and a
`PlainDecoder` for `BYTE_ARRAY` after `SetData(|S|, page)` answers `Get(out, |S|)` with
`|S|` views of the page whose lengths and bytes are those of `S`. -/
theorem plain_byteArray_roundtrip (mem : List Nat) (S : List (List Nat))
    (hbuf : plainByteArraysSize S ≤ mem.length) (hint : mem.length < 2147483648) :
    ∃ e0 e1 vs d1,
      PlainEncoder.new PType.BYTE_ARRAY mem = Except.ok e0
      ∧ e0.AddByteArray S = Except.ok ((S.length : Int), e1)
      ∧ e1.Encode = plainByteArrays S
      ∧ ((PlainDecoder.new PType.BYTE_ARRAY).SetData (S.length : Int) e1.Encode).GetByteArray
            (S.length : Int)
          = Except.ok ((S.length : Int), vs, d1)
      ∧ vs.map (fun v => v.len) = S.map List.length
      ∧ vs.map (ByteArray.bytes e1.Encode) = S.map some := by
  have hadd := addByteArrayLoop_fits S [] mem
    ⟨PType.BYTE_ARRAY, (mem.length : Int), mem, 0, Int.tdiv (mem.length : Int) (-1), -1, 0⟩
    rfl rfl (by simp) (by simpa using hint) hbuf
  have hlen := plainByteArrays_length S
  have henc : PlainEncoder.Encode
      ⟨PType.BYTE_ARRAY, (mem.length : Int),
        [] ++ plainByteArrays S ++ mem.drop (plainByteArraysSize S), 0 + (S.length : Int),
        Int.tdiv (mem.length : Int) (-1), -1,
        ((([] : List Nat).length + plainByteArraysSize S : Nat) : Int)⟩
      = plainByteArrays S := by
    unfold PlainEncoder.Encode
    simp only [List.nil_append, List.length_nil, Nat.zero_add, Int.toNat_ofNat]
    exact List.take_left' hlen
  obtain ⟨vs, d1, h1, h2, h3, h4⟩ := getByteArrayLoop_at (plainByteArrays S)
    (by rw [hlen]; omega) PType.BYTE_ARRAY (S.length : Int) S [] rfl
  have hvl : vs.length = S.length := by
    have := congrArg List.length h2
    simpa using this
  refine ⟨_, _, vs, { d1 with num_values_ := d1.num_values_ - (vs.length : Int) }, rfl, ?_,
    henc, ?_, h2, ?_⟩
  · unfold PlainEncoder.AddByteArray
    simp only [ne_eq, not_true_eq_false, if_false, hadd, pure, Except.pure]
  · rw [henc]
    unfold PlainDecoder.GetByteArray
    simp only [PlainDecoder.new, PlainDecoder.SetData, min_self, Int.toNat_ofNat]
    simp only [List.length_nil, Nat.cast_zero] at h1
    rw [h1]
    simp only [pure, Except.pure, hvl]
  · rw [henc]; exact h3

set_option maxRecDepth 100000 in
/-- Witness of C5: the strings "Hello", "World", "Foobar", "ABCDEF" in a 64-byte
buffer. -/
theorem plain_byteArray_roundtrip_witness :
    (plainByteArraysSize [[72, 101, 108, 108, 111], [87, 111, 114, 108, 100],
          [70, 111, 111, 98, 97, 114], [65, 66, 67, 68, 69, 70]]
        ≤ (List.replicate 64 0).length
      ∧ (List.replicate 64 0).length < 2147483648)
    ∧ ∃ e0 e1 vs d1,
      PlainEncoder.new PType.BYTE_ARRAY (List.replicate 64 0) = Except.ok e0
      ∧ e0.AddByteArray [[72, 101, 108, 108, 111], [87, 111, 114, 108, 100],
            [70, 111, 111, 98, 97, 114], [65, 66, 67, 68, 69, 70]]
          = Except.ok ((([[72, 101, 108, 108, 111], [87, 111, 114, 108, 100],
            [70, 111, 111, 98, 97, 114], [65, 66, 67, 68, 69, 70]] : List (List Nat)).length
              : Int), e1)
      ∧ e1.Encode = plainByteArrays [[72, 101, 108, 108, 111], [87, 111, 114, 108, 100],
            [70, 111, 111, 98, 97, 114], [65, 66, 67, 68, 69, 70]]
      ∧ ((PlainDecoder.new PType.BYTE_ARRAY).SetData
            (([[72, 101, 108, 108, 111], [87, 111, 114, 108, 100],
              [70, 111, 111, 98, 97, 114], [65, 66, 67, 68, 69, 70]] : List (List Nat)).length
              : Int) e1.Encode).GetByteArray
            (([[72, 101, 108, 108, 111], [87, 111, 114, 108, 100],
              [70, 111, 111, 98, 97, 114], [65, 66, 67, 68, 69, 70]] : List (List Nat)).length
              : Int)
          = Except.ok ((([[72, 101, 108, 108, 111], [87, 111, 114, 108, 100],
              [70, 111, 111, 98, 97, 114], [65, 66, 67, 68, 69, 70]] : List (List Nat)).length
              : Int), vs, d1)
      ∧ vs.map (fun v => v.len)
          = [[72, 101, 108, 108, 111], [87, 111, 114, 108, 100],
              [70, 111, 111, 98, 97, 114], [65, 66, 67, 68, 69, 70]].map List.length
      ∧ vs.map (ByteArray.bytes e1.Encode)
          = [[72, 101, 108, 108, 111], [87, 111, 114, 108, 100],
              [70, 111, 111, 98, 97, 114], [65, 66, 67, 68, 69, 70]].map some :=
  ⟨⟨by decide, by decide⟩,
    plain_byteArray_roundtrip (List.replicate 64 0)
      [[72, 101, 108, 108, 111], [87, 111, 114, 108, 100],
        [70, 111, 111, 98, 97, 114], [65, 66, 67, 68, 69, 70]] (by decide) (by decide)⟩

end ParquetCpp

namespace ParquetCpp

open DeltaBitPack

/-! ## Delta length byte arrays -/

/-- `Encode` of a delta encoder that holds the values `V`. -/
theorem Encode_state (e : DeltaBitPackEncoder) (m : Nat) (V : List Int)
    (hv : e.values_ = V) (hnv : e.num_values_ = (V.length : Int))
    (hms : e.mini_block_size_ = (m : Int))
    (hm : 1 ≤ m) (hm2 : m < 2147483648) (hV : 1 ≤ V.length) (hn : V.length < 2147483648)
    (hr : ∀ v ∈ V, -9223372036854775808 ≤ v ∧ v < 9223372036854775808)
    (hfit : (page m V).length ≤ SCRATCH)
    (hkm : numMiniBlocks m V.length * m < 2147483648) :
    e.Encode = Except.ok (page m V, { e with values_ := V.headD 0 :: deltas V }) := by
  have h := Encode_fresh e.type_ e.buffer_size_ m V hm hm2 hV hn hr hfit hkm
  have he : (DeltaBitPackEncoder.Add ⟨e.type_, e.buffer_size_, 0, (m : Int), []⟩ V).2 = e := by
    cases e
    simp only [DeltaBitPackEncoder.Add, List.nil_append, Int.zero_add]
    simp only at hv hnv hms
    rw [hv, hnv, hms]
  rw [he] at h
  rw [h]
  cases e
  simp only at hv hnv hms
  simp only [hnv, hms]

/-- The loop of `Add` of the delta length encoder when the strings fit the buffer. -/
theorem DeltaLength_addLoop_fits (S : List (List Nat)) :
    ∀ (W R : List Nat) (e : DeltaLengthByteArrayEncoder),
    e.buffer_ = W ++ R → e.offset_ = (W.length : Int) → S.flatten.length ≤ R.length →
    ∃ e1, DeltaLengthByteArrayEncoder.addLoop S e = Except.ok e1
      ∧ e1.buffer_ = W ++ S.flatten ++ R.drop S.flatten.length
      ∧ e1.offset_ = ((W.length + S.flatten.length : Nat) : Int)
      ∧ e1.len_encoder_ = { e.len_encoder_ with
          values_ := e.len_encoder_.values_ ++ S.map (fun s => (s.length : Int))
          num_values_ := e.len_encoder_.num_values_ + (S.length : Int) }
      ∧ e1.buffer_size_ = e.buffer_size_
      ∧ e1.num_values_ = e.num_values_ + (S.length : Int) := by
  induction S with
  | nil =>
    intro W R e hb ho _
    refine ⟨e, rfl, ?_, ?_, ?_, rfl, ?_⟩
    · simp [hb]
    · simp [ho]
    · simp
    · simp
  | cons s S ih =>
    intro W R e hb ho hfit
    simp only [List.flatten_cons, List.length_append] at hfit
    have hw : memWrite e.buffer_ e.offset_ s = Except.ok (W ++ s ++ R.drop s.length) := by
      rw [hb, ho]; exact memWrite_append W R s (by omega)
    obtain ⟨e1, h1, h2, h3, h4, h5, h6⟩ := ih (W ++ s) (R.drop s.length)
      { e with
        plain_encoded_len_ := e.plain_encoded_len_ + s.length + 4
        len_encoder_ := (e.len_encoder_.Add [(s.length : Int)]).2
        buffer_ := W ++ s ++ R.drop s.length
        offset_ := e.offset_ + s.length
        num_values_ := e.num_values_ + 1 }
      rfl (by simp only [List.length_append, ho]; push_cast; ring)
      (by rw [List.length_drop]; omega)
    refine ⟨e1, ?_, ?_, ?_, ?_, h5, ?_⟩
    · simp only [DeltaLengthByteArrayEncoder.addLoop, DeltaLengthByteArrayEncoder.AddValue, hw,
        pure, Except.pure, h1]
    · rw [h2]
      simp only [List.flatten_cons, List.append_assoc, List.drop_drop, List.length_append]
    · rw [h3]
      simp only [List.flatten_cons, List.length_append]
      push_cast; ring
    · rw [h4]
      simp only [DeltaBitPackEncoder.Add, List.map_cons, List.length_cons, List.length_nil,
        List.append_assoc, List.singleton_append, DeltaBitPackEncoder.mk.injEq, true_and,
        and_true]
      push_cast
      ring
    · rw [h6]
      simp only [List.length_cons]
      push_cast
      ring

/-- The three copies of `Encode`: the staged bytes moved up, then the length word and
the lengths page written in front of them. -/
theorem encode_copies (buf data P : List Nat) (R : List Nat) (hb : buf = data ++ R)
    (hfit : 4 + P.length + data.length ≤ buf.length) :
    ∃ buf1 buf2 buf3,
      memRead buf 0 (data.length : Int) = Except.ok data
      ∧ memWrite buf ((P.length : Int) + 4) data = Except.ok buf1
      ∧ memWrite buf1 0 (leBytes 4 P.length) = Except.ok buf2
      ∧ memWrite buf2 4 P = Except.ok buf3
      ∧ buf3.take (4 + P.length + data.length) = leBytes 4 P.length ++ P ++ data
      ∧ buf3.length = buf.length := by
  have hr : memRead buf 0 (data.length : Int) = Except.ok data := by
    have := memRead_append [] buf data.length (by omega)
    simp only [List.nil_append, List.length_nil, Nat.cast_zero] at this
    rw [this, hb, List.take_left' rfl]
  have e1 : (P.length : Int) + 4 = ((P.length + 4 : Nat) : Int) := by push_cast; ring
  have hw1 := memWrite_fits buf (P.length + 4) data (by omega)
  have hl1 : (buf.take (P.length + 4) ++ data ++ buf.drop (P.length + 4 + data.length)).length
      = buf.length := by
    simp only [List.length_append, List.length_take, List.length_drop]; omega
  have hw2 := memWrite_fits
    (buf.take (P.length + 4) ++ data ++ buf.drop (P.length + 4 + data.length)) 0
    (leBytes 4 P.length) (by rw [hl1, leBytes_length]; omega)
  simp only [List.take_zero, List.nil_append, Nat.zero_add, leBytes_length, Nat.cast_zero]
    at hw2
  have hl2 : (leBytes 4 P.length ++ (buf.take (P.length + 4) ++ data
      ++ buf.drop (P.length + 4 + data.length)).drop 4).length = buf.length := by
    rw [List.length_append, leBytes_length, List.length_drop, hl1]; omega
  have hw3 := memWrite_fits
    (leBytes 4 P.length ++ (buf.take (P.length + 4) ++ data
      ++ buf.drop (P.length + 4 + data.length)).drop 4) 4 P (by rw [hl2]; omega)
  rw [show ((4 : Nat) : Int) = 4 from rfl] at hw3
  refine ⟨_, _, _, hr, by rw [e1]; exact hw1, hw2, hw3, ?_, ?_⟩
  · have t1 : (leBytes 4 P.length ++ (buf.take (P.length + 4) ++ data
        ++ buf.drop (P.length + 4 + data.length)).drop 4).take 4 = leBytes 4 P.length :=
      List.take_left' (leBytes_length 4 P.length)
    have t2 : (leBytes 4 P.length ++ (buf.take (P.length + 4) ++ data
        ++ buf.drop (P.length + 4 + data.length)).drop 4).drop (4 + P.length)
        = data ++ buf.drop (P.length + 4 + data.length) := by
      rw [show 4 + P.length = (leBytes 4 P.length).length + P.length by rw [leBytes_length],
        ← List.drop_drop, List.drop_left' rfl, List.drop_drop]
      rw [List.append_assoc, List.drop_left' (by
        rw [List.length_take]; omega)]
    rw [t1, t2]
    rw [show 4 + P.length + data.length = (leBytes 4 P.length ++ P ++ data).length by
      simp only [List.length_append, leBytes_length]]
    rw [← List.append_assoc]
    exact List.take_left' rfl
  · simp only [List.length_append, List.length_take, List.length_drop, leBytes_length]
    omega

end ParquetCpp

namespace ParquetCpp

open DeltaBitPack

/-- `Get` of a delta decoder that is about to produce `V[j]`: the next `k` values. -/
theorem Get_ready (m : Nat) (V : List Int) (d : DeltaBitPackDecoder) (max_values : Int)
    (j k : Nat) (hm : 1 ≤ m) (hm2 : m < 2147483648) (hn : V.length < 2147483648)
    (hV : 2 ≤ V.length)
    (hr : ∀ v ∈ V, -9223372036854775808 ≤ v ∧ v < 9223372036854775808)
    (hcast : ∀ v ∈ V, castTo d.type_ v = v)
    (hd : DecoderReady m V j d)
    (hk : min max_values d.num_values_ = (k : Int)) (hk1 : 1 ≤ k) (hkn : j + k ≤ V.length) :
    ∃ d', d.Get max_values = Except.ok ((k : Int), (V.drop j).take k, d')
      ∧ DecoderReady m V (j + k) d'
      ∧ d'.type_ = d.type_ ∧ d'.num_values_ = d.num_values_ - k := by
  rcases hd with ⟨rfl, hdec, hz, hw⟩ | ⟨hj, hat⟩
  · obtain ⟨d', h1, h2, h3, h4⟩ := Get_first m V d max_values k hm hm2 hn hV hr hcast hdec hz hw
      hk hk1 (by omega)
    refine ⟨d', by simpa using h1, Or.inr ⟨by omega, ?_⟩, h3, h4⟩
    rw [show 0 + k - 1 = k - 1 by omega]
    exact h2
  · obtain ⟨d', h1, h2, h3, h4⟩ := Get_next m V _ d max_values (j - 1) k hm hm2 hn hr hcast hat
      hk (by omega)
    refine ⟨d', ?_, Or.inr ⟨by omega, ?_⟩, h3, h4⟩
    · rw [show j - 1 + 1 = j by omega] at h1
      exact h1
    · rw [show j + k - 1 = j - 1 + k by omega]
      exact h2

theorem toU32_natCast (k : Nat) (h : k < 4294967296) : toU32 (k : Int) = k := by
  unfold toU32; omega

theorem wrap32_natCast (k : Nat) (h : k < 2147483648) : wrap32 (k : Int) = (k : Int) := by
  unfold wrap32; omega

/-- The views handed out for the strings `S` that start at offset `|A|` of the page. -/
theorem viewLoop_at (P : List Nat) (hP : P.length < 2147483648) (S : List (List Nat)) :
    ∀ (A T : List Nat) (d : DeltaLengthByteArrayDecoder),
    P = A ++ S.flatten ++ T → d.data_ = (A.length : Int) →
    ((DeltaLengthByteArrayDecoder.viewLoop (DeltaLength.lengths S) d).1.map (fun v => v.len)
        = S.map List.length)
      ∧ ((DeltaLengthByteArrayDecoder.viewLoop (DeltaLength.lengths S) d).1.map
          (ByteArray.bytes P) = S.map some)
      ∧ (DeltaLengthByteArrayDecoder.viewLoop (DeltaLength.lengths S) d).2.data_
          = ((A.length + S.flatten.length : Nat) : Int)
      ∧ (DeltaLengthByteArrayDecoder.viewLoop (DeltaLength.lengths S) d).2.page_ = d.page_
      ∧ (DeltaLengthByteArrayDecoder.viewLoop (DeltaLength.lengths S) d).2.len_decoder_
          = d.len_decoder_
      ∧ (DeltaLengthByteArrayDecoder.viewLoop (DeltaLength.lengths S) d).2.num_values_
          = d.num_values_ := by
  induction S with
  | nil =>
    intro A T d _ hd
    simp [DeltaLength.lengths, DeltaLengthByteArrayDecoder.viewLoop, hd]
  | cons s S ih =>
    intro A T d hPA hd
    have hlen : P.length = A.length + (s.length + S.flatten.length) + T.length := by
      rw [hPA]; simp only [List.flatten_cons, List.length_append]
    obtain ⟨h1, h2, h3, h4, h5, h6⟩ := ih (A ++ s) T
      { d with data_ := d.data_ + (s.length : Int), len_ := d.len_ - (s.length : Int) }
      (by rw [hPA]; simp only [List.flatten_cons, List.append_assoc])
      (by simp only [hd, List.length_append]; push_cast; ring)
    simp only [DeltaLength.lengths, List.map_cons, DeltaLengthByteArrayDecoder.viewLoop]
    simp only [DeltaLength.lengths] at h1 h2 h3 h4 h5 h6
    refine ⟨?_, ?_, ?_, h4, h5, h6⟩
    · rw [h1, toU32_natCast _ (by omega)]
    · rw [h2]
      congr 1
      unfold ByteArray.bytes
      simp only [hd, toU32_natCast s.length (by omega), Int.toNat_ofNat]
      have hc : 0 ≤ (A.length : Int) ∧ A.length + s.length ≤ P.length := ⟨by omega, by omega⟩
      simp only [hc, and_self, if_true]
      rw [hPA, List.flatten_cons, List.append_assoc, List.append_assoc, List.drop_left' rfl,
        List.take_left' rfl]
    · rw [h3]
      simp only [List.length_append, List.flatten_cons]
      push_cast; ring

end ParquetCpp

namespace ParquetCpp

open DeltaBitPack

theorem lengths_range (S : List (List Nat)) (h : ∀ s ∈ S, s.length < 2147483648) :
    ∀ v ∈ DeltaLength.lengths S, -2147483648 ≤ v ∧ v < 2147483648 := by
  intro v hv
  simp only [DeltaLength.lengths, List.mem_map] at hv
  obtain ⟨s, hs, rfl⟩ := hv
  have := h s hs
  omega

theorem lengths_length (S : List (List Nat)) : (DeltaLength.lengths S).length = S.length := by
  simp [DeltaLength.lengths]

theorem length_le_flatten (S : List (List Nat)) : ∀ s ∈ S, s.length ≤ S.flatten.length := by
  induction S with
  | nil => simp
  | cons a S ih =>
    intro s hs
    simp only [List.flatten_cons, List.length_append]
    rcases List.mem_cons.mp hs with rfl | h
    · omega
    · have := ih s h; omega

/-- `Encode` of a delta length encoder that holds the strings `S`. -/
theorem DeltaLength_Encode_state (e : DeltaLengthByteArrayEncoder) (m : Nat)
    (S : List (List Nat)) (R : List Nat)
    (hb : e.buffer_ = S.flatten ++ R) (ho : e.offset_ = (S.flatten.length : Int))
    (hv : e.len_encoder_.values_ = DeltaLength.lengths S)
    (hnv : e.len_encoder_.num_values_ = (S.length : Int))
    (hms : e.len_encoder_.mini_block_size_ = (m : Int))
    (hm : 1 ≤ m) (hm2 : m < 2147483648) (hS : 1 ≤ S.length) (hn : S.length < 2147483648)
    (hint : e.buffer_.length < 2147483648)
    (hscratch : (page m (DeltaLength.lengths S)).length ≤ SCRATCH)
    (hfit : 4 + (page m (DeltaLength.lengths S)).length + S.flatten.length ≤ e.buffer_.length)
    (hkm : numMiniBlocks m S.length * m < 2147483648) :
    ∃ e1, e.Encode = Except.ok (DeltaLength.page m S, e1) := by
  have hsl : ∀ s ∈ S, s.length < 2147483648 := by
    intro s hs
    have := length_le_flatten S s hs
    omega
  have hr := lengths_range S hsl
  have henc := Encode_state e.len_encoder_ m (DeltaLength.lengths S) hv
    (by rw [hnv, lengths_length]) hms hm hm2 (by rw [lengths_length]; exact hS)
    (by rw [lengths_length]; exact hn) (fun v hv => by have := hr v hv; omega) hscratch
    (by rw [lengths_length]; exact hkm)
  obtain ⟨buf1, buf2, buf3, c1, c2, c3, c4, c5, _⟩ := encode_copies e.buffer_ S.flatten
    (page m (DeltaLength.lengths S)) R hb hfit
  refine ⟨{ e with
    buffer_ := buf3
    len_encoder_ := { e.len_encoder_ with
      values_ := (DeltaLength.lengths S).headD 0 :: deltas (DeltaLength.lengths S) } }, ?_⟩
  unfold DeltaLengthByteArrayEncoder.Encode
  rw [henc]
  simp only [ho, c1, c2, c3, c4, pure, Except.pure]
  have e1 : (((page m (DeltaLength.lengths S)).length : Int) + (S.flatten.length : Int) + 4).toNat
      = 4 + (page m (DeltaLength.lengths S)).length + S.flatten.length := by omega
  rw [e1, c5]
  rfl

/-- `SetData` of the delta length decoder on the delta length page of `S`. -/
theorem DeltaLength_SetData_page (d : DeltaLengthByteArrayDecoder) (m : Nat)
    (S : List (List Nat)) (num_values : Int)
    (hscratch : (page m (DeltaLength.lengths S)).length ≤ SCRATCH)
    (hw : d.len_decoder_.delta_bit_widths_ = []) (ht : d.len_decoder_.type_ = PType.INT32) :
    ∃ d1, d.SetData num_values (DeltaLength.page m S) = Except.ok d1
      ∧ DeltaLength.DecoderReady m S 0 d1 ∧ d1.num_values_ = num_values := by
  have hne : ¬ ((DeltaLength.page m S).length = 0) := by
    simp only [DeltaLength.page, List.length_append, leBytes_length]; omega
  have hread : memRead (DeltaLength.page m S) 0 4
      = Except.ok (leBytes 4 (page m (DeltaLength.lengths S)).length) := by
    have h := memRead_append [] (DeltaLength.page m S) 4 (by
      simp only [DeltaLength.page, List.length_append, leBytes_length]; omega)
    simp only [List.nil_append, List.length_nil, Nat.cast_zero] at h
    rw [show ((4 : Nat) : Int) = 4 from rfl] at h
    rw [h]
    simp only [DeltaLength.page, List.append_assoc]
    congr 1
  have hsc : SCRATCH = 10485760 := by decide
  have hval : wrap32 (leValue (leBytes 4 (page m (DeltaLength.lengths S)).length))
      = ((page m (DeltaLength.lengths S)).length : Int) := by
    rw [leValue_leBytes _ _ (by norm_num; omega), wrap32_natCast _ (by omega)]
  have hslice : ((DeltaLength.page m S).drop 4).take (page m (DeltaLength.lengths S)).length
      = page m (DeltaLength.lengths S) := by
    simp only [DeltaLength.page, List.append_assoc]
    rw [List.drop_left' (leBytes_length _ _), List.take_left' rfl]
  refine ⟨{ d with
      num_values_ := num_values
      len_decoder_ := d.len_decoder_.SetData num_values (page m (DeltaLength.lengths S))
      page_ := DeltaLength.page m S
      data_ := 4 + ((page m (DeltaLength.lengths S)).length : Int)
      len_ := ((DeltaLength.page m S).length : Int) - 4
        - ((page m (DeltaLength.lengths S)).length : Int) }, ?_, ?_, ?_⟩
  · unfold DeltaLengthByteArrayDecoder.SetData
    simp only [hne, if_false, hread, hval, Int.toNat_ofNat, hslice, pure, Except.pure]
  · refine ⟨rfl, ?_, Or.inl ⟨rfl, rfl, rfl, hw⟩, ht, rfl⟩
    simp only [List.take_zero, List.flatten_nil, List.length_nil, Nat.add_zero]
    push_cast; ring
  · rfl

/-- `Get` of the delta length decoder that is about to produce `S[j]`: the next `k`
strings, as views of the page. -/
theorem DeltaLength_Get_ready (m : Nat) (S : List (List Nat))
    (d : DeltaLengthByteArrayDecoder) (max_values : Int) (j k : Nat)
    (hm : 1 ≤ m) (hm2 : m < 2147483648) (hn : S.length < 2147483648) (hS : 2 ≤ S.length)
    (hint : (DeltaLength.page m S).length < 2147483648)
    (hd : DeltaLength.DecoderReady m S j d)
    (hk : min max_values d.num_values_ = (k : Int)) (hk1 : 1 ≤ k) (hkn : j + k ≤ S.length) :
    ∃ vs d', d.Get max_values = Except.ok ((k : Int), vs, d')
      ∧ vs.map (fun v => v.len) = ((S.drop j).take k).map List.length
      ∧ vs.map (ByteArray.bytes (DeltaLength.page m S)) = ((S.drop j).take k).map some
      ∧ DeltaLength.DecoderReady m S (j + k) d'
      ∧ d'.num_values_ = d.num_values_ - k := by
  obtain ⟨hpage, hdata, hready, htype, hsync⟩ := hd
  have hfl : S.flatten.length < 2147483648 := by
    simp only [DeltaLength.page, List.length_append] at hint; omega
  have hsl : ∀ s ∈ S, s.length < 2147483648 := by
    intro s hs
    have := length_le_flatten S s hs
    omega
  have hr := lengths_range S hsl
  obtain ⟨ld, g1, g2, g3, g4⟩ := Get_ready m (DeltaLength.lengths S) d.len_decoder_ (k : Int) j k
    hm hm2 (by rw [lengths_length]; exact hn) (by rw [lengths_length]; exact hS)
    (fun v hv => by have := hr v hv; omega)
    (fun v hv => by rw [htype]; exact castTo_int32 v (hr v hv)) hready
    (by rw [hsync]; omega) hk1 (by rw [lengths_length]; exact hkn)
  have hsub : ((DeltaLength.lengths S).drop j).take k
      = DeltaLength.lengths ((S.drop j).take k) := by
    simp only [DeltaLength.lengths, List.map_take, List.map_drop]
  rw [hsub] at g1
  have hsplit : S = S.take j ++ (S.drop j).take k ++ (S.drop j).drop k := by
    rw [List.append_assoc, List.take_append_drop, List.take_append_drop]
  have hPA : DeltaLength.page m S
      = (leBytes 4 (page m (DeltaLength.lengths S)).length ++ page m (DeltaLength.lengths S)
          ++ (S.take j).flatten) ++ ((S.drop j).take k).flatten ++ ((S.drop j).drop k).flatten := by
    have hflat : S.flatten = (S.take j).flatten ++ ((S.drop j).take k).flatten
        ++ ((S.drop j).drop k).flatten := by
      rw [← List.flatten_append, ← List.flatten_append, ← hsplit]
    unfold DeltaLength.page
    rw [hflat]
    simp only [List.append_assoc]
  obtain ⟨v1, v2, v3, v4, v5, v6⟩ := viewLoop_at (DeltaLength.page m S) hint ((S.drop j).take k)
    _ _ { d with len_decoder_ := ld } hPA
    (by
      simp only [hdata, List.length_append, leBytes_length])
  have hlk : ((S.drop j).take k).length = k := by
    rw [List.length_take, List.length_drop]; omega
  refine ⟨_, { (DeltaLengthByteArrayDecoder.viewLoop (DeltaLength.lengths ((S.drop j).take k))
      { d with len_decoder_ := ld }).2 with
      num_values_ := (DeltaLengthByteArrayDecoder.viewLoop
        (DeltaLength.lengths ((S.drop j).take k)) { d with len_decoder_ := ld }).2.num_values_
          - (k : Int) }, ?_, v1, v2, ?_, ?_⟩
  · unfold DeltaLengthByteArrayDecoder.Get
    simp only [hk, g1, Int.toNat_ofNat]
    have hnl : ¬ ((DeltaLength.lengths ((S.drop j).take k)).length < k) := by
      rw [lengths_length, hlk]; omega
    simp only [hnl, if_false, pure, Except.pure]
  · refine ⟨v4.trans hpage, ?_, (congrArg (DecoderReady m _ (j + k)) v5).mpr g2,
      (congrArg DeltaBitPackDecoder.type_ v5).trans (g3.trans htype), ?_⟩
    · refine v3.trans ?_
      simp only [List.length_append, leBytes_length]
      have : (S.take (j + k)).flatten.length
          = (S.take j).flatten.length + ((S.drop j).take k).flatten.length := by
        rw [List.take_add, List.flatten_append, List.length_append]
      omega
    · refine (congrArg DeltaBitPackDecoder.num_values_ v5).trans ?_
      refine (g4.trans ?_)
      rw [hsync]
      exact congrArg (fun x => x - (k : Int)) v6.symm
  · exact congrArg (fun x => x - (k : Int)) v6

end ParquetCpp

namespace ParquetCpp

open DeltaBitPack

/-- `Add` of the delta length encoder, after `Reset`, when the strings fit the buffer. -/
theorem DeltaLength_Add_reset (e : DeltaLengthByteArrayEncoder) (S : List (List Nat))
    (hfit : S.flatten.length ≤ e.buffer_.length) :
    ∃ e1, e.Reset.Add S = Except.ok ((S.length : Int), e1)
      ∧ e1.buffer_ = S.flatten ++ e.buffer_.drop S.flatten.length
      ∧ e1.offset_ = (S.flatten.length : Int)
      ∧ e1.len_encoder_.values_ = DeltaLength.lengths S
      ∧ e1.len_encoder_.num_values_ = (S.length : Int)
      ∧ e1.len_encoder_.mini_block_size_ = e.len_encoder_.mini_block_size_ := by
  obtain ⟨e1, h1, h2, h3, h4, _, _⟩ := DeltaLength_addLoop_fits S [] e.buffer_ e.Reset rfl rfl hfit
  refine ⟨e1, ?_, ?_, ?_, ?_, ?_, ?_⟩
  · unfold DeltaLengthByteArrayEncoder.Add
    rw [h1]; rfl
  · rw [h2]; rfl
  · rw [h3]; simp
  · rw [h4]; simp [DeltaLengthByteArrayEncoder.Reset, DeltaBitPackEncoder.Reset,
      DeltaLength.lengths]
  · rw [h4]; simp [DeltaLengthByteArrayEncoder.Reset, DeltaBitPackEncoder.Reset]
  · rw [h4]; rfl

/-- The delta length round trip, from any encoder that has been `Reset`. -/
theorem deltaLength_roundtrip_core (e : DeltaLengthByteArrayEncoder) (m : Nat)
    (S : List (List Nat)) (idx0 : Int)
    (hint : e.buffer_.length < 2147483648)
    (hms : e.len_encoder_.mini_block_size_ = (m : Int))
    (hm : 1 ≤ m) (hm2 : m < 2147483648) (hS : 2 ≤ S.length) (hn : S.length < 2147483648)
    (hscratch : (DeltaBitPack.page m (DeltaLength.lengths S)).length ≤ SCRATCH)
    (hfit : 4 + (DeltaBitPack.page m (DeltaLength.lengths S)).length + S.flatten.length
      ≤ e.buffer_.length)
    (hkm : DeltaBitPack.numMiniBlocks m S.length * m < 2147483648) :
    ∃ e1 e2 d1 vs d2,
      e.Reset.Add S = Except.ok ((S.length : Int), e1)
      ∧ e1.Encode = Except.ok (DeltaLength.page m S, e2)
      ∧ (DeltaLengthByteArrayDecoder.new idx0).SetData (S.length : Int) (DeltaLength.page m S)
          = Except.ok d1
      ∧ d1.Get (S.length : Int) = Except.ok ((S.length : Int), vs, d2)
      ∧ vs.map (fun v => v.len) = S.map List.length
      ∧ vs.map (ByteArray.bytes (DeltaLength.page m S)) = S.map some := by
  obtain ⟨e1, a1, a2, a3, a4, a5, a6⟩ := DeltaLength_Add_reset e S (by omega)
  have hlen1 : e1.buffer_.length = e.buffer_.length := by
    rw [a2, List.length_append, List.length_drop]; omega
  obtain ⟨e2, henc⟩ := DeltaLength_Encode_state e1 m S _ a2 a3 a4 a5 (by rw [a6, hms]) hm hm2
    (by omega) hn (by rw [hlen1]; exact hint) hscratch (by rw [hlen1]; exact hfit) hkm
  obtain ⟨d1, s1, s2, s3⟩ := DeltaLength_SetData_page (DeltaLengthByteArrayDecoder.new idx0) m S
    (S.length : Int) hscratch rfl rfl
  have hpl : (DeltaLength.page m S).length < 2147483648 := by
    simp only [DeltaLength.page, List.length_append, leBytes_length]; omega
  obtain ⟨vs, d2, g1, g2, g3, _, _⟩ := DeltaLength_Get_ready m S d1 (S.length : Int) 0 S.length
    hm hm2 hn hS hpl s2 (by rw [s3]; omega) (by omega) (by omega)
  simp only [List.drop_zero, List.take_length] at g2 g3
  exact ⟨e1, e2, d1, vs, d2, a1, henc, s1, g1, g2, g3⟩

/-- C4 (amended). For every list `S` of at least two byte strings whose lengths page fits
the 10 MiB scratch buffer of the length encoder, whose block size (the mini-block size `m`
times the number of mini blocks) is in the range of `int`, and with `4 + (length of the
lengths page) + (total bytes of S) ≤ buffer_size`: adding `S` to a `DeltaLengthByteArrayEncoder`
that has been `Reset` and calling `Encode()` once returns the delta length page of `S`, and
a new `DeltaLengthByteArrayDecoder` answers `SetData(|S|, page)` then `Get(out, |S|)` with
`|S|` views of the page whose lengths and bytes are those of `S`. -/
theorem deltaLength_roundtrip (e : DeltaLengthByteArrayEncoder) (m : Nat)
    (S : List (List Nat)) (idx0 : Int)
    (hint : e.buffer_.length < 2147483648)
    (hms : e.len_encoder_.mini_block_size_ = (m : Int))
    (hm : 1 ≤ m) (hm2 : m < 2147483648) (hS : 2 ≤ S.length) (hn : S.length < 2147483648)
    (hscratch : (DeltaBitPack.page m (DeltaLength.lengths S)).length ≤ SCRATCH)
    (hfit : 4 + (DeltaBitPack.page m (DeltaLength.lengths S)).length + S.flatten.length
      ≤ e.buffer_.length)
    (hkm : DeltaBitPack.numMiniBlocks m S.length * m < 2147483648) :
    ∃ e1 e2 d1 vs d2,
      e.Reset.Add S = Except.ok ((S.length : Int), e1)
      ∧ e1.Encode = Except.ok (DeltaLength.page m S, e2)
      ∧ (DeltaLengthByteArrayDecoder.new idx0).SetData (S.length : Int) (DeltaLength.page m S)
          = Except.ok d1
      ∧ d1.Get (S.length : Int) = Except.ok ((S.length : Int), vs, d2)
      ∧ vs.map (fun v => v.len) = S.map List.length
      ∧ vs.map (ByteArray.bytes (DeltaLength.page m S)) = S.map some :=
  deltaLength_roundtrip_core e m S idx0 hint hms hm hm2 hS hn hscratch hfit hkm

set_option maxRecDepth 100000 in
/-- Witness of C4 (amended): the strings "Hello", "World", "Foobar", "ABCDEF" in an encoder
with a 64-byte buffer and mini-block size 8. -/
theorem deltaLength_roundtrip_witness :
    ((DeltaLengthByteArrayEncoder.new (List.replicate 64 0) 8).buffer_.length < 2147483648
      ∧ (DeltaLengthByteArrayEncoder.new (List.replicate 64 0) 8).len_encoder_.mini_block_size_
          = ((8 : Nat) : Int)
      ∧ 1 ≤ 8 ∧ 8 < 2147483648
      ∧ 2 ≤ ([[72, 101, 108, 108, 111], [87, 111, 114, 108, 100],
          [70, 111, 111, 98, 97, 114], [65, 66, 67, 68, 69, 70]] : List (List Nat)).length
      ∧ ([[72, 101, 108, 108, 111], [87, 111, 114, 108, 100],
          [70, 111, 111, 98, 97, 114], [65, 66, 67, 68, 69, 70]] : List (List Nat)).length
          < 2147483648
      ∧ (DeltaBitPack.page 8 (DeltaLength.lengths [[72, 101, 108, 108, 111],
          [87, 111, 114, 108, 100], [70, 111, 111, 98, 97, 114],
          [65, 66, 67, 68, 69, 70]])).length ≤ SCRATCH
      ∧ 4 + (DeltaBitPack.page 8 (DeltaLength.lengths [[72, 101, 108, 108, 111],
          [87, 111, 114, 108, 100], [70, 111, 111, 98, 97, 114],
          [65, 66, 67, 68, 69, 70]])).length
          + ([[72, 101, 108, 108, 111], [87, 111, 114, 108, 100],
            [70, 111, 111, 98, 97, 114], [65, 66, 67, 68, 69, 70]] : List (List Nat)).flatten.length
          ≤ (DeltaLengthByteArrayEncoder.new (List.replicate 64 0) 8).buffer_.length
      ∧ DeltaBitPack.numMiniBlocks 8 ([[72, 101, 108, 108, 111], [87, 111, 114, 108, 100],
          [70, 111, 111, 98, 97, 114], [65, 66, 67, 68, 69, 70]] : List (List Nat)).length * 8
          < 2147483648)
    ∧ ∃ e1 e2 d1 vs d2,
      (DeltaLengthByteArrayEncoder.new (List.replicate 64 0) 8).Reset.Add
          [[72, 101, 108, 108, 111], [87, 111, 114, 108, 100],
            [70, 111, 111, 98, 97, 114], [65, 66, 67, 68, 69, 70]]
        = Except.ok ((([[72, 101, 108, 108, 111], [87, 111, 114, 108, 100],
            [70, 111, 111, 98, 97, 114], [65, 66, 67, 68, 69, 70]] : List (List Nat)).length
            : Int), e1)
      ∧ e1.Encode = Except.ok (DeltaLength.page 8 [[72, 101, 108, 108, 111],
            [87, 111, 114, 108, 100], [70, 111, 111, 98, 97, 114],
            [65, 66, 67, 68, 69, 70]], e2)
      ∧ (DeltaLengthByteArrayDecoder.new 0).SetData
            (([[72, 101, 108, 108, 111], [87, 111, 114, 108, 100],
              [70, 111, 111, 98, 97, 114], [65, 66, 67, 68, 69, 70]] : List (List Nat)).length
              : Int)
            (DeltaLength.page 8 [[72, 101, 108, 108, 111], [87, 111, 114, 108, 100],
              [70, 111, 111, 98, 97, 114], [65, 66, 67, 68, 69, 70]])
          = Except.ok d1
      ∧ d1.Get (([[72, 101, 108, 108, 111], [87, 111, 114, 108, 100],
            [70, 111, 111, 98, 97, 114], [65, 66, 67, 68, 69, 70]] : List (List Nat)).length
            : Int)
          = Except.ok ((([[72, 101, 108, 108, 111], [87, 111, 114, 108, 100],
            [70, 111, 111, 98, 97, 114], [65, 66, 67, 68, 69, 70]] : List (List Nat)).length
            : Int), vs, d2)
      ∧ vs.map (fun v => v.len)
          = [[72, 101, 108, 108, 111], [87, 111, 114, 108, 100],
              [70, 111, 111, 98, 97, 114], [65, 66, 67, 68, 69, 70]].map List.length
      ∧ vs.map (ByteArray.bytes (DeltaLength.page 8 [[72, 101, 108, 108, 111],
            [87, 111, 114, 108, 100], [70, 111, 111, 98, 97, 114], [65, 66, 67, 68, 69, 70]]))
          = [[72, 101, 108, 108, 111], [87, 111, 114, 108, 100],
              [70, 111, 111, 98, 97, 114], [65, 66, 67, 68, 69, 70]].map some :=
  ⟨⟨by decide, by decide, by decide, by decide, by decide, by decide, by decide, by decide,
      by decide⟩,
    deltaLength_roundtrip (DeltaLengthByteArrayEncoder.new (List.replicate 64 0) 8) 8
      [[72, 101, 108, 108, 111], [87, 111, 114, 108, 100],
        [70, 111, 111, 98, 97, 114], [65, 66, 67, 68, 69, 70]] 0
      (by decide) (by decide) (by decide) (by decide) (by decide) (by decide) (by decide)
      (by decide) (by decide)⟩

end ParquetCpp

namespace ParquetCpp

open DeltaBitPack

/-- A failure of the length encoder is the failure of `Encode`. -/
theorem DeltaLength_Encode_error (e : DeltaLengthByteArrayEncoder) (err : Err)
    (h : e.len_encoder_.Encode = Except.error err) : e.Encode = Except.error err := by
  unfold DeltaLengthByteArrayEncoder.Encode
  rw [h]
  rfl

/-- Empty strings have no bytes. -/
theorem flatten_replicate_nil (n : Nat) :
    (List.replicate n ([] : List Nat)).flatten = [] := by
  induction n with
  | zero => rfl
  | succ n ih => rw [List.replicate_succ, List.flatten_cons, ih]; rfl

/-- The lengths of empty strings are zeros. -/
theorem lengths_replicate_nil (n : Nat) :
    DeltaLength.lengths (List.replicate (n + 1) ([] : List Nat))
      = 0 :: List.replicate n 0 := by
  induction n with
  | zero => rfl
  | succ n ih =>
    rw [List.replicate_succ, List.replicate_succ 0 n, ← ih]
    rfl

/-- Counterexample to C4 as stated: 83 886 090 empty strings and a buffer of `2^31 - 1`
bytes satisfy the size condition on `buffer_size`, but the lengths have more mini blocks
than the 10 MiB scratch buffer of the length encoder has bytes, and `Encode` fails instead
of returning a page. -/
theorem deltaLength_scratch_counterexample :
    2 ≤ manyEmpty.length
    ∧ 4 + (DeltaBitPack.page 8 (DeltaLength.lengths manyEmpty)).length
        + manyEmpty.flatten.length ≤ bigBuffer.length
    ∧ (DeltaLengthByteArrayEncoder.new bigBuffer 8).buffer_size_ = (bigBuffer.length : Int)
    ∧ ∃ e1, (DeltaLengthByteArrayEncoder.new bigBuffer 8).Reset.Add manyEmpty
          = Except.ok ((manyEmpty.length : Int), e1)
      ∧ e1.Encode = Except.error Err.outOfRange := by
  have hlen : manyEmpty.length = 83886090 := List.length_replicate _ _
  have hbuf : bigBuffer.length = 2147483647 := List.length_replicate _ _
  have hflat : manyEmpty.flatten = [] := flatten_replicate_nil 83886090
  have hlens : DeltaLength.lengths manyEmpty = 0 :: List.replicate 83886089 0 :=
    lengths_replicate_nil 83886089
  have hK : numMiniBlocks 8 83886090 = 10485762 := by decide
  have hpage := page_length_le 8 (DeltaLength.lengths manyEmpty)
  rw [lengths_length, hlen, hK] at hpage
  obtain ⟨e1, a1, _, _, a4, a5, a6⟩ :=
    DeltaLength_Add_reset (DeltaLengthByteArrayEncoder.new bigBuffer 8) manyEmpty (by
      rw [hflat]
      exact Nat.zero_le _)
  refine ⟨by rw [hlen]; decide, ?_, rfl, e1, a1, ?_⟩
  · rw [hflat, hbuf, List.length_nil]
    omega
  · have hmb : e1.len_encoder_.mini_block_size_ = 8 := a6
    apply DeltaLength_Encode_error
    apply Encode_of_EncodeAux_error
    exact EncodeAux_overflow e1.len_encoder_ 0 (List.replicate 83886089 0) 10485762
      (a4.trans hlens)
      (by rw [hmb]; decide)
      (by rw [a5, hmb, hlen]; decide)
      (by decide)
      (by rw [hmb]; decide)

end ParquetCpp

namespace ParquetCpp

open DeltaBitPack DeltaByteArray

/-- A `uint8_t` and a signed `char` compare equal when they hold the same byte and the
byte is below `0x80`. -/
theorem charValue_eq (a b : Nat) :
    (a : Int) = DeltaByteArrayEncoder.charValue b ↔ a = b ∧ b < 128 := by
  unfold DeltaByteArrayEncoder.charValue
  split <;> omega

theorem prefixLoop_nil_right (a : List Nat) : DeltaByteArrayEncoder.prefixLoop a [] = 0 := by
  cases a <;> rfl

theorem prefixLoop_nonneg : ∀ (a b : List Nat), 0 ≤ DeltaByteArrayEncoder.prefixLoop a b := by
  intro a
  induction a with
  | nil => intro b; simp [DeltaByteArrayEncoder.prefixLoop]
  | cons x a ih =>
    intro b
    cases b with
    | nil => simp [DeltaByteArrayEncoder.prefixLoop]
    | cons y b =>
      simp only [DeltaByteArrayEncoder.prefixLoop]
      split
      · have := ih b; omega
      · omega

theorem prefixLoop_le : ∀ (a b : List Nat),
    DeltaByteArrayEncoder.prefixLoop a b ≤ (a.length : Int)
      ∧ DeltaByteArrayEncoder.prefixLoop a b ≤ (b.length : Int) := by
  intro a
  induction a with
  | nil => intro b; simp [DeltaByteArrayEncoder.prefixLoop]
  | cons x a ih =>
    intro b
    cases b with
    | nil =>
      refine ⟨?_, le_refl _⟩
      show (0 : Int) ≤ ((a.length + 1 : Nat) : Int)
      omega
    | cons y b =>
      simp only [DeltaByteArrayEncoder.prefixLoop, List.length_cons]
      split
      · have := ih b; push_cast; omega
      · push_cast; omega

/-- The common prefix found by the loop of `AddValue` is common to the two strings. -/
theorem prefixLoop_take : ∀ (a b : List Nat),
    b.take (DeltaByteArrayEncoder.prefixLoop a b).toNat
      = a.take (DeltaByteArrayEncoder.prefixLoop a b).toNat := by
  intro a
  induction a with
  | nil => intro b; simp [DeltaByteArrayEncoder.prefixLoop]
  | cons x a ih =>
    intro b
    cases b with
    | nil => simp [DeltaByteArrayEncoder.prefixLoop]
    | cons y b =>
      simp only [DeltaByteArrayEncoder.prefixLoop]
      split
      · rename_i hxy
        have h0 := prefixLoop_nonneg a b
        have : (DeltaByteArrayEncoder.prefixLoop a b + 1).toNat
            = (DeltaByteArrayEncoder.prefixLoop a b).toNat + 1 := by omega
        rw [this, List.take_succ_cons, List.take_succ_cons, ih b,
          ((charValue_eq x y).mp hxy).1]
      · simp

theorem prefixLens_length : ∀ (S : List (List Nat)) (last : List Nat),
    (prefixLens last S).length = S.length := by
  intro S
  induction S with
  | nil => intro _; rfl
  | cons s S ih => intro last; simp [prefixLens, ih]

theorem suffixes_length : ∀ (S : List (List Nat)) (last : List Nat),
    (suffixes last S).length = S.length := by
  intro S
  induction S with
  | nil => intro _; rfl
  | cons s S ih => intro last; simp [suffixes, ih]

theorem prefixLens_getD : ∀ (S : List (List Nat)) (last : List Nat) (j : Nat), j < S.length →
    (prefixLens last S).getD j 0
      = DeltaByteArrayEncoder.prefixLoop (S.getD j []) (prevOf last S j) := by
  intro S
  induction S with
  | nil => intro _ j h; simp at h
  | cons s S ih =>
    intro last j h
    cases j with
    | zero => simp [prefixLens, prevOf]
    | succ j =>
      simp only [List.length_cons] at h
      simp only [prefixLens, List.getD_cons_succ]
      rw [ih s j (by omega)]
      cases j with
      | zero => simp [prevOf]
      | succ j => simp [prevOf]

theorem suffixes_getD : ∀ (S : List (List Nat)) (last : List Nat) (j : Nat), j < S.length →
    (suffixes last S).getD j []
      = (S.getD j []).drop
          (DeltaByteArrayEncoder.prefixLoop (S.getD j []) (prevOf last S j)).toNat := by
  intro S
  induction S with
  | nil => intro _ j h; simp at h
  | cons s S ih =>
    intro last j h
    cases j with
    | zero => simp [suffixes, prevOf]
    | succ j =>
      simp only [List.length_cons] at h
      simp only [suffixes, List.getD_cons_succ]
      rw [ih s j (by omega)]
      cases j with
      | zero => simp [prevOf]
      | succ j => simp [prevOf]

theorem prefixLens_range (S : List (List Nat)) (last : List Nat)
    (h : ∀ s ∈ S, s.length < 2147483648) :
    ∀ v ∈ prefixLens last S, 0 ≤ v ∧ v < 2147483648 := by
  induction S generalizing last with
  | nil => intro v hv; simp [prefixLens] at hv
  | cons s S ih =>
    intro v hv
    simp only [prefixLens, List.mem_cons] at hv
    rcases hv with rfl | hv
    · have h1 := prefixLoop_nonneg s last
      have h2 := (prefixLoop_le s last).1
      have h3 := h s (List.mem_cons_self _ _)
      omega
    · exact ih s (fun t ht => h t (List.mem_cons_of_mem _ ht)) v hv

/-- A string is its common prefix with the string before it, then its suffix. -/
theorem prefix_append_suffix (a b : List Nat) :
    b.take (DeltaByteArrayEncoder.prefixLoop a b).toNat
      ++ a.drop (DeltaByteArrayEncoder.prefixLoop a b).toNat = a := by
  rw [prefixLoop_take, List.take_append_drop]

end ParquetCpp

namespace ParquetCpp

open DeltaBitPack DeltaByteArray

/-- The loop of the test harness: the prefix lengths go to the prefix encoder and the
suffixes to the suffix encoder. -/
theorem addEach_state (S : List (List Nat)) :
    ∀ (e : DeltaByteArrayEncoder) (se1 : DeltaLengthByteArrayEncoder),
    DeltaLengthByteArrayEncoder.addLoop (suffixes e.last_value_ S) e.suffix_encoder_
      = Except.ok se1 →
    ∃ e1, e.addEach S = Except.ok e1
      ∧ e1.suffix_encoder_ = se1
      ∧ e1.prefix_len_encoder_ = { e.prefix_len_encoder_ with
          values_ := e.prefix_len_encoder_.values_ ++ prefixLens e.last_value_ S
          num_values_ := e.prefix_len_encoder_.num_values_ + (S.length : Int) } := by
  induction S with
  | nil =>
    intro e se1 h
    simp only [suffixes, DeltaLengthByteArrayEncoder.addLoop, pure, Except.pure,
      Except.ok.injEq] at h
    refine ⟨e, rfl, h, ?_⟩
    simp [prefixLens]
  | cons s S ih =>
    intro e se1 h
    simp only [suffixes, DeltaLengthByteArrayEncoder.addLoop] at h
    cases hav : e.suffix_encoder_.AddValue
        (s.drop (DeltaByteArrayEncoder.prefixLoop s e.last_value_).toNat) with
    | error err => rw [hav] at h; exact absurd h (by simp [throw, throwThe, MonadExceptOf.throw])
    | ok se =>
      rw [hav] at h
      simp only at h
      obtain ⟨e1, a1, a2, a3⟩ := ih
        { e with
          plain_encoded_len_ := e.plain_encoded_len_ + s.length + 4
          prefix_len_encoder_ := (e.prefix_len_encoder_.Add
            [DeltaByteArrayEncoder.prefixLoop s e.last_value_]).2
          suffix_encoder_ := se
          last_value_ := s
          num_values_ := e.num_values_ + 1 + (([s] : List (List Nat)).length : Int) } se1 h
      refine ⟨e1, ?_, a2, ?_⟩
      · rw [← a1]
        simp only [DeltaByteArrayEncoder.addEach, DeltaByteArrayEncoder.Add,
          DeltaByteArrayEncoder.addLoop, DeltaByteArrayEncoder.AddValue, hav, pure,
          Except.pure]
      · rw [a3]
        simp only [DeltaBitPackEncoder.Add, prefixLens, List.append_assoc, List.singleton_append,
          List.length_cons, List.length_nil, DeltaBitPackEncoder.mk.injEq, true_and]
        push_cast
        exact ⟨by ring, trivial⟩

end ParquetCpp

namespace ParquetCpp

open DeltaBitPack DeltaByteArray

/-- The test harness loop on a `Reset` encoder, then `Encode`: the delta byte-array page. -/
theorem DeltaByteArray_encode (e : DeltaByteArrayEncoder) (S : List (List Nat))
    (m : Nat) (hm : 1 ≤ m) (hmi : m < 2147483648)
    (hint : e.suffix_encoder_.buffer_.length < 2147483648)
    (hm1 : e.prefix_len_encoder_.mini_block_size_ = (m : Int))
    (hm2 : e.suffix_encoder_.len_encoder_.mini_block_size_ = (m : Int))
    (hS : 1 ≤ S.length) (hn : S.length < 2147483648)
    (hlen : ∀ s ∈ S, s.length < 2147483648)
    (hp : (DeltaBitPack.page m (prefixLens [] S)).length ≤ SCRATCH)
    (hl : (DeltaBitPack.page m (DeltaLength.lengths (suffixes [] S))).length ≤ SCRATCH)
    (hfit : 4 + (DeltaBitPack.page m (DeltaLength.lengths (suffixes [] S))).length
      + (suffixes [] S).flatten.length ≤ e.suffix_encoder_.buffer_.length)
    (hout : (DeltaByteArray.page m S).length ≤ SCRATCH)
    (hkm : numMiniBlocks m S.length * m < 2147483648) :
    ∃ e1 e2, e.Reset.addEach S = Except.ok e1
      ∧ e1.Encode = Except.ok (DeltaByteArray.page m S, e2) := by
  obtain ⟨se1, b1, b2, b3, b4, _, _⟩ := DeltaLength_addLoop_fits (suffixes [] S) []
    e.suffix_encoder_.buffer_ e.suffix_encoder_.Reset rfl rfl (by omega)
  obtain ⟨e1, a1, a2, a3⟩ := addEach_state S e.Reset se1 b1
  have hpe := Encode_state e1.prefix_len_encoder_ m (prefixLens [] S)
    (by rw [a3]; simp [DeltaByteArrayEncoder.Reset, DeltaBitPackEncoder.Reset])
    (by rw [a3]; simp [DeltaByteArrayEncoder.Reset, DeltaBitPackEncoder.Reset, prefixLens_length])
    (by rw [a3]; exact hm1)
    hm hmi (by rw [prefixLens_length]; exact hS)
    (by rw [prefixLens_length]; exact hn)
    (fun v hv => by have := prefixLens_range S [] hlen v hv; omega) hp
    (by rw [prefixLens_length]; exact hkm)
  have hb1 : se1.buffer_.length = e.suffix_encoder_.buffer_.length := by
    rw [b2, List.nil_append, List.length_append, List.length_drop]; omega
  obtain ⟨se2, hse⟩ := DeltaLength_Encode_state se1 m (suffixes [] S)
    (e.suffix_encoder_.buffer_.drop (suffixes [] S).flatten.length)
    (by rw [b2]; rfl) (by rw [b3]; simp)
    (by rw [b4]; simp [DeltaLengthByteArrayEncoder.Reset, DeltaBitPackEncoder.Reset,
      DeltaLength.lengths])
    (by rw [b4]; simp [DeltaLengthByteArrayEncoder.Reset, DeltaBitPackEncoder.Reset])
    (by rw [b4]; exact hm2)
    hm hmi (by rw [suffixes_length]; exact hS)
    (by rw [suffixes_length]; exact hn) (by rw [hb1]; exact hint) hl (by rw [hb1]; exact hfit)
    (by rw [suffixes_length]; exact hkm)
  refine ⟨e1, { e1 with
    prefix_len_encoder_ := { e1.prefix_len_encoder_ with
      values_ := (prefixLens [] S).headD 0 :: deltas (prefixLens [] S) }
    suffix_encoder_ := se2 }, a1, ?_⟩
  unfold DeltaByteArrayEncoder.Encode
  rw [hpe, a2, hse]
  simp only
  rw [if_pos (by
    simp only [DeltaByteArray.page, List.length_append, leBytes_length] at hout
    omega)]
  rfl

end ParquetCpp

namespace ParquetCpp

open DeltaBitPack DeltaByteArray

theorem drop_take_one {α : Type} (l : List α) (j : Nat) (a : α) (h : j < l.length) :
    (l.drop j).take 1 = [l.getD j a] := by
  rw [List.drop_eq_getElem_cons h, List.take_succ_cons, List.take_zero,
    List.getD_eq_getElem _ _ h]

/-- Reading the bytes a view designates. -/
theorem memRead_of_bytes (page : List Nat) (v : ByteArray) (s : List Nat)
    (h : ByteArray.bytes page v = some s) : memRead page v.ptr (v.len : Int) = Except.ok s := by
  unfold ByteArray.bytes at h
  split at h
  · rename_i hc
    simp only [Option.some.injEq] at h
    unfold memRead
    by_cases h0 : v.len = 0
    · rw [if_pos (by omega)]
      rw [h0, List.take_zero] at h
      rw [← h]; rfl
    · rw [if_neg (by omega), if_pos (by rw [Int.toNat_ofNat]; exact hc), Int.toNat_ofNat, h]
      rfl
  · exact absurd h (by simp)

theorem bind_ok {α β : Type} (a : α) (f : α → Except Err β) :
    (Except.ok a >>= f) = f a := rfl

theorem memRead_head (A B C : List Nat) (h : A.length = 4) :
    memRead (A ++ B ++ C) 0 4 = Except.ok A := by
  have h1 := memRead_fits (A ++ B ++ C) 0 4 (by
    simp only [List.length_append]; omega)
  rw [List.drop_zero, List.append_assoc, List.take_left' h] at h1
  rw [← List.append_assoc] at h1
  exact h1

/-- `SetData` of the delta byte-array decoder, from what it reads in the page. -/
theorem DeltaByteArray_SetData_of (d : DeltaByteArrayDecoder) (n : Int)
    (data bs pre rest : List Nat) (k : Nat) (sd : DeltaLengthByteArrayDecoder)
    (hne : ¬ (data.length = 0)) (hread : memRead data 0 4 = Except.ok bs)
    (hk : wrap32 (leValue bs) = (k : Int))
    (hpre : (data.drop 4).take k = pre) (hrest : (data.drop 4).drop k = rest)
    (hs : d.suffix_decoder_.SetData n rest = Except.ok sd) :
    d.SetData n data
      = Except.ok { d with
          num_values_ := n
          prefix_len_decoder_ := d.prefix_len_decoder_.SetData n pre
          suffix_decoder_ := sd } := by
  unfold DeltaByteArrayDecoder.SetData
  rw [if_neg hne, hread, bind_ok]
  dsimp only
  rw [hk, Int.toNat_ofNat, hpre, hrest, hs, bind_ok]
  rfl

/-- `SetData` of the delta byte-array decoder on the delta byte-array page of `S`. -/
theorem DeltaByteArray_SetData_page (d : DeltaByteArrayDecoder) (m : Nat)
    (S : List (List Nat))
    (hp : (DeltaBitPack.page m (prefixLens [] S)).length ≤ SCRATCH)
    (hl : (DeltaBitPack.page m (DeltaLength.lengths (suffixes [] S))).length ≤ SCRATCH)
    (hw1 : d.prefix_len_decoder_.delta_bit_widths_ = [])
    (ht1 : d.prefix_len_decoder_.type_ = PType.INT32)
    (hw2 : d.suffix_decoder_.len_decoder_.delta_bit_widths_ = [])
    (ht2 : d.suffix_decoder_.len_decoder_.type_ = PType.INT32) :
    ∃ d1, d.SetData (S.length : Int) (DeltaByteArray.page m S) = Except.ok d1
      ∧ DeltaByteArray.DecoderReady m S 0 d1 ∧ d1.num_values_ = (S.length : Int) := by
  have hsc : SCRATCH = 10485760 := by decide
  obtain ⟨sd, s1, s2, s3⟩ := DeltaLength_SetData_page d.suffix_decoder_ m (suffixes [] S)
    (S.length : Int) hl hw2 ht2
  have h := DeltaByteArray_SetData_of d (S.length : Int) (DeltaByteArray.page m S)
    (leBytes 4 (DeltaBitPack.page m (prefixLens [] S)).length)
    (DeltaBitPack.page m (prefixLens [] S)) (DeltaLength.page m (suffixes [] S))
    (DeltaBitPack.page m (prefixLens [] S)).length sd
    (by
      unfold DeltaByteArray.page
      rw [List.length_append, List.length_append, leBytes_length]
      omega)
    (memRead_head _ _ _ (leBytes_length _ _))
    (by rw [leValue_leBytes _ _ (by norm_num; omega), wrap32_natCast _ (by omega)])
    (by
      unfold DeltaByteArray.page
      rw [List.append_assoc, List.drop_left' (leBytes_length _ _), List.take_left' rfl])
    (by
      unfold DeltaByteArray.page
      rw [List.append_assoc, List.drop_left' (leBytes_length _ _), List.drop_left' rfl])
    s1
  refine ⟨_, h, ⟨Or.inl ⟨rfl, rfl, rfl, hw1⟩, ht1, ?_, s2, ?_, ?_⟩, rfl⟩
  · show (S.length : Int) = (S.length : Int) - ((0 : Nat) : Int)
    rw [Nat.cast_zero, Int.sub_zero]
  · show sd.num_values_ = (S.length : Int) - ((0 : Nat) : Int)
    rw [s3, Nat.cast_zero, Int.sub_zero]
  · intro h0
    exact absurd h0 (by decide)

end ParquetCpp

namespace ParquetCpp

open DeltaBitPack DeltaByteArray

/-- One iteration of the loop of `Get` of the delta byte-array decoder, from what its
parts return. -/
theorem DeltaByteArray_getStep_of (d : DeltaByteArrayDecoder) (c1 c2 p : Int)
    (pd : DeltaBitPackDecoder) (v : ByteArray) (sd : DeltaLengthByteArrayDecoder)
    (pre suf : List Nat)
    (h1 : d.prefix_len_decoder_.Get 1 = Except.ok (c1, [p], pd))
    (h2 : d.suffix_decoder_.Get 1 = Except.ok (c2, [v], sd))
    (h3 : ¬ (p < 0))
    (h4 : DeltaByteArrayDecoder.readLast d.last_value_ p = Except.ok pre)
    (h5 : memRead sd.page_ v.ptr (v.len : Int) = Except.ok suf)
    (h6 : ¬ (toU32 (p + (v.len : Int)) ≠ pre.length + suf.length)) :
    d.getStep = Except.ok (pre ++ suf,
      { d with
        prefix_len_decoder_ := pd
        suffix_decoder_ := sd
        last_value_ := some (pre ++ suf) }) := by
  unfold DeltaByteArrayDecoder.getStep
  rw [h1, h2]
  dsimp only [List.headD_cons]
  rw [if_neg h3, h4]
  dsimp only
  rw [h5]
  dsimp only
  rw [if_neg h6]
  rfl

/-- One iteration of the loop of `Get` of the delta byte-array decoder. -/
theorem DeltaByteArray_getStep_ready (m : Nat) (S : List (List Nat))
    (d : DeltaByteArrayDecoder) (j : Nat) (hm : 1 ≤ m) (hmi : m < 2147483648)
    (hn : S.length < 2147483648) (hS : 2 ≤ S.length)
    (hlen : ∀ s ∈ S, s.length < 2147483648)
    (hint : (DeltaLength.page m (suffixes [] S)).length < 2147483648)
    (hj : j < S.length) (hd : DeltaByteArray.DecoderReady m S j d) :
    ∃ d', d.getStep = Except.ok (S.getD j [], d')
      ∧ DeltaByteArray.DecoderReady m S (j + 1) d' := by
  obtain ⟨r1, t1, n1, r2, n2, hlast⟩ := hd
  have hpr := prefixLens_range S [] hlen
  obtain ⟨pd, g1, g2, g3, g4⟩ := Get_ready m (prefixLens [] S) d.prefix_len_decoder_ 1 j 1
    hm hmi (by rw [prefixLens_length]; exact hn)
    (by rw [prefixLens_length]; exact hS)
    (fun v hv => by have := hpr v hv; omega)
    (fun v hv => by rw [t1]; exact castTo_int32 v (by have := hpr v hv; omega)) r1
    (by rw [n1]; omega) (le_refl _) (by rw [prefixLens_length]; omega)
  obtain ⟨vs, sd, s1, s2, s3, s4, s5⟩ := DeltaLength_Get_ready m (suffixes [] S)
    d.suffix_decoder_ 1 j 1 hm hmi (by rw [suffixes_length]; exact hn)
    (by rw [suffixes_length]; exact hS) hint r2 (by rw [n2]; omega) (le_refl _)
    (by rw [suffixes_length]; omega)
  rw [drop_take_one _ j 0 (by rw [prefixLens_length]; exact hj), prefixLens_getD S [] j hj] at g1
  rw [drop_take_one _ j [] (by rw [suffixes_length]; exact hj), suffixes_getD S [] j hj] at s2 s3
  obtain ⟨v, rfl⟩ : ∃ v, vs = [v] := by
    cases vs with
    | nil => simp at s2
    | cons v vs =>
      cases vs with
      | nil => exact ⟨v, rfl⟩
      | cons w vs => simp at s2
  simp only [List.map_cons, List.map_nil, List.cons.injEq, and_true] at s2 s3
  have hsj : (S.getD j []) ∈ S := by
    rw [List.getD_eq_getElem _ _ hj]; exact List.getElem_mem _
  have hsl := hlen _ hsj
  have hs' : S.getD (j + 1 - 1) [] = S.getD j [] := by rw [Nat.add_sub_cancel]
  generalize S.getD j [] = s at g1 s2 s3 hsl hs' ⊢
  have hprev : 1 ≤ j → d.last_value_ = some (prevOf [] S j) := by
    intro h
    rw [hlast h]
    unfold prevOf
    rw [if_neg (by omega)]
  have hprev0 : j = 0 → prevOf [] S j = [] := by
    intro h
    unfold prevOf
    rw [if_pos h]
  generalize prevOf [] S j = prev at g1 s2 s3 hprev hprev0
  have hp0 := prefixLoop_nonneg s prev
  have hp1 := (prefixLoop_le s prev).1
  have hp2 := (prefixLoop_le s prev).2
  have hrl : DeltaByteArrayDecoder.readLast d.last_value_
      (DeltaByteArrayEncoder.prefixLoop s prev)
      = Except.ok (prev.take (DeltaByteArrayEncoder.prefixLoop s prev).toNat) := by
    unfold DeltaByteArrayDecoder.readLast
    by_cases hz : DeltaByteArrayEncoder.prefixLoop s prev = 0
    · rw [if_pos hz, hz]; rfl
    · rw [if_neg hz]
      have hj1 : 1 ≤ j := by
        rcases Nat.eq_zero_or_pos j with h0 | h0
        · have := hprev0 h0
          subst this
          exact absurd (prefixLoop_nil_right s) hz
        · exact h0
      rw [hprev hj1]
      have h := memRead_fits prev 0 (DeltaByteArrayEncoder.prefixLoop s prev).toNat (by omega)
      rw [List.drop_zero, Int.toNat_of_nonneg hp0] at h
      exact h
  have hsuf := memRead_of_bytes _ _ _ s3
  rw [← s4.1] at hsuf
  have hstep := DeltaByteArray_getStep_of d _ _ _ pd v sd _ _ g1 s1 (by omega) hrl hsuf (by
    rw [not_not, s2, List.length_take, List.length_drop]
    have : (DeltaByteArrayEncoder.prefixLoop s prev + ((s.length
        - (DeltaByteArrayEncoder.prefixLoop s prev).toNat : Nat) : Int)) = (s.length : Int) := by
      omega
    rw [this, toU32_natCast _ (by omega)]
    omega)
  rw [prefix_append_suffix s prev] at hstep
  refine ⟨_, hstep, g2, g3.trans t1, ?_, s4, ?_, ?_⟩
  · show pd.num_values_ = _
    rw [g4, n1]; push_cast; ring
  · show sd.num_values_ = _
    rw [s5, n2]; push_cast; ring
  · intro _
    show some s = some (S.getD (j + 1 - 1) [])
    rw [hs']

/-- The loop of `Get` of the delta byte-array decoder. -/
theorem DeltaByteArray_getLoop_ready (m : Nat) (S : List (List Nat)) (hm : 1 ≤ m)
    (hmi : m < 2147483648) (hn : S.length < 2147483648) (hS : 2 ≤ S.length)
    (hlen : ∀ s ∈ S, s.length < 2147483648)
    (hint : (DeltaLength.page m (suffixes [] S)).length < 2147483648) (k : Nat) :
    ∀ (j : Nat) (d : DeltaByteArrayDecoder), j + k ≤ S.length →
    DeltaByteArray.DecoderReady m S j d →
    ∃ d', getLoop DeltaByteArrayDecoder.getStep k d = Except.ok ((S.drop j).take k, d')
      ∧ DeltaByteArray.DecoderReady m S (j + k) d' := by
  induction k with
  | zero =>
    intro j d _ hd
    exact ⟨d, by simp [getLoop, pure, Except.pure], hd⟩
  | succ k ih =>
    intro j d hj hd
    obtain ⟨d1, h1, hd1⟩ := DeltaByteArray_getStep_ready m S d j hm hmi hn hS hlen hint
      (by omega) hd
    obtain ⟨d2, h2, hd2⟩ := ih (j + 1) d1 (by omega) hd1
    refine ⟨d2, ?_, ?_⟩
    · simp only [getLoop, h1, h2]
      rw [List.drop_eq_getElem_cons (show j < S.length by omega), List.take_succ_cons,
        List.getD_eq_getElem _ _ (show j < S.length by omega)]
    · have : j + 1 + k = j + (k + 1) := by omega
      rwa [this] at hd2

end ParquetCpp

namespace ParquetCpp

open DeltaBitPack DeltaByteArray

/-- C3. For every list `S` of at least two byte strings that fits the encoder buffers (the
prefix lengths page and the lengths page of the suffixes fit the 10 MiB scratch buffers
of their encoders, the suffix page fits the buffer of the suffix encoder, and the whole
page fits the 10 MiB buffer of `Encode`): adding the strings one by one with
`Add(&ba, 1)` to a `DeltaByteArrayEncoder` that has been `Reset`, then `Encode()` once,
gives the delta byte-array page of `S`, and a new `DeltaByteArrayDecoder` answers
`SetData(|S|, page)` then `Get(out, |S|)` with `|S|` and the strings of `S`, byte for
byte. -/
theorem deltaByteArray_roundtrip (e : DeltaByteArrayEncoder) (S : List (List Nat))
    (idx0 idx1 : Int)
    (hint : e.suffix_encoder_.buffer_.length < 2147483648)
    (hm1 : e.prefix_len_encoder_.mini_block_size_ = 8)
    (hm2 : e.suffix_encoder_.len_encoder_.mini_block_size_ = 8)
    (hS : 2 ≤ S.length) (hn : S.length < 2147483648)
    (hlen : ∀ s ∈ S, s.length < 2147483648)
    (hp : (DeltaBitPack.page 8 (prefixLens [] S)).length ≤ SCRATCH)
    (hl : (DeltaBitPack.page 8 (DeltaLength.lengths (suffixes [] S))).length ≤ SCRATCH)
    (hfit : 4 + (DeltaBitPack.page 8 (DeltaLength.lengths (suffixes [] S))).length
      + (suffixes [] S).flatten.length ≤ e.suffix_encoder_.buffer_.length)
    (hout : (DeltaByteArray.page 8 S).length ≤ SCRATCH) :
    ∃ e1 e2 d1 d2,
      e.Reset.addEach S = Except.ok e1
      ∧ e1.Encode = Except.ok (DeltaByteArray.page 8 S, e2)
      ∧ (DeltaByteArrayDecoder.new idx0 idx1).SetData (S.length : Int) (DeltaByteArray.page 8 S)
          = Except.ok d1
      ∧ d1.Get (S.length : Int) = Except.ok ((S.length : Int), S, d2) := by
  have hkm : DeltaBitPack.numMiniBlocks 8 S.length * 8 < 2147483648 := by
    have := blockSize_of_fit 8 (prefixLens [] S) (by decide) hp
    rw [prefixLens_length] at this
    exact this
  obtain ⟨e1, e2, a1, a2⟩ := DeltaByteArray_encode e S 8 (by decide) (by decide)
    hint hm1 hm2 (by omega) hn hlen hp hl hfit hout hkm
  obtain ⟨d1, s1, s2, s3⟩ := DeltaByteArray_SetData_page
    (DeltaByteArrayDecoder.new idx0 idx1) 8 S hp hl rfl rfl rfl rfl
  have hsc : SCRATCH = 10485760 := by decide
  have hpl : (DeltaLength.page 8 (suffixes [] S)).length < 2147483648 := by
    unfold DeltaByteArray.page at hout
    rw [List.length_append] at hout
    omega
  obtain ⟨d2, g1, _⟩ := DeltaByteArray_getLoop_ready 8 S (by decide) (by decide) hn hS hlen
    hpl S.length 0 d1 (by omega) s2
  rw [List.drop_zero, List.take_length] at g1
  refine ⟨e1, e2, d1, { d2 with num_values_ := d2.num_values_ - (S.length : Int) },
    a1, a2, s1, ?_⟩
  unfold DeltaByteArrayDecoder.Get
  rw [s3, min_self]
  dsimp only
  rw [Int.toNat_ofNat, g1]
  rfl

set_option maxRecDepth 100000 in
/-- Witness of C3: the strings "myxa", "myxophyta", "myxopod", "nab", "nabbed" in an
encoder with 128-byte buffers; and the string `C3 A9` twice in an encoder with 64-byte
buffers, where the encoder finds no common prefix (the bytes are above `0x7F`) and stages
both strings whole. -/
theorem deltaByteArray_roundtrip_witness :
    ((DeltaByteArrayEncoder.new (List.replicate 128 0)).suffix_encoder_.buffer_.length
        < 2147483648
      ∧ (DeltaByteArrayEncoder.new (List.replicate 128 0)).prefix_len_encoder_.mini_block_size_
          = 8
      ∧ (DeltaByteArrayEncoder.new
          (List.replicate 128 0)).suffix_encoder_.len_encoder_.mini_block_size_ = 8
      ∧ 2 ≤ testStrings.length ∧ testStrings.length < 2147483648
      ∧ (∀ s ∈ testStrings, s.length < 2147483648)
      ∧ (DeltaBitPack.page 8 (prefixLens [] testStrings)).length ≤ SCRATCH
      ∧ (DeltaBitPack.page 8 (DeltaLength.lengths (suffixes [] testStrings))).length ≤ SCRATCH
      ∧ 4 + (DeltaBitPack.page 8 (DeltaLength.lengths (suffixes [] testStrings))).length
          + (suffixes [] testStrings).flatten.length
          ≤ (DeltaByteArrayEncoder.new (List.replicate 128 0)).suffix_encoder_.buffer_.length
      ∧ (DeltaByteArray.page 8 testStrings).length ≤ SCRATCH)
    ∧ (∃ e1 e2 d1 d2,
      (DeltaByteArrayEncoder.new (List.replicate 128 0)).Reset.addEach testStrings
        = Except.ok e1
      ∧ e1.Encode = Except.ok (DeltaByteArray.page 8 testStrings, e2)
      ∧ (DeltaByteArrayDecoder.new 0 0).SetData (testStrings.length : Int)
          (DeltaByteArray.page 8 testStrings) = Except.ok d1
      ∧ d1.Get (testStrings.length : Int)
          = Except.ok ((testStrings.length : Int), testStrings, d2))
    ∧ prefixLens [] [[195, 169], [195, 169]] = [0, 0]
    ∧ suffixes [] [[195, 169], [195, 169]] = [[195, 169], [195, 169]]
    ∧ ∃ e1 e2 d1 d2,
      (DeltaByteArrayEncoder.new (List.replicate 64 0)).Reset.addEach [[195, 169], [195, 169]]
        = Except.ok e1
      ∧ e1.Encode = Except.ok (DeltaByteArray.page 8 [[195, 169], [195, 169]], e2)
      ∧ (DeltaByteArrayDecoder.new 0 0).SetData
          (([[195, 169], [195, 169]] : List (List Nat)).length : Int)
          (DeltaByteArray.page 8 [[195, 169], [195, 169]]) = Except.ok d1
      ∧ d1.Get (([[195, 169], [195, 169]] : List (List Nat)).length : Int)
          = Except.ok ((([[195, 169], [195, 169]] : List (List Nat)).length : Int),
              [[195, 169], [195, 169]], d2) :=
  ⟨⟨by decide, by decide, by decide, by decide, by decide, by decide, by decide, by decide,
      by decide, by decide⟩,
    deltaByteArray_roundtrip (DeltaByteArrayEncoder.new (List.replicate 128 0)) testStrings 0 0
      (by decide) (by decide) (by decide) (by decide) (by decide) (by decide) (by decide)
      (by decide) (by decide) (by decide),
    by decide, by decide,
    deltaByteArray_roundtrip (DeltaByteArrayEncoder.new (List.replicate 64 0))
      [[195, 169], [195, 169]] 0 0
      (by decide) (by decide) (by decide) (by decide) (by decide) (by decide) (by decide)
      (by decide) (by decide) (by decide)⟩

end ParquetCpp

namespace ParquetCpp

/-! ## Decoder and encoder life cycle -/

set_option maxRecDepth 100000 in
/-- C11. Failing input: a `DeltaBitPackDecoder` for `INT32` is given the page of
`[0, 1, 2, 3]` (mini-block size 1, three mini blocks) and asked for one value; then
`SetData(3, P)` with the page `P` of `[10, 20, 30]` and `Get(out, 3)`. `SetData` leaves
`mini_block_idx_` and `delta_bit_widths_` of the earlier page in place, so `GetInternal`
does not call `InitBlock` and reads the header bytes of `P` as deltas: the values are
`[1, 2, 10]`, where a new decoder returns `[10, 20, 30]` on the same page. -/
theorem deltaBitPack_setData_keeps_block_state :
    ∃ e0 e1 e2 e3 d0 d1 d2 d3,
      DeltaBitPackEncoder.new PType.INT32 1 1 = Except.ok e0
      ∧ (e0.Add [0, 1, 2, 3]).2.Encode = Except.ok ([3, 3, 3, 0, 2, 0, 0, 0], e1)
      ∧ DeltaBitPackEncoder.new PType.INT32 1 1 = Except.ok e2
      ∧ (e2.Add [10, 20, 30]).2.Encode = Except.ok ([2, 2, 2, 20, 20, 0, 0], e3)
      ∧ DeltaBitPackDecoder.new PType.INT32 0 = Except.ok d0
      ∧ (d0.SetData 4 [3, 3, 3, 0, 2, 0, 0, 0]).Get 1 = Except.ok (1, [0], d1)
      ∧ (d1.SetData 3 [2, 2, 2, 20, 20, 0, 0]).Get 3 = Except.ok (3, [1, 2, 10], d2)
      ∧ (d0.SetData 3 [2, 2, 2, 20, 20, 0, 0]).Get 3 = Except.ok (3, [10, 20, 30], d3) :=
  ⟨_, _, _, _, _, _, _, _, rfl, rfl, rfl, rfl, rfl, rfl, rfl, rfl⟩

end ParquetCpp

namespace ParquetCpp

open DeltaBitPack DeltaByteArray

/-! ## Batches of `Add` on the delta byte-array encoder -/

theorem DeltaLength_addLoop_append (A B : List (List Nat)) :
    ∀ (e : DeltaLengthByteArrayEncoder),
    DeltaLengthByteArrayEncoder.addLoop (A ++ B) e
      = match DeltaLengthByteArrayEncoder.addLoop A e with
        | Except.error err => Except.error err
        | Except.ok e1 => DeltaLengthByteArrayEncoder.addLoop B e1 := by
  induction A with
  | nil => intro e; rfl
  | cons a A ih =>
    intro e
    rw [List.cons_append]
    show (match e.AddValue a with
      | Except.error err => throw err
      | Except.ok e1 => DeltaLengthByteArrayEncoder.addLoop (A ++ B) e1)
      = match (match e.AddValue a with
          | Except.error err => throw err
          | Except.ok e1 => DeltaLengthByteArrayEncoder.addLoop A e1) with
        | Except.error err => Except.error err
        | Except.ok e1 => DeltaLengthByteArrayEncoder.addLoop B e1
    cases h : e.AddValue a with
    | error err => rfl
    | ok e1 => exact ih e1

theorem suffixes_append (A B : List (List Nat)) : ∀ (last : List Nat),
    suffixes last (A ++ B) = suffixes last A ++ suffixes (lastOf last A) B := by
  induction A with
  | nil => intro last; rfl
  | cons a A ih =>
    intro last
    show _ :: suffixes a (A ++ B) = _ :: suffixes a A ++ suffixes (lastOf a A) B
    rw [ih a, List.cons_append]

theorem prefixLens_append (A B : List (List Nat)) : ∀ (last : List Nat),
    prefixLens last (A ++ B) = prefixLens last A ++ prefixLens (lastOf last A) B := by
  induction A with
  | nil => intro last; rfl
  | cons a A ih =>
    intro last
    show _ :: prefixLens a (A ++ B) = _ :: prefixLens a A ++ prefixLens (lastOf a A) B
    rw [ih a, List.cons_append]

/-- The loop of `Add` of the delta byte-array encoder: the prefix lengths go to the prefix
encoder, the suffixes to the suffix encoder, and `num_values_` counts the values once. -/
theorem DeltaByteArray_addLoop_state (S : List (List Nat)) :
    ∀ (e : DeltaByteArrayEncoder) (se1 : DeltaLengthByteArrayEncoder),
    DeltaLengthByteArrayEncoder.addLoop (suffixes e.last_value_ S) e.suffix_encoder_
      = Except.ok se1 →
    ∃ e1, DeltaByteArrayEncoder.addLoop S e = Except.ok e1
      ∧ e1.suffix_encoder_ = se1
      ∧ e1.prefix_len_encoder_ = { e.prefix_len_encoder_ with
          values_ := e.prefix_len_encoder_.values_ ++ prefixLens e.last_value_ S
          num_values_ := e.prefix_len_encoder_.num_values_ + (S.length : Int) }
      ∧ e1.num_values_ = e.num_values_ + (S.length : Int)
      ∧ e1.last_value_ = lastOf e.last_value_ S := by
  induction S with
  | nil =>
    intro e se1 h
    have h' : e.suffix_encoder_ = se1 := by
      simpa [suffixes, DeltaLengthByteArrayEncoder.addLoop, pure, Except.pure] using h
    refine ⟨e, rfl, h', ?_, ?_, rfl⟩
    · simp [prefixLens]
    · simp
  | cons s S ih =>
    intro e se1 h
    unfold suffixes DeltaLengthByteArrayEncoder.addLoop at h
    cases hav : e.suffix_encoder_.AddValue
        (s.drop (DeltaByteArrayEncoder.prefixLoop s e.last_value_).toNat) with
    | error err => rw [hav] at h; exact absurd h (by simp [throw, throwThe, MonadExceptOf.throw])
    | ok se =>
      rw [hav] at h
      obtain ⟨e1, a1, a2, a3, a4, a5⟩ := ih
        { e with
          plain_encoded_len_ := e.plain_encoded_len_ + s.length + 4
          prefix_len_encoder_ := (e.prefix_len_encoder_.Add
            [DeltaByteArrayEncoder.prefixLoop s e.last_value_]).2
          suffix_encoder_ := se
          last_value_ := s
          num_values_ := e.num_values_ + 1 } se1 h
      refine ⟨e1, ?_, a2, ?_, ?_, ?_⟩
      · rw [← a1]
        simp only [DeltaByteArrayEncoder.addLoop, DeltaByteArrayEncoder.AddValue, hav, pure,
          Except.pure]
      · rw [a3]
        simp only [DeltaBitPackEncoder.Add, prefixLens, List.append_assoc, List.singleton_append,
          List.length_cons, List.length_nil, DeltaBitPackEncoder.mk.injEq, true_and]
        push_cast
        exact ⟨by ring, trivial⟩
      · rw [a4]
        simp only [List.length_cons]
        push_cast
        ring
      · rw [a5]
        rfl

/-- `Add` of the delta byte-array encoder: `num_values_` grows by twice the number of
values. -/
theorem DeltaByteArray_Add_state (S : List (List Nat)) (e : DeltaByteArrayEncoder)
    (se1 : DeltaLengthByteArrayEncoder)
    (h : DeltaLengthByteArrayEncoder.addLoop (suffixes e.last_value_ S) e.suffix_encoder_
      = Except.ok se1) :
    ∃ e1, e.Add S = Except.ok ((S.length : Int), e1)
      ∧ e1.suffix_encoder_ = se1
      ∧ e1.prefix_len_encoder_ = { e.prefix_len_encoder_ with
          values_ := e.prefix_len_encoder_.values_ ++ prefixLens e.last_value_ S
          num_values_ := e.prefix_len_encoder_.num_values_ + (S.length : Int) }
      ∧ e1.num_values_ = e.num_values_ + 2 * (S.length : Int)
      ∧ e1.last_value_ = lastOf e.last_value_ S := by
  obtain ⟨e1, a1, a2, a3, a4, a5⟩ := DeltaByteArray_addLoop_state S e se1 h
  refine ⟨{ e1 with num_values_ := e1.num_values_ + (S.length : Int) }, ?_, a2, a3, ?_, a5⟩
  · unfold DeltaByteArrayEncoder.Add
    rw [a1]
    rfl
  · show e1.num_values_ + (S.length : Int) = _
    rw [a4]
    ring

/-- Successive `Add` calls for the sub-batches `Ss`. -/
theorem addBatches_state (Ss : List (List (List Nat))) :
    ∀ (e : DeltaByteArrayEncoder) (se1 : DeltaLengthByteArrayEncoder),
    DeltaLengthByteArrayEncoder.addLoop (suffixes e.last_value_ Ss.flatten) e.suffix_encoder_
      = Except.ok se1 →
    ∃ e1, e.addBatches Ss = Except.ok e1
      ∧ e1.suffix_encoder_ = se1
      ∧ e1.prefix_len_encoder_ = { e.prefix_len_encoder_ with
          values_ := e.prefix_len_encoder_.values_ ++ prefixLens e.last_value_ Ss.flatten
          num_values_ := e.prefix_len_encoder_.num_values_ + (Ss.flatten.length : Int) }
      ∧ e1.num_values_ = e.num_values_ + 2 * (Ss.flatten.length : Int) := by
  induction Ss with
  | nil =>
    intro e se1 h
    have h' : e.suffix_encoder_ = se1 := by
      simpa [suffixes, DeltaLengthByteArrayEncoder.addLoop, pure, Except.pure] using h
    refine ⟨e, rfl, h', ?_, ?_⟩
    · simp [prefixLens]
    · simp
  | cons b Ss ih =>
    intro e se1 h
    rw [List.flatten_cons, suffixes_append, DeltaLength_addLoop_append] at h
    cases hb : DeltaLengthByteArrayEncoder.addLoop (suffixes e.last_value_ b)
        e.suffix_encoder_ with
    | error err => rw [hb] at h; exact absurd h (by simp)
    | ok se =>
      rw [hb] at h
      obtain ⟨e', b1, b2, b3, b4, b5⟩ := DeltaByteArray_Add_state b e se hb
      rw [← b2, ← b5] at h
      obtain ⟨e1, a1, a2, a3, a4⟩ := ih e' se1 h
      refine ⟨e1, ?_, a2, ?_, ?_⟩
      · unfold DeltaByteArrayEncoder.addBatches
        rw [b1]
        exact a1
      · rw [a3, b3, b5, List.flatten_cons, prefixLens_append]
        simp only [List.append_assoc, List.length_append, DeltaBitPackEncoder.mk.injEq,
          true_and]
        push_cast
        exact ⟨by ring, trivial⟩
      · rw [a4, b4, List.flatten_cons, List.length_append]
        push_cast
        ring

end ParquetCpp

namespace ParquetCpp

open DeltaBitPack DeltaByteArray

/-- `Encode` of a delta byte-array encoder that holds the strings `S`. -/
theorem DeltaByteArray_Encode_of (e1 : DeltaByteArrayEncoder) (m : Nat) (S : List (List Nat))
    (R : List Nat)
    (hv : e1.prefix_len_encoder_.values_ = prefixLens [] S)
    (hnv : e1.prefix_len_encoder_.num_values_ = (S.length : Int))
    (hm1 : e1.prefix_len_encoder_.mini_block_size_ = (m : Int))
    (hb : e1.suffix_encoder_.buffer_ = (suffixes [] S).flatten ++ R)
    (ho : e1.suffix_encoder_.offset_ = ((suffixes [] S).flatten.length : Int))
    (hsv : e1.suffix_encoder_.len_encoder_.values_ = DeltaLength.lengths (suffixes [] S))
    (hsn : e1.suffix_encoder_.len_encoder_.num_values_ = (S.length : Int))
    (hm2 : e1.suffix_encoder_.len_encoder_.mini_block_size_ = (m : Int))
    (hm : 1 ≤ m) (hmi : m < 2147483648)
    (hint : e1.suffix_encoder_.buffer_.length < 2147483648)
    (hS : 1 ≤ S.length) (hn : S.length < 2147483648)
    (hlen : ∀ s ∈ S, s.length < 2147483648)
    (hp : (DeltaBitPack.page m (prefixLens [] S)).length ≤ SCRATCH)
    (hl : (DeltaBitPack.page m (DeltaLength.lengths (suffixes [] S))).length ≤ SCRATCH)
    (hfit : 4 + (DeltaBitPack.page m (DeltaLength.lengths (suffixes [] S))).length
      + (suffixes [] S).flatten.length ≤ e1.suffix_encoder_.buffer_.length)
    (hout : (DeltaByteArray.page m S).length ≤ SCRATCH)
    (hkm : numMiniBlocks m S.length * m < 2147483648) :
    ∃ e2, e1.Encode = Except.ok (DeltaByteArray.page m S, e2) := by
  have hpe := Encode_state e1.prefix_len_encoder_ m (prefixLens [] S) hv
    (by rw [hnv, prefixLens_length]) hm1 hm hmi (by rw [prefixLens_length]; exact hS)
    (by rw [prefixLens_length]; exact hn)
    (fun v hv => by have := prefixLens_range S [] hlen v hv; omega) hp
    (by rw [prefixLens_length]; exact hkm)
  obtain ⟨se2, hse⟩ := DeltaLength_Encode_state e1.suffix_encoder_ m (suffixes [] S) R hb ho hsv
    (by rw [hsn, suffixes_length]) hm2 hm hmi (by rw [suffixes_length]; exact hS)
    (by rw [suffixes_length]; exact hn) hint hl hfit
    (by rw [suffixes_length]; exact hkm)
  refine ⟨{ e1 with
    prefix_len_encoder_ := { e1.prefix_len_encoder_ with
      values_ := (prefixLens [] S).headD 0 :: deltas (prefixLens [] S) }
    suffix_encoder_ := se2 }, ?_⟩
  unfold DeltaByteArrayEncoder.Encode
  rw [hpe, hse]
  dsimp only
  rw [if_pos (by
    unfold DeltaByteArray.page at hout
    rw [List.length_append, List.length_append, leBytes_length] at hout
    omega)]
  rfl

/-- C17. For every list of sub-batches `Ss` whose strings, taken together as `S`, fit the
buffers of a fresh `DeltaByteArrayEncoder`: feeding the sub-batches through `Add` in order
and feeding `S` with a single `Add` call both give, on `Encode()`, the delta byte-array
page of `S`: the same bytes and the same length. -/
theorem deltaByteArray_batches_same_page (mem : List Nat) (Ss : List (List (List Nat)))
    (hint : mem.length < 2147483648)
    (hS : 1 ≤ Ss.flatten.length) (hn : Ss.flatten.length < 2147483648)
    (hlen : ∀ s ∈ Ss.flatten, s.length < 2147483648)
    (hp : (DeltaBitPack.page 8 (prefixLens [] Ss.flatten)).length ≤ SCRATCH)
    (hl : (DeltaBitPack.page 8 (DeltaLength.lengths (suffixes [] Ss.flatten))).length
      ≤ SCRATCH)
    (hfit : 4 + (DeltaBitPack.page 8 (DeltaLength.lengths (suffixes [] Ss.flatten))).length
      + (suffixes [] Ss.flatten).flatten.length ≤ mem.length)
    (hout : (DeltaByteArray.page 8 Ss.flatten).length ≤ SCRATCH) :
    ∃ e1 e2 e3 e4,
      (DeltaByteArrayEncoder.new mem).Add Ss.flatten
        = Except.ok ((Ss.flatten.length : Int), e1)
      ∧ e1.Encode = Except.ok (DeltaByteArray.page 8 Ss.flatten, e2)
      ∧ (DeltaByteArrayEncoder.new mem).addBatches Ss = Except.ok e3
      ∧ e3.Encode = Except.ok (DeltaByteArray.page 8 Ss.flatten, e4) := by
  obtain ⟨se1, b1, b2, b3, b4, _, _⟩ := DeltaLength_addLoop_fits (suffixes [] Ss.flatten) []
    mem (DeltaLengthByteArrayEncoder.new mem 8) rfl rfl (by omega)
  have hb : se1.buffer_ = (suffixes [] Ss.flatten).flatten
      ++ mem.drop (suffixes [] Ss.flatten).flatten.length := by
    rw [b2]; rfl
  have ho : se1.offset_ = ((suffixes [] Ss.flatten).flatten.length : Int) := by
    rw [b3, List.length_nil, Nat.zero_add]
  have hsv : se1.len_encoder_.values_ = DeltaLength.lengths (suffixes [] Ss.flatten) := by
    rw [b4]; rfl
  have hsn : se1.len_encoder_.num_values_ = (Ss.flatten.length : Int) := by
    rw [b4, suffixes_length]
    show (0 : Int) + _ = _
    rw [Int.zero_add]
  have hsm : se1.len_encoder_.mini_block_size_ = ((8 : Nat) : Int) := by
    rw [b4]; rfl
  have hbl : se1.buffer_.length = mem.length := by
    rw [hb, List.length_append, List.length_drop]; omega
  obtain ⟨e1, a1, a2, a3, _, _⟩ := DeltaByteArray_Add_state Ss.flatten
    (DeltaByteArrayEncoder.new mem) se1 b1
  obtain ⟨e3, c1, c2, c3, _⟩ := addBatches_state Ss (DeltaByteArrayEncoder.new mem) se1 b1
  have hpv : ∀ (x : DeltaByteArrayEncoder),
      x.prefix_len_encoder_ = { (DeltaByteArrayEncoder.new mem).prefix_len_encoder_ with
          values_ := (DeltaByteArrayEncoder.new mem).prefix_len_encoder_.values_
            ++ prefixLens (DeltaByteArrayEncoder.new mem).last_value_ Ss.flatten
          num_values_ := (DeltaByteArrayEncoder.new mem).prefix_len_encoder_.num_values_
            + (Ss.flatten.length : Int) } →
      x.prefix_len_encoder_.values_ = prefixLens [] Ss.flatten
        ∧ x.prefix_len_encoder_.num_values_ = (Ss.flatten.length : Int)
        ∧ x.prefix_len_encoder_.mini_block_size_ = ((8 : Nat) : Int) := by
    intro x hx
    rw [hx]
    refine ⟨rfl, ?_, rfl⟩
    show (0 : Int) + _ = _
    rw [Int.zero_add]
  have hkm : numMiniBlocks 8 Ss.flatten.length * 8 < 2147483648 := by
    have := blockSize_of_fit 8 (prefixLens [] Ss.flatten) (by decide) hp
    rw [prefixLens_length] at this
    exact this
  obtain ⟨p1, p2, p3⟩ := hpv e1 a3
  obtain ⟨q1, q2, q3⟩ := hpv e3 c3
  obtain ⟨e2, h2⟩ := DeltaByteArray_Encode_of e1 8 Ss.flatten _ p1 p2 p3
    (by rw [a2]; exact hb) (by rw [a2]; exact ho) (by rw [a2]; exact hsv)
    (by rw [a2]; exact hsn) (by rw [a2]; exact hsm) (by decide) (by decide)
    (by rw [a2, hbl]; exact hint) hS hn hlen hp hl (by rw [a2, hbl]; exact hfit) hout hkm
  obtain ⟨e4, h4⟩ := DeltaByteArray_Encode_of e3 8 Ss.flatten _ q1 q2 q3
    (by rw [c2]; exact hb) (by rw [c2]; exact ho) (by rw [c2]; exact hsv)
    (by rw [c2]; exact hsn) (by rw [c2]; exact hsm) (by decide) (by decide)
    (by rw [c2, hbl]; exact hint) hS hn hlen hp hl (by rw [c2, hbl]; exact hfit) hout hkm
  exact ⟨e1, e2, e3, e4, a1, h2, c1, h4⟩

set_option maxRecDepth 100000 in
/-- Witness of C17: "myxa", "myxophyta" | (nothing) | "myxopod", "nab", "nabbed" in an
encoder with 128-byte buffers. -/
theorem deltaByteArray_batches_same_page_witness :
    ((List.replicate 128 0 : List Nat).length < 2147483648
      ∧ 1 ≤ testBatches.flatten.length ∧ testBatches.flatten.length < 2147483648
      ∧ (∀ s ∈ testBatches.flatten, s.length < 2147483648)
      ∧ (DeltaBitPack.page 8 (prefixLens [] testBatches.flatten)).length ≤ SCRATCH
      ∧ (DeltaBitPack.page 8
          (DeltaLength.lengths (suffixes [] testBatches.flatten))).length ≤ SCRATCH
      ∧ 4 + (DeltaBitPack.page 8
          (DeltaLength.lengths (suffixes [] testBatches.flatten))).length
          + (suffixes [] testBatches.flatten).flatten.length
          ≤ (List.replicate 128 0 : List Nat).length
      ∧ (DeltaByteArray.page 8 testBatches.flatten).length ≤ SCRATCH)
    ∧ ∃ e1 e2 e3 e4,
      (DeltaByteArrayEncoder.new (List.replicate 128 0)).Add testBatches.flatten
        = Except.ok ((testBatches.flatten.length : Int), e1)
      ∧ e1.Encode = Except.ok (DeltaByteArray.page 8 testBatches.flatten, e2)
      ∧ (DeltaByteArrayEncoder.new (List.replicate 128 0)).addBatches testBatches
          = Except.ok e3
      ∧ e3.Encode = Except.ok (DeltaByteArray.page 8 testBatches.flatten, e4) :=
  ⟨⟨by decide, by decide, by decide, by decide, by decide, by decide, by decide, by decide⟩,
    deltaByteArray_batches_same_page (List.replicate 128 0) testBatches
      (by decide) (by decide) (by decide) (by decide) (by decide) (by decide) (by decide)
      (by decide)⟩

set_option maxRecDepth 100000 in
/-- C14. Failing input: `Add(values, 5)` of "myxa", "myxophyta", "myxopod", "nab",
"nabbed" on a fresh `DeltaByteArrayEncoder` (128-byte buffers). `Add` returns 5, but
`AddValue` has incremented `num_values_` once per value and `Add` adds `num_values` again:
`num_values()` is 10. -/
theorem deltaByteArray_add_counts_twice :
    ∃ e1,
      (DeltaByteArrayEncoder.new (List.replicate 128 0)).Add testStrings = Except.ok (5, e1)
      ∧ (DeltaByteArrayEncoder.new (List.replicate 128 0)).num_values = 0
      ∧ e1.num_values = 10 :=
  ⟨_, rfl, rfl, rfl⟩

end ParquetCpp

namespace ParquetCpp

set_option maxRecDepth 100000 in
/-- C13. `Reset()` of `PlainEncoder`, `BoolEncoder` and `DeltaBitPackEncoder` sets
`num_values_` to 0 in every state. `Reset()` of `DeltaLengthByteArrayEncoder` and of
`DeltaByteArrayEncoder` does not assign `num_values_`. Failing inputs: after `Add` of
"Hello", "World", "Foobar", "ABCDEF" and `Reset()`, `num_values()` of the former is 4;
after `Add` of the five strings of `testStrings` and `Reset()`, `num_values()` of the latter
is 10. -/
theorem reset_keeps_num_values :
    (∀ e : PlainEncoder, e.Reset.num_values = 0)
    ∧ (∀ (σ : Type) (rle : RleEncoder σ) (e : BoolEncoder σ), (e.Reset rle).num_values = 0)
    ∧ (∀ e : DeltaBitPackEncoder, e.Reset.num_values = 0)
    ∧ (∃ e1,
        (DeltaLengthByteArrayEncoder.new (List.replicate 64 0) 8).Add
            [[72, 101, 108, 108, 111], [87, 111, 114, 108, 100],
              [70, 111, 111, 98, 97, 114], [65, 66, 67, 68, 69, 70]]
          = Except.ok (4, e1)
        ∧ e1.Reset.num_values = 4)
    ∧ (∃ e1,
        (DeltaByteArrayEncoder.new (List.replicate 128 0)).Add testStrings = Except.ok (5, e1)
        ∧ e1.Reset.num_values = 10) :=
  ⟨fun _ => rfl, fun _ _ _ => rfl, fun _ => rfl, ⟨_, rfl, rfl⟩, ⟨_, rfl, rfl⟩⟩

end ParquetCpp

namespace ParquetCpp

/-! ## What `Get` returns -/

theorem BoolDecoder_Get_count {σ : Type} (rle : RleDecoder σ) (d : BoolDecoder σ)
    (max_values c : Int) (vs : List Bool) (d1 : BoolDecoder σ)
    (h : d.Get rle max_values = Except.ok (c, vs, d1)) :
    c = min max_values d.values_left := by
  unfold BoolDecoder.Get at h
  dsimp only at h
  cases hl : getLoop (BoolDecoder.getStep rle) (min max_values d.num_values_).toNat d with
  | error e => rw [hl] at h; exact absurd h (by simp [throw, throwThe, MonadExceptOf.throw])
  | ok r =>
    rw [hl] at h
    simp only [pure, Except.pure, Except.ok.injEq, Prod.mk.injEq] at h
    exact h.1.symm

theorem DeltaBitPackDecoder_Get_count (d : DeltaBitPackDecoder)
    (max_values c : Int) (vs : List Int) (d1 : DeltaBitPackDecoder)
    (h : d.Get max_values = Except.ok (c, vs, d1)) :
    c = min max_values d.values_left := by
  unfold DeltaBitPackDecoder.Get at h
  dsimp only at h
  cases hl : getLoop DeltaBitPackDecoder.getStep (min max_values d.num_values_).toNat d with
  | error e => rw [hl] at h; exact absurd h (by simp [throw, throwThe, MonadExceptOf.throw])
  | ok r =>
    rw [hl] at h
    simp only [pure, Except.pure, Except.ok.injEq, Prod.mk.injEq] at h
    exact h.1.symm

theorem DeltaLengthDecoder_Get_count (d : DeltaLengthByteArrayDecoder)
    (max_values c : Int) (vs : List ByteArray) (d1 : DeltaLengthByteArrayDecoder)
    (h : d.Get max_values = Except.ok (c, vs, d1)) :
    c = min max_values d.num_values_ := by
  unfold DeltaLengthByteArrayDecoder.Get at h
  dsimp only at h
  cases hl : d.len_decoder_.Get (min max_values d.num_values_) with
  | error e => rw [hl] at h; exact absurd h (by simp [throw, throwThe, MonadExceptOf.throw])
  | ok r =>
    rw [hl] at h
    dsimp only at h
    split at h
    · exact absurd h (by simp [throw, throwThe, MonadExceptOf.throw])
    · simp only [pure, Except.pure, Except.ok.injEq, Prod.mk.injEq] at h
      exact h.1.symm

theorem DeltaByteArrayDecoder_Get_count (d : DeltaByteArrayDecoder)
    (max_values c : Int) (vs : List (List Nat)) (d1 : DeltaByteArrayDecoder)
    (h : d.Get max_values = Except.ok (c, vs, d1)) :
    c = min max_values d.num_values_ := by
  unfold DeltaByteArrayDecoder.Get at h
  dsimp only at h
  cases hl : getLoop DeltaByteArrayDecoder.getStep (min max_values d.num_values_).toNat d with
  | error e => rw [hl] at h; exact absurd h (by simp [throw, throwThe, MonadExceptOf.throw])
  | ok r =>
    rw [hl] at h
    simp only [pure, Except.pure, Except.ok.injEq, Prod.mk.injEq] at h
    exact h.1.symm

theorem PlainDecoder_GetValues_count (d : PlainDecoder) (max_values byte_size c : Int)
    (out : List (List Nat)) (d1 : PlainDecoder)
    (hb : 0 < byte_size) (hmax : 0 ≤ max_values) (hnv : 0 ≤ d.num_values_)
    (hlen : 0 ≤ d.len_)
    (h : d.GetValues max_values byte_size = Except.ok (c, out, d1)) :
    c = min (min max_values d.num_values_) (d.len_ / byte_size) := by
  unfold PlainDecoder.GetValues at h
  dsimp only at h
  have hm : 0 ≤ min max_values d.num_values_ := le_min hmax hnv
  have htd : Int.tdiv d.len_ byte_size = d.len_ / byte_size :=
    Int.tdiv_eq_ediv hlen (le_of_lt hb)
  by_cases hov : min max_values d.num_values_ * byte_size < -2147483648
      ∨ 2147483647 < min max_values d.num_values_ * byte_size
  · rw [if_pos hov] at h
    exact absurd h (by simp [throw, throwThe, MonadExceptOf.throw])
  rw [if_neg hov] at h
  by_cases hlt : d.len_ < min max_values d.num_values_ * byte_size
  · simp only [if_pos hlt] at h
    split at h
    · exact absurd h (by simp [throw, throwThe, MonadExceptOf.throw])
    · cases hr : memRead d.page_ d.data_ (Int.tdiv d.len_ byte_size * byte_size) with
      | error e => rw [hr] at h; exact absurd h (by simp [throw, throwThe, MonadExceptOf.throw])
      | ok bs =>
        rw [hr] at h
        simp only [pure, Except.pure, Except.ok.injEq, Prod.mk.injEq] at h
        rw [← h.1, htd]
        have : d.len_ / byte_size < min max_values d.num_values_ :=
          Int.ediv_lt_of_lt_mul hb hlt
        omega
  · simp only [if_neg hlt] at h
    split at h
    · exact absurd h (by simp [throw, throwThe, MonadExceptOf.throw])
    · cases hr : memRead d.page_ d.data_ (min max_values d.num_values_ * byte_size) with
      | error e => rw [hr] at h; exact absurd h (by simp [throw, throwThe, MonadExceptOf.throw])
      | ok bs =>
        rw [hr] at h
        simp only [pure, Except.pure, Except.ok.injEq, Prod.mk.injEq] at h
        rw [← h.1]
        have : min max_values d.num_values_ ≤ d.len_ / byte_size :=
          Int.le_ediv_of_mul_le hb (by omega)
        omega

theorem getByteArrayLoop_length (k : Nat) : ∀ (d : PlainDecoder) (vs : List ByteArray)
    (d2 : PlainDecoder), PlainDecoder.getByteArrayLoop k d = Except.ok (vs, d2) →
    vs.length ≤ k := by
  induction k with
  | zero =>
    intro d vs d2 h
    simp only [PlainDecoder.getByteArrayLoop, pure, Except.pure, Except.ok.injEq,
      Prod.mk.injEq] at h
    rw [← h.1]
    exact Nat.le_refl _
  | succ k ih =>
    intro d vs d2 h
    unfold PlainDecoder.getByteArrayLoop at h
    split at h
    · simp only [pure, Except.pure, Except.ok.injEq, Prod.mk.injEq] at h
      rw [← h.1]
      exact Nat.zero_le _
    · cases hr : memRead d.page_ d.data_ 4 with
      | error e => rw [hr] at h; exact absurd h (by simp [throw, throwThe, MonadExceptOf.throw])
      | ok bs =>
        rw [hr] at h
        dsimp only at h
        split at h
        · exact absurd h (by simp [throw, throwThe, MonadExceptOf.throw])
        · cases hrec : PlainDecoder.getByteArrayLoop k
              { d with data_ := d.data_ + 4 + (leValue bs : Int),
                        len_ := d.len_ - (4 + (leValue bs : Int)) } with
          | error e =>
            rw [hrec] at h
            exact absurd h (by simp [throw, throwThe, MonadExceptOf.throw])
          | ok r =>
            rw [hrec] at h
            simp only [pure, Except.pure, Except.ok.injEq, Prod.mk.injEq] at h
            have := ih _ r.1 r.2 hrec
            rw [← h.1, List.length_cons]
            omega

theorem PlainDecoder_GetByteArray_count (d : PlainDecoder) (max_values c : Int)
    (vs : List ByteArray) (d1 : PlainDecoder)
    (hmax : 0 ≤ max_values) (hnv : 0 ≤ d.num_values_)
    (h : d.GetByteArray max_values = Except.ok (c, vs, d1)) :
    c = (vs.length : Int) ∧ c ≤ min max_values d.num_values_ := by
  unfold PlainDecoder.GetByteArray at h
  dsimp only at h
  cases hl : PlainDecoder.getByteArrayLoop (min max_values d.num_values_).toNat d with
  | error e => rw [hl] at h; exact absurd h (by simp [throw, throwThe, MonadExceptOf.throw])
  | ok r =>
    rw [hl] at h
    simp only [pure, Except.pure, Except.ok.injEq, Prod.mk.injEq] at h
    have hle := getByteArrayLoop_length _ d r.1 r.2 hl
    have hm : 0 ≤ min max_values d.num_values_ := le_min hmax hnv
    obtain ⟨h1, h2, _⟩ := h
    rw [← h1, ← h2]
    exact ⟨rfl, by omega⟩

set_option maxRecDepth 100000 in
/-- Counterexample to C15 as stated: a `PlainDecoder` for `INT64` with the page
`SetData(2, data, 8)` of one value: `Get(out, 2)` completes and returns 1, not
`min(2, values_left()) = 2`. -/
theorem plainDecoder_get_short_page_counterexample :
    ∃ out d1,
      ((PlainDecoder.new PType.INT64).SetData 2 [1, 0, 0, 0, 0, 0, 0, 0]).Get PType.INT64 2
        = Except.ok (1, out, d1)
      ∧ ((PlainDecoder.new PType.INT64).SetData 2 [1, 0, 0, 0, 0, 0, 0, 0]).values_left = 2
      ∧ (1 : Int) ≠ min 2
          ((PlainDecoder.new PType.INT64).SetData 2 [1, 0, 0, 0, 0, 0, 0, 0]).values_left :=
  ⟨_, _, rfl, rfl, by decide⟩

/-- C15 (amended). A `Get(out, max)` call that completes without raising returns exactly
`min(max, values_left())` on `BoolDecoder`, `DeltaBitPackDecoder`,
`DeltaLengthByteArrayDecoder` and `DeltaByteArrayDecoder`. `PlainDecoder` returns fewer
when the page bytes run out: for a numeric type `T`, with `max ≥ 0`, it returns
`min(max, values_left(), floor(len / sizeof(T)))`, `len` being the number of page bytes
not yet consumed; for `BYTE_ARRAY` it returns the number of values it stored, which is at
most `min(max, values_left())`. -/
theorem decoder_get_count :
    (∀ (σ : Type) (rle : RleDecoder σ) (d : BoolDecoder σ) (max_values c : Int)
        (vs : List Bool) (d1 : BoolDecoder σ),
        d.Get rle max_values = Except.ok (c, vs, d1) → c = min max_values d.values_left)
    ∧ (∀ (d : DeltaBitPackDecoder) (max_values c : Int) (vs : List Int)
        (d1 : DeltaBitPackDecoder),
        d.Get max_values = Except.ok (c, vs, d1) → c = min max_values d.values_left)
    ∧ (∀ (d : DeltaLengthByteArrayDecoder) (max_values c : Int) (vs : List ByteArray)
        (d1 : DeltaLengthByteArrayDecoder),
        d.Get max_values = Except.ok (c, vs, d1) → c = min max_values d.num_values_)
    ∧ (∀ (d : DeltaByteArrayDecoder) (max_values c : Int) (vs : List (List Nat))
        (d1 : DeltaByteArrayDecoder),
        d.Get max_values = Except.ok (c, vs, d1) → c = min max_values d.num_values_)
    ∧ (∀ (d : PlainDecoder) (t : PType) (max_values c : Int) (out : List (List Nat))
        (d1 : PlainDecoder),
        0 ≤ max_values → 0 ≤ d.values_left → 0 ≤ d.len_ →
        d.Get t max_values = Except.ok (c, out, d1) →
        ((t = PType.INT32 ∨ t = PType.FLOAT)
            ∧ c = min (min max_values d.values_left) (d.len_ / 4))
          ∨ ((t = PType.INT64 ∨ t = PType.DOUBLE)
            ∧ c = min (min max_values d.values_left) (d.len_ / 8)))
    ∧ (∀ (d : PlainDecoder) (max_values c : Int) (vs : List ByteArray) (d1 : PlainDecoder),
        0 ≤ max_values → 0 ≤ d.values_left →
        d.GetByteArray max_values = Except.ok (c, vs, d1) →
        c = (vs.length : Int) ∧ c ≤ min max_values d.values_left) := by
  refine ⟨fun σ rle d m c vs d1 h => BoolDecoder_Get_count rle d m c vs d1 h,
    fun d m c vs d1 h => DeltaBitPackDecoder_Get_count d m c vs d1 h,
    fun d m c vs d1 h => DeltaLengthDecoder_Get_count d m c vs d1 h,
    fun d m c vs d1 h => DeltaByteArrayDecoder_Get_count d m c vs d1 h,
    ?_,
    fun d m c vs d1 h1 h2 h => PlainDecoder_GetByteArray_count d m c vs d1 h1 h2 h⟩
  intro d t m c out d1 h1 h2 h3 h
  cases t with
  | INT32 => exact Or.inl ⟨Or.inl rfl,
      PlainDecoder_GetValues_count d m 4 c out d1 (by decide) h1 h2 h3 h⟩
  | FLOAT => exact Or.inl ⟨Or.inr rfl,
      PlainDecoder_GetValues_count d m 4 c out d1 (by decide) h1 h2 h3 h⟩
  | INT64 => exact Or.inr ⟨Or.inl rfl,
      PlainDecoder_GetValues_count d m 8 c out d1 (by decide) h1 h2 h3 h⟩
  | DOUBLE => exact Or.inr ⟨Or.inr rfl,
      PlainDecoder_GetValues_count d m 8 c out d1 (by decide) h1 h2 h3 h⟩
  | BOOLEAN => exact absurd h (by simp [PlainDecoder.Get, throw, throwThe, MonadExceptOf.throw])
  | INT96 => exact absurd h (by simp [PlainDecoder.Get, throw, throwThe, MonadExceptOf.throw])
  | BYTE_ARRAY =>
    exact absurd h (by simp [PlainDecoder.Get, throw, throwThe, MonadExceptOf.throw])
  | FIXED_LEN_BYTE_ARRAY =>
    exact absurd h (by simp [PlainDecoder.Get, throw, throwThe, MonadExceptOf.throw])

set_option maxRecDepth 100000 in
/-- Witness of C15 (amended): the `INT64` page of 8 bytes installed with `num_values = 2`;
`Get(out, 2)` returns `1 = min(2, 2, 8 / 8)`. -/
theorem decoder_get_count_witness :
    (0 : Int) ≤ 2
    ∧ 0 ≤ ((PlainDecoder.new PType.INT64).SetData 2 [1, 0, 0, 0, 0, 0, 0, 0]).values_left
    ∧ 0 ≤ ((PlainDecoder.new PType.INT64).SetData 2 [1, 0, 0, 0, 0, 0, 0, 0]).len_
    ∧ (((PlainDecoder.new PType.INT64).SetData 2 [1, 0, 0, 0, 0, 0, 0, 0]).Get PType.INT64 2
        = Except.ok (1, [[1, 0, 0, 0, 0, 0, 0, 0]],
            ⟨PType.INT64, 1, [1, 0, 0, 0, 0, 0, 0, 0], 8, 0⟩))
    ∧ (((PType.INT64 = PType.INT32 ∨ PType.INT64 = PType.FLOAT)
          ∧ (1 : Int) = min (min 2
              ((PlainDecoder.new PType.INT64).SetData 2 [1, 0, 0, 0, 0, 0, 0, 0]).values_left)
              (((PlainDecoder.new PType.INT64).SetData 2 [1, 0, 0, 0, 0, 0, 0, 0]).len_ / 4))
        ∨ ((PType.INT64 = PType.INT64 ∨ PType.INT64 = PType.DOUBLE)
          ∧ (1 : Int) = min (min 2
              ((PlainDecoder.new PType.INT64).SetData 2 [1, 0, 0, 0, 0, 0, 0, 0]).values_left)
              (((PlainDecoder.new PType.INT64).SetData 2 [1, 0, 0, 0, 0, 0, 0, 0]).len_ / 8))) :=
  ⟨by decide, by decide, by decide, rfl,
    decoder_get_count.2.2.2.2.1 _ PType.INT64 2 1 _ _ (by decide) (by decide) (by decide) rfl⟩

end ParquetCpp

namespace ParquetCpp

open DeltaBitPack

/-! ## Pulling a page in several calls -/

end ParquetCpp

namespace ParquetCpp

open DeltaBitPack DeltaByteArray

/-! ## `Reset` and a fresh encoder -/

end ParquetCpp

namespace ParquetCpp

open DeltaBitPack

/-! ## The bytes of the page header -/

theorem bitsToNat_lt (bs : List Bool) : bitsToNat bs < 2 ^ bs.length := by
  induction bs with
  | nil => simp [bitsToNat]
  | cons b bs ih =>
    simp only [bitsToNat, List.length_cons, pow_succ]
    split <;> omega

theorem bitsToBytesAux_lt (f : Nat) : ∀ (bs : List Bool), ∀ b ∈ bitsToBytesAux f bs, b < 256 := by
  induction f with
  | zero => intro bs b hb; simp [bitsToBytesAux] at hb
  | succ f ih =>
    intro bs b hb
    cases bs with
    | nil => simp [bitsToBytesAux] at hb
    | cons x xs =>
      simp only [bitsToBytesAux, List.mem_cons] at hb
      rcases hb with rfl | hb
      · have h1 := bitsToNat_lt ((x :: xs).take 8)
        have h2 : ((x :: xs).take 8).length ≤ 8 := by
          rw [List.length_take]; omega
        have h3 : 2 ^ ((x :: xs).take 8).length ≤ 2 ^ 8 := Nat.pow_le_pow_right (by decide) h2
        omega
      · exact ih _ b hb

theorem bitsToBytes_lt (bs : List Bool) : ∀ b ∈ bitsToBytes bs, b < 256 :=
  bitsToBytesAux_lt _ bs

/-- Byte buffers with the same bits are equal. -/
theorem bytesToBits_inj : ∀ (A B : List Nat), (∀ a ∈ A, a < 256) → (∀ b ∈ B, b < 256) →
    bytesToBits A = bytesToBits B → A = B := by
  intro A
  induction A with
  | nil =>
    intro B _ _ h
    cases B with
    | nil => rfl
    | cons b B =>
      have := congrArg List.length h
      rw [bytesToBits_length, bytesToBits_length] at this
      simp at this
  | cons a A ih =>
    intro B hA hB h
    cases B with
    | nil =>
      have := congrArg List.length h
      rw [bytesToBits_length, bytesToBits_length] at this
      simp at this
    | cons b B =>
      have h' : lowBits 8 a ++ bytesToBits A = lowBits 8 b ++ bytesToBits B := h
      have hl : (lowBits 8 a).length = (lowBits 8 b).length := by
        rw [lowBits_length, lowBits_length]
      obtain ⟨h1, h2⟩ := List.append_inj h' hl
      have ha := hA a (List.mem_cons_self _ _)
      have hb := hB b (List.mem_cons_self _ _)
      have h3 := congrArg bitsToNat h1
      rw [bitsToNat_lowBits, bitsToNat_lowBits] at h3
      have hab : a = b := by
        have e1 : a % 2 ^ 8 = a := Nat.mod_eq_of_lt (by omega)
        have e2 : b % 2 ^ 8 = b := Nat.mod_eq_of_lt (by omega)
        omega
      rw [hab, ih B (fun x hx => hA x (List.mem_cons_of_mem _ hx))
        (fun x hx => hB x (List.mem_cons_of_mem _ hx)) h2]

theorem vlqBytes_lt (f : Nat) : ∀ (v : Nat), ∀ b ∈ BitWriter.vlqBytes f v, b < 256 := by
  induction f with
  | zero =>
    intro v b hb
    simp only [BitWriter.vlqBytes, List.mem_singleton] at hb
    omega
  | succ f ih =>
    intro v b hb
    unfold BitWriter.vlqBytes at hb
    split at hb
    · simp only [List.mem_singleton] at hb
      omega
    · simp only [List.mem_cons] at hb
      rcases hb with rfl | hb
      · omega
      · exact ih _ b hb

theorem headerBytes_lt (m : Nat) (V : List Int) : ∀ b ∈ headerBytes m V, b < 256 := by
  intro b hb
  unfold headerBytes at hb
  simp only [List.mem_append] at hb
  rcases hb with ((((hb | hb) | hb) | hb) | hb) | hb
  · exact vlqBytes_lt _ _ b hb
  · exact vlqBytes_lt _ _ b hb
  · exact vlqBytes_lt _ _ b hb
  · exact vlqBytes_lt _ _ b hb
  · exact vlqBytes_lt _ _ b hb
  · have := widthsFrom_le _ _ _ _ b hb
    omega

/-- The page is the header varints, the width bytes, and the bytes of the payload. -/
theorem page_eq_header_append (m : Nat) (V : List Int) :
    page m V = headerBytes m V
      ++ bitsToBytes (slotsFrom m (deltas V) (numMiniBlocks m V.length * m) 0
          ++ List.replicate (BitWriter.padLen (pageBits m V).length) false) := by
  have hlen : (pageBits m V).length = 8 * (headerBytes m V).length
      + (slotsFrom m (deltas V) (numMiniBlocks m V.length * m) 0).length := by
    unfold pageBits
    rw [List.length_append, bytesToBits_length]
  have h8 : (slotsFrom m (deltas V) (numMiniBlocks m V.length * m) 0
      ++ List.replicate (BitWriter.padLen (pageBits m V).length) false).length % 8 = 0 := by
    have := padLen_add (pageBits m V).length
    rw [List.length_append, List.length_replicate]
    omega
  apply bytesToBits_inj
  · exact bitsToBytes_lt _
  · intro b hb
    rcases List.mem_append.mp hb with hb | hb
    · exact headerBytes_lt m V b hb
    · exact bitsToBytes_lt _ b hb
  · rw [bytesToBits_page, bytesToBits_append, bytesToBits_bitsToBytes _ h8]
    unfold pageBits
    rw [List.append_assoc]

end ParquetCpp

namespace ParquetCpp

open DeltaBitPack

/-- The number of mini blocks is `ceil((n - 1) / m)`. -/
theorem numMiniBlocks_ceil (m n : Nat) (hm : 1 ≤ m) (hn : 2 ≤ n) :
    (numMiniBlocks m n - 1) * m < n - 1 ∧ n - 1 ≤ numMiniBlocks m n * m := by
  unfold numMiniBlocks
  have h1 := Nat.div_mul_le_self (n - 1 + (m - 1)) m
  have h2 := Nat.lt_div_mul_add (a := n - 1 + (m - 1)) (b := m) (by omega)
  have h3 : ((n - 1 + (m - 1)) / m - 1) * m = (n - 1 + (m - 1)) / m * m - m := by
    rw [Nat.sub_mul, Nat.one_mul]
  have h4 : 1 ≤ (n - 1 + (m - 1)) / m := numMiniBlocks_pos m n hm hn
  have h5 : m ≤ (n - 1 + (m - 1)) / m * m := by
    calc m = 1 * m := (Nat.one_mul m).symm
      _ ≤ (n - 1 + (m - 1)) / m * m := Nat.mul_le_mul_right m h4
  constructor
  · rw [h3]; omega
  · omega

end ParquetCpp

namespace ParquetCpp

open DeltaBitPack

/-! ## Bit widths of the mini blocks -/

theorem headerBytes_eq (m : Nat) (V : List Int) :
    headerBytes m V = varints m V ++ widthsFrom m (deltas V) (numMiniBlocks m V.length) 0 :=
  rfl

theorem maxLoop_eq_or_mem (blk : List Int) : ∀ (acc : Int),
    DeltaBitPackEncoder.maxLoop blk acc = acc ∨ DeltaBitPackEncoder.maxLoop blk acc ∈ blk := by
  induction blk with
  | nil => intro acc; exact Or.inl rfl
  | cons v vs ih =>
    intro acc
    simp only [DeltaBitPackEncoder.maxLoop]
    rcases ih (max v acc) with h | h
    · rw [h]
      rcases le_total v acc with h1 | h1
      · rw [max_eq_right h1]; exact Or.inl rfl
      · rw [max_eq_left h1]; exact Or.inr (List.mem_cons_self _ _)
    · exact Or.inr (List.mem_cons_of_mem _ h)

/-- The largest delta of a mini block is one of its deltas. -/
theorem maxLoop_mem (blk : List Int) (hne : blk ≠ [])
    (hr : ∀ d ∈ blk, -9223372036854775808 ≤ d ∧ d < 9223372036854775808) :
    DeltaBitPackEncoder.maxLoop blk INT64_MIN ∈ blk := by
  rcases maxLoop_eq_or_mem blk INT64_MIN with h | h
  · cases blk with
    | nil => exact absurd rfl hne
    | cons v vs =>
      have h1 := maxLoop_ge (v :: vs) INT64_MIN v (List.mem_cons_self _ _)
      have h2 := hr v (List.mem_cons_self _ _)
      have h3 : INT64_MIN = -9223372036854775808 := rfl
      have h4 : v = DeltaBitPackEncoder.maxLoop (v :: vs) INT64_MIN := by omega
      rw [← h4]
      exact List.mem_cons_self _ _
  · exact h

theorem block_subset (m : Nat) (ds : List Int) (i : Nat) : ∀ d ∈ block m ds i, d ∈ ds := by
  intro d hd
  unfold block at hd
  exact List.mem_of_mem_drop (List.mem_of_mem_take hd)

theorem block_ne_nil (m : Nat) (ds : List Int) (i : Nat) (hm : 1 ≤ m) (h : i * m < ds.length) :
    block m ds i ≠ [] := by
  intro hb
  have := congrArg List.length hb
  unfold block at this
  rw [List.length_take, List.length_drop, List.length_nil] at this
  omega

end ParquetCpp

namespace ParquetCpp

open DeltaBitPack

/-! ## All-equal sequences -/

theorem deltas_replicate (c : Int) : ∀ (n : Nat),
    deltas (List.replicate (n + 1) c) = List.replicate n 0 := by
  intro n
  induction n with
  | zero => rfl
  | succ n ih =>
    rw [List.replicate_succ, List.replicate_succ, deltas_cons_cons, ← List.replicate_succ, ih,
      Int.sub_self, List.replicate_succ]
    rfl

theorem minDelta_replicate_zero (n : Nat) : minDelta (List.replicate (n + 1) 0) = 0 := by
  induction n with
  | zero => rfl
  | succ n ih =>
    rw [List.replicate_succ, minDelta_cons, ih]
    rfl

theorem widthOf_zeros (m n i : Nat) (hm : 1 ≤ m) (hi : i * m < n + 1) :
    widthOf m (List.replicate (n + 1) 0) i = 0 := by
  have hr : ∀ d ∈ block m (List.replicate (n + 1) (0 : Int)) i,
      -9223372036854775808 ≤ d ∧ d < 9223372036854775808 := by
    intro d hd
    have := List.eq_of_mem_replicate (block_subset m _ i d hd)
    omega
  have hne := block_ne_nil m (List.replicate (n + 1) (0 : Int)) i hm
    (by rw [List.length_replicate]; exact hi)
  have hmem := maxLoop_mem _ hne hr
  have h0 := List.eq_of_mem_replicate (block_subset m _ i _ hmem)
  unfold widthOf
  rw [h0, minDelta_replicate_zero]
  rfl

theorem widthsFrom_zeros (m n : Nat) (hm : 1 ≤ m) (k : Nat) : ∀ (i : Nat),
    (i + k - 1) * m < n + 1 →
    widthsFrom m (List.replicate (n + 1) 0) k i = List.replicate k 0 := by
  induction k with
  | zero => intro i _; rfl
  | succ k ih =>
    intro i h
    have h1 : i * m ≤ (i + (k + 1) - 1) * m := Nat.mul_le_mul_right m (by omega)
    unfold widthsFrom
    rw [widthOf_zeros m n i hm (by omega)]
    cases k with
    | zero => rfl
    | succ k =>
      rw [ih (i + 1) (by
        have : i + 1 + (k + 1) - 1 = i + (k + 1 + 1) - 1 := by omega
        rw [this]; exact h)]
      rfl

theorem slotsFrom_zeros (m n : Nat) (hm : 1 ≤ m) (k : Nat) : ∀ (t : Nat),
    (∀ j, t ≤ j → j < t + k → j / m * m < n + 1) →
    slotsFrom m (List.replicate (n + 1) 0) k t = [] := by
  induction k with
  | zero => intro t _; rfl
  | succ k ih =>
    intro t h
    unfold slotsFrom
    rw [ih (t + 1) (fun j h1 h2 => h j (by omega) (by omega))]
    unfold slotBits
    rw [widthOf_zeros m n (t / m) hm (h t (le_refl _) (by omega))]
    rfl

/-- The page of an all-equal sequence: the five varints and one zero width byte per mini
block. -/
theorem page_all_equal (m n : Nat) (c : Int) (hm : 1 ≤ m) (hn : 2 ≤ n) :
    page m (List.replicate n c)
        = varints m (List.replicate n c) ++ List.replicate (numMiniBlocks m n) 0
      ∧ slotsFrom m (deltas (List.replicate n c)) (numMiniBlocks m n * m) 0 = []
      ∧ minDelta (deltas (List.replicate n c)) = 0 := by
  obtain ⟨n1, rfl⟩ : ∃ n1, n = (n1 + 1) + 1 := ⟨n - 2, by omega⟩
  have hk := numMiniBlocks_ceil m (n1 + 1 + 1) hm (by omega)
  have hlen : (List.replicate (n1 + 1 + 1) c).length = n1 + 1 + 1 := List.length_replicate _ _
  have hslots : slotsFrom m (deltas (List.replicate (n1 + 1 + 1) c))
      (numMiniBlocks m (n1 + 1 + 1) * m) 0 = [] := by
    rw [deltas_replicate]
    apply slotsFrom_zeros m n1 hm
    intro j _ hj
    have h1 : j / m < numMiniBlocks m (n1 + 1 + 1) := by
      apply Nat.div_lt_of_lt_mul
      rw [Nat.mul_comm]
      omega
    have h2 := lt_numMiniBlocks m (n1 + 1 + 1) (j / m) hm h1
    omega
  have hwidths : widthsFrom m (deltas (List.replicate (n1 + 1 + 1) c))
      (numMiniBlocks m (n1 + 1 + 1)) 0 = List.replicate (numMiniBlocks m (n1 + 1 + 1)) 0 := by
    rw [deltas_replicate]
    apply widthsFrom_zeros m n1 hm
    have := hk.1
    rw [Nat.zero_add]
    omega
  have hbits : (pageBits m (List.replicate (n1 + 1 + 1) c)).length % 8 = 0 := by
    unfold pageBits
    rw [hlen, hslots, List.append_nil, bytesToBits_length]
    omega
  refine ⟨?_, hslots, ?_⟩
  · rw [page_eq_header_append, headerBytes_eq, hlen, hslots, hwidths,
      padLen_of_aligned _ hbits]
    show _ ++ bitsToBytes [] = _
    rw [show bitsToBytes [] = [] from rfl, List.append_nil]
  · rw [deltas_replicate, minDelta_replicate_zero]

/-- Counterexample to C20 as stated: the all-equal sequence of 83 886 090 zeros, mini-block
size 8. Its page would hold 10 485 762 width bytes, more than the 10 MiB scratch buffer
of `Encode`: the width bytes cannot be reserved and `Encode` returns no page, so it has no
encoded length. -/
theorem deltaBitPack_all_equal_scratch_counterexample :
    manyZeros = List.replicate 83886090 0
    ∧ 2 ≤ 83886090
    ∧ SCRATCH < numMiniBlocks 8 83886090
    ∧ ∃ e0, DeltaBitPackEncoder.new PType.INT32 1 8 = Except.ok e0
      ∧ (e0.Add manyZeros).2.Encode = Except.error Err.outOfRange := by
  have hlen : manyZeros.length = 83886090 := List.length_replicate _ _
  have hcons : manyZeros = 0 :: List.replicate 83886089 0 := List.replicate_succ 0 83886089
  refine ⟨rfl, by decide, by decide, _, rfl, ?_⟩
  have h := EncodeAux_overflow
    (DeltaBitPackEncoder.Add ⟨PType.INT32, 1, 0, 8, []⟩ manyZeros).2 0
    (List.replicate 83886089 0) 10485762
    (by
      show [] ++ manyZeros = _
      rw [List.nil_append, hcons])
    (by
      show (8 : Int) ≠ 0
      decide)
    (by
      show (BitUtil.Ceil ((0 : Int) + (manyZeros.length : Int) - 1) 8).toNat = 10485762
      rw [hlen]
      decide)
    (by decide)
    (by
      show (0 : Int) ≤ 8 ∧ ((10485762 : Nat) : Int) * 8 ≤ 2147483647
      decide)
  exact Encode_of_EncodeAux_error _ _ h

/-- C20 (amended). For either integer type, every mini-block size `m ≥ 1` and every
all-equal sequence of `n ≥ 2` values whose page fits the scratch buffer and whose block
size (`m` times the number of mini blocks) is in the range of `int`: `Encode()` writes
`min_delta = 0`, a width byte of 0 for every mini block and no payload bit; the page is
the five header varints followed by `ceil((n-1)/m)` zero bytes, and the encoded length
is the byte length of the varints plus `ceil((n-1)/m)`. -/
theorem deltaBitPack_all_equal (t : PType) (m n : Nat) (c buffer_size : Int)
    (ht : t = PType.INT32 ∨ t = PType.INT64)
    (hm : 1 ≤ m) (hm2 : m < 2147483648) (hn2 : 2 ≤ n) (hn : n < 2147483648)
    (hc : INT64_MIN ≤ c ∧ c ≤ INT64_MAX)
    (hfit : (DeltaBitPack.page m (List.replicate n c)).length ≤ SCRATCH)
    (hkm : numMiniBlocks m n * m < 2147483648) :
    ∃ e0 e1,
      DeltaBitPackEncoder.new t buffer_size (m : Int) = Except.ok e0
      ∧ (e0.Add (List.replicate n c)).2.Encode
          = Except.ok (DeltaBitPack.page m (List.replicate n c), e1)
      ∧ minDelta (deltas (List.replicate n c)) = 0
      ∧ DeltaBitPack.page m (List.replicate n c)
          = varints m (List.replicate n c) ++ List.replicate (numMiniBlocks m n) 0
      ∧ slotsFrom m (deltas (List.replicate n c)) (numMiniBlocks m n * m) 0 = []
      ∧ (DeltaBitPack.page m (List.replicate n c)).length
          = (varints m (List.replicate n c)).length + numMiniBlocks m n
      ∧ (numMiniBlocks m n - 1) * m < n - 1 ∧ n - 1 ≤ numMiniBlocks m n * m := by
  have hlen : (List.replicate n c).length = n := List.length_replicate _ _
  have hr' : ∀ v ∈ List.replicate n c, -9223372036854775808 ≤ v ∧ v < 9223372036854775808 := by
    intro v hv
    have := List.eq_of_mem_replicate hv
    unfold INT64_MIN INT64_MAX at hc
    omega
  have hnew : DeltaBitPackEncoder.new t buffer_size (m : Int)
      = Except.ok ⟨t, buffer_size, 0, (m : Int), []⟩ := by
    rcases ht with rfl | rfl <;> rfl
  have henc := Encode_fresh t buffer_size m (List.replicate n c) hm hm2 (by rw [hlen]; omega)
    (by rw [hlen]; exact hn) hr' hfit (by rw [hlen]; exact hkm)
  obtain ⟨p1, p2, p3⟩ := page_all_equal m n c hm hn2
  obtain ⟨c1, c2⟩ := numMiniBlocks_ceil m n hm hn2
  refine ⟨_, _, hnew, henc, p3, p1, p2, ?_, c1, c2⟩
  rw [p1, List.length_append, List.length_replicate]

set_option maxRecDepth 100000 in
/-- Witness of C20 (amended): 100 zeros with mini-block size 8: the page is the varints
`104, 13, 99, 0, 0` and 13 zero width bytes, 18 bytes in all. -/
theorem deltaBitPack_all_equal_witness :
    ((PType.INT64 = PType.INT32 ∨ PType.INT64 = PType.INT64)
      ∧ 1 ≤ 8 ∧ 8 < 2147483648 ∧ 2 ≤ 100 ∧ 100 < 2147483648
      ∧ (INT64_MIN ≤ (0 : Int) ∧ (0 : Int) ≤ INT64_MAX)
      ∧ (DeltaBitPack.page 8 (List.replicate 100 0)).length ≤ SCRATCH
      ∧ numMiniBlocks 8 100 * 8 < 2147483648)
    ∧ (∃ e0 e1,
      DeltaBitPackEncoder.new PType.INT64 1 ((8 : Nat) : Int) = Except.ok e0
      ∧ (e0.Add (List.replicate 100 0)).2.Encode
          = Except.ok (DeltaBitPack.page 8 (List.replicate 100 0), e1)
      ∧ minDelta (deltas (List.replicate 100 0)) = 0
      ∧ DeltaBitPack.page 8 (List.replicate 100 0)
          = varints 8 (List.replicate 100 0) ++ List.replicate (numMiniBlocks 8 100) 0
      ∧ slotsFrom 8 (deltas (List.replicate 100 0)) (numMiniBlocks 8 100 * 8) 0 = []
      ∧ (DeltaBitPack.page 8 (List.replicate 100 0)).length
          = (varints 8 (List.replicate 100 0)).length + numMiniBlocks 8 100
      ∧ (numMiniBlocks 8 100 - 1) * 8 < 100 - 1 ∧ 100 - 1 ≤ numMiniBlocks 8 100 * 8)
    ∧ varints 8 (List.replicate 100 0) = [104, 13, 99, 0, 0]
    ∧ numMiniBlocks 8 100 = 13
    ∧ (DeltaBitPack.page 8 (List.replicate 100 0)).length = 18 :=
  ⟨⟨Or.inr rfl, by decide, by decide, by decide, by decide, by decide, by decide,
      by decide⟩,
    deltaBitPack_all_equal PType.INT64 8 100 0 1 (Or.inr rfl) (by decide) (by decide)
      (by decide) (by decide) (by decide) (by decide) (by decide),
    by decide, by decide, by decide⟩

end ParquetCpp
namespace ParquetCpp

open DeltaBitPack

/-! ## Construction and degenerate pages -/

/-- C28. Construction of a `DeltaBitPackEncoder` and of a `DeltaBitPackDecoder` succeeds
if and only if the declared type is `INT32` or `INT64`; for each of the other primitive
types (`BOOLEAN`, `INT96`, `FLOAT`, `DOUBLE`, `BYTE_ARRAY`, `FIXED_LEN_BYTE_ARRAY`) both
constructors throw. -/
theorem deltaBitPack_construction (t : PType) (buffer_size mini_block_size idx0 : Int) :
    ((∃ e, DeltaBitPackEncoder.new t buffer_size mini_block_size = Except.ok e)
        ↔ (t = PType.INT32 ∨ t = PType.INT64))
    ∧ ((∃ d, DeltaBitPackDecoder.new t idx0 = Except.ok d)
        ↔ (t = PType.INT32 ∨ t = PType.INT64))
    ∧ (¬ (t = PType.INT32 ∨ t = PType.INT64) →
        DeltaBitPackEncoder.new t buffer_size mini_block_size = Except.error Err.exception
        ∧ DeltaBitPackDecoder.new t idx0 = Except.error Err.exception)
    ∧ ([PType.BOOLEAN, PType.INT96, PType.FLOAT, PType.DOUBLE, PType.BYTE_ARRAY,
          PType.FIXED_LEN_BYTE_ARRAY].map
            (fun u => (DeltaBitPackEncoder.new u buffer_size mini_block_size,
              DeltaBitPackDecoder.new u idx0))
        = List.replicate 6 (Except.error Err.exception, Except.error Err.exception)) := by
  refine ⟨?_, ?_, ?_, rfl⟩
  · cases t <;> simp [DeltaBitPackEncoder.new, pure, Except.pure, throw, throwThe,
      MonadExceptOf.throw]
  · cases t <;> simp [DeltaBitPackDecoder.new, pure, Except.pure, throw, throwThe,
      MonadExceptOf.throw]
  · cases t <;> simp [DeltaBitPackEncoder.new, DeltaBitPackDecoder.new, throw, throwThe,
      MonadExceptOf.throw]

end ParquetCpp
namespace ParquetCpp

open DeltaBitPack

/-- The page of a single value: three zero varints, the value, and the minimum delta of
no delta at all, `INT64_MAX`. -/
theorem page_single (m : Nat) (hm : 1 ≤ m) (v : Int) :
    page m [v] = [0, 0, 0] ++ BitWriter.vlqBytes 9 (BitWriter.zigZag v)
      ++ [254, 255, 255, 255, 255, 255, 255, 255, 255, 1] := by
  have hk : numMiniBlocks m 1 = 0 := by
    unfold numMiniBlocks
    exact Nat.div_eq_of_lt (by omega)
  have hh : headerBytes m [v] = [0, 0, 0] ++ BitWriter.vlqBytes 9 (BitWriter.zigZag v)
      ++ [254, 255, 255, 255, 255, 255, 255, 255, 255, 1] := by
    unfold headerBytes
    simp only [List.length_singleton, hk, Nat.zero_mul, Nat.sub_self, List.headD_cons,
      widthsFrom, List.append_nil]
    have h0 : BitWriter.vlqBytes 9 0 = [0] := by decide
    have hd : minDelta (deltas [v]) = INT64_MAX := rfl
    have h1 : BitWriter.vlqBytes 9 (BitWriter.zigZag INT64_MAX)
        = [254, 255, 255, 255, 255, 255, 255, 255, 255, 1] := by decide
    rw [h0, hd, h1]
    rfl
  have hp : (pageBits m [v]).length = 8 * (headerBytes m [v]).length := by
    unfold pageBits
    simp only [List.length_append, bytesToBits_length, List.length_singleton, hk,
      Nat.zero_mul, slotsFrom, List.length_nil, Nat.add_zero]
  rw [page_eq_header_append, hh]
  simp only [List.length_singleton, hk, Nat.zero_mul, slotsFrom, List.nil_append]
  rw [hp, padLen_of_aligned _ (by omega)]
  exact List.append_nil _

set_option maxRecDepth 100000 in
/-- Counterexample to C21 as stated: for the one-value input `[5]` (`INT64`, mini-block
size 8) `Encode()` returns 14 bytes, the four header varints `00 00 00 0A` followed by the
10 bytes of the zig-zag varint of `min_delta = INT64_MAX`; the page is not the header
alone. -/
theorem deltaBitPack_one_value_counterexample :
    ∃ e0 e1 page,
      DeltaBitPackEncoder.new PType.INT64 1048576 8 = Except.ok e0
      ∧ (e0.Add [5]).2.Encode = Except.ok (page, e1)
      ∧ page = [0, 0, 0, 10, 254, 255, 255, 255, 255, 255, 255, 255, 255, 1]
      ∧ page ≠ BitWriter.vlqBytes 9 0 ++ BitWriter.vlqBytes 9 0 ++ BitWriter.vlqBytes 9 0
          ++ BitWriter.vlqBytes 9 (BitWriter.zigZag 5)
      ∧ page.length = 14
      ∧ (BitWriter.vlqBytes 9 0 ++ BitWriter.vlqBytes 9 0 ++ BitWriter.vlqBytes 9 0
          ++ BitWriter.vlqBytes 9 (BitWriter.zigZag 5)).length = 4 :=
  ⟨_, _, _, rfl, rfl, rfl, by decide, rfl, by decide⟩

/-- C21 (amended). For a one-value input `[v]`, either integer type and every mini-block
size `m ≥ 1`, `Encode()` returns exactly `VLQ(0)` for the block size, `VLQ(0)` for the
number of mini blocks, `VLQ(0)` for the number of values less one, the zig-zag varint of
`v`, and the zig-zag varint of `min_delta = INT64_MAX` (the 10 bytes
`FE FF FF FF FF FF FF FF FF 01`): no width byte and no payload follow. -/
theorem deltaBitPack_one_value_page (t : PType) (m : Nat) (v : Int) (buffer_size : Int)
    (ht : t = PType.INT32 ∨ t = PType.INT64)
    (hm : 1 ≤ m) (hm2 : m < 2147483648)
    (hv : INT64_MIN ≤ v ∧ v ≤ INT64_MAX) :
    ∃ e0 e1,
      DeltaBitPackEncoder.new t buffer_size (m : Int) = Except.ok e0
      ∧ (e0.Add [v]).2.Encode
          = Except.ok (BitWriter.vlqBytes 9 0 ++ BitWriter.vlqBytes 9 0
              ++ BitWriter.vlqBytes 9 0 ++ BitWriter.vlqBytes 9 (BitWriter.zigZag v)
              ++ BitWriter.vlqBytes 9 (BitWriter.zigZag INT64_MAX), e1)
      ∧ BitWriter.vlqBytes 9 0 = [0]
      ∧ BitWriter.vlqBytes 9 (BitWriter.zigZag INT64_MAX)
          = [254, 255, 255, 255, 255, 255, 255, 255, 255, 1]
      ∧ numMiniBlocks m 1 = 0
      ∧ minDelta (deltas [v]) = INT64_MAX := by
  have hk : numMiniBlocks m 1 = 0 := by
    unfold numMiniBlocks
    exact Nat.div_eq_of_lt (by omega)
  have h0 : BitWriter.vlqBytes 9 0 = [0] := by decide
  have h1 : BitWriter.vlqBytes 9 (BitWriter.zigZag INT64_MAX)
      = [254, 255, 255, 255, 255, 255, 255, 255, 255, 1] := by decide
  have hpl : (page m [v]).length ≤ SCRATCH := by
    rw [page_single m hm v]
    have := vlqBytes_length_le 9 (BitWriter.zigZag v)
    simp only [List.length_append, List.length_cons, List.length_nil]
    have hs : SCRATCH = 10485760 := by decide
    omega
  have hr : ∀ x ∈ [v], -9223372036854775808 ≤ x ∧ x < 9223372036854775808 := by
    intro x hx
    rw [List.mem_singleton] at hx
    subst hx
    have a1 : INT64_MIN = -9223372036854775808 := rfl
    have a2 : INT64_MAX = 9223372036854775807 := rfl
    omega
  have henc := Encode_fresh t buffer_size m [v] hm hm2 (by simp) (by simp) hr hpl
    (by
      show numMiniBlocks m 1 * m < 2147483648
      rw [hk]
      omega)
  rw [page_single m hm v] at henc
  have hpage : BitWriter.vlqBytes 9 0 ++ BitWriter.vlqBytes 9 0
      ++ BitWriter.vlqBytes 9 0 ++ BitWriter.vlqBytes 9 (BitWriter.zigZag v)
      ++ BitWriter.vlqBytes 9 (BitWriter.zigZag INT64_MAX)
      = [0, 0, 0] ++ BitWriter.vlqBytes 9 (BitWriter.zigZag v)
        ++ [254, 255, 255, 255, 255, 255, 255, 255, 255, 1] := by
    rw [h0, h1]; rfl
  rw [hpage]
  rcases ht with rfl | rfl
  · exact ⟨_, _, rfl, henc, h0, h1, hk, rfl⟩
  · exact ⟨_, _, rfl, henc, h0, h1, hk, rfl⟩

set_option maxRecDepth 100000 in
/-- Witness of C21 (amended): the value 5 in an `INT64` encoder with mini-block size 8. -/
theorem deltaBitPack_one_value_page_witness :
    ∃ e0 e1,
      DeltaBitPackEncoder.new PType.INT64 1048576 ((8 : Nat) : Int) = Except.ok e0
      ∧ (e0.Add [5]).2.Encode
          = Except.ok (BitWriter.vlqBytes 9 0 ++ BitWriter.vlqBytes 9 0
              ++ BitWriter.vlqBytes 9 0 ++ BitWriter.vlqBytes 9 (BitWriter.zigZag 5)
              ++ BitWriter.vlqBytes 9 (BitWriter.zigZag INT64_MAX), e1)
      ∧ BitWriter.vlqBytes 9 0 = [0]
      ∧ BitWriter.vlqBytes 9 (BitWriter.zigZag INT64_MAX)
          = [254, 255, 255, 255, 255, 255, 255, 255, 255, 1]
      ∧ numMiniBlocks 8 1 = 0
      ∧ minDelta (deltas [5]) = INT64_MAX :=
  deltaBitPack_one_value_page PType.INT64 8 5 1048576 (Or.inr rfl) (by decide) (by decide)
    (by decide)

end ParquetCpp
namespace ParquetCpp

open DeltaBitPack

/-! ## The layout of the byte-array pages -/

/-- Counterexample to C22 as stated: 83 886 090 empty strings fit a buffer of `2^31 - 1`
bytes (there is no byte to stage, and the page of section 4.5 would take less than the
buffer), but their lengths have more mini blocks than the 10 MiB scratch buffer of a
`DeltaBitPackEncoder` has bytes: neither that encoder nor
`DeltaLengthByteArrayEncoder.Encode()` returns a page. -/
theorem deltaLength_layout_scratch_counterexample :
    2 ≤ manyEmpty.length
    ∧ manyEmpty.flatten.length ≤ bigBuffer.length
    ∧ 4 + (DeltaBitPack.page 8 (DeltaLength.lengths manyEmpty)).length
        + manyEmpty.flatten.length ≤ bigBuffer.length
    ∧ (∃ le, DeltaBitPackEncoder.new PType.INT32 1 8 = Except.ok le
        ∧ (le.Add (DeltaLength.lengths manyEmpty)).2.Encode = Except.error Err.outOfRange)
    ∧ ∃ e1, (DeltaLengthByteArrayEncoder.new bigBuffer 8).Add manyEmpty
          = Except.ok ((manyEmpty.length : Int), e1)
      ∧ e1.Encode = Except.error Err.outOfRange := by
  have hlen : manyEmpty.length = 83886090 := List.length_replicate _ _
  have hbuf : bigBuffer.length = 2147483647 := List.length_replicate _ _
  have hflat : manyEmpty.flatten = [] := flatten_replicate_nil 83886090
  have hlens : DeltaLength.lengths manyEmpty = 0 :: List.replicate 83886089 0 :=
    lengths_replicate_nil 83886089
  have hK : numMiniBlocks 8 83886090 = 10485762 := by decide
  have hpage := page_length_le 8 (DeltaLength.lengths manyEmpty)
  rw [lengths_length, hlen, hK] at hpage
  obtain ⟨e1, a1, _, _, a4, a5, a6⟩ :=
    DeltaLength_Add_reset (DeltaLengthByteArrayEncoder.new bigBuffer 8) manyEmpty (by
      rw [hflat]
      exact Nat.zero_le _)
  refine ⟨by rw [hlen]; decide, ?_, ?_, ⟨_, rfl, ?_⟩, e1, a1, ?_⟩
  · rw [hflat]
    exact Nat.zero_le _
  · rw [hflat, hbuf, List.length_nil]
    omega
  · apply Encode_of_EncodeAux_error
    refine EncodeAux_overflow _ 0 (List.replicate 83886089 0) 10485762 ?_ (by decide) ?_
      (by decide) (by
        show (0 : Int) ≤ 8 ∧ ((10485762 : Nat) : Int) * 8 ≤ 2147483647
        decide)
    · show [] ++ DeltaLength.lengths manyEmpty = _
      rw [List.nil_append, hlens]
    · show (BitUtil.Ceil ((0 : Int) + ((DeltaLength.lengths manyEmpty).length : Int) - 1)
          8).toNat = 10485762
      rw [lengths_length, hlen]
      decide
  · have hmb : e1.len_encoder_.mini_block_size_ = 8 := a6
    apply DeltaLength_Encode_error
    apply Encode_of_EncodeAux_error
    exact EncodeAux_overflow e1.len_encoder_ 0 (List.replicate 83886089 0) 10485762
      (a4.trans hlens)
      (by rw [hmb]; decide)
      (by rw [a5, hmb, hlen]; decide)
      (by decide)
      (by rw [hmb]; decide)

/-- C22 (amended). For every list `S` of at least two byte strings whose lengths page fits
the 10 MiB scratch buffer of the length encoder, whose block size (the mini-block size
times the number of mini blocks) is in the range of `int`, and that fits the buffer
(`4 + L + |D| ≤ buffer_size`), `Encode()` of a `DeltaLengthByteArrayEncoder` that received
`S` returns `LE32(L) ++ P ++ D`: `P` is the page a `DeltaBitPackEncoder(INT32)` with the same
mini-block size returns for the lengths of `S` in order, `L` is the number of bytes of
`P`, and `D` is the bytes of the strings one after the other; the encoded length is
`4 + L + |D|`. -/
theorem deltaLength_encode_layout (mem : List Nat) (m : Nat) (S : List (List Nat))
    (buffer_size : Int)
    (hint : mem.length < 2147483648)
    (hm : 1 ≤ m) (hm2 : m < 2147483648) (hS : 2 ≤ S.length) (hn : S.length < 2147483648)
    (hscratch : (DeltaBitPack.page m (DeltaLength.lengths S)).length ≤ SCRATCH)
    (hfit : 4 + (DeltaBitPack.page m (DeltaLength.lengths S)).length + S.flatten.length
      ≤ mem.length)
    (hkm : DeltaBitPack.numMiniBlocks m S.length * m < 2147483648) :
    ∃ e1 e2 le le2 P,
      (DeltaLengthByteArrayEncoder.new mem (m : Int)).Add S = Except.ok ((S.length : Int), e1)
      ∧ DeltaBitPackEncoder.new PType.INT32 buffer_size (m : Int) = Except.ok le
      ∧ (le.Add (S.map (fun s => (s.length : Int)))).2.Encode = Except.ok (P, le2)
      ∧ e1.Encode = Except.ok (leBytes 4 P.length ++ P ++ S.flatten, e2)
      ∧ (leBytes 4 P.length ++ P ++ S.flatten).length = 4 + P.length + S.flatten.length := by
  obtain ⟨e1, a1, a2, a3, a4, a5, a6⟩ :=
    DeltaLength_Add_reset (DeltaLengthByteArrayEncoder.new mem (m : Int)) S (by
      show S.flatten.length ≤ mem.length
      omega)
  have hlen1 : e1.buffer_.length = mem.length := by
    rw [a2, List.length_append, List.length_drop]
    show S.flatten.length + (mem.length - S.flatten.length) = mem.length
    omega
  obtain ⟨e2, henc⟩ := DeltaLength_Encode_state e1 m S _ a2 a3 a4 a5 (by rw [a6]; rfl) hm hm2
    (by omega) hn (by rw [hlen1]; exact hint) hscratch (by rw [hlen1]; exact hfit) hkm
  have hsl : ∀ s ∈ S, s.length < 2147483648 := by
    intro s hs
    have := length_le_flatten S s hs
    omega
  have hr := lengths_range S hsl
  have hP := Encode_fresh PType.INT32 buffer_size m (DeltaLength.lengths S) hm hm2
    (by rw [lengths_length]; omega) (by rw [lengths_length]; exact hn)
    (fun v hv => by have := hr v hv; omega) hscratch (by rw [lengths_length]; exact hkm)
  refine ⟨e1, e2, _, _, DeltaBitPack.page m (DeltaLength.lengths S), a1, rfl, hP, henc, ?_⟩
  simp only [List.length_append, leBytes_length]

set_option maxRecDepth 100000 in
/-- Witness of C22 (amended): the strings "Hello", "World", "Foobar", "ABCDEF" in an
encoder with a 64-byte buffer and mini-block size 8. The lengths are `[5, 5, 6, 6]`, their
page is `08 01 03 0A 00 01 02`, and the data region is the 22 bytes
"HelloWorldFoobarABCDEF". -/
theorem deltaLength_encode_layout_witness :
    ([[72, 101, 108, 108, 111], [87, 111, 114, 108, 100], [70, 111, 111, 98, 97, 114],
        [65, 66, 67, 68, 69, 70]].map (fun s => (s.length : Int)) = [5, 5, 6, 6]
      ∧ DeltaBitPack.page 8 [5, 5, 6, 6] = [8, 1, 3, 10, 0, 1, 2]
      ∧ ([[72, 101, 108, 108, 111], [87, 111, 114, 108, 100], [70, 111, 111, 98, 97, 114],
          [65, 66, 67, 68, 69, 70]] : List (List Nat)).flatten
        = [72, 101, 108, 108, 111, 87, 111, 114, 108, 100, 70, 111, 111, 98, 97, 114,
            65, 66, 67, 68, 69, 70])
    ∧ ∃ e1 e2 le le2 P,
      (DeltaLengthByteArrayEncoder.new (List.replicate 64 0) ((8 : Nat) : Int)).Add
          [[72, 101, 108, 108, 111], [87, 111, 114, 108, 100], [70, 111, 111, 98, 97, 114],
            [65, 66, 67, 68, 69, 70]]
        = Except.ok ((([[72, 101, 108, 108, 111], [87, 111, 114, 108, 100],
            [70, 111, 111, 98, 97, 114], [65, 66, 67, 68, 69, 70]] : List (List Nat)).length
            : Int), e1)
      ∧ DeltaBitPackEncoder.new PType.INT32 1 ((8 : Nat) : Int) = Except.ok le
      ∧ (le.Add ([[72, 101, 108, 108, 111], [87, 111, 114, 108, 100],
            [70, 111, 111, 98, 97, 114], [65, 66, 67, 68, 69, 70]].map
              (fun s => (s.length : Int)))).2.Encode = Except.ok (P, le2)
      ∧ e1.Encode = Except.ok (leBytes 4 P.length ++ P
          ++ ([[72, 101, 108, 108, 111], [87, 111, 114, 108, 100],
            [70, 111, 111, 98, 97, 114], [65, 66, 67, 68, 69, 70]] : List (List Nat)).flatten,
          e2)
      ∧ (leBytes 4 P.length ++ P
          ++ ([[72, 101, 108, 108, 111], [87, 111, 114, 108, 100],
            [70, 111, 111, 98, 97, 114], [65, 66, 67, 68, 69, 70]] : List (List Nat)).flatten).length
        = 4 + P.length
          + ([[72, 101, 108, 108, 111], [87, 111, 114, 108, 100],
            [70, 111, 111, 98, 97, 114], [65, 66, 67, 68, 69, 70]] : List (List Nat)).flatten.length :=
  ⟨⟨by decide, by decide, by decide⟩,
    deltaLength_encode_layout (List.replicate 64 0) 8
      [[72, 101, 108, 108, 111], [87, 111, 114, 108, 100], [70, 111, 111, 98, 97, 114],
        [65, 66, 67, 68, 69, 70]] 1
      (by decide) (by decide) (by decide) (by decide) (by decide) (by decide) (by decide)
      (by decide)⟩

end ParquetCpp
namespace ParquetCpp

open DeltaBitPack DeltaByteArray

set_option maxRecDepth 100000 in
/-- Counterexample to C23 as stated: after "myxa", "myxophyta", "myxopod", "nab", "nabbed"
the prefix-length encoder holds `[0, 3, 5, 0, 3]`, not `[0, 3, 3, 0, 3]`, and the suffix
encoder holds the lengths `[4, 6, 2, 3, 3]` and the 18 bytes "myxaophytaodnabbed":
"myxopod" shares the five bytes "myxop" with "myxophyta", so its suffix is "od", not
"opod". -/
theorem deltaByteArray_example_counterexample :
    ∃ e1,
      (DeltaByteArrayEncoder.new (List.replicate 128 0)).Add testStrings = Except.ok (5, e1)
      ∧ e1.prefix_len_encoder_.values_ = [0, 3, 5, 0, 3]
      ∧ e1.prefix_len_encoder_.values_ ≠ [0, 3, 3, 0, 3]
      ∧ e1.suffix_encoder_.len_encoder_.values_ = [4, 6, 2, 3, 3]
      ∧ e1.suffix_encoder_.buffer_.take 18
          = [109, 121, 120, 97, 111, 112, 104, 121, 116, 97, 111, 100, 110, 97, 98,
              98, 101, 100]
      ∧ e1.suffix_encoder_.offset_ = 18
      ∧ DeltaByteArrayEncoder.prefixLoop [109, 121, 120, 111, 112, 111, 100]
          [109, 121, 120, 111, 112, 104, 121, 116, 97] = 5 :=
  ⟨_, rfl, rfl, by decide, rfl, rfl, rfl, rfl⟩

/-- C23 (amended). Adding "myxa", "myxophyta", "myxopod", "nab", "nabbed" in this order to
a fresh `DeltaByteArrayEncoder` (with room for the 18 suffix bytes) hands the prefix
lengths `[0, 3, 5, 0, 3]` to the prefix-length encoder and the suffixes "myxa", "ophyta",
"od", "nab", "bed" to the suffix encoder: the two inner encoders end in the states that an
`Add` of these lengths and of these suffixes gives them. -/
theorem deltaByteArray_example_split (mem : List Nat) (hmem : 18 ≤ mem.length) :
    ∃ e1 se,
      (DeltaByteArrayEncoder.new mem).Add testStrings = Except.ok (5, e1)
      ∧ e1.prefix_len_encoder_
          = ((DeltaByteArrayEncoder.new mem).prefix_len_encoder_.Add [0, 3, 5, 0, 3]).2
      ∧ (DeltaByteArrayEncoder.new mem).suffix_encoder_.Add
            [[109, 121, 120, 97], [111, 112, 104, 121, 116, 97], [111, 100],
              [110, 97, 98], [98, 101, 100]]
          = Except.ok (5, se)
      ∧ e1.suffix_encoder_ = se
      ∧ e1.prefix_len_encoder_.values_ = [0, 3, 5, 0, 3]
      ∧ e1.suffix_encoder_.len_encoder_.values_ = [4, 6, 2, 3, 3]
      ∧ e1.suffix_encoder_.buffer_.take 18
          = [109, 121, 120, 97, 111, 112, 104, 121, 116, 97, 111, 100, 110, 97, 98,
              98, 101, 100] := by
  have hsuf : suffixes [] testStrings
      = [[109, 121, 120, 97], [111, 112, 104, 121, 116, 97], [111, 100],
          [110, 97, 98], [98, 101, 100]] := by decide
  have hpre : prefixLens [] testStrings = [0, 3, 5, 0, 3] := by decide
  have h18 : ([[109, 121, 120, 97], [111, 112, 104, 121, 116, 97], [111, 100],
      [110, 97, 98], [98, 101, 100]] : List (List Nat)).flatten
      = [109, 121, 120, 97, 111, 112, 104, 121, 116, 97, 111, 100, 110, 97, 98,
          98, 101, 100] := by decide
  obtain ⟨se, b1, b2, b3, b4, _, _⟩ := DeltaLength_addLoop_fits
    [[109, 121, 120, 97], [111, 112, 104, 121, 116, 97], [111, 100],
      [110, 97, 98], [98, 101, 100]] [] mem (DeltaByteArrayEncoder.new mem).suffix_encoder_
    rfl rfl (by rw [h18]; exact hmem)
  obtain ⟨e1, a1, a2, a3, _, _⟩ := DeltaByteArray_Add_state testStrings
    (DeltaByteArrayEncoder.new mem) se (by
      show DeltaLengthByteArrayEncoder.addLoop (suffixes [] testStrings) _ = _
      rw [hsuf]; exact b1)
  refine ⟨e1, se, a1, ?_, ?_, a2, ?_, ?_, ?_⟩
  · rw [a3]
    show _ = (DeltaBitPackEncoder.Add _ [0, 3, 5, 0, 3]).2
    rw [← hpre]
    rfl
  · unfold DeltaLengthByteArrayEncoder.Add
    rw [b1]
    rfl
  · rw [a3]
    show [] ++ prefixLens [] testStrings = _
    rw [hpre]; rfl
  · rw [a2, b4]
    rfl
  · rw [a2, b2, h18, List.nil_append]
    exact List.take_left' rfl

set_option maxRecDepth 100000 in
/-- Witness of C23 (amended): the encoder of `TEST(StringEncoder, Basic)`, with a 128-byte
buffer. -/
theorem deltaByteArray_example_split_witness :
    18 ≤ (List.replicate 128 0 : List Nat).length
    ∧ ∃ e1 se,
      (DeltaByteArrayEncoder.new (List.replicate 128 0)).Add testStrings = Except.ok (5, e1)
      ∧ e1.prefix_len_encoder_
          = ((DeltaByteArrayEncoder.new (List.replicate 128 0)).prefix_len_encoder_.Add
              [0, 3, 5, 0, 3]).2
      ∧ (DeltaByteArrayEncoder.new (List.replicate 128 0)).suffix_encoder_.Add
            [[109, 121, 120, 97], [111, 112, 104, 121, 116, 97], [111, 100],
              [110, 97, 98], [98, 101, 100]]
          = Except.ok (5, se)
      ∧ e1.suffix_encoder_ = se
      ∧ e1.prefix_len_encoder_.values_ = [0, 3, 5, 0, 3]
      ∧ e1.suffix_encoder_.len_encoder_.values_ = [4, 6, 2, 3, 3]
      ∧ e1.suffix_encoder_.buffer_.take 18
          = [109, 121, 120, 97, 111, 112, 104, 121, 116, 97, 111, 100, 110, 97, 98,
              98, 101, 100] :=
  ⟨by decide, deltaByteArray_example_split (List.replicate 128 0) (by decide)⟩

end ParquetCpp
namespace ParquetCpp

open DeltaBitPack

/-! ## Missing checks -/

set_option maxRecDepth 100000 in
/-- C25. Failing input: a `DeltaLengthByteArrayEncoder` with an 8-byte buffer and the two
strings "Hello", "World". `AddValue` copies to `buffer_ + offset_` without looking at
`buffer_size_`: the second copy goes to the offsets 5 to 9 of the 8-byte buffer, a write
out of range, where `Add` should have returned the partial count 1. The sibling
`PlainEncoder::Add(const ByteArray*, int)` checks the room left and returns 1 on a 16-byte
buffer, which has room for one of the two values. -/
theorem deltaLength_add_overruns_buffer :
    (DeltaLengthByteArrayEncoder.new (List.replicate 8 0) 8).Add
        [[72, 101, 108, 108, 111], [87, 111, 114, 108, 100]]
      = Except.error Err.outOfRange
    ∧ (∃ e1, (DeltaLengthByteArrayEncoder.new (List.replicate 8 0) 8).AddValue
          [72, 101, 108, 108, 111] = Except.ok e1
        ∧ e1.offset_ = 5 ∧ e1.buffer_size_ = 8
        ∧ e1.AddValue [87, 111, 114, 108, 100] = Except.error Err.outOfRange)
    ∧ (∃ p0 p1, PlainEncoder.new PType.BYTE_ARRAY (List.replicate 16 0) = Except.ok p0
        ∧ p0.AddByteArray [[72, 101, 108, 108, 111], [87, 111, 114, 108, 100]]
          = Except.ok (1, p1)
        ∧ p1.Encode = [5, 0, 0, 0, 72, 101, 108, 108, 111]) :=
  ⟨rfl, ⟨_, rfl, rfl, rfl, rfl⟩, ⟨_, _, rfl, rfl, rfl⟩⟩

set_option maxRecDepth 100000 in
/-- C29. Failing input: a page of 2 bytes, `05 00`, and `num_values = 1`. `Get(out, 1)` of a
`PlainDecoder(BYTE_ARRAY)` sees `len_ != 0` and reads the 4-byte length field at `data_`
before it compares `len_` with anything: a read of 2 bytes past the page. The same
happens after a complete value when 3 stray bytes remain. -/
theorem plainDecoder_reads_length_past_page :
    ((PlainDecoder.new PType.BYTE_ARRAY).SetData 1 [5, 0]).len_ = 2
    ∧ memRead [5, 0] 0 4 = Except.error Err.outOfRange
    ∧ ((PlainDecoder.new PType.BYTE_ARRAY).SetData 1 [5, 0]).GetByteArray 1
        = Except.error Err.outOfRange
    ∧ ((PlainDecoder.new PType.BYTE_ARRAY).SetData 2 [2, 0, 0, 0, 65, 66, 7, 0, 0]).GetByteArray 2
        = Except.error Err.outOfRange
    ∧ (∃ d1, ((PlainDecoder.new PType.BYTE_ARRAY).SetData 2
          [2, 0, 0, 0, 65, 66, 7, 0, 0]).GetByteArray 1 = Except.ok (1, [⟨2, 4⟩], d1)
        ∧ d1.len_ = 3) :=
  ⟨rfl, rfl, rfl, rfl, ⟨_, rfl, rfl⟩⟩

set_option maxRecDepth 100000 in
/-- C30. Failing input: the 13-byte page `06 00 00 00 | 08 01 01 0A 00 00 | 48 65 6C`, whose
lengths page encodes `[5, 5]` and whose data region has 3 bytes. After `SetData(2, page, 13)`
a `DeltaLengthByteArrayDecoder` answers `Get(out, 2)` with 2 and the views
`(len 5, page + 10)` and `(len 5, page + 15)`: both extend past the 13 bytes of the page,
and `len_` (3 after `SetData`) ends at -7 without ever being compared. -/
theorem deltaLength_get_views_past_page :
    DeltaBitPack.page 8 [5, 5] = [8, 1, 1, 10, 0, 0]
    ∧ ∃ d1 d2,
      (DeltaLengthByteArrayDecoder.new 0).SetData 2
          [6, 0, 0, 0, 8, 1, 1, 10, 0, 0, 72, 101, 108] = Except.ok d1
      ∧ d1.len_ = 3
      ∧ d1.Get 2 = Except.ok (2, [⟨5, 10⟩, ⟨5, 15⟩], d2)
      ∧ d2.len_ = -7
      ∧ ByteArray.bytes [6, 0, 0, 0, 8, 1, 1, 10, 0, 0, 72, 101, 108] ⟨5, 10⟩ = none
      ∧ ByteArray.bytes [6, 0, 0, 0, 8, 1, 1, 10, 0, 0, 72, 101, 108] ⟨5, 15⟩ = none :=
  ⟨by decide, _, _, rfl, rfl, rfl, rfl, rfl, rfl⟩

set_option maxRecDepth 100000 in
/-- C26. Failing input: a `PlainDecoder(INT32)` on the 8-byte page of the `int32` values 1
and 2, and a `DeltaBitPackDecoder(INT32)` on the page of `[10, 20, 30]`. The `Get` overloads
for `int64_t` do not look at `type_`: the plain decoder returns 1 and stores the 8 page
bytes as one `int64_t`, the delta decoder returns 3 and stores 10, 20, 30; neither throws.
Only the overloads a class does not override throw (`Get(float*, int)` of the delta
decoder). The sibling `PlainEncoder(INT32)` does throw from
`Add(const int64_t*, int)`. -/
theorem decoder_get_ignores_declared_type :
    (∃ d1, ((PlainDecoder.new PType.INT32).SetData 2 [1, 0, 0, 0, 2, 0, 0, 0]).Get PType.INT64 1
        = Except.ok (1, [[1, 0, 0, 0, 2, 0, 0, 0]], d1)
      ∧ d1.type_ = PType.INT32)
    ∧ (∃ d0 d1, DeltaBitPackDecoder.new PType.INT32 0 = Except.ok d0
      ∧ (d0.SetData 3 [2, 2, 2, 20, 20, 0, 0]).GetElem ElemType.int64 3
        = Except.ok (3, [10, 20, 30], d1)
      ∧ d1.type_ = PType.INT32
      ∧ (d0.SetData 3 [2, 2, 2, 20, 20, 0, 0]).GetElem ElemType.int32 3
        = (d0.SetData 3 [2, 2, 2, 20, 20, 0, 0]).Get 3
      ∧ (d0.SetData 3 [2, 2, 2, 20, 20, 0, 0]).GetElem ElemType.float 3
        = Except.error Err.exception)
    ∧ (∃ e0, PlainEncoder.new PType.INT32 (List.replicate 16 0) = Except.ok e0
      ∧ e0.AddElem ElemType.int64 [[1, 0, 0, 0, 2, 0, 0, 0]] = Except.error Err.exception) :=
  ⟨⟨_, rfl, rfl⟩, ⟨_, _, rfl, rfl, rfl, rfl, rfl⟩, ⟨_, rfl, rfl⟩⟩

end ParquetCpp
namespace ParquetCpp

/-! ## The states of a plain encoder -/

theorem tdiv_natCast (B sz : Nat) : Int.tdiv (B : Int) (sz : Int) = ((B / sz : Nat) : Int) :=
  rfl

/-- The constructor establishes the invariant. -/
theorem PlainEncoder_new_inv (T : PType) (mem : List Nat) (e0 : PlainEncoder)
    (h : PlainEncoder.new T mem = Except.ok e0) : PlainEncoder.Inv T mem.length e0 := by
  cases T <;> simp only [PlainEncoder.new, PlainEncoder.valueSize, pure, Except.pure, throw,
    throwThe, MonadExceptOf.throw, reduceCtorEq, Except.ok.injEq] at h
  all_goals
    subst h
    refine ⟨rfl, rfl, rfl, rfl, rfl, le_refl _, le_refl _, Int.ofNat_nonneg _, ?_⟩
    intro hne
    first
      | exact absurd rfl hne
      | exact ⟨Int.ofNat_nonneg (mem.length / _), (Int.zero_mul _).symm⟩

end ParquetCpp
namespace ParquetCpp

/-- `AddInternal` on a consistent encoder of a fixed-size type: the count, the bytes
staged, and the consistency of the encoder afterwards. -/
theorem AddInternal_inv (T : PType) (B sz : Nat) (e : PlainEncoder)
    (values : List (List Nat)) (hsz : 1 ≤ sz) (hne : T ≠ PType.BYTE_ARRAY)
    (hvs : PlainEncoder.valueSize T = Except.ok (sz : Int))
    (hI : PlainEncoder.Inv T B e) (hv : ∀ v ∈ values, v.length = sz) :
    ∃ (c : Nat) (e1 : PlainEncoder),
      e.AddInternal values = Except.ok ((c : Int), e1)
      ∧ (c : Int) = min (values.length : Int) (((B / sz : Nat) : Int) - e.num_values_)
      ∧ PlainEncoder.Inv T B e1
      ∧ e1.num_values_ = e.num_values_ + (c : Int)
      ∧ e1.Encode = e.Encode ++ (values.take c).flatten
      ∧ e1.Encode.length = e.Encode.length + c * sz
      ∧ (c < values.length →
          e1.num_values_ = ((B / sz : Nat) : Int) ∧ B - e1.Encode.length < sz) := by
  obtain ⟨h1, h2, h3, h4, h5, h6, h7, h8, h9⟩ := hI
  obtain ⟨h10, h11⟩ := h9 hne
  have hval : e.value_size_ = (sz : Int) := by
    rw [hvs] at h4
    exact (Except.ok.inj h4).symm
  rw [hval, tdiv_natCast] at h5
  obtain ⟨n, hn⟩ : ∃ n : Nat, e.num_values_ = (n : Int) := ⟨e.num_values_.toNat, by omega⟩
  have hnle : n ≤ B / sz := by omega
  have hoff : e.offset_ = ((n * sz : Nat) : Int) := by
    rw [h11, hn, hval]; push_cast; ring
  have hmin : min (values.length : Int) (e.max_values_ - e.num_values_)
      = ((min values.length (B / sz - n) : Nat) : Int) := by
    rw [h5, hn]; omega
  have hfl : (values.take (min values.length (B / sz - n))).flatten.length
      = min values.length (B / sz - n) * sz := by
    rw [flatten_length_of_size sz _ (fun v hx => hv v (List.mem_of_mem_take hx)),
      List.length_take]
    congr 1
    omega
  have hdm := Nat.div_mul_le_self B sz
  have hmul : (n + min values.length (B / sz - n)) * sz ≤ B / sz * sz :=
    Nat.mul_le_mul_right sz (by omega)
  have hadd : (n + min values.length (B / sz - n)) * sz
      = n * sz + min values.length (B / sz - n) * sz := Nat.add_mul _ _ _
  have hfit : n * sz + (values.take (min values.length (B / sz - n))).flatten.length
      ≤ e.buffer_.length := by
    rw [hfl, h3]; omega
  have hw := memWrite_fits e.buffer_ (n * sz)
    (values.take (min values.length (B / sz - n))).flatten hfit
  have hlen : (e.buffer_.take (n * sz)
      ++ (values.take (min values.length (B / sz - n))).flatten).length
      = n * sz + min values.length (B / sz - n) * sz := by
    rw [List.length_append, List.length_take, hfl, h3]
    omega
  have henc : e.Encode = e.buffer_.take (n * sz) := by
    unfold PlainEncoder.Encode
    rw [hoff, Int.toNat_ofNat]
  have henc1 : ∀ (e1 : PlainEncoder),
      e1.buffer_ = e.buffer_.take (n * sz)
        ++ (values.take (min values.length (B / sz - n))).flatten
        ++ e.buffer_.drop (n * sz
          + (values.take (min values.length (B / sz - n))).flatten.length) →
      e1.offset_ = e.offset_ + ((min values.length (B / sz - n) : Nat) : Int) * e.value_size_ →
      e1.Encode = e.Encode ++ (values.take (min values.length (B / sz - n))).flatten := by
    intro e1 hb ho
    unfold PlainEncoder.Encode
    have : (e.offset_ + ((min values.length (B / sz - n) : Nat) : Int) * e.value_size_).toNat
        = n * sz + min values.length (B / sz - n) * sz := by
      rw [hoff, hval, ← Nat.cast_mul, ← Nat.cast_add, Int.toNat_ofNat]
    rw [ho, this, hb, ← hlen, List.take_left' rfl, hoff, Int.toNat_ofNat]
  refine ⟨min values.length (B / sz - n),
    { e with
      buffer_ := e.buffer_.take (n * sz)
        ++ (values.take (min values.length (B / sz - n))).flatten
        ++ e.buffer_.drop (n * sz
          + (values.take (min values.length (B / sz - n))).flatten.length)
      num_values_ := e.num_values_ + ((min values.length (B / sz - n) : Nat) : Int)
      offset_ := e.offset_
        + ((min values.length (B / sz - n) : Nat) : Int) * e.value_size_ }, ?_, ?_, ?_, rfl,
    henc1 _ rfl rfl, ?_, ?_⟩
  · unfold PlainEncoder.AddInternal
    dsimp only
    rw [hmin, if_neg (Int.not_lt.mpr (Int.ofNat_nonneg _)), Int.toNat_ofNat, hoff, hw]
    rfl
  · rw [hn]; omega
  · refine ⟨h1, h2, ?_, h4, ?_, ?_, ?_, ?_, ?_⟩
    · show (e.buffer_.take (n * sz)
        ++ (values.take (min values.length (B / sz - n))).flatten
        ++ e.buffer_.drop (n * sz
          + (values.take (min values.length (B / sz - n))).flatten.length)).length = B
      rw [List.length_append, hlen, List.length_drop, hfl, h3]
      omega
    · show e.max_values_ = Int.tdiv (B : Int) e.value_size_
      rw [hval, tdiv_natCast]; exact h5
    · show 0 ≤ e.num_values_ + ((min values.length (B / sz - n) : Nat) : Int)
      omega
    · show 0 ≤ e.offset_ + ((min values.length (B / sz - n) : Nat) : Int) * e.value_size_
      rw [hoff, hval, ← Nat.cast_mul, ← Nat.cast_add]
      exact Int.ofNat_nonneg _
    · show e.offset_ + ((min values.length (B / sz - n) : Nat) : Int) * e.value_size_ ≤ (B : Int)
      rw [hoff, hval, ← Nat.cast_mul, ← Nat.cast_add]
      exact Int.ofNat_le.mpr (by omega)
    · intro _
      refine ⟨?_, ?_⟩
      · show e.num_values_ + ((min values.length (B / sz - n) : Nat) : Int) ≤ e.max_values_
        rw [h5, hn]; omega
      · show e.offset_ + ((min values.length (B / sz - n) : Nat) : Int) * e.value_size_
          = (e.num_values_ + ((min values.length (B / sz - n) : Nat) : Int)) * e.value_size_
        rw [h11]; ring
  · rw [henc1 _ rfl rfl, List.length_append, hfl]
  · intro hlt
    have hc : min values.length (B / sz - n) = B / sz - n := by omega
    refine ⟨?_, ?_⟩
    · show e.num_values_ + ((min values.length (B / sz - n) : Nat) : Int) = _
      rw [hn, hc]; omega
    · rw [henc1 _ rfl rfl, henc, List.length_append, List.length_take, hfl, h3, hc]
      have hdm2 := Nat.div_add_mod B sz
      have hml := Nat.mod_lt B (show sz > 0 by omega)
      have hcomm : sz * (B / sz) = B / sz * sz := Nat.mul_comm _ _
      have hsub : (B / sz - n) * sz = B / sz * sz - n * sz := Nat.sub_mul _ _ _
      have hnm : n * sz ≤ B / sz * sz := Nat.mul_le_mul_right sz hnle
      omega

end ParquetCpp
namespace ParquetCpp

/-- The loop of `Add(const ByteArray*, int)` on an encoder whose staged bytes end inside
the buffer, for values whose `4 + len` is in the range of `int`: it returns, the staged
bytes still end inside the buffer, and nothing else changes. -/
theorem addByteArrayLoop_inv (B : Nat) (values : List (List Nat)) :
    ∀ (e : PlainEncoder), (∀ v ∈ values, 4 + v.length < 2147483648) →
      e.buffer_.length = B → e.buffer_size_ = (B : Int) →
      0 ≤ e.offset_ → e.offset_ ≤ (B : Int) →
    ∃ (i : Nat) (e2 : PlainEncoder),
      PlainEncoder.addByteArrayLoop values e = Except.ok ((i : Int), e2)
      ∧ e2.buffer_.length = B ∧ e2.buffer_size_ = (B : Int)
      ∧ e.offset_ ≤ e2.offset_ ∧ e2.offset_ ≤ (B : Int)
      ∧ e2.type_ = e.type_ ∧ e2.num_values_ = e.num_values_
      ∧ e2.max_values_ = e.max_values_ ∧ e2.value_size_ = e.value_size_ := by
  induction values with
  | nil =>
    intro e _ hb hs h0 h1
    exact ⟨0, e, rfl, hb, hs, le_refl _, h1, rfl, rfl, rfl, rfl⟩
  | cons v vs ih =>
    intro e hv31 hb hs h0 h1
    have hv := hv31 v (List.mem_cons_self _ _)
    have hwr : wrap32 ((4 : Int) + (v.length : Int)) = (4 : Int) + (v.length : Int) := by
      unfold wrap32; omega
    by_cases hg : (4 : Int) + (v.length : Int) > e.buffer_size_ - e.offset_
    · refine ⟨0, e, ?_, hb, hs, le_refl _, h1, rfl, rfl, rfl, rfl⟩
      simp only [PlainEncoder.addByteArrayLoop, hwr, hg, if_true]
      rfl
    · obtain ⟨o, ho⟩ : ∃ o : Nat, e.offset_ = (o : Int) := ⟨e.offset_.toNat, by omega⟩
      rw [hs, ho] at hg
      have hw1 := memWrite_fits e.buffer_ o (leBytes 4 v.length)
        (by rw [leBytes_length, hb]; omega)
      have hl1 : (e.buffer_.take o ++ leBytes 4 v.length
          ++ e.buffer_.drop (o + (leBytes 4 v.length).length)).length = B := by
        simp only [List.length_append, List.length_take, List.length_drop, leBytes_length, hb]
        omega
      have hw2 := memWrite_fits (e.buffer_.take o ++ leBytes 4 v.length
          ++ e.buffer_.drop (o + (leBytes 4 v.length).length)) (o + 4) v
        (by rw [hl1]; omega)
      have hl2 : (((e.buffer_.take o ++ leBytes 4 v.length
          ++ e.buffer_.drop (o + (leBytes 4 v.length).length)).take (o + 4)) ++ v
          ++ (e.buffer_.take o ++ leBytes 4 v.length
            ++ e.buffer_.drop (o + (leBytes 4 v.length).length)).drop (o + 4 + v.length)).length
          = B := by
        rw [List.length_append, List.length_append, List.length_take, List.length_drop, hl1]
        omega
      have e4 : ((o : Int) + 4) = ((o + 4 : Nat) : Int) := by push_cast; ring
      obtain ⟨i, e2, r1, r2, r3, r4, r5, r6, r7, r8, r9⟩ := ih
        { e with
          buffer_ := ((e.buffer_.take o ++ leBytes 4 v.length
            ++ e.buffer_.drop (o + (leBytes 4 v.length).length)).take (o + 4)) ++ v
            ++ (e.buffer_.take o ++ leBytes 4 v.length
              ++ e.buffer_.drop (o + (leBytes 4 v.length).length)).drop (o + 4 + v.length)
          offset_ := e.offset_ + 4 + (v.length : Int) }
        (fun x hx => hv31 x (List.mem_cons_of_mem _ hx))
        hl2 hs (by show 0 ≤ e.offset_ + 4 + (v.length : Int); omega)
        (by show e.offset_ + 4 + (v.length : Int) ≤ (B : Int); omega)
      have r4' : e.offset_ + 4 + (v.length : Int) ≤ e2.offset_ := r4
      refine ⟨i + 1, e2, ?_, r2, r3, by omega, r5, r6, r7, r8, r9⟩
      have hg' : ¬ ((4 : Int) + (v.length : Int) > e.buffer_size_ - e.offset_) := by
        rw [hs, ho]; exact hg
      simp only [PlainEncoder.addByteArrayLoop, hwr, hg', if_false]
      rw [ho] at r1 ⊢
      simp only [hw1, e4, hw2] at r1 ⊢
      simp only [r1]
      rfl

/-- An `Add` overload on a consistent encoder of declared type `T`: it throws when the
element type is not `T`, and otherwise returns and leaves the encoder consistent. -/
theorem AddElem_inv (T : PType) (B : Nat) (e : PlainEncoder) (U : ElemType)
    (values : List (List Nat))
    (hT : T = PType.INT32 ∨ T = PType.INT64 ∨ T = PType.FLOAT ∨ T = PType.DOUBLE
      ∨ T = PType.BYTE_ARRAY)
    (hI : PlainEncoder.Inv T B e) (hs : (PlainEncoder.Call.Add U values).Sized) :
    (U.type ≠ T → e.AddElem U values = Except.error Err.exception)
    ∧ (U.type = T → ∃ (c : Nat) (e1 : PlainEncoder),
        e.AddElem U values = Except.ok ((c : Int), e1) ∧ PlainEncoder.Inv T B e1) := by
  have htype : e.type_ = T := hI.1
  have hnum : ∀ (P : PType) (sz : Nat), 1 ≤ sz → P ≠ PType.BYTE_ARRAY →
      PlainEncoder.valueSize P = Except.ok (sz : Int) → (∀ v ∈ values, v.length = sz) →
      (e.type_ ≠ P → (if e.type_ ≠ P then (throw Err.exception : Except Err (Int × PlainEncoder))
          else e.AddInternal values) = Except.error Err.exception)
      ∧ (P = T → ∃ (c : Nat) (e1 : PlainEncoder),
          (if e.type_ ≠ P then (throw Err.exception : Except Err (Int × PlainEncoder))
            else e.AddInternal values) = Except.ok ((c : Int), e1)
          ∧ PlainEncoder.Inv T B e1) := by
    intro P sz hsz hne hvs hv
    refine ⟨fun h => by rw [if_pos h]; rfl, fun h => ?_⟩
    subst h
    obtain ⟨c, e1, a1, _, a3, _⟩ := AddInternal_inv P B sz e values hsz hne hvs hI hv
    exact ⟨c, e1, by rw [if_neg (not_not.mpr htype)]; exact a1, a3⟩
  have hsz : ∀ v ∈ values, U ≠ ElemType.byteArray → v.length = U.size := by
    intro v hv hU
    rcases hs with h | h
    · exact absurd h.1 hU
    · exact h.2 v hv
  have hba : U = ElemType.byteArray → ∀ v ∈ values, 4 + v.length < 2147483648 := by
    intro hU v hv
    rcases hs with h | h
    · exact h.2 v hv
    · exact absurd hU h.1
  cases U with
  | bool =>
    refine ⟨fun _ => rfl, fun h => ?_⟩
    rcases hT with rfl | rfl | rfl | rfl | rfl <;> exact absurd h (by decide)
  | int32 =>
    obtain ⟨k1, k2⟩ := hnum PType.INT32 4 (by decide) (by decide) rfl
      (fun v hv => hsz v hv (by decide))
    exact ⟨fun h => k1 (by rw [htype]; exact fun h2 => h h2.symm), fun h => k2 h⟩
  | int64 =>
    obtain ⟨k1, k2⟩ := hnum PType.INT64 8 (by decide) (by decide) rfl
      (fun v hv => hsz v hv (by decide))
    exact ⟨fun h => k1 (by rw [htype]; exact fun h2 => h h2.symm), fun h => k2 h⟩
  | float =>
    obtain ⟨k1, k2⟩ := hnum PType.FLOAT 4 (by decide) (by decide) rfl
      (fun v hv => hsz v hv (by decide))
    exact ⟨fun h => k1 (by rw [htype]; exact fun h2 => h h2.symm), fun h => k2 h⟩
  | double =>
    obtain ⟨k1, k2⟩ := hnum PType.DOUBLE 8 (by decide) (by decide) rfl
      (fun v hv => hsz v hv (by decide))
    exact ⟨fun h => k1 (by rw [htype]; exact fun h2 => h h2.symm), fun h => k2 h⟩
  | byteArray =>
    refine ⟨fun h => ?_, fun h => ?_⟩
    · have hne : e.type_ ≠ PType.BYTE_ARRAY := by rw [htype]; exact fun h2 => h h2.symm
      show PlainEncoder.AddByteArray e values = _
      unfold PlainEncoder.AddByteArray
      rw [if_pos hne]
      rfl
    · have hTB : T = PType.BYTE_ARRAY := h.symm
      subst hTB
      obtain ⟨h1, h2, h3, h4, h5, h6, h7, h8, h9⟩ := hI
      obtain ⟨i, e2, r1, r2, r3, r4, r5, r6, r7, r8, r9⟩ :=
        addByteArrayLoop_inv B values e (hba rfl) h3 h2 h7 h8
      refine ⟨i, { e2 with num_values_ := e2.num_values_ + (i : Int) }, ?_, ?_⟩
      · show PlainEncoder.AddByteArray e values = _
        unfold PlainEncoder.AddByteArray
        rw [if_neg (not_not.mpr h1), r1]
        rfl
      · refine ⟨r6.trans h1, r3, r2, ?_, ?_, ?_, le_trans h7 r4, r5,
          fun hne => absurd rfl hne⟩
        · show PlainEncoder.valueSize PType.BYTE_ARRAY = Except.ok e2.value_size_
          rw [r9]; exact h4
        · show e2.max_values_ = Int.tdiv (B : Int) e2.value_size_
          rw [r8, r9]; exact h5
        · show 0 ≤ e2.num_values_ + (i : Int)
          rw [r7]; omega

/-- A call on a consistent encoder returns a consistent encoder. -/
theorem PlainEncoder_call_inv (T : PType) (B : Nat) (e : PlainEncoder) (c : PlainEncoder.Call)
    (hT : T = PType.INT32 ∨ T = PType.INT64 ∨ T = PType.FLOAT ∨ T = PType.DOUBLE
      ∨ T = PType.BYTE_ARRAY)
    (hI : PlainEncoder.Inv T B e) (hs : c.Sized) :
    ∃ e1, e.call c = Except.ok e1 ∧ PlainEncoder.Inv T B e1 := by
  cases c with
  | Add U values =>
    obtain ⟨k1, k2⟩ := AddElem_inv T B e U values hT hI hs
    by_cases h : U.type = T
    · obtain ⟨c, e1, a1, a2⟩ := k2 h
      exact ⟨e1, by simp only [PlainEncoder.call, a1]; rfl, a2⟩
    · exact ⟨e, by simp only [PlainEncoder.call, k1 h]; rfl, hI⟩
  | Reset =>
    obtain ⟨h1, h2, h3, h4, h5, h6, h7, h8, h9⟩ := hI
    refine ⟨e.Reset, rfl, h1, h2, h3, h4, h5, le_refl _, le_refl _, Int.ofNat_nonneg _, ?_⟩
    intro hne
    obtain ⟨h10, _⟩ := h9 hne
    exact ⟨le_trans h6 h10, (Int.zero_mul _).symm⟩

/-- Every sequence of calls on a consistent encoder returns a consistent encoder. -/
theorem PlainEncoder_calls_inv (T : PType) (B : Nat)
    (hT : T = PType.INT32 ∨ T = PType.INT64 ∨ T = PType.FLOAT ∨ T = PType.DOUBLE
      ∨ T = PType.BYTE_ARRAY) (cs : List PlainEncoder.Call) :
    ∀ (e : PlainEncoder), PlainEncoder.Inv T B e → (∀ c ∈ cs, c.Sized) →
    ∃ e1, e.calls cs = Except.ok e1 ∧ PlainEncoder.Inv T B e1 := by
  induction cs with
  | nil => intro e hI _; exact ⟨e, rfl, hI⟩
  | cons c cs ih =>
    intro e hI hs
    obtain ⟨e1, a1, a2⟩ := PlainEncoder_call_inv T B e c hT hI (hs c (List.mem_cons_self _ _))
    obtain ⟨e2, b1, b2⟩ := ih e1 a2 (fun x hx => hs x (List.mem_cons_of_mem _ hx))
    exact ⟨e2, by simp only [PlainEncoder.calls, a1]; exact b1, b2⟩

end ParquetCpp
namespace ParquetCpp

/-- The constructor returns for the five supported types. -/
theorem PlainEncoder_new_ok (T : PType) (mem : List Nat)
    (hT : T = PType.INT32 ∨ T = PType.INT64 ∨ T = PType.FLOAT ∨ T = PType.DOUBLE
      ∨ T = PType.BYTE_ARRAY) :
    ∃ e0, PlainEncoder.new T mem = Except.ok e0 := by
  rcases hT with rfl | rfl | rfl | rfl | rfl <;> exact ⟨_, rfl⟩

/-- C24. For a `PlainEncoder` of a numeric type `T` (`sz = sizeof(T)`) over a buffer of `B`
bytes, in every state `e` reached from the constructor by `Add` and `Reset` calls (with
byte strings whose `4 + len` is in the range of `int`), and for every array of `n` values:
`Add(values, n)` returns `c = min(n, floor(B / sz) - num_values())`,
stages exactly the `c` leading values behind the bytes staged before, and increases
`num_values()` by `c`; when `c < n`, the buffer is exhausted: `num_values()` has reached
`floor(B / sz)` and fewer than `sz` bytes of the buffer are left. -/
theorem plainEncoder_add_count (T : PType) (sz : Nat) (mem : List Nat)
    (cs : List PlainEncoder.Call) (values : List (List Nat))
    (ht : (T = PType.INT32 ∧ sz = 4) ∨ (T = PType.INT64 ∧ sz = 8)
      ∨ (T = PType.FLOAT ∧ sz = 4) ∨ (T = PType.DOUBLE ∧ sz = 8))
    (hcs : ∀ c ∈ cs, c.Sized) (hv : ∀ v ∈ values, v.length = sz) :
    ∃ (e0 e e1 : PlainEncoder) (c : Nat),
      PlainEncoder.new T mem = Except.ok e0
      ∧ e0.calls cs = Except.ok e
      ∧ e.Add T values = Except.ok ((c : Int), e1)
      ∧ (c : Int) = min (values.length : Int) (((mem.length / sz : Nat) : Int) - e.num_values)
      ∧ e1.Encode = e.Encode ++ (values.take c).flatten
      ∧ e1.Encode.length = e.Encode.length + c * sz
      ∧ e1.num_values = e.num_values + (c : Int)
      ∧ (c < values.length →
          e1.num_values = ((mem.length / sz : Nat) : Int)
          ∧ mem.length - e1.Encode.length < sz) := by
  have hT : T = PType.INT32 ∨ T = PType.INT64 ∨ T = PType.FLOAT ∨ T = PType.DOUBLE
      ∨ T = PType.BYTE_ARRAY := by
    rcases ht with ⟨h, _⟩ | ⟨h, _⟩ | ⟨h, _⟩ | ⟨h, _⟩ <;> simp [h]
  have hfacts : 1 ≤ sz ∧ T ≠ PType.BYTE_ARRAY
      ∧ PlainEncoder.valueSize T = Except.ok (sz : Int)
      ∧ ∀ (x : PlainEncoder), x.type_ = T → x.Add T values = x.AddInternal values := by
    rcases ht with ⟨rfl, rfl⟩ | ⟨rfl, rfl⟩ | ⟨rfl, rfl⟩ | ⟨rfl, rfl⟩ <;>
      exact ⟨by decide, by decide, rfl, fun x hx => by simp [PlainEncoder.Add, hx]⟩
  obtain ⟨hsz, hne, hvs, hadd⟩ := hfacts
  obtain ⟨e0, h0⟩ := PlainEncoder_new_ok T mem hT
  obtain ⟨e, h1, hI⟩ := PlainEncoder_calls_inv T mem.length hT cs e0
    (PlainEncoder_new_inv T mem e0 h0) hcs
  obtain ⟨c, e1, a1, a2, _, a4, a5, a6, a7⟩ :=
    AddInternal_inv T mem.length sz e values hsz hne hvs hI hv
  exact ⟨e0, e, e1, c, h0, h1, (hadd e hI.1).trans a1, a2, a5, a6, a4, a7⟩

set_option maxRecDepth 100000 in
/-- Witness of C24: an `INT64` encoder over 20 bytes (room for 2 values) that received one
value, a `Reset()` and one value again; an `Add` of 3 values then takes 1. -/
theorem plainEncoder_add_count_witness :
    (∃ (e0 e e1 : PlainEncoder),
      PlainEncoder.new PType.INT64 (List.replicate 20 0) = Except.ok e0
      ∧ e0.calls [PlainEncoder.Call.Add ElemType.int64 [[1, 0, 0, 0, 0, 0, 0, 0]],
            PlainEncoder.Call.Reset,
            PlainEncoder.Call.Add ElemType.int64 [[2, 0, 0, 0, 0, 0, 0, 0]]] = Except.ok e
      ∧ e.num_values = 1
      ∧ e.Add PType.INT64 [[3, 0, 0, 0, 0, 0, 0, 0], [4, 0, 0, 0, 0, 0, 0, 0],
            [5, 0, 0, 0, 0, 0, 0, 0]] = Except.ok (1, e1)
      ∧ e1.Encode = [2, 0, 0, 0, 0, 0, 0, 0, 3, 0, 0, 0, 0, 0, 0, 0])
    ∧ ∃ (e0 e e1 : PlainEncoder) (c : Nat),
      PlainEncoder.new PType.INT64 (List.replicate 20 0) = Except.ok e0
      ∧ e0.calls [PlainEncoder.Call.Add ElemType.int64 [[1, 0, 0, 0, 0, 0, 0, 0]],
            PlainEncoder.Call.Reset,
            PlainEncoder.Call.Add ElemType.int64 [[2, 0, 0, 0, 0, 0, 0, 0]]] = Except.ok e
      ∧ e.Add PType.INT64 [[3, 0, 0, 0, 0, 0, 0, 0], [4, 0, 0, 0, 0, 0, 0, 0],
            [5, 0, 0, 0, 0, 0, 0, 0]] = Except.ok ((c : Int), e1)
      ∧ (c : Int) = min (([[3, 0, 0, 0, 0, 0, 0, 0], [4, 0, 0, 0, 0, 0, 0, 0],
            [5, 0, 0, 0, 0, 0, 0, 0]] : List (List Nat)).length : Int)
          ((((List.replicate 20 0 : List Nat).length / 8 : Nat) : Int) - e.num_values)
      ∧ e1.Encode = e.Encode ++ (([[3, 0, 0, 0, 0, 0, 0, 0], [4, 0, 0, 0, 0, 0, 0, 0],
            [5, 0, 0, 0, 0, 0, 0, 0]] : List (List Nat)).take c).flatten
      ∧ e1.Encode.length = e.Encode.length + c * 8
      ∧ e1.num_values = e.num_values + (c : Int)
      ∧ (c < ([[3, 0, 0, 0, 0, 0, 0, 0], [4, 0, 0, 0, 0, 0, 0, 0],
            [5, 0, 0, 0, 0, 0, 0, 0]] : List (List Nat)).length →
          e1.num_values = ((((List.replicate 20 0 : List Nat).length / 8 : Nat)) : Int)
          ∧ (List.replicate 20 0 : List Nat).length - e1.Encode.length < 8) :=
  ⟨⟨_, _, _, rfl, rfl, rfl, rfl, rfl⟩,
    plainEncoder_add_count PType.INT64 8 (List.replicate 20 0)
      [PlainEncoder.Call.Add ElemType.int64 [[1, 0, 0, 0, 0, 0, 0, 0]],
        PlainEncoder.Call.Reset,
        PlainEncoder.Call.Add ElemType.int64 [[2, 0, 0, 0, 0, 0, 0, 0]]]
      [[3, 0, 0, 0, 0, 0, 0, 0], [4, 0, 0, 0, 0, 0, 0, 0], [5, 0, 0, 0, 0, 0, 0, 0]]
      (Or.inr (Or.inl ⟨rfl, rfl⟩))
      (by simp [PlainEncoder.Call.Sized, ElemType.size])
      (by decide)⟩

/-- C27. For a `PlainEncoder` constructed for a type `T` among `INT32`, `INT64`, `FLOAT`,
`DOUBLE` and `BYTE_ARRAY`, in every state `e` reached from the constructor by `Add` and
`Reset` calls, all with byte strings whose `4 + len` is in the range of `int`: the `Add`
overload for the element type `U` raises an error if and only if
`U` is not the element type of `T`; the overload for `bool` always throws; and a call that
throws leaves the encoder as it was, so `num_values()` and the staged bytes are
unchanged. -/
theorem plainEncoder_add_type_check (T : PType) (mem : List Nat)
    (cs : List PlainEncoder.Call) (U : ElemType) (values : List (List Nat))
    (hT : T = PType.INT32 ∨ T = PType.INT64 ∨ T = PType.FLOAT ∨ T = PType.DOUBLE
      ∨ T = PType.BYTE_ARRAY)
    (hcs : ∀ c ∈ cs, c.Sized) (hs : (PlainEncoder.Call.Add U values).Sized) :
    ∃ (e0 e : PlainEncoder),
      PlainEncoder.new T mem = Except.ok e0
      ∧ e0.calls cs = Except.ok e
      ∧ ((∃ err, e.AddElem U values = Except.error err) ↔ U.type ≠ T)
      ∧ (U.type ≠ T → e.AddElem U values = Except.error Err.exception
          ∧ ∃ e1, e.call (PlainEncoder.Call.Add U values) = Except.ok e1
            ∧ e1.num_values = e.num_values ∧ e1.Encode = e.Encode ∧ e1 = e)
      ∧ e.AddElem ElemType.bool values = Except.error Err.exception := by
  obtain ⟨e0, h0⟩ := PlainEncoder_new_ok T mem hT
  obtain ⟨e, h1, hI⟩ := PlainEncoder_calls_inv T mem.length hT cs e0
    (PlainEncoder_new_inv T mem e0 h0) hcs
  obtain ⟨k1, k2⟩ := AddElem_inv T mem.length e U values hT hI hs
  refine ⟨e0, e, h0, h1, ⟨?_, ?_⟩, ?_, rfl⟩
  · rintro ⟨err, herr⟩ heq
    obtain ⟨c, e1, a1, _⟩ := k2 heq
    rw [a1] at herr
    exact Except.noConfusion herr
  · intro hne
    exact ⟨Err.exception, k1 hne⟩
  · intro hne
    exact ⟨k1 hne, e, by simp only [PlainEncoder.call, k1 hne]; rfl, rfl, rfl, rfl⟩

set_option maxRecDepth 100000 in
/-- Witness of C27: an `INT32` encoder over 16 bytes that holds one value, and the `Add`
overload for `int64_t`. -/
theorem plainEncoder_add_type_check_witness :
    ∃ (e0 e : PlainEncoder),
      PlainEncoder.new PType.INT32 (List.replicate 16 0) = Except.ok e0
      ∧ e0.calls [PlainEncoder.Call.Add ElemType.int32 [[1, 0, 0, 0]]] = Except.ok e
      ∧ ((∃ err, e.AddElem ElemType.int64 [[2, 0, 0, 0, 0, 0, 0, 0]] = Except.error err)
          ↔ ElemType.int64.type ≠ PType.INT32)
      ∧ (ElemType.int64.type ≠ PType.INT32 →
          e.AddElem ElemType.int64 [[2, 0, 0, 0, 0, 0, 0, 0]] = Except.error Err.exception
          ∧ ∃ e1, e.call (PlainEncoder.Call.Add ElemType.int64 [[2, 0, 0, 0, 0, 0, 0, 0]])
              = Except.ok e1
            ∧ e1.num_values = e.num_values ∧ e1.Encode = e.Encode ∧ e1 = e)
      ∧ e.AddElem ElemType.bool [[2, 0, 0, 0, 0, 0, 0, 0]] = Except.error Err.exception :=
  plainEncoder_add_type_check PType.INT32 (List.replicate 16 0)
    [PlainEncoder.Call.Add ElemType.int32 [[1, 0, 0, 0]]] ElemType.int64
    [[2, 0, 0, 0, 0, 0, 0, 0]] (Or.inl rfl)
    (by simp [PlainEncoder.Call.Sized, ElemType.size])
    (by simp [PlainEncoder.Call.Sized, ElemType.size])

end ParquetCpp
namespace ParquetCpp

open DeltaBitPack

/-! ## Decoding a prefix of a page -/

end ParquetCpp
namespace ParquetCpp

/-! ## Varints -/

theorem vlqFramed_cons (b : Nat) (l : List Nat) (hl : l ≠ []) :
    vlqFramed (b :: l) ↔ 128 ≤ b ∧ b < 256 ∧ vlqFramed l := by
  cases l with
  | nil => exact absurd rfl hl
  | cons c bs => rfl

theorem vlqBytes_ne_nil (f v : Nat) : BitWriter.vlqBytes f v ≠ [] := by
  intro h
  have := vlqBytes_length_pos f v
  rw [h] at this
  exact absurd this (by decide)

theorem vlqBytes_value (f : Nat) : ∀ (v : Nat), v < 128 ^ (f + 1) →
    vlqValue (BitWriter.vlqBytes f v) = v := by
  induction f with
  | zero =>
    intro v h
    simp only [BitWriter.vlqBytes, vlqValue]
    omega
  | succ f ih =>
    intro v h
    unfold BitWriter.vlqBytes
    split
    · simp only [vlqValue]
      omega
    · have h2 : v / 128 < 128 ^ (f + 1) := by
        rw [Nat.div_lt_iff_lt_mul (by decide)]
        rw [pow_succ] at h
        exact h
      simp only [vlqValue, ih _ h2]
      omega

theorem vlqBytes_framed (f : Nat) : ∀ (v : Nat), v < 128 ^ (f + 1) →
    vlqFramed (BitWriter.vlqBytes f v) := by
  induction f with
  | zero =>
    intro v h
    simp only [BitWriter.vlqBytes, vlqFramed]
    omega
  | succ f ih =>
    intro v h
    unfold BitWriter.vlqBytes
    split
    · simp only [vlqFramed]
      assumption
    · have h2 : v / 128 < 128 ^ (f + 1) := by
        rw [Nat.div_lt_iff_lt_mul (by decide)]
        rw [pow_succ] at h
        exact h
      rw [vlqFramed_cons _ _ (vlqBytes_ne_nil _ _)]
      exact ⟨by omega, by omega, ih _ h2⟩

/-- C31. For every signed 64-bit `s`, `PutZigZagVlqInt(s)` on a byte-aligned writer with
room for 10 bytes appends the base-128 varint of `z = (s << 1) ^ (s >> 63)`, that is of
`2s` for `s ≥ 0` and of `-2s - 1` for `s < 0`: at most 10 bytes, each but the last with the
continuation bit, whose 7-bit groups, least significant first, make up `z`. On these
bytes, whatever follows them, `GetVlqInt` returns `z` and `GetZigZagVlqInt` returns `s`,
with the cursor right behind them. -/
theorem zigZagVlq_roundtrip (s : Int) (cap : Nat) (A tail : List Nat)
    (hs : INT64_MIN ≤ s ∧ s ≤ INT64_MAX) (hcap : A.length + 10 ≤ cap) :
    ∃ bytes : List Nat,
      (BitWriter.mk cap (bytesToBits A)).PutZigZagVlqInt s
        = (true, ⟨cap, bytesToBits (A ++ bytes)⟩)
      ∧ bytes.length ≤ 10 ∧ vlqFramed bytes
      ∧ vlqValue bytes = BitWriter.zigZag s
      ∧ (BitWriter.zigZag s : Int) = (if 0 ≤ s then 2 * s else -2 * s - 1)
      ∧ (BitReader.new (bytes ++ tail)).GetVlqInt
          = some (BitWriter.zigZag s, ⟨bytesToBits tail, 8 * bytes.length⟩)
      ∧ (BitReader.new (bytes ++ tail)).GetZigZagVlqInt
          = some (s, ⟨bytesToBits tail, 8 * bytes.length⟩) := by
  have a1 : INT64_MIN = -9223372036854775808 := rfl
  have a2 : INT64_MAX = 9223372036854775807 := rfl
  have h1 : -9223372036854775808 ≤ s := by omega
  have h2 : s < 9223372036854775808 := by omega
  have hz := zigZag_lt s h1 h2
  have hlen := vlqBytes_length_le 9 (BitWriter.zigZag s)
  have hpow : BitWriter.zigZag s < 128 ^ (9 + 1) := by
    have : (18446744073709551616 : Nat) < 128 ^ (9 + 1) := by norm_num
    omega
  refine ⟨BitWriter.vlqBytes 9 (BitWriter.zigZag s), ?_, hlen, vlqBytes_framed 9 _ hpow,
    vlqBytes_value 9 _ hpow, ?_, ?_, ?_⟩
  · unfold BitWriter.PutZigZagVlqInt
    exact PutVlqInt_bytes cap A _ hz (by rw [List.length_append]; omega)
  · by_cases h : 0 ≤ s
    · rw [if_pos h]; exact zigZag_nonneg s h h2
    · rw [if_neg h]; exact zigZag_neg s h1 (by omega)
  · have := GetVlqInt_vlqBytes
      (BitReader.new (BitWriter.vlqBytes 9 (BitWriter.zigZag s) ++ tail))
      (BitWriter.zigZag s) (bytesToBits tail) hz rfl (by
        show bytesToBits _ = _
        rw [bytesToBits_append])
    rw [this]
    show some (_, BitReader.mk _ (0 + _)) = _
    rw [Nat.zero_add]
  · have := GetZigZagVlqInt_vlqBytes
      (BitReader.new (BitWriter.vlqBytes 9 (BitWriter.zigZag s) ++ tail))
      s (bytesToBits tail) h1 h2 rfl (by
        show bytesToBits _ = _
        rw [bytesToBits_append])
    rw [this]
    show some (_, BitReader.mk _ (0 + _)) = _
    rw [Nat.zero_add]

set_option maxRecDepth 100000 in
/-- Witness of C31: `INT64_MAX`, the minimum delta the encoder writes for a single value;
its varint is `FE FF FF FF FF FF FF FF FF 01`. The negative minimum delta `-2` of the
sequence `[7, 5, 3, 1, 2, 3, 4, 5]` is written as `03`. -/
theorem zigZagVlq_roundtrip_witness :
    (BitWriter.vlqBytes 9 (BitWriter.zigZag INT64_MAX)
        = [254, 255, 255, 255, 255, 255, 255, 255, 255, 1]
      ∧ BitWriter.vlqBytes 9 (BitWriter.zigZag (-2)) = [3]
      ∧ (BitReader.new [3, 9]).GetZigZagVlqInt = some (-2, ⟨bytesToBits [9], 8⟩))
    ∧ ∃ bytes : List Nat,
      (BitWriter.mk 16 (bytesToBits [7])).PutZigZagVlqInt INT64_MAX
        = (true, ⟨16, bytesToBits ([7] ++ bytes)⟩)
      ∧ bytes.length ≤ 10 ∧ vlqFramed bytes
      ∧ vlqValue bytes = BitWriter.zigZag INT64_MAX
      ∧ (BitWriter.zigZag INT64_MAX : Int)
          = (if 0 ≤ INT64_MAX then 2 * INT64_MAX else -2 * INT64_MAX - 1)
      ∧ (BitReader.new (bytes ++ [9])).GetVlqInt
          = some (BitWriter.zigZag INT64_MAX, ⟨bytesToBits [9], 8 * bytes.length⟩)
      ∧ (BitReader.new (bytes ++ [9])).GetZigZagVlqInt
          = some (INT64_MAX, ⟨bytesToBits [9], 8 * bytes.length⟩) :=
  ⟨⟨by decide, by decide, by decide⟩,
    zigZagVlq_roundtrip INT64_MAX 16 [7] [9] (by decide) (by decide)⟩

end ParquetCpp
namespace ParquetCpp

/-! ## The plain decoder on any page -/

theorem chunks_flatten_take (sz : Nat) (c : Nat) : ∀ (bs : List Nat),
    (PlainDecoder.chunks sz c bs).flatten = bs.take (c * sz) := by
  induction c with
  | zero => intro bs; simp [PlainDecoder.chunks]
  | succ c ih =>
    intro bs
    simp only [PlainDecoder.chunks, List.flatten_cons, ih]
    rw [show (c + 1) * sz = sz + c * sz by ring, List.take_add]

theorem chunks_length (sz : Nat) (c : Nat) : ∀ (bs : List Nat),
    (PlainDecoder.chunks sz c bs).length = c := by
  induction c with
  | zero => intro bs; rfl
  | succ c ih => intro bs; simp [PlainDecoder.chunks, ih]

theorem chunks_size (sz : Nat) (c : Nat) : ∀ (bs : List Nat), bs.length = c * sz →
    ∀ o ∈ PlainDecoder.chunks sz c bs, o.length = sz := by
  induction c with
  | zero => intro bs _ o ho; simp [PlainDecoder.chunks] at ho
  | succ c ih =>
    intro bs hb o ho
    have hb2 : bs.length = sz + c * sz := by rw [hb]; ring
    simp only [PlainDecoder.chunks, List.mem_cons] at ho
    rcases ho with rfl | ho
    · rw [List.length_take]; omega
    · exact ih (bs.drop sz) (by rw [List.length_drop]; omega) o ho

/-- `GetValues` on a decoder whose cursor and remaining length lie inside its page, when
`min(max_values, num_values_) * byte_size` is in the range of `int`: the count, the bytes
copied, and the decoder afterwards. -/
theorem GetValues_inv (d : PlainDecoder) (sz : Nat) (max_values : Int) (hsz : 1 ≤ sz)
    (hmax : 0 ≤ max_values) (hnv : 0 ≤ d.num_values_) (hd : 0 ≤ d.data_) (hl : 0 ≤ d.len_)
    (hpage : d.data_ + d.len_ = (d.page_.length : Int))
    (hint : min max_values d.num_values_ * (sz : Int) ≤ 2147483647) :
    ∃ (c : Nat) (d1 : PlainDecoder),
      d.GetValues max_values (sz : Int)
        = Except.ok ((c : Int),
            PlainDecoder.chunks sz c ((d.page_.drop d.data_.toNat).take (c * sz)), d1)
      ∧ (c : Int) = min (min max_values d.num_values_) (d.len_ / (sz : Int))
      ∧ ((d.page_.drop d.data_.toNat).take (c * sz)).length = c * sz
      ∧ d1.page_ = d.page_ ∧ d1.type_ = d.type_
      ∧ d1.num_values_ = d.num_values_ - (c : Int)
      ∧ d1.len_ = d.len_ - ((c * sz : Nat) : Int)
      ∧ d1.data_ = d.data_ + ((c * sz : Nat) : Int) := by
  obtain ⟨L, hL⟩ : ∃ L : Nat, d.len_ = (L : Int) := ⟨d.len_.toNat, by omega⟩
  obtain ⟨D, hD⟩ : ∃ D : Nat, d.data_ = (D : Int) := ⟨d.data_.toNat, by omega⟩
  obtain ⟨M, hM⟩ : ∃ M : Nat, min max_values d.num_values_ = (M : Int) :=
    ⟨(min max_values d.num_values_).toNat, by omega⟩
  have hdiv : d.len_ / (sz : Int) = ((L / sz : Nat) : Int) := by rw [hL]; rfl
  have htd : Int.tdiv d.len_ (sz : Int) = ((L / sz : Nat) : Int) := by rw [hL]; rfl
  have hdm := Nat.div_mul_le_self L sz
  have hfit : ∀ c : Nat, c * sz ≤ L → D + c * sz ≤ d.page_.length := by
    intro c hc
    have : (D : Int) + (L : Int) = (d.page_.length : Int) := by rw [← hD, ← hL]; exact hpage
    omega
  have hlen : ∀ c : Nat, c * sz ≤ L →
      ((d.page_.drop D).take (c * sz)).length = c * sz := by
    intro c hc
    have := hfit c hc
    rw [List.length_take, List.length_drop]
    omega
  have hres : ∀ c : Nat, c * sz ≤ L →
      ¬ (((c : Int) * (sz : Int)) < 0)
      ∧ memRead d.page_ d.data_ ((c : Int) * (sz : Int))
        = Except.ok ((d.page_.drop D).take (c * sz)) := by
    intro c hc
    refine ⟨?_, ?_⟩
    · rw [← Nat.cast_mul]; omega
    · rw [hD, ← Nat.cast_mul]
      exact memRead_fits d.page_ D (c * sz) (hfit c hc)
  have hov : ¬ ((M : Int) * (sz : Int) < -2147483648 ∨ 2147483647 < (M : Int) * (sz : Int)) := by
    rw [hM] at hint
    have : 0 ≤ (M : Int) * (sz : Int) := by rw [← Nat.cast_mul]; exact Int.ofNat_nonneg _
    omega
  have hgen : ∀ c : Nat, c * sz ≤ L →
      (if d.len_ < (M : Int) * (sz : Int) then ((L / sz : Nat) : Int) else (M : Int)) = (c : Int) →
      (c : Int) = min (M : Int) ((L / sz : Nat) : Int) →
      ∃ (d1 : PlainDecoder),
        d.GetValues max_values (sz : Int)
          = Except.ok ((c : Int),
              PlainDecoder.chunks sz c ((d.page_.drop d.data_.toNat).take (c * sz)), d1)
        ∧ (c : Int) = min (min max_values d.num_values_) (d.len_ / (sz : Int))
        ∧ ((d.page_.drop d.data_.toNat).take (c * sz)).length = c * sz
        ∧ d1.page_ = d.page_ ∧ d1.type_ = d.type_
        ∧ d1.num_values_ = d.num_values_ - (c : Int)
        ∧ d1.len_ = d.len_ - ((c * sz : Nat) : Int)
        ∧ d1.data_ = d.data_ + ((c * sz : Nat) : Int) := by
    intro c hc hif hmin
    obtain ⟨r1, r2⟩ := hres c hc
    have hsize : (if d.len_ < (M : Int) * (sz : Int)
        then (if d.len_ < (M : Int) * (sz : Int) then ((L / sz : Nat) : Int) else (M : Int))
          * (sz : Int)
        else (M : Int) * (sz : Int)) = (c : Int) * (sz : Int) := by
      rw [hif]
      by_cases hlt : d.len_ < (M : Int) * (sz : Int)
      · rw [if_pos hlt]
      · rw [if_neg hlt]
        rw [if_neg hlt] at hif
        rw [hif]
    refine ⟨{ d with
        data_ := d.data_ + (c : Int) * (sz : Int)
        len_ := d.len_ - (c : Int) * (sz : Int)
        num_values_ := d.num_values_ - (c : Int) }, ?_, ?_, ?_, rfl, rfl, rfl, ?_, ?_⟩
    · unfold PlainDecoder.GetValues
      dsimp only
      rw [hM, if_neg hov, htd, hsize, hif, if_neg r1, r2, hD, Int.toNat_ofNat,
        Int.toNat_ofNat, Int.toNat_ofNat]
      rfl
    · rw [hM, hdiv]; exact hmin
    · rw [hD, Int.toNat_ofNat]; exact hlen _ hc
    · show d.len_ - (c : Int) * (sz : Int) = _
      rw [Nat.cast_mul]
    · show d.data_ + (c : Int) * (sz : Int) = _
      rw [Nat.cast_mul]
  by_cases hlt : d.len_ < (M : Int) * (sz : Int)
  · have hq : L / sz < M := by
      rw [hL, ← Nat.cast_mul] at hlt
      have hlt' : L < M * sz := by omega
      exact (Nat.div_lt_iff_lt_mul (by omega)).mpr hlt'
    obtain ⟨d1, h⟩ := hgen (L / sz) hdm (by rw [if_pos hlt]) (by omega)
    exact ⟨L / sz, d1, h⟩
  · have hle : M * sz ≤ L := by
      rw [hL, ← Nat.cast_mul] at hlt
      omega
    have hq : M ≤ L / sz := (Nat.le_div_iff_mul_le (by omega)).mpr hle
    obtain ⟨d1, h⟩ := hgen M hle (by rw [if_neg hlt]) (by omega)
    exact ⟨M, d1, h⟩

/-- Successive `Get` calls keep the cursor and the remaining length inside the page, when
`num_values_ * byte_size` is in the range of `int`. -/
theorem PlainDecoder_getMany_inv (t : PType) (sz : Nat) (hsz : 1 ≤ sz)
    (hget : ∀ (d : PlainDecoder) (k : Int), d.Get t k = d.GetValues k (sz : Int))
    (ks : List Int) : ∀ (d : PlainDecoder), (∀ k ∈ ks, 0 ≤ k) →
      0 ≤ d.num_values_ → 0 ≤ d.data_ → 0 ≤ d.len_ →
      d.data_ + d.len_ = (d.page_.length : Int) →
      d.num_values_ * (sz : Int) ≤ 2147483647 →
    ∃ rs d1, d.getMany t ks = Except.ok (rs, d1)
      ∧ d1.page_ = d.page_ ∧ d1.type_ = d.type_
      ∧ 0 ≤ d1.num_values_ ∧ 0 ≤ d1.data_ ∧ 0 ≤ d1.len_
      ∧ d1.data_ + d1.len_ = (d1.page_.length : Int)
      ∧ d1.num_values_ ≤ d.num_values_ := by
  induction ks with
  | nil =>
    intro d _ h1 h2 h3 h4 _
    exact ⟨[], d, rfl, rfl, rfl, h1, h2, h3, h4, le_refl _⟩
  | cons k ks ih =>
    intro d hks h1 h2 h3 h4 h5
    have hmono : ∀ (a b : Int), a ≤ b → a * (sz : Int) ≤ b * (sz : Int) :=
      fun a b hab => Int.mul_le_mul_of_nonneg_right hab (by omega)
    obtain ⟨c, d1, a1, a2, a3, a4, a5, a6, a7, a8⟩ :=
      GetValues_inv d sz k hsz (hks k (List.mem_cons_self _ _)) h1 h2 h3 h4
        (le_trans (hmono _ _ (min_le_right _ _)) h5)
    have hk := hks k (List.mem_cons_self _ _)
    have hcl : ((c * sz : Nat) : Int) ≤ d.len_ := by
      have hd2 : d.len_ / (sz : Int) * (sz : Int) ≤ d.len_ :=
        Int.ediv_mul_le _ (by omega)
      have hc2 : (c : Int) ≤ d.len_ / (sz : Int) := by omega
      have hc3 : (c : Int) * (sz : Int) ≤ d.len_ / (sz : Int) * (sz : Int) :=
        Int.mul_le_mul_of_nonneg_right hc2 (by omega)
      rw [Nat.cast_mul]
      omega
    have hnv1 : d1.num_values_ ≤ d.num_values_ := by rw [a6]; omega
    obtain ⟨rs, d2, b1, b2, b3, b4, b5, b6, b7, b8⟩ := ih d1
      (fun x hx => hks x (List.mem_cons_of_mem _ hx))
      (by rw [a6]; omega) (by rw [a8]; omega) (by rw [a7]; omega)
      (by rw [a8, a7, a4, ← h4]; ring)
      (le_trans (hmono _ _ hnv1) h5)
    refine ⟨((c : Int),
        PlainDecoder.chunks sz c ((d.page_.drop d.data_.toNat).take (c * sz))) :: rs, d2, ?_,
      b2.trans a4, b3.trans a5, b4, b5, b6, b7, le_trans b8 hnv1⟩
    unfold PlainDecoder.getMany
    rw [hget, a1]
    dsimp only
    rw [b1]
    rfl

end ParquetCpp
namespace ParquetCpp

/-- In the range of `int`. For a `PlainDecoder` and the `Get` overload of a numeric type
`T` (`sz = sizeof(T)`), every page, every `num_values ≥ 0` with `num_values * sz ≤ INT_MAX`,
every decoder state `d` reached from `SetData` by earlier `Get` calls and every `max ≥ 0`:
`Get(out, max)` returns `c = min(max, values_left(), floor(len_ / sz))`, where `len_` is the
number of page bytes behind the cursor; it copies exactly the next `c * sz` page bytes, as
`c` objects of `sz` bytes; afterwards `values_left()` has decreased by `c`, the remaining
byte count by `c * sz`, and the cursor has moved on by `c * sz`. -/
theorem PlainDecoder_Get_in_range (T : PType) (sz : Nat) (page : List Nat) (num_values : Int)
    (ks : List Int) (max_values : Int)
    (ht : (T = PType.INT32 ∧ sz = 4) ∨ (T = PType.INT64 ∧ sz = 8)
      ∨ (T = PType.FLOAT ∧ sz = 4) ∨ (T = PType.DOUBLE ∧ sz = 8))
    (hnv : 0 ≤ num_values) (hint : num_values * (sz : Int) ≤ 2147483647)
    (hks : ∀ k ∈ ks, 0 ≤ k) (hmax : 0 ≤ max_values) :
    ∃ (rs : List (Int × List (List Nat))) (d : PlainDecoder) (c : Nat)
        (out : List (List Nat)) (d1 : PlainDecoder),
      ((PlainDecoder.new T).SetData num_values page).getMany T ks = Except.ok (rs, d)
      ∧ d.Get T max_values = Except.ok ((c : Int), out, d1)
      ∧ (c : Int) = min (min max_values d.values_left) (d.len_ / (sz : Int))
      ∧ 0 ≤ d.len_ ∧ d.data_ + d.len_ = (page.length : Int)
      ∧ out.length = c ∧ (∀ o ∈ out, o.length = sz)
      ∧ out.flatten = (page.drop d.data_.toNat).take (c * sz)
      ∧ out.flatten.length = c * sz
      ∧ d1.values_left = d.values_left - (c : Int)
      ∧ d1.len_ = d.len_ - ((c * sz : Nat) : Int)
      ∧ d1.data_ = d.data_ + ((c * sz : Nat) : Int) := by
  have hfacts : 1 ≤ sz
      ∧ ∀ (d : PlainDecoder) (k : Int), d.Get T k = d.GetValues k (sz : Int) := by
    rcases ht with ⟨rfl, rfl⟩ | ⟨rfl, rfl⟩ | ⟨rfl, rfl⟩ | ⟨rfl, rfl⟩ <;>
      exact ⟨by decide, fun _ _ => rfl⟩
  obtain ⟨hsz, hget⟩ := hfacts
  obtain ⟨rs, d, a1, a2, _, a4, a5, a6, a7, a8⟩ := PlainDecoder_getMany_inv T sz hsz hget ks
    ((PlainDecoder.new T).SetData num_values page) hks hnv (le_refl _)
    (Int.ofNat_nonneg _) (Int.zero_add _) hint
  have hp : d.page_ = page := a2
  have a8' : d.num_values_ ≤ num_values := a8
  have hint2 : min max_values d.num_values_ * (sz : Int) ≤ 2147483647 :=
    le_trans (Int.mul_le_mul_of_nonneg_right (le_trans (min_le_right _ _) a8') (by omega)) hint
  obtain ⟨c, d1, b1, b2, b3, _, _, b6, b7, b8⟩ :=
    GetValues_inv d sz max_values hsz hmax a4 a5 a6 a7 hint2
  rw [hp] at b1 b3
  refine ⟨rs, d, c, _, d1, a1, (hget d max_values).trans b1, b2, a6, ?_, chunks_length _ _ _,
    chunks_size sz c _ b3, ?_, ?_, b6, b7, b8⟩
  · rw [a7, hp]
  · rw [chunks_flatten_take, List.take_take, min_self]
  · rw [chunks_flatten_take, List.take_take, min_self, b3]

set_option maxRecDepth 100000 in
/-- C32. Failing input: an 8-byte page with `num_values = 268435456` (`2^28`), and
`Get(int64_t* out, 268435456)` of a `PlainDecoder`. `GetValues` computes
`int size = max_values * byte_size = 2^28 * 8 = 2^31` before it compares anything with
`len_`: a signed overflow, where the claim gives the count `min(2^28, 2^28, 8 / 8) = 1`.
With `num_values = 2` on the same page the product is in range and the call returns 1
value. -/
theorem plainDecoder_get_size_overflow :
    ((PlainDecoder.new PType.INT64).SetData 268435456 [1, 2, 3, 4, 5, 6, 7, 8]).Get
        PType.INT64 268435456 = Except.error Err.overflow
    ∧ min (268435456 : Int) 268435456 * 8 = 2147483648
    ∧ min (min (268435456 : Int) 268435456) (8 / 8) = 1
    ∧ ∃ d1, ((PlainDecoder.new PType.INT64).SetData 2 [1, 2, 3, 4, 5, 6, 7, 8]).Get
        PType.INT64 2 = Except.ok (1, [[1, 2, 3, 4, 5, 6, 7, 8]], d1) :=
  ⟨rfl, by decide, by decide, _, rfl⟩

end ParquetCpp
namespace ParquetCpp

/-! ## The split of a string into prefix length and suffix -/

/-- On a string of bytes below `0x80`, no common prefix is longer than what the loop of
`AddValue` counts. -/
theorem prefixLoop_longest : ∀ (a b : List Nat) (j : Nat), (∀ x ∈ a, x < 128) →
    j ≤ a.length → j ≤ b.length →
    a.take j = b.take j → (j : Int) ≤ DeltaByteArrayEncoder.prefixLoop a b := by
  intro a
  induction a with
  | nil =>
    intro b j _ h1 _ _
    have : j = 0 := by simpa using h1
    subst this
    exact prefixLoop_nonneg _ _
  | cons x a ih =>
    intro b j h7 h1 h2 h3
    cases b with
    | nil =>
      have : j = 0 := by simpa using h2
      subst this
      exact prefixLoop_nonneg _ _
    | cons y b =>
      cases j with
      | zero => exact prefixLoop_nonneg _ _
      | succ j =>
        simp only [List.take_succ_cons, List.cons.injEq] at h3
        simp only [List.length_cons] at h1 h2
        have := ih b j (fun z hz => h7 z (List.mem_cons_of_mem _ hz)) (by omega) (by omega)
          h3.2
        have hx : (x : Int) = DeltaByteArrayEncoder.charValue y :=
          (charValue_eq x y).mpr ⟨h3.1, by rw [← h3.1]; exact h7 x (List.mem_cons_self _ _)⟩
        simp only [DeltaByteArrayEncoder.prefixLoop, if_pos hx]
        push_cast
        omega

/-- Strings of bytes below `0x80`. For every such byte string `s` added to a
`DeltaByteArrayEncoder` whose previous string is `p = last_value_` (the empty string after
construction and after `Reset`), with room for `s` in the suffix encoder: the prefix length `k` handed to the prefix-length encoder
is the length of the longest common prefix of `s` and `p` (the first `k` bytes agree, and
no longer prefix does), `k ≤ min(|s|, |p|)`, the suffix handed to the suffix encoder is `s`
without its first `k` bytes, the first `k` bytes of `p` followed by that suffix are `s`,
and `s` becomes the previous string. -/
theorem DeltaByteArray_AddValue_seven_bit (e : DeltaByteArrayEncoder) (s : List Nat)
    (mem : List Nat) (h7 : ∀ b ∈ s, b < 128)
    (hroom : 0 ≤ e.suffix_encoder_.offset_
      ∧ e.suffix_encoder_.offset_.toNat + s.length ≤ e.suffix_encoder_.buffer_.length) :
    ∃ (k : Nat) (e1 : DeltaByteArrayEncoder) (se : DeltaLengthByteArrayEncoder),
      e.AddValue s = Except.ok e1
      ∧ e1.prefix_len_encoder_ = (e.prefix_len_encoder_.Add [(k : Int)]).2
      ∧ e.suffix_encoder_.AddValue (s.drop k) = Except.ok se
      ∧ e1.suffix_encoder_ = se
      ∧ e1.last_value_ = s
      ∧ k ≤ min s.length e.last_value_.length
      ∧ s.take k = e.last_value_.take k
      ∧ (∀ j, j ≤ s.length → j ≤ e.last_value_.length →
          s.take j = e.last_value_.take j → j ≤ k)
      ∧ e.last_value_.take k ++ s.drop k = s
      ∧ (DeltaByteArrayEncoder.new mem).last_value_ = []
      ∧ e.Reset.last_value_ = [] := by
  obtain ⟨h0, h1⟩ := hroom
  have hn := prefixLoop_nonneg s e.last_value_
  have hle := prefixLoop_le s e.last_value_
  obtain ⟨k, hk⟩ : ∃ k : Nat, DeltaByteArrayEncoder.prefixLoop s e.last_value_ = (k : Int) :=
    ⟨(DeltaByteArrayEncoder.prefixLoop s e.last_value_).toNat, by omega⟩
  have htake := prefixLoop_take s e.last_value_
  have happ := prefix_append_suffix s e.last_value_
  rw [hk, Int.toNat_ofNat] at htake happ
  obtain ⟨o, ho⟩ : ∃ o : Nat, e.suffix_encoder_.offset_ = (o : Int) :=
    ⟨e.suffix_encoder_.offset_.toNat, by omega⟩
  have hw := memWrite_fits e.suffix_encoder_.buffer_ o (s.drop k) (by
    rw [List.length_drop]
    rw [ho, Int.toNat_ofNat] at h1
    omega)
  have hse : e.suffix_encoder_.AddValue (s.drop k)
      = Except.ok { e.suffix_encoder_ with
          plain_encoded_len_ := e.suffix_encoder_.plain_encoded_len_ + ((s.drop k).length : Int) + 4
          len_encoder_ := (e.suffix_encoder_.len_encoder_.Add [((s.drop k).length : Int)]).2
          buffer_ := e.suffix_encoder_.buffer_.take o ++ s.drop k
            ++ e.suffix_encoder_.buffer_.drop (o + (s.drop k).length)
          offset_ := e.suffix_encoder_.offset_ + ((s.drop k).length : Int)
          num_values_ := e.suffix_encoder_.num_values_ + 1 } := by
    unfold DeltaLengthByteArrayEncoder.AddValue
    rw [ho, hw]
    rfl
  refine ⟨k,
    { e with
      plain_encoded_len_ := e.plain_encoded_len_ + (s.length : Int) + 4
      prefix_len_encoder_ := (e.prefix_len_encoder_.Add [(k : Int)]).2
      suffix_encoder_ := { e.suffix_encoder_ with
          plain_encoded_len_ := e.suffix_encoder_.plain_encoded_len_ + ((s.drop k).length : Int) + 4
          len_encoder_ := (e.suffix_encoder_.len_encoder_.Add [((s.drop k).length : Int)]).2
          buffer_ := e.suffix_encoder_.buffer_.take o ++ s.drop k
            ++ e.suffix_encoder_.buffer_.drop (o + (s.drop k).length)
          offset_ := e.suffix_encoder_.offset_ + ((s.drop k).length : Int)
          num_values_ := e.suffix_encoder_.num_values_ + 1 }
      last_value_ := s
      num_values_ := e.num_values_ + 1 }, _, ?_, rfl, hse, rfl, rfl, by omega, htake.symm, ?_,
    happ, rfl, rfl⟩
  · unfold DeltaByteArrayEncoder.AddValue
    dsimp only
    rw [hk, Int.toNat_ofNat, hse]
    rfl
  · intro j j1 j2 j3
    have := prefixLoop_longest s e.last_value_ j h7 j1 j2 j3
    omega

set_option maxRecDepth 100000 in
/-- The string "myxopod" after "myxophyta", in the state the encoder of
`TEST(StringEncoder, Basic)` is in after "myxophyta": the prefix length is 5 and the
suffix is "od". -/
theorem DeltaByteArray_AddValue_myxopod :
    ((DeltaByteArrayEncoder.new (List.replicate 128 0)).AddValue
          [109, 121, 120, 111, 112, 104, 121, 116, 97]
        = Except.ok afterMyxophyta
      ∧ ∃ e1, afterMyxophyta.AddValue [109, 121, 120, 111, 112, 111, 100] = Except.ok e1
        ∧ e1.prefix_len_encoder_.values_ = [0, 5]
        ∧ e1.suffix_encoder_.buffer_.take 11
            = [109, 121, 120, 111, 112, 104, 121, 116, 97, 111, 100])
    ∧ ∃ (k : Nat) (e1 : DeltaByteArrayEncoder) (se : DeltaLengthByteArrayEncoder),
        afterMyxophyta.AddValue [109, 121, 120, 111, 112, 111, 100] = Except.ok e1
        ∧ e1.prefix_len_encoder_ = (afterMyxophyta.prefix_len_encoder_.Add [(k : Int)]).2
        ∧ afterMyxophyta.suffix_encoder_.AddValue (([109, 121, 120, 111, 112, 111, 100] : List Nat).drop k)
            = Except.ok se
        ∧ e1.suffix_encoder_ = se
        ∧ e1.last_value_ = [109, 121, 120, 111, 112, 111, 100]
        ∧ k ≤ min ([109, 121, 120, 111, 112, 111, 100] : List Nat).length
            afterMyxophyta.last_value_.length
        ∧ ([109, 121, 120, 111, 112, 111, 100] : List Nat).take k = afterMyxophyta.last_value_.take k
        ∧ (∀ j, j ≤ ([109, 121, 120, 111, 112, 111, 100] : List Nat).length →
            j ≤ afterMyxophyta.last_value_.length →
            ([109, 121, 120, 111, 112, 111, 100] : List Nat).take j = afterMyxophyta.last_value_.take j →
            j ≤ k)
        ∧ afterMyxophyta.last_value_.take k ++ ([109, 121, 120, 111, 112, 111, 100] : List Nat).drop k
            = [109, 121, 120, 111, 112, 111, 100]
        ∧ (DeltaByteArrayEncoder.new (List.replicate 128 0)).last_value_ = []
        ∧ afterMyxophyta.Reset.last_value_ = [] :=
  ⟨⟨rfl, _, rfl, rfl, rfl⟩,
    DeltaByteArray_AddValue_seven_bit afterMyxophyta [109, 121, 120, 111, 112, 111, 100]
      (List.replicate 128 0) (by decide) ⟨by decide, by decide⟩⟩

set_option maxRecDepth 100000 in
/-- C33. Failing input: the string `C3 A9` (the UTF-8 bytes of "é") added twice to a new
`DeltaByteArrayEncoder`. The second time the previous string is the same two bytes, so the
longest common prefix has length 2 and the suffix is empty; `AddValue` submits the prefix
length 0 and the whole string as suffix. Its loop compares `ptr[i]`, a `uint8_t`, with
`last_value_[i]`, a `char`: the `char` that holds `0xC3` is -61 and never equals 195, so
the loop stops at the first byte from `0x80` on. With the ASCII string "ab" the same
calls submit the prefix length 2. -/
theorem deltaByteArray_prefix_signed_char :
    (∃ e1 e2,
      (DeltaByteArrayEncoder.new (List.replicate 16 0)).AddValue [195, 169] = Except.ok e1
      ∧ e1.last_value_ = [195, 169]
      ∧ e1.AddValue [195, 169] = Except.ok e2
      ∧ e2.prefix_len_encoder_.values_ = [0, 0]
      ∧ e2.suffix_encoder_.len_encoder_.values_ = [2, 2]
      ∧ e2.suffix_encoder_.buffer_.take 4 = [195, 169, 195, 169])
    ∧ DeltaByteArrayEncoder.prefixLoop [195, 169] [195, 169] = 0
    ∧ DeltaByteArrayEncoder.charValue 195 = -61
    ∧ (2 ≤ min ([195, 169] : List Nat).length ([195, 169] : List Nat).length
      ∧ ([195, 169] : List Nat).take 2 = ([195, 169] : List Nat).take 2)
    ∧ (∃ e1 e2,
      (DeltaByteArrayEncoder.new (List.replicate 16 0)).AddValue [97, 98] = Except.ok e1
      ∧ e1.AddValue [97, 98] = Except.ok e2
      ∧ e2.prefix_len_encoder_.values_ = [0, 2]) :=
  ⟨⟨_, _, rfl, rfl, rfl, rfl, rfl, rfl⟩, by decide, by decide, ⟨by decide, rfl⟩,
    ⟨_, _, rfl, rfl, rfl⟩⟩

end ParquetCpp
namespace ParquetCpp

/-! ## The plain encoder never leaves its buffer -/

/-- The loop of `Add(const ByteArray*, int)` for values whose `4 + len` is in the range of
`int`: it takes the longest leading run of values that fits the room `R` behind the staged
bytes `W`. -/
theorem addByteArrayLoop_run (S : List (List Nat)) : ∀ (W R : List Nat) (e : PlainEncoder),
    (∀ v ∈ S, 4 + v.length < 2147483648) →
    e.buffer_ = W ++ R → e.offset_ = (W.length : Int) →
    e.buffer_size_ = ((W.length + R.length : Nat) : Int) →
    ∃ (i : Nat) (R2 : List Nat),
      i ≤ S.length ∧ plainByteArraysSize (S.take i) ≤ R.length
      ∧ (i < S.length → R.length < plainByteArraysSize (S.take (i + 1)))
      ∧ R2.length = R.length - plainByteArraysSize (S.take i)
      ∧ PlainEncoder.addByteArrayLoop S e
        = Except.ok ((i : Int),
            { e with
              buffer_ := W ++ plainByteArrays (S.take i) ++ R2
              offset_ := ((W.length + plainByteArraysSize (S.take i) : Nat) : Int) }) := by
  induction S with
  | nil =>
    intro W R e _ hb ho _
    refine ⟨0, R, le_refl _, Nat.zero_le _, fun h => absurd h (by simp), rfl, ?_⟩
    simp only [PlainEncoder.addByteArrayLoop, List.take_nil, plainByteArrays,
      plainByteArraysSize, List.append_nil, Nat.add_zero, pure, Except.pure, ← hb, ← ho,
      Nat.cast_zero]
  | cons s S ih =>
    intro W R e hv31 hb ho hs
    have hv := hv31 s (List.mem_cons_self _ _)
    have hwr : wrap32 ((4 : Int) + (s.length : Int)) = (4 : Int) + (s.length : Int) := by
      unfold wrap32; omega
    by_cases hg : (4 : Int) + (s.length : Int) > e.buffer_size_ - e.offset_
    · refine ⟨0, R, Nat.zero_le _, Nat.zero_le _, fun _ => ?_, rfl, ?_⟩
      · rw [hs, ho] at hg
        simp only [List.take_succ_cons, List.take_zero, plainByteArraysSize]
        omega
      · simp only [PlainEncoder.addByteArrayLoop, hwr, hg, if_true, List.take_zero,
          plainByteArrays,
          plainByteArraysSize, List.append_nil, Nat.add_zero, pure, Except.pure, ← hb, ← ho,
          Nat.cast_zero]
    · have hroom : 4 + s.length ≤ R.length := by
        rw [hs, ho] at hg
        omega
      have hw1 : memWrite e.buffer_ e.offset_ (leBytes 4 s.length)
          = Except.ok (W ++ leBytes 4 s.length ++ R.drop 4) := by
        rw [hb, ho]
        have := memWrite_append W R (leBytes 4 s.length) (by rw [leBytes_length]; omega)
        rwa [leBytes_length] at this
      have hw2 : memWrite (W ++ leBytes 4 s.length ++ R.drop 4) (e.offset_ + 4) s
          = Except.ok (W ++ leBytes 4 s.length ++ s ++ (R.drop 4).drop s.length) := by
        have h := memWrite_append (W ++ leBytes 4 s.length) (R.drop 4) s
          (by rw [List.length_drop]; omega)
        rw [List.length_append, leBytes_length] at h
        rw [ho]
        have e1 : (W.length : Int) + 4 = ((W.length + 4 : Nat) : Int) := by push_cast; ring
        rw [e1, h]
      obtain ⟨i, R2, r1, r2, r3, r4, r5⟩ := ih (W ++ leBytes 4 s.length ++ s)
        ((R.drop 4).drop s.length)
        { e with
          buffer_ := W ++ leBytes 4 s.length ++ s ++ (R.drop 4).drop s.length
          offset_ := e.offset_ + 4 + (s.length : Int) }
        (fun x hx => hv31 x (List.mem_cons_of_mem _ hx)) rfl
        (by
          simp only [List.length_append, leBytes_length, ho]
          push_cast; ring)
        (by
          show e.buffer_size_ = _
          rw [hs]
          simp only [List.length_append, leBytes_length, List.length_drop]
          omega)
      have hRl : ((R.drop 4).drop s.length).length = R.length - (4 + s.length) := by
        rw [List.length_drop, List.length_drop]; omega
      rw [hRl] at r2 r3 r4
      refine ⟨i + 1, R2, by simp only [List.length_cons]; omega, ?_, ?_, ?_, ?_⟩
      · simp only [List.take_succ_cons, plainByteArraysSize]; omega
      · intro hlt
        simp only [List.length_cons] at hlt
        have := r3 (by omega)
        simp only [List.take_succ_cons, plainByteArraysSize]
        simp only [List.take_succ_cons, plainByteArraysSize] at this
        omega
      · simp only [List.take_succ_cons, plainByteArraysSize]; omega
      · simp only [PlainEncoder.addByteArrayLoop, hwr, hg, if_false, hw1, hw2, r5]
        simp only [pure, Except.pure, Except.ok.injEq, Prod.mk.injEq, List.take_succ_cons]
        refine ⟨by push_cast; ring, ?_⟩
        simp only [PlainEncoder.mk.injEq, true_and, plainByteArrays, plainByteArraysSize,
          List.append_assoc, List.length_append, leBytes_length, and_true]
        push_cast
        omega

end ParquetCpp
namespace ParquetCpp

/-- In the range of `int`. For every buffer of `B` bytes, each of the types `INT32`,
`INT64`, `FLOAT`, `DOUBLE` and `BYTE_ARRAY`, and every sequence of `Add` and `Reset` calls on
a new `PlainEncoder` with byte strings whose `4 + len` is in the range of `int`: the calls
return and the staged byte count `offset_`, the length `Encode()` reports, is between 0 and
`B`. For `BYTE_ARRAY`, an `Add` of such `values` in the state reached accepts the `i`
leading values, where `i` is the length of the longest leading run that fits the room left
(the `4 + len` of the first `i` values add up to at most the room, and with the next value
they exceed it), returns `i`, stages the length word and the bytes of these `i` values,
and adds `i` to `num_values()`. -/
theorem PlainEncoder_in_buffer (T : PType) (mem : List Nat)
    (cs : List PlainEncoder.Call) (values : List (List Nat))
    (hT : T = PType.INT32 ∨ T = PType.INT64 ∨ T = PType.FLOAT ∨ T = PType.DOUBLE
      ∨ T = PType.BYTE_ARRAY)
    (hcs : ∀ c ∈ cs, c.Sized) (hv31 : ∀ v ∈ values, 4 + v.length < 2147483648) :
    ∃ (e0 e : PlainEncoder),
      PlainEncoder.new T mem = Except.ok e0
      ∧ e0.calls cs = Except.ok e
      ∧ 0 ≤ e.offset_ ∧ e.offset_ ≤ (mem.length : Int)
      ∧ (e.Encode.length : Int) = e.offset_
      ∧ (T = PType.BYTE_ARRAY →
          ∃ (i : Nat) (e1 : PlainEncoder),
            e.AddByteArray values = Except.ok ((i : Int), e1)
            ∧ i ≤ values.length
            ∧ e.Encode.length + plainByteArraysSize (values.take i) ≤ mem.length
            ∧ (i < values.length →
                mem.length < e.Encode.length + plainByteArraysSize (values.take (i + 1)))
            ∧ e1.Encode = e.Encode ++ plainByteArrays (values.take i)
            ∧ e1.num_values = e.num_values + (i : Int)) := by
  obtain ⟨e0, h0⟩ := PlainEncoder_new_ok T mem hT
  obtain ⟨e, h1, hI⟩ := PlainEncoder_calls_inv T mem.length hT cs e0
    (PlainEncoder_new_inv T mem e0 h0) hcs
  obtain ⟨i1, i2, i3, _, _, _, i7, i8, _⟩ := hI
  obtain ⟨o, ho⟩ : ∃ o : Nat, e.offset_ = (o : Int) := ⟨e.offset_.toNat, by omega⟩
  have hoB : o ≤ mem.length := by omega
  have henc : e.Encode = e.buffer_.take o := by
    unfold PlainEncoder.Encode
    rw [ho, Int.toNat_ofNat]
  have hlen : e.Encode.length = o := by
    rw [henc, List.length_take, i3]; omega
  refine ⟨e0, e, h0, h1, i7, i8, by rw [hlen, ho], ?_⟩
  intro hTB
  obtain ⟨i, R2, r1, r2, r3, r4, r5⟩ := addByteArrayLoop_run values (e.buffer_.take o)
    (e.buffer_.drop o) e hv31 (List.take_append_drop _ _).symm
    (by rw [ho, List.length_take, i3, Nat.min_eq_left hoB])
    (by rw [i2, List.length_take, List.length_drop, i3]; congr 1; omega)
  have hR : (e.buffer_.drop o).length = mem.length - o := by rw [List.length_drop, i3]
  have hW : (e.buffer_.take o).length = o := by rw [List.length_take, i3]; omega
  rw [hR] at r2 r3
  rw [hW] at r5
  refine ⟨i,
    { e with
      buffer_ := e.buffer_.take o ++ plainByteArrays (values.take i) ++ R2
      offset_ := ((o + plainByteArraysSize (values.take i) : Nat) : Int)
      num_values_ := e.num_values_ + (i : Int) },
    ?_, r1, by rw [hlen]; omega, fun h => by rw [hlen]; have := r3 h; omega, ?_, rfl⟩
  · unfold PlainEncoder.AddByteArray
    rw [if_neg (not_not.mpr (i1.trans hTB)), r5]
    rfl
  · show List.take ((o + plainByteArraysSize (values.take i) : Nat) : Int).toNat
        (e.buffer_.take o ++ plainByteArrays (values.take i) ++ R2) = _
    rw [Int.toNat_ofNat, henc]
    exact List.take_left' (by rw [List.length_append, hW, plainByteArrays_length])

/-- One iteration of the loop of `Add(const ByteArray*, int)` whose check passes and whose
second copy leaves the buffer. -/
theorem addByteArrayLoop_cons_error (v : List Nat) (vs : List (List Nat)) (e : PlainEncoder)
    (buf1 : List Nat) (err : Err)
    (hg : ¬ (wrap32 ((4 : Int) + (v.length : Int)) > e.buffer_size_ - e.offset_))
    (h1 : memWrite e.buffer_ e.offset_ (leBytes 4 v.length) = Except.ok buf1)
    (h2 : memWrite buf1 (e.offset_ + 4) v = Except.error err) :
    PlainEncoder.addByteArrayLoop (v :: vs) e = Except.error err := by
  simp only [PlainEncoder.addByteArrayLoop, hg, if_false, h1, h2]
  rfl

/-- A byte string whose `4 + len` is `2^31` passes the check of
`Add(const ByteArray*, int)` and is copied past the end of a 16-byte buffer. -/
theorem AddByteArray_huge (v : List Nat) (e : PlainEncoder)
    (ht : e.type_ = PType.BYTE_ARRAY) (hv : 4 + v.length = 2147483648)
    (hb : e.buffer_.length = 16) (hs : e.buffer_size_ = 16) (ho : e.offset_ = 0) :
    e.AddByteArray [v] = Except.error Err.outOfRange := by
  have hwr : wrap32 ((4 : Int) + (v.length : Int)) = -2147483648 := by
    unfold wrap32; omega
  have hguard : ¬ (wrap32 ((4 : Int) + (v.length : Int)) > e.buffer_size_ - e.offset_) := by
    rw [hwr, hs, ho]; omega
  have hw1 : memWrite e.buffer_ e.offset_ (leBytes 4 v.length)
      = Except.ok (e.buffer_.take 0 ++ leBytes 4 v.length
          ++ e.buffer_.drop (0 + (leBytes 4 v.length).length)) := by
    rw [ho]
    exact memWrite_fits e.buffer_ 0 (leBytes 4 v.length) (by rw [leBytes_length, hb]; omega)
  have hl1 : (e.buffer_.take 0 ++ leBytes 4 v.length
      ++ e.buffer_.drop (0 + (leBytes 4 v.length).length)).length = 16 := by
    simp only [List.length_append, List.length_take, List.length_drop, leBytes_length, hb]
    omega
  have hw2 : ∀ (buf : List Nat), buf.length = 16 →
      memWrite buf (e.offset_ + 4) v = Except.error Err.outOfRange := by
    intro buf hbuf
    unfold memWrite
    have h1 : ¬ ((0 : Int) ≤ e.offset_ + 4 ∧ (e.offset_ + 4).toNat + v.length ≤ buf.length) := by
      rw [ho, hbuf]; omega
    have h2 : ¬ (v.length = 0) := by omega
    rw [if_neg h1, if_neg h2]
    rfl
  have hloop := addByteArrayLoop_cons_error v [] e _ _ hguard hw1 (hw2 _ hl1)
  unfold PlainEncoder.AddByteArray
  rw [if_neg (not_not.mpr ht), hloop]
  rfl

/-- C35. Failing input: a `PlainEncoder(BYTE_ARRAY)` with a 16-byte buffer and one
`ByteArray` of `2^31 - 4` bytes. `Add` computes `int s = sizeof(int32_t) + values[i].len`,
which is `2^31` as a `size_t` and `-2^31` as an `int`; `s > buffer_size_ - offset_` is
false, so the value is accepted and its `2^31 - 4` bytes are copied to `buffer_ + 4`, past
the end of the 16-byte buffer: the staged bytes do not stay inside the buffer. -/
theorem plainEncoder_byteArray_size_overflow :
    PlainEncoder.new PType.BYTE_ARRAY (List.replicate 16 0)
        = Except.ok ⟨PType.BYTE_ARRAY, 16, List.replicate 16 0, 0, -16, -1, 0⟩
    ∧ 4 + hugeString.length = 2147483648
    ∧ wrap32 (4 + (2147483644 : Int)) = -2147483648
    ∧ PlainEncoder.AddByteArray ⟨PType.BYTE_ARRAY, 16, List.replicate 16 0, 0, -16, -1, 0⟩
        [hugeString] = Except.error Err.outOfRange := by
  have hlen : 4 + hugeString.length = 2147483648 := by
    have h : hugeString.length = 2147483644 := List.length_replicate _ _
    rw [h]
  exact ⟨rfl, hlen, by unfold wrap32; omega,
    AddByteArray_huge hugeString _ rfl hlen rfl rfl rfl⟩

end ParquetCpp
namespace ParquetCpp

open DeltaBitPack DeltaBitPackEncoder

/-! ## No delta is truncated -/

end ParquetCpp
